import Mathlib

/-!
# ALIA: association-list cursor, morphology normalizer and network builders

A shallow embedding of `jhcSlotVal.cpp` (cursor over the tab-separated
association list), `jhcMorphFcns.cpp` (suffix-stripping morphology), the
morphology inlined in `jhcGraphizer.cpp`, and the builders of `jhcGraphizer.cpp` and
`jhcNetBuild.cpp` (object descriptions, copula, action phrases, chains of
directives, rules, operators and the conversion entry points).

Conventions of the embedding.

* A C string is the list of its characters before the terminating NUL, so a
  value of type `Str` that stands for a C string holds no NUL character.
* A pointer into the association list is an offset (`Nat`) into that list and
  a nullable pointer is an `Option Nat`; pointer differences are offsets.
* A caller's `char` array is the list of the bytes it holds (terminator and the
  bytes after it included); `cstr` reads the C string stored in it.
* `int` variables are `Int`.
* The `while` scans are given a fuel bound that the top-level function sets to
  the length of the list plus one; every round of a scan moves the cursor
  forward by at least one character, so the bound is never reached.
* A function that copies into a caller's array returns a `Ret`: the copy is
  made by `strncpy_s`, which raises a runtime-constraint violation when the
  text does not fit.
* In the builders `none` stands for a run that does not return (a
  runtime-constraint violation of a string copy, a store through a NULL
  pointer); a nullable result is an `Option` inside it.  The bound on the
  nesting of object descriptions and of embedded commands, set to the length of
  the list plus one, gives `none` as well when it is used up.
* The classes of the semantic network and of the reasoner are not among the
  sources; nodes, pools, chains, rules and operators are modelled from the
  specification, each definition saying so.
* The functions that decide the flow of a conversion (chains, rules, operators,
  speech acts, entry points) are embedded over a node level given as a
  parameter: every theorem about them holds whatever the node-level builders
  compute.  The node-level builders of `jhcGraphizer` are embedded over the pool
  model and put together as the node level `jhcGraphizer.level`, with which the
  examples of chains and operators are evaluated.

The definitions come first (the embedding, then the vocabulary of the
statements), the theorems after them: morphology, the cursor, then the
builders.
-/

namespace ALIA

/-- A string or a byte array: the list of its characters. -/
abbrev Str := List Char

/-- The string terminator. -/
def NUL : Char := Char.ofNat 0

/-- The entry separator of an association list. -/
def TAB : Char := '\t'

/-- Result of a function returning a pointer after copying into a caller's
buffer: `fault` when `strncpy_s` meets a runtime-constraint violation (the
invalid parameter handler is invoked), `null` for a NULL result. -/
inductive Ret (α : Type) where
  | fault : Ret α
  | null : Ret α
  | ptr : α → Ret α
deriving DecidableEq

/-! ## C library functions -/

/-- Library function `strchr(s, c)` as an offset into `s`; the terminator is part of the string,
so searching for NUL succeeds at the end of `s`. -/
def strchr : Str → Char → Option Nat
  | [], c => if c = NUL then some 0 else none
  | x :: xs, c => if x = c then some 0 else (strchr xs c).map (· + 1)

/-- The C string held in a byte array. -/
def cstr (buf : Str) : Str := buf.takeWhile (· ≠ NUL)

/-- Library function `strncpy_s(dst, ssz, src, n)`: copies the first `n` characters of `src`
(fewer if `src` is shorter) and adds a terminator; the bytes of `dst` after the
terminator are left as they were.  There is a runtime-constraint violation
(`none`) when the characters and the terminator do not fit in `ssz` bytes. -/
def strncpy_s (dst : Str) (ssz : Nat) (src : Str) (n : Nat) : Option Str :=
  let m := min n src.length
  if m < ssz then some (src.take m ++ NUL :: dst.drop (m + 1)) else none

/-- Library test `strncmp(a, b, n) == 0` for C strings. -/
def strncmp_eq (a b : Str) (n : Nat) : Bool := a.take n == b.take n

/-- The character `s[i]` of a C string, for `0 ≤ i ≤ strlen(s)`. -/
def chr (s : Str) (i : Int) : Char := s.getD i.toNat NUL

/-- The C string after the assignment `s[i] = c`, for `0 ≤ i < strlen(s)`:
writing NUL cuts the string at `i`. -/
def setc (s : Str) (i : Int) (c : Char) : Str :=
  if c = NUL then s.take i.toNat else s.set i.toNat c

/-! ## jhcSlotVal: entries -/

/-- The loop `while (--tail > head) if (*tail != ' ') break; tail++;` of
`NextEntry` on offsets from `head`: from `tail - head` before the loop to
`tail - head` after it; `txt` is the string at `head`. -/
def backUp (txt : Str) : Nat → Nat
  | 0 => 0
  | t + 1 => if 0 < t then (if txt.getD t NUL ≠ ' ' then t + 1 else backUp txt t) else t + 1

/-- The pointers `head` and `tail` of `NextEntry` at the point of the copy:
`head` just past the first tab at or after the given position, `tail` after the
backward walk over trailing blanks; `none` when `NextEntry` returns NULL (no
tab, or a NULL list). -/
def entrySpan (alist : Str) (pos : Option Nat) : Option (Nat × Nat) :=
  match pos with
  | none => none
  | some p =>
    match strchr (alist.drop p) TAB with
    | none => none
    | some k =>
      let head := p + k + 1
      let txt := alist.drop head
      let n0 := match strchr txt TAB with
        | none => txt.length
        | some j => j
      some (head, head + backUp txt n0)

/-- Source function `jhcSlotVal::NextEntry (alist, entry, ssz)` with a non-NULL `entry` array:
the array after the copy and the returned pointer. -/
def NextEntry (alist : Str) (pos : Option Nat) (entry : Str) (ssz : Nat) : Ret (Str × Nat) :=
  match entrySpan alist pos with
  | none => .null
  | some (head, tail) =>
    match strncpy_s entry ssz (alist.drop head) (tail - head) with
    | none => .fault
    | some e => .ptr (e, tail)

/-- Source function `jhcSlotVal::NextEntry (alist, NULL, ssz)`: no copy is made. -/
def NextEntryNull (alist : Str) (pos : Option Nat) : Option Nat :=
  (entrySpan alist pos).map (·.2)

/-- The test `strchr("!$%", c) != NULL`. -/
def isMark (c : Char) : Bool := (strchr "!$%".toList c).isSome

/-! ## jhcSlotVal: slots -/

/-- Source function `jhcSlotVal::SlotStart (pair, prefix)`: length of the prefix if the pair
begins with it, negative otherwise; a NULL prefix gives 0. -/
def SlotStart (pair : Str) (pfx : Option Str) : Int :=
  match pfx with
  | none => 0
  | some p => if strncmp_eq pair p p.length then (p.length : Int) else -1

/-- Source function `jhcSlotVal::SlotMatch (pair, slot)`. -/
def SlotMatch (pair slot : Str) : Bool :=
  let n := SlotStart pair (some slot)
  decide (n > 0) && decide (chr pair n = '=')

/-- Source function `jhcSlotVal::SlotRef (pair)`: the value part of a pair, NULL without '='. -/
def SlotRef (pair : Str) : Option Str :=
  match strchr pair '=' with
  | none => none
  | some k => some (pair.drop (k + 1))

/-! ## jhcSlotVal: fragments -/

/-- The `while` loop of `jhcSlotVal::FragClose`. -/
def FragCloseLoop (alist : Str) : Nat → Nat → Str → Int → Ret Nat
  | 0, _, _, _ => .null
  | fuel + 1, tail, entry, depth =>
    match NextEntry alist (some tail) entry 200 with
    | .fault => .fault
    | .null => .null
    | .ptr (e, t) =>
      if isMark (e.getD 0 NUL) = false then FragCloseLoop alist fuel t e depth
      else if e.getD 1 NUL ≠ NUL then FragCloseLoop alist fuel t e (depth + 1)
      else if depth = 0 then .ptr t
      else FragCloseLoop alist fuel t e (depth - 1)

/-- Source function `jhcSlotVal::FragClose (alist, skip)`; `entry` is the content of the local
array `entry[200]` on entering the function. -/
def FragClose (alist : Str) (pos : Option Nat) (skip : Int) (entry : Str) : Ret Nat :=
  match pos with
  | none => .null
  | some p => FragCloseLoop alist (alist.length + 1) p entry (if skip > 0 then -1 else 0)

/-- The `while` loop of `jhcSlotVal::FragNextPair`. -/
def FragNextPairLoop (alist : Str) (ssz : Nat) : Nat → Nat → Str → Int → Ret (Str × Nat)
  | 0, _, _, _ => .null
  | fuel + 1, tail, pair, depth =>
    match NextEntry alist (some tail) pair ssz with
    | .fault => .fault
    | .null => .null
    | .ptr (p, t) =>
      if isMark (p.getD 0 NUL) then
        let depth1 := depth + (if p.getD 1 NUL = NUL then -1 else 1)
        if depth1 < 0 then .null else FragNextPairLoop alist ssz fuel t p depth1
      else if depth = 0 ∧ (strchr (cstr p) '=').isSome then .ptr (p, t)
      else FragNextPairLoop alist ssz fuel t p depth

/-- Source function `jhcSlotVal::FragNextPair (alist, pair, ssz)`: the `pair` array after the
call and the returned pointer. -/
def FragNextPair (alist : Str) (pos : Option Nat) (pair : Str) (ssz : Nat) : Ret (Str × Nat) :=
  match pos with
  | none => .null
  | some p => FragNextPairLoop alist ssz (alist.length + 1) p pair 0

/-! ## jhcMorphTags.h -/

/-- Modelled from the spec: the header `jhcMorphTags.h` is not among the
sources; the feature bitmask gives every grammatical form its own bit.
Singular noun. -/
def JTAG_NSING : Nat := 0x001

/-- Modelled from the spec: plural noun bit. -/
def JTAG_NPL : Nat := 0x002

/-- Modelled from the spec: imperative (base) verb bit. -/
def JTAG_VIMP : Nat := 0x004

/-- Modelled from the spec: third person present verb bit. -/
def JTAG_VPRES : Nat := 0x008

/-- Modelled from the spec: past tense verb bit. -/
def JTAG_VPAST : Nat := 0x010

/-- Modelled from the spec: progressive verb bit. -/
def JTAG_VPROG : Nat := 0x020

/-- Modelled from the spec: base adjective bit. -/
def JTAG_PROP : Nat := 0x040

/-- Modelled from the spec: comparative adjective bit. -/
def JTAG_COMP : Nat := 0x080

/-- Modelled from the spec: superlative adjective bit. -/
def JTAG_SUP : Nat := 0x100

/-- Modelled from the spec: mask of the noun bits. -/
def JTAG_NOUN : Nat := JTAG_NSING ||| JTAG_NPL

/-- Modelled from the spec: mask of the verb bits. -/
def JTAG_VERB : Nat := JTAG_VIMP ||| JTAG_VPRES ||| JTAG_VPAST ||| JTAG_VPROG

/-- Modelled from the spec: mask of the adjective bits. -/
def JTAG_ADJ : Nat := JTAG_PROP ||| JTAG_COMP ||| JTAG_SUP

/-! ## jhcMorphFcns -/

/-- The member variables of `jhcMorphFcns`: the tables of irregular forms and
the number of entries in use for nouns, verbs and adjectives. -/
structure jhcMorphFcns where
  nsing : List Str
  npl : List Str
  vimp : List Str
  vpres : List Str
  vprog : List Str
  vpast : List Str
  adj : List Str
  comp : List Str
  sup : List Str
  nn : Nat
  nv : Nat
  na : Nat

/-- Source function `jhcMorphFcns::ClrExcept`: no exceptions loaded. -/
def ClrExcept (m : jhcMorphFcns) : jhcMorphFcns :=
  { m with nn := 0, nv := 0, na := 0 }

/-- A normalizer with empty tables and no exceptions loaded. -/
def noExcept : jhcMorphFcns :=
  ClrExcept ⟨[], [], [], [], [], [], [], [], [], 0, 0, 0⟩

/-- Source function `jhcMorphFcns::scan_for (probe, key, val, n)`. -/
def scan_for (probe : Str) (key val : List Str) (n : Nat) : Option Str :=
  match (List.range n).find? (fun i => key.getD i [] == probe) with
  | none => none
  | some i => if (val.getD i []).isEmpty then none else some (val.getD i [])

/-- Source function `jhcMorphFcns::get_base (surf, tags)`. -/
def get_base (m : jhcMorphFcns) (surf : Str) (tags : Nat) : Option Str :=
  if tags &&& JTAG_NPL ≠ 0 then scan_for surf m.npl m.nsing m.nn
  else if tags &&& JTAG_VPRES ≠ 0 then scan_for surf m.vpres m.vimp m.nv
  else if tags &&& JTAG_VPROG ≠ 0 then scan_for surf m.vprog m.vimp m.nv
  else if tags &&& JTAG_VPAST ≠ 0 then scan_for surf m.vpast m.vimp m.nv
  else if tags &&& JTAG_COMP ≠ 0 then scan_for surf m.comp m.adj m.na
  else if tags &&& JTAG_SUP ≠ 0 then scan_for surf m.sup m.adj m.na
  else none

/-- Source function `jhcMorphFcns::gram_tag (pair)`. -/
def gram_tag (pair : Str) : Nat :=
  if SlotMatch pair "AKO".toList then JTAG_NSING
  else if SlotMatch pair "AKO-S".toList then JTAG_NPL
  else if SlotMatch pair "ACT".toList then JTAG_VIMP
  else if SlotMatch pair "ACT-S".toList then JTAG_VPRES
  else if SlotMatch pair "ACT-D".toList then JTAG_VPAST
  else if SlotMatch pair "ACT-G".toList then JTAG_VPROG
  else if SlotMatch pair "HQ".toList then JTAG_PROP
  else if SlotMatch pair "HQ-ER".toList then JTAG_COMP
  else if SlotMatch pair "HQ-EST".toList then JTAG_SUP
  else 0

/-- Source function `jhcMorphFcns::vowel (c)`. -/
def vowel (c : Char) : Bool := (strchr "aeiou".toList c).isSome

/-- Source function `jhcMorphFcns::noun_stem (val, tags)`: the string left in `val`. -/
def noun_stem (val : Str) (tags : Nat) : Str :=
  let e : Int := (val.length : Int) - 1
  if tags &&& JTAG_NPL ≠ 0 then
    if e > 0 ∧ chr val e = 's' then
      let val1 := setc val e NUL
      if e > 2 ∧ chr val1 (e - 2) = 's' ∧ chr val1 (e - 1) = 'e' then
        setc val1 (e - 1) NUL
      else if e > 2 ∧ chr val1 (e - 2) = 'i' ∧ chr val1 (e - 1) = 'e' then
        setc (setc val1 (e - 1) NUL) (e - 2) 'y'
      else val1
    else val
  else val

/-- Source function `jhcMorphFcns::verb_stem (val, tags)`: the string left in `val`. -/
def verb_stem (val : Str) (tags : Nat) : Str :=
  let e : Int := (val.length : Int) - 1
  if tags &&& JTAG_VPRES ≠ 0 then
    if e > 0 ∧ chr val e = 's' then setc val e NUL else val
  else if tags &&& JTAG_VPAST ≠ 0 then
    if e > 1 ∧ chr val (e - 1) = 'e' ∧ chr val e = 'd' then
      if e > 3 ∧ chr val (e - 3) = chr val (e - 2) then setc val (e - 2) NUL
      else setc val (e - 1) NUL
    else val
  else if tags &&& JTAG_VPROG ≠ 0 then
    if e > 2 ∧ chr val (e - 2) = 'i' ∧ chr val (e - 1) = 'n' ∧ chr val e = 'g' then
      if e > 4 ∧ chr val (e - 4) = chr val (e - 3) then setc val (e - 3) NUL
      else setc val (e - 2) NUL
    else val
  else val

/-- The last block of `jhcMorphFcns::adj_stem` (doubled consonant, transmuted
y, and e elision) on the string `val1` of length `n` left after the ending is
removed.  The last repair writes `'e'` over the terminator at `end` and a new
terminator after it, which appends `'e'` to the string. -/
def adj_repair (val1 : Str) (n : Int) : Str :=
  if n > 2 ∧ chr val1 (n - 2) = chr val1 (n - 1) ∧ chr val1 (n - 1) ≠ 'l' then
    setc val1 (n - 1) NUL
  else if n > 1 ∧ chr val1 (n - 1) = 'i' then
    setc val1 (n - 1) 'y'
  else if n > 2 ∧ vowel (chr val1 (n - 2)) = true ∧ vowel (chr val1 (n - 1)) = false then
    val1 ++ ['e']
  else val1

/-- Source function `jhcMorphFcns::adj_stem (val, tags)`: the string left in `val`. -/
def adj_stem (val : Str) (tags : Nat) : Str :=
  let n0 : Int := (val.length : Int)
  let strip : Int :=
    if tags &&& JTAG_COMP ≠ 0 then
      (if n0 > 2 ∧ val.drop (n0 - 2).toNat = "er".toList then 2 else 0)
    else if tags &&& JTAG_SUP ≠ 0 then
      (if n0 > 3 ∧ val.drop (n0 - 3).toNat = "est".toList then 3 else 0)
    else 0
  let n := n0 - strip
  adj_repair (setc val n NUL) n

/-- Source function `jhcMorphFcns::BaseNoun (tags, pair)`: the returned string (`none` for
NULL) and the value of `tags` after the call. -/
def BaseNoun (m : jhcMorphFcns) (tags : Nat) (pair : Str) : Option Str × Nat :=
  match SlotRef pair with
  | none => (none, tags)
  | some val =>
    if val = "thing".toList ∨ val = "something".toList then (none, tags)
    else
      let tags1 := gram_tag pair
      if tags1 &&& JTAG_NOUN = 0 then (none, tags1)
      else
        match get_base m val tags1 with
        | some irr => (some irr, tags1)
        | none => (some (noun_stem val tags1), tags1)

/-- Source function `jhcMorphFcns::BaseVerb (tags, pair)`: the returned string (`none` for
NULL) and the value of `tags` after the call. -/
def BaseVerb (m : jhcMorphFcns) (tags : Nat) (pair : Str) : Option Str × Nat :=
  match SlotRef pair with
  | none => (none, tags)
  | some val =>
    if SlotMatch pair "SAY".toList then (some val, JTAG_VIMP)
    else
      let tags1 := gram_tag pair
      if tags1 &&& JTAG_VERB = 0 then (none, tags1)
      else
        match get_base m val tags1 with
        | some irr => (some irr, tags1)
        | none => (some (verb_stem val tags1), tags1)

/-- Source function `jhcMorphFcns::BaseAdj (tags, pair)`: the returned string (`none` for
NULL) and the value of `tags` after the call.  When the adjective test passes
the pair holds '=', so `val` is not NULL where it is used. -/
def BaseAdj (m : jhcMorphFcns) (_tags : Nat) (pair : Str) : Option Str × Nat :=
  let val := (SlotRef pair).getD []
  let tags1 := gram_tag pair
  if tags1 &&& JTAG_ADJ = 0 then (none, tags1)
  else
    match get_base m val tags1 with
    | some irr => (some irr, tags1)
    | none => (some (adj_stem val tags1), tags1)

/-! ## jhcGraphizer: inlined morphology -/

/-- Source function `jhcGraphizer::base_verb (tags, pair)`: the returned string (`none` for
NULL) and the value of `tags` after the call. -/
def base_verb (tags : Nat) (pair : Str) : Option Str × Nat :=
  if strncmp_eq pair "SAY".toList 3 then
    match strchr pair '=' with
    | none => (none, tags)
    | some k => (some (pair.drop (k + 1)), JTAG_VIMP)
  else if ! strncmp_eq pair "ACT".toList 3 then (none, tags)
  else
    match strchr pair '=' with
    | none => (none, tags)
    | some k =>
      let val := pair.drop (k + 1)
      let e : Int := (val.length : Int)
      if strncmp_eq pair "ACT-S".toList 5 then
        if e > 0 ∧ chr val (e - 1) = 's' then (some (setc val (e - 1) NUL), JTAG_VPRES)
        else (some val, JTAG_VPRES)
      else if strncmp_eq pair "ACT-D".toList 5 then
        if e > 2 ∧ chr val (e - 2) = 'e' ∧ chr val (e - 1) = 'd' then
          if e > 4 ∧ chr val (e - 4) = chr val (e - 3) then
            (some (setc val (e - 3) NUL), JTAG_VPAST)
          else (some (setc val (e - 2) NUL), JTAG_VPAST)
        else (some val, JTAG_VPAST)
      else if strncmp_eq pair "ACT-G".toList 5 then
        if e > 3 ∧ chr val (e - 3) = 'i' ∧ chr val (e - 2) = 'n' ∧ chr val (e - 1) = 'g' then
          if e > 5 ∧ chr val (e - 5) = chr val (e - 4) then
            (some (setc val (e - 4) NUL), JTAG_VPROG)
          else (some (setc val (e - 3) NUL), JTAG_VPROG)
        else (some val, JTAG_VPROG)
      else (some val, JTAG_VIMP)

/-- Source function `jhcGraphizer::base_noun (tags, pair)`: the returned string (`none` for
NULL) and the value of `tags` after the call. -/
def base_noun (tags : Nat) (pair : Str) : Option Str × Nat :=
  if ! strncmp_eq pair "AKO".toList 3 then (none, tags)
  else
    match strchr pair '=' with
    | none => (none, tags)
    | some k =>
      let val := pair.drop (k + 1)
      let e : Int := (val.length : Int) - 1
      if val = "thing".toList ∨ val = "something".toList then (none, 0)
      else if strncmp_eq pair "AKO-S".toList 5 then
        if e > 0 ∧ chr val e = 's' then
          let val1 := setc val e NUL
          if e > 2 ∧ chr val1 (e - 2) = 's' ∧ chr val1 (e - 1) = 'e' then
            (some (setc val1 (e - 1) NUL), JTAG_NPL)
          else if e > 2 ∧ chr val1 (e - 2) = 'i' ∧ chr val1 (e - 1) = 'e' then
            (some (setc (setc val1 (e - 1) NUL) (e - 2) 'y'), JTAG_NPL)
          else (some val1, JTAG_NPL)
        else (some val, JTAG_NPL)
      else (some val, 0)

/-! ## Statement vocabulary for the morphology claims -/

/-- The slot-value pair `slot=value`. -/
def mkPair (slot value : Str) : Str := slot ++ '=' :: value

/-- The verb slots with the suffix that stemming strips under each. -/
def verbForms : List (Str × Str) :=
  [("ACT".toList, []), ("ACT-S".toList, "s".toList), ("ACT-D".toList, "ed".toList),
    ("ACT-G".toList, "ing".toList)]

/-- The word `s` is longer than the non-empty suffix `suf` and ends in it. -/
def endsIn (s suf : Str) : Prop := suf ≠ [] ∧ suf.length < s.length ∧ suf <:+ s

instance (s suf : Str) : Decidable (endsIn s suf) := by
  unfold endsIn; infer_instance

/-- The adjective slots with the suffix that stemming strips under each. -/
def adjForms : List (Str × Str) :=
  [("HQ".toList, []), ("HQ-ER".toList, "er".toList), ("HQ-EST".toList, "est".toList)]

/-- One of the three repairs of `adj_stem` applies to the word as it stands: it
has at least three letters and ends in a doubled letter other than `l` or in a
vowel followed by a non-vowel, or it has at least two letters and ends in `i`. -/
def repairable (s : Str) : Bool :=
  match s.reverse with
  | y :: x :: _ :: _ => (x == y && y != 'l') || y == 'i' || (vowel x && !vowel y)
  | y :: _ :: [] => y == 'i'
  | _ => false

/-! ## Statement vocabulary for the cursor claims -/

/-- The pieces of a string between its tabs. -/
def fields : Str → List Str
  | [] => [[]]
  | c :: cs =>
    if c = TAB then [] :: fields cs
    else
      match fields cs with
      | [] => [[c]]
      | f :: fs => (c :: f) :: fs

/-- A string without its trailing blanks. -/
def rstrip (f : Str) : Str := (f.reverse.dropWhile (· = ' ')).reverse

/-- The text `NextEntry` reads from a field: the field without its trailing
blanks, except that the first character stays even when it is a blank. -/
def entryText (f : Str) : Str := if rstrip f = [] then f.take 1 else rstrip f

/-- Index of the first tab at or after `pos`, the length of the list when there
is none. -/
def tabFrom (alist : Str) (pos : Nat) : Nat :=
  pos + ((alist.drop pos).takeWhile (· ≠ TAB)).length

/-- The text between position `h` and the next tab (or the end of the list). -/
def fieldAt (alist : Str) (h : Nat) : Str := (alist.drop h).take (tabFrom alist h - h)

/-- The fields written out one after the other, each after a tab. -/
def render : List Str → Str
  | [] => []
  | f :: fs => TAB :: (f ++ render fs)

/-- The entries of the fields `fs`, the first of which starts at offset `h`,
each with the offset just past its text. -/
def locate : Nat → List Str → List (Str × Nat)
  | _, [] => []
  | h, f :: fs => (entryText f, h + (entryText f).length) :: locate (h + f.length + 1) fs

/-- The entries of the list after position `pos` (those that follow a tab at or
after `pos`), each with the position just past its text. -/
def entriesFrom (alist : Str) (pos : Nat) : List (Str × Nat) :=
  match fields (alist.drop pos) with
  | [] => []
  | junk :: fs => locate (pos + junk.length + 1) fs

/-- An open marker: a marker character followed by a name. -/
def isOpen (e : Str) : Bool :=
  match e with
  | c :: _ :: _ => c == '!' || c == '$' || c == '%'
  | _ => false

/-- A bare close marker: a marker character alone. -/
def isClose (e : Str) : Bool :=
  match e with
  | [c] => c == '!' || c == '$' || c == '%'
  | _ => false

/-- What an entry adds to the nesting depth: 1 for an open marker, -1 for a
bare close marker, 0 for any other entry. -/
def delta (e : Str) : Int := if isOpen e then 1 else if isClose e then -1 else 0

/-- Open markers minus close markers among the entries. -/
def net : List Str → Int
  | [] => 0
  | e :: es => delta e + net es

/-- Open markers minus close markers among the first `j` entries. -/
def depthAt (es : List (Str × Nat)) (j : Nat) : Int := net ((es.take j).map Prod.fst)

/-- A top-level slot-value pair: an entry that holds '=' and does not begin
with a marker character. -/
def isPair (e : Str) : Bool := e.contains '=' && !isOpen e && !isClose e

/-- Reading of a returned buffer as a C string. -/
def Ret.text : Ret (Str × Nat) → Ret (Str × Nat)
  | .fault => .fault
  | .null => .null
  | .ptr (p, t) => .ptr (cstr p, t)

/-- The scan of `FragClose` over a list of entries with their end positions and
a buffer of `ssz` bytes. -/
def closeScan (ssz : Nat) : List (Str × Nat) → Int → Ret Nat
  | [], _ => .null
  | (e, t) :: rest, d =>
    if ¬ e.length < ssz then .fault
    else if isOpen e then closeScan ssz rest (d + 1)
    else if isClose e then (if d = 0 then .ptr t else closeScan ssz rest (d - 1))
    else closeScan ssz rest d

/-- The scan of `FragNextPair` over a list of entries with their end positions
and a buffer of `ssz` bytes. -/
def pairScan (ssz : Nat) : List (Str × Nat) → Int → Ret (Str × Nat)
  | [], _ => .null
  | (e, t) :: rest, d =>
    if ¬ e.length < ssz then .fault
    else if isOpen e ∨ isClose e then
      (if d + (if isClose e then -1 else 1) < 0 then .null
        else pairScan ssz rest (d + (if isClose e then -1 else 1)))
    else if d = 0 ∧ e.contains '=' then .ptr (e, t)
    else pairScan ssz rest d

/-! ## jhcSlotVal: scans for fragments and slots -/

/-- Reading of a `Ret` in the builders: `none` for a runtime-constraint
violation, otherwise the nullable result. -/
def Ret.run {α : Type} : Ret α → Option (Option α)
  | .fault => none
  | .null => some none
  | .ptr a => some (some a)

/-- Library test `_stricmp(a, b) == 0` for C strings. -/
def stricmp_eq (a b : Str) : Bool := a.map Char.toLower == b.map Char.toLower

/-- Source function `jhcSlotVal::all_lower (txt)`: the string left in `txt`. -/
def all_lower (txt : Str) : Str := txt.map Char.toLower

/-- The `while` loop of `jhcSlotVal::NextFrag`.  Of the local array `entry[200]`
only the first byte is read, and only right after a copy. -/
def NextFragLoop (alist : Str) (ssz : Nat) : Nat → Nat → Str → Ret (Str × Nat)
  | 0, _, _ => .null
  | fuel + 1, tail, entry =>
    match NextEntry alist (some tail) entry 200 with
    | .fault => .fault
    | .null => .null
    | .ptr (e, t) =>
      if isMark (e.getD 0 NUL) then
        (if (cstr e).length < ssz then .ptr (cstr e, t) else .fault)
      else NextFragLoop alist ssz fuel t e

/-- Source function `jhcSlotVal::NextFrag (alist, frag, ssz)` with a non-NULL `frag` array:
the C string that `strcpy_s` leaves in `frag` and the returned pointer. -/
def NextFrag (alist : Str) (pos : Option Nat) (ssz : Nat) : Ret (Str × Nat) :=
  match pos with
  | none => .null
  | some p => NextFragLoop alist ssz (alist.length + 1) p []

/-- The `while` loop of `jhcSlotVal::FindFrag`. -/
def FindFragLoop (alist frag : Str) : Nat → Option Nat → Ret Nat
  | 0, _ => .null
  | fuel + 1, tail =>
    match NextFrag alist tail 200 with
    | .fault => .fault
    | .null => .null
    | .ptr (kind, t) =>
      if stricmp_eq kind frag then .ptr t else FindFragLoop alist frag fuel (some t)

/-- Source function `jhcSlotVal::FindFrag (alist, frag)`. -/
def FindFrag (alist : Str) (pos : Option Nat) (frag : Str) : Ret Nat :=
  FindFragLoop alist frag (alist.length + 1) pos

/-- Source function `jhcSlotVal::HasFrag (alist, frag)`; `none` for a runtime-constraint
violation. -/
def HasFrag (alist : Str) (pos : Option Nat) (frag : Str) : Option Bool :=
  (FindFrag alist pos frag).run.map Option.isSome

/-- Source function `jhcSlotVal::NextMatches (alist, tag, n)`; the local array `entry[200]` is
read only after a copy. -/
def NextMatches (alist : Str) (pos : Option Nat) (tag : Str) (n : Int) : Ret Nat :=
  match NextEntry alist pos [] 200 with
  | .fault => .fault
  | .null => .null
  | .ptr (e, t) =>
    if (if n > 0 then strncmp_eq (cstr e) tag n.toNat else cstr e == tag) then .ptr t
    else .null

/-- Source function `jhcSlotVal::SlotGet (pair, prefix, lower)`: the value part of the pair as
the in-place conversion to lower case leaves it, NULL when the prefix does not
match or the pair holds no '=' after it. -/
def SlotGet (pair : Str) (pfx : Option Str) (lower : Int) : Option Str :=
  let n := SlotStart pair pfx
  if n < 0 then none
  else
    match strchr (pair.drop n.toNat) '=' with
    | none => none
    | some k =>
      let val := pair.drop (n.toNat + k + 1)
      some (if lower > 0 then all_lower val else val)

/-- Modelled from the spec: the header `jhcSlotVal.h` with the default
arguments is not among the sources.  `SlotGet` converts the value to lower case
unless told otherwise (the calls that must keep the case pass 0). -/
def SlotGet_lower : Int := 1

/-- Modelled from the spec: the header `jhcSlotVal.h` with the default
arguments is not among the sources.  `FragClose` called with the list alone
skips the header of the fragment that starts at the given position. -/
def FragClose_skip : Int := 1

/-- Modelled from the spec: the header `jhcSlotVal.h` with the default
arguments is not among the sources.  The restriction of `HasSlot` and `FindSlot` to
the entries before the next fragment marker is optional: called without
`local` they search the whole rest of the list (`NameSaid` asks for ATTN anywhere,
`create_op` for PREF past the marker of the trigger). -/
def FindSlot_local : Int := 0

/-- The `while` loop of `jhcSlotVal::NextSlot` up to the `break`: the entry found
and the pointer after it. -/
def NextSlotLoop (alist : Str) (lcl : Int) : Nat → Nat → Str → Ret (Str × Nat)
  | 0, _, _ => .null
  | fuel + 1, tail, entry =>
    match NextEntry alist (some tail) entry 200 with
    | .fault => .fault
    | .null => .null
    | .ptr (e, t) =>
      if lcl > 0 ∧ isMark (e.getD 0 NUL) then .null
      else if (strchr (cstr e) '=').isSome then .ptr (cstr e, t)
      else NextSlotLoop alist lcl fuel t e

/-- Source function `jhcSlotVal::NextSlot (alist, slot, val, local, ssz, vsz)` with non-NULL
`slot` and `val` arrays: the slot name, the value and the returned pointer. -/
def NextSlot (alist : Str) (pos : Option Nat) (lcl : Int) (ssz vsz : Nat) :
    Ret (Str × Str × Nat) :=
  match pos with
  | none => .null
  | some p =>
    if alist.getD p NUL = NUL then .null
    else
      match NextSlotLoop alist lcl (alist.length + 1) p [] with
      | .fault => .fault
      | .null => .null
      | .ptr (e, t) =>
        match strchr e '=' with
        | none => .null
        | some k =>
          if k < ssz ∧ (e.drop (k + 1)).length < vsz then .ptr (e.take k, e.drop (k + 1), t)
          else .fault

/-- The `while` loop of `jhcSlotVal::FindSlot`. -/
def FindSlotLoop (alist slot : Str) (lcl : Int) : Nat → Option Nat → Ret (Str × Nat)
  | 0, _ => .null
  | fuel + 1, tail =>
    match NextSlot alist tail lcl 80 200 with
    | .fault => .fault
    | .null => .null
    | .ptr (s, v, t) =>
      if stricmp_eq s slot then .ptr (v, t) else FindSlotLoop alist slot lcl fuel (some t)

/-- Source function `jhcSlotVal::FindSlot (alist, slot, val, local, ssz)`: the value bound to
the slot and the returned pointer; the `val` array, when given, is taken to
hold the 200 bytes a value can need. -/
def FindSlot (alist : Str) (pos : Option Nat) (slot : Str) (lcl : Int) : Ret (Str × Nat) :=
  if slot = [] then .null else FindSlotLoop alist slot lcl (alist.length + 1) pos

/-- Source function `jhcSlotVal::HasSlot (alist, slot, local)`; `none` for a runtime-constraint
violation. -/
def HasSlot (alist : Str) (pos : Option Nat) (slot : Str) (lcl : Int) : Option Bool :=
  (FindSlot alist pos slot lcl).run.map Option.isSome

/-- The `while` loop of `jhcSlotVal::FragNextFrag`: the `frag` array as the call leaves
it (as a C string) and the returned pointer; `junk` is what the array of the
inner `FragClose` holds on entry. -/
def FragNextFragLoop (alist : Str) (ssz : Nat) (junk : Str) :
    Nat → Nat → Str → Str → Option (Str × Option Nat)
  | 0, _, _, frag => some (frag, none)
  | fuel + 1, tail, entry, frag =>
    match NextEntry alist (some tail) entry 200 with
    | .fault => none
    | .null => some (frag, none)
    | .ptr (e, t) =>
      if isMark (e.getD 0 NUL) then
        if e.getD 1 NUL = NUL then some (frag, none)
        else if (cstr e).length < ssz then
          (FragClose alist (some t) 0 junk).run.map (fun r => (cstr e, r))
        else none
      else FragNextFragLoop alist ssz junk fuel t e frag

/-- Source function `jhcSlotVal::FragNextFrag (alist, frag, ssz)`; `frag` is the C string the
array holds before the call, `junk` what the local arrays hold on entry. -/
def FragNextFrag (alist : Str) (pos : Option Nat) (frag : Str) (ssz : Nat) (junk : Str) :
    Option (Str × Option Nat) :=
  match pos with
  | none => some (frag, none)
  | some p => FragNextFragLoop alist ssz junk (alist.length + 1) p junk frag

/-! ## Semantic network: jhcNetNode, jhcNodePool, jhcNetRef -/

/-- Modelled from the spec: the class `jhcNetNode` is not among the sources.
A node has a kind, possibly a word, a negation flag, a belief (written in
tenths: the qualifier tables hold values with one decimal), argument links
(slot name and node) and morphology tags.  A fact about a node is a node that
has it as an argument; the slot of the link is the relation. -/
structure jhcNetNode where
  kind : Str
  lex : Option Str
  neg : Int
  blf : Nat
  args : List (Str × Nat)
  tags : Nat
deriving DecidableEq, Repr

/-- Modelled from the spec: the class `jhcNodePool` is not among the sources.
A pool is the list of the nodes made in it; a node is named by its index. -/
abbrev jhcNodePool := List jhcNetNode

/-- Modelled from the spec: `makeNode(kind, lexeme?, negated?)` of the NodePool
capability (`jhcNodePool::MakeNode`, not among the sources): the new node and the pool. -/
def MakeNode (pool : jhcNodePool) (kind : Str) (word : Option Str) (neg : Int) (blf : Nat) :
    Nat × jhcNodePool :=
  (pool.length, pool ++ [⟨kind, word, neg, blf, [], 0⟩])

/-- Modelled from the spec: `jhcNetNode::AddArg (slot, val)`, not among the sources: node
`n` gets an argument link. -/
def AddArg (pool : jhcNodePool) (n : Nat) (slot : Str) (val : Nat) : jhcNodePool :=
  match pool[n]? with
  | none => pool
  | some nd => pool.set n { nd with args := nd.args ++ [(slot, val)] }

/-- Assignment `n->tags = t` to the public member of a node. -/
def SetTags (pool : jhcNodePool) (n : Nat) (t : Nat) : jhcNodePool :=
  match pool[n]? with
  | none => pool
  | some nd => pool.set n { nd with tags := t }

/-- Modelled from the spec: `addProperty(node, relation, value, negated, belief)`
of the NodePool capability (`jhcNodePool::AddProp`, not among the sources): a new node
of the given kind (the relation when no kind is given) holding the value, linked
to `head` by the relation; the belief defaults to 1.0 and the negation to 0 at
the calls that leave them out. -/
def AddProp (pool : jhcNodePool) (head : Option Nat) (role : Str) (word : Option Str)
    (neg : Int) (blf : Nat) (kind : Option Str) : Nat × jhcNodePool :=
  let r := MakeNode pool (kind.getD role) word neg blf
  match head with
  | none => r
  | some h => (r.1, AddArg r.2 r.1 role h)

/-- Modelled from the spec: `jhcNodePool::AddLex (head, word, neg, blf)`, not among the
sources: a lexical fact, made the way `add_cop` makes the one for a name. -/
def AddLex (pool : jhcNodePool) (head : Nat) (word : Str) (neg : Int) (blf : Nat) :
    Nat × jhcNodePool :=
  AddProp pool (some head) "lex".toList none neg blf (some word)

/-- The facts of node `n` under a relation, oldest first (`jhcNetNode::Fact`, `NumFacts`). -/
def Facts (pool : jhcNodePool) (n : Nat) (role : Str) : List Nat :=
  (List.range pool.length).filter
    (fun i => match pool[i]? with
      | none => false
      | some nd => nd.args.contains (role, n))

/-- Modelled from the spec: how a description built in a scratch pool (whose
node 0 is the object described) is carried into a pool once the object is
taken to be node `target` there: every other node of the scratch pool is added,
its links redirected. -/
def graft (nr pool : jhcNodePool) (target : Nat) : jhcNodePool :=
  pool ++ (nr.drop 1).map (fun nd =>
    { nd with args := nd.args.map (fun a => (a.1, if a.2 = 0 then target else pool.length + a.2 - 1)) })

/-- Modelled from the spec: a description built in a scratch pool copied to the
end of a pool of `k` nodes, its links moved along. -/
def shift (nr : jhcNodePool) (k : Nat) : jhcNodePool :=
  nr.map (fun nd => { nd with args := nd.args.map (fun a => (a.1, k + a.2)) })

/-- Modelled from the spec: node `m` of the pool fits the description in the
scratch pool when every fact of the described object has a counterpart among
the facts of `m` (same relation, kind, word and negation). -/
def describes (nr pool : jhcNodePool) (m : Nat) : Bool :=
  (nr.drop 1).all (fun f => f.args.all (fun a => a.2 != 0 ||
    pool.any (fun g => g.args.contains (a.1, m) && g.kind == f.kind && g.lex == f.lex &&
      g.neg == f.neg)))

/-- Modelled from the spec: `findOrCreate(candidateGraph, allowCreate,
forceOntoNode?)` of the NodePool capability (`jhcNetRef::FindMake (pool, find, f0)`, not
among the sources).  A forced node takes the description; otherwise the first
node of the pool that fits the description is the referent and nothing is
added; when none fits, the description is copied into the pool and its object
is the new node, if creation is allowed. -/
def FindMake (nr pool : jhcNodePool) (find : Int) (f0 : Option Nat) : Option Nat × jhcNodePool :=
  match f0 with
  | some n => (some n, graft nr pool n)
  | none =>
    match (List.range pool.length).find? (describes nr pool) with
    | some m => (some m, pool)
    | none =>
      if find > 0 then (some pool.length, pool ++ shift nr pool.length)
      else (none, pool)

/-- What the local variables that a function does not initialise hold when it is
entered: a `char` array and a `UL32`. -/
structure Uninit where
  array : Str
  tags : Nat

/-- A call `build_obj(&tail, alist, pool)` with the other arguments left to their
defaults, as the helpers of `build_obj` make it: the node returned, the value
written to `tail`, and the pool; `none` for a runtime-constraint violation. -/
abbrev BuildObj := Option Nat → jhcNodePool → Option ((Option Nat × Option Nat) × jhcNodePool)

/-- Modelled from the spec: `jhcNetBuild.cpp` calls `NounLex` and `VerbLex` on its
morphology member, functions that the `jhcMorphFcns` among the sources does not
have (it has `BaseNoun` and `BaseVerb`); they are parameters of the embedding, of
the type of `BaseNoun` and `BaseVerb`: tags before the call and pair to the
returned string and the tags after the call. -/
structure MorphLex where
  NounLex : Nat → Str → Option Str × Nat
  VerbLex : Nat → Str → Option Str × Nat

namespace jhcNetBuild

/-- Source function `jhcNetBuild::belief_val (word)`, in tenths. -/
def belief_val (word : Str) : Nat :=
  match (["definitely", "certainly", "probably", "likely", "may", "might", "possibly"].zip
      [12, 11, 8, 7, 5, 5, 3]).find? (fun tv => tv.1.toList == word) with
  | some tv => tv.2
  | none => 10

/-- Source function `jhcNetBuild::ref_props (n, pool, pron, neg)`. -/
def ref_props (pool : jhcNodePool) (n : Nat) (pron : Str) (neg : Int) : jhcNodePool :=
  let told : Option jhcNodePool :=
    if pron = "you".toList then some (AddLex pool n "you".toList neg 10).2
    else if pron = "me".toList ∨ stricmp_eq pron "I".toList then some (AddLex pool n pron neg 10).2
    else if neg > 0 then none
    else some pool
  match told with
  | none => pool
  | some p =>
    if pron = "he".toList ∨ pron = "him".toList then
      (AddProp (AddProp p (some n) "hq".toList (some "male".toList) 0 10 none).2 (some n)
        "ako".toList (some "person".toList) 0 10 none).2
    else if pron = "she".toList ∨ pron = "her".toList then
      (AddProp (AddProp p (some n) "hq".toList (some "female".toList) 0 10 none).2 (some n)
        "ako".toList (some "person".toList) 0 10 none).2
    else p

/-- Source function `jhcNetBuild::add_place (obj, pair, alist, pool, neg, blf)`: the returned
pointer and the pool; `bo` stands for the calls of `build_obj`. -/
def add_place (bo : BuildObj) (obj : Nat) (pair : Str) (alist : Option Nat)
    (pool : jhcNodePool) (neg : Int) (blf : Nat) : Option (Option Nat × jhcNodePool) :=
  let rel := SlotGet pair (some "LOC".toList) SlotGet_lower
  let pr := AddProp pool (some obj) "loc".toList rel neg blf none
  if SlotStart pair (some "LOC-0".toList) > 0 then some (alist, pr.2)
  else
    match bo alist pr.2 with
    | none => none
    | some ((none, _), p2) => some (alist, p2)
    | some ((some ref, tail), p2) =>
      if SlotStart pair (some "LOC-2".toList) ≤ 0 then some (tail, AddArg p2 pr.1 "wrt".toList ref)
      else
        match bo tail (AddArg p2 pr.1 "wrt".toList ref) with
        | none => none
        | some ((none, _), p4) => some (tail, p4)
        | some ((some ref2, t2), p4) => some (t2, AddArg p4 pr.1 "wrt".toList ref2)

/-- Source function `jhcNetBuild::obj_has (obj, prep, alist, pool, neg, blf)`. -/
def obj_has (bo : BuildObj) (obj : Nat) (prep : Str) (alist : Option Nat)
    (pool : jhcNodePool) (neg : Int) (blf : Nat) : Option (Option Nat × jhcNodePool) :=
  match bo alist pool with
  | none => none
  | some ((none, _), p1) => some (alist, p1)
  | some ((some part, tail), p1) =>
    let pr := AddProp p1 (some obj) "has".toList (some prep) neg blf none
    some (tail, AddArg pr.2 pr.1 "obj".toList part)

/-- Source function `jhcNetBuild::obj_deg (obj, amt, alist, pool, neg, blf)`. -/
def obj_deg (bo : BuildObj) (u : Uninit) (list : Str) (obj : Nat) (amt : Str)
    (alist : Option Nat) (pool : jhcNodePool) (neg : Int) (blf : Nat) :
    Option (Option Nat × jhcNodePool) :=
  match FragNextPair list alist u.array 200 with
  | .fault => none
  | .null => some (alist, pool)
  | .ptr (p, tail) =>
    match SlotGet (cstr p) (some "HQ".toList) SlotGet_lower with
    | some val =>
      let pr := AddProp pool (some obj) "hq".toList (some val) neg blf none
      some (some tail, (AddProp pr.2 (some pr.1) "deg".toList (some amt) 0 10 none).2)
    | none =>
      match SlotGet (cstr p) (some "LOC".toList) SlotGet_lower with
      | some _ =>
        match add_place bo obj (cstr p) (some tail) pool neg blf with
        | none => none
        | some (tail1, p1) =>
          some (tail1, (AddProp p1 ((Facts p1 obj "loc".toList).getLast?) "deg".toList
            (some amt) 0 10 none).2)
      | none => some (alist, pool)

/-- The body of the `while` loop of `jhcNetBuild::build_obj` for one pair: the pointer
`tail`, the scratch pool (the object described is its node 0) and the local `t`
after it. -/
def build_obj_pair (bo : BuildObj) (mf : MorphLex) (u : Uninit) (list : Str)
    (nr : jhcNodePool) (pair : Str) (tail : Nat) (t : Nat) (neg : Int) (blf : Nat) :
    Option (Option Nat × jhcNodePool × Nat) :=
  match SlotGet pair (some "REF".toList) 0 with
  | some val => some (some tail, ref_props nr 0 val neg, t)
  | none =>
  match SlotGet pair (some "NAME".toList) 0 with
  | some val => some (some tail, (AddLex nr 0 val neg blf).2, t)
  | none =>
  match mf.NounLex ((nr.getD 0 ⟨[], none, 0, 0, [], 0⟩).tags) pair with
  | (some val, tg) =>
    some (some tail, (AddProp (SetTags nr 0 tg) (some 0) "ako".toList (some val) neg blf none).2, t)
  | (none, tg) =>
  let nr1 := SetTags nr 0 tg
  match SlotGet pair (some "HQ".toList) SlotGet_lower with
  | some val => some (some tail, (AddProp nr1 (some 0) "hq".toList (some val) neg blf none).2, t)
  | none =>
  match SlotGet pair (some "DEG".toList) SlotGet_lower with
  | some val => (obj_deg bo u list 0 val (some tail) nr1 neg blf).map (fun r => (r.1, r.2, t))
  | none =>
  if SlotStart pair (some "ACT-G".toList) > 0 then
    let v := mf.VerbLex t pair
    let pr := AddProp nr1 (some 0) "agt".toList v.1 neg blf (some "act".toList)
    some (some tail, SetTags pr.2 pr.1 v.2, v.2)
  else if SlotStart pair (some "LOC".toList) > 0 then
    (add_place bo 0 pair (some tail) nr1 neg blf).map (fun r => (r.1, r.2, t))
  else
  match SlotGet pair (some "HAS".toList) SlotGet_lower with
  | some val => (obj_has bo 0 val (some tail) nr1 neg blf).map (fun r => (r.1, r.2, t))
  | none => some (some tail, nr1, t)

/-- The `while` loop of `jhcNetBuild::build_obj`: the scratch pool when the loop ends. -/
def build_obj_loop (bo : BuildObj) (mf : MorphLex) (u : Uninit) (list : Str) (neg : Int)
    (blf : Nat) : Nat → Option Nat → Str → jhcNodePool → Nat → Option jhcNodePool
  | 0, _, _, nr, _ => some nr
  | fuel + 1, tail, next, nr, t =>
    match FragNextPair list tail next 200 with
    | .fault => none
    | .null => some nr
    | .ptr (p, tl) =>
      match build_obj_pair bo mf u list nr (cstr p) tl t neg blf with
      | none => none
      | some (tail1, nr1, t1) => build_obj_loop bo mf u list neg blf fuel tail1 p nr1 t1

/-- The description that `jhcNetBuild::build_obj` builds in its scratch pool `nr` before it
asks for the referent, and the value of `find`; the outer `none` is a
runtime-constraint violation, the inner one the early NULL return. -/
def build_obj_nr (bo : BuildObj) (mf : MorphLex) (u : Uninit) (list : Str)
    (alist : Option Nat) (neg : Int) (blf : Nat) : Option (Option (jhcNodePool × Int)) :=
  match (NextEntry list alist u.array 200).run with
  | none => none
  | some r =>
    let next := (r.map (·.1)).getD u.array
    if ! strncmp_eq (cstr next) "%obj".toList 4 then some none
    else
      (build_obj_loop bo mf u list neg blf (list.length + 1) (r.map (·.2)) next
        (MakeNode [] "obj".toList none 0 10).2 u.tags).map
        (fun nr => some (nr, if strncmp_eq (cstr next) "%obj-i".toList 6 then 0 else 1))

/-- Source function `jhcNetBuild::build_obj (after, alist, pool, f0, neg, blf)` with a bound on
the nesting of object descriptions: the node returned, the value written to
`*after` (when `after` is not NULL), and the pool. -/
def build_obj_fuel (mf : MorphLex) (u : Uninit) (list : Str) :
    Nat → Bool → Option Nat → jhcNodePool → Option Nat → Int → Nat →
      Option ((Option Nat × Option Nat) × jhcNodePool)
  | 0, _, _, _, _, _, _ => none
  | fuel + 1, after, alist, pool, f0, neg, blf =>
    match build_obj_nr (fun a p => build_obj_fuel mf u list fuel true a p none 0 10) mf u list
        alist neg blf with
    | none => none
    | some none => some ((none, none), pool)
    | some (some (nr, find)) =>
      match (if after then (FragClose list alist FragClose_skip u.array).run else some none) with
      | none => none
      | some tail => some (((FindMake nr pool find f0).1, tail), (FindMake nr pool find f0).2)

/-- Source function `jhcNetBuild::build_obj (after, alist, pool, f0, neg, blf)`; every nested
description starts further down the list, so the bound on the nesting is the
length of the list. -/
def build_obj (mf : MorphLex) (u : Uninit) (list : Str) (after : Bool) (alist : Option Nat)
    (pool : jhcNodePool) (f0 : Option Nat) (neg : Int) (blf : Nat) :
    Option ((Option Nat × Option Nat) × jhcNodePool) :=
  build_obj_fuel mf u list (list.length + 1) after alist pool f0 neg blf

/-- The calls `build_obj(&tail, alist, pool)` made outside `build_obj`. -/
def build_obj_dflt (mf : MorphLex) (u : Uninit) (list : Str) : BuildObj :=
  fun alist pool => build_obj mf u list true alist pool none 0 10

/-- The second `while` loop of `jhcNetBuild::add_evt` (the complements of the event). -/
def add_evt_loop (mf : MorphLex) (u : Uninit) (list : Str) (evt : Nat) :
    Nat → Option Nat → Str → jhcNodePool → Option jhcNodePool
  | 0, _, _, pool => some pool
  | fuel + 1, tail, next, pool =>
    match FragNextPair list tail next 200 with
    | .fault => none
    | .null => some pool
    | .ptr (p, tl) =>
      if SlotStart (cstr p) (some "LOC".toList) > 0 then
        match add_place (build_obj_dflt mf u list) evt (cstr p) (some tl) pool 0 10 with
        | none => none
        | some (tail1, p1) => add_evt_loop mf u list evt fuel tail1 p p1
      else
        match SlotGet (cstr p) (some "HAS".toList) SlotGet_lower with
        | some val =>
          match obj_has (build_obj_dflt mf u list) evt val (some tl) pool 0 10 with
          | none => none
          | some (tail1, p1) => add_evt_loop mf u list evt fuel tail1 p p1
        | none => add_evt_loop mf u list evt fuel (some tl) p pool

/-- Source function `jhcNetBuild::add_evt (obj, alist, pool, neg, blf)`. -/
def add_evt (mf : MorphLex) (u : Uninit) (list : Str) (obj : Nat) (alist : Option Nat)
    (pool : jhcNodePool) (neg : Int) (blf : Nat) : Option (Option Nat × jhcNodePool) :=
  match (NextMatches list alist "%evt".toList 4).run with
  | none => none
  | some none => some (alist, pool)
  | some (some tail) =>
    match FragNextPair list (some tail) u.array 200 with
    | .fault => none
    | .null => some (alist, pool)
    | .ptr (p, tl) =>
      match mf.VerbLex u.tags (cstr p) with
      | (none, _) => some (alist, pool)
      | (some val, t) =>
        let pr := AddProp pool (some obj) "agt".toList (some val) neg blf (some "act".toList)
        match add_evt_loop mf u list pr.1 (list.length + 1) (some tl) p (SetTags pr.2 pr.1 t) with
        | none => none
        | some p2 => (FragClose list alist FragClose_skip u.array).run.map (fun r => (r, p2))

/-- The body of the `while` loop of `jhcNetBuild::add_cop` for one pair, up to `post = tail`:
the pointer `tail`, the pool, `neg` and `blf` after it. -/
def add_cop_pair (mf : MorphLex) (u : Uninit) (list : Str) (obj : Nat) (pair : Str)
    (tail : Nat) (pool : jhcNodePool) (neg : Int) (blf : Nat) :
    Option (Option Nat × jhcNodePool × Int × Nat) :=
  match SlotGet pair (some "BLF".toList) SlotGet_lower with
  | some val => some (some tail, pool, neg, belief_val val)
  | none =>
  if SlotStart pair (some "NEG".toList) > 0 then some (some tail, pool, 1, blf)
  else
  match SlotGet pair (some "NAME".toList) 0 with
  | some val => some (some tail, (AddProp pool (some obj) "lex".toList none neg blf (some val)).2,
      neg, blf)
  | none =>
  match SlotGet pair (some "HQ".toList) SlotGet_lower with
  | some val => some (some tail, (AddProp pool (some obj) "hq".toList (some val) neg blf none).2,
      neg, blf)
  | none =>
  match SlotGet pair (some "DEG".toList) SlotGet_lower with
  | some val =>
    (obj_deg (build_obj_dflt mf u list) u list obj val (some tail) pool neg blf).map
      (fun r => (r.1, r.2, neg, blf))
  | none =>
  if SlotStart pair (some "LOC".toList) > 0 then
    (add_place (build_obj_dflt mf u list) obj pair (some tail) pool neg blf).map
      (fun r => (r.1, r.2, neg, blf))
  else some (some tail, pool, neg, blf)

/-- The `while` loop of `jhcNetBuild::add_cop`: the pool, `neg`, `blf` and `post` when the
loop ends. -/
def add_cop_loop (mf : MorphLex) (u : Uninit) (list : Str) (obj : Nat) :
    Nat → Option Nat → Str → jhcNodePool → Int → Nat → Option Nat →
      Option (jhcNodePool × Int × Nat × Option Nat)
  | 0, _, _, pool, neg, blf, post => some (pool, neg, blf, post)
  | fuel + 1, tail, next, pool, neg, blf, post =>
    match FragNextPair list tail next 200 with
    | .fault => none
    | .null => some (pool, neg, blf, post)
    | .ptr (p, tl) =>
      match add_cop_pair mf u list obj (cstr p) tl pool neg blf with
      | none => none
      | some (tail1, p1, neg1, blf1) => add_cop_loop mf u list obj fuel tail1 p p1 neg1 blf1 tail1

/-- Source function `jhcNetBuild::add_cop (obj, alist, pool)`: the returned pointer and the
pool. -/
def add_cop (mf : MorphLex) (u : Uninit) (list : Str) (obj : Nat) (alist : Option Nat)
    (pool : jhcNodePool) : Option (Option Nat × jhcNodePool) :=
  match (NextMatches list alist "$add".toList 4).run with
  | none => none
  | some none => some (alist, pool)
  | some (some tail) =>
    match add_cop_loop mf u list obj (list.length + 1) (some tail) u.array pool 0 10
        (some tail) with
    | none => none
    | some (p1, neg, blf, post) =>
      match build_obj mf u list false post p1 (some obj) neg blf with
      | none => none
      | some ((some _, _), p2) =>
        (FragClose list alist FragClose_skip u.array).run.map (fun r => (r, p2))
      | some ((none, _), p2) =>
        match add_evt mf u list obj post p2 neg blf with
        | none => none
        | some (_, p3) => (FragClose list alist FragClose_skip u.array).run.map (fun r => (r, p3))

end jhcNetBuild

namespace jhcGraphizer

/-- Source function `jhcGraphizer::belief_val (word)`, in tenths. -/
def belief_val (word : Str) : Nat :=
  match (["definitely", "certainly", "probably", "likely", "may", "might", "possibly"].zip
      [12, 11, 8, 7, 5, 5, 3]).find? (fun tv => tv.1.toList == word) with
  | some tv => tv.2
  | none => 10

/-- Source function `jhcGraphizer::ref_props (n, pool, pron)`. -/
def ref_props (pool : jhcNodePool) (n : Nat) (pron : Str) : jhcNodePool :=
  if pron = "you".toList then (AddLex pool n "you".toList 0 10).2
  else if pron = "me".toList ∨ stricmp_eq pron "I".toList then (AddLex pool n pron 0 10).2
  else if pron = "he".toList ∨ pron = "him".toList then
    (AddProp pool (some n) "hq".toList (some "male".toList) 0 10 none).2
  else if pron = "she".toList ∨ pron = "her".toList then
    (AddProp pool (some n) "hq".toList (some "female".toList) 0 10 none).2
  else pool

/-- Source function `jhcGraphizer::obj_loc (obj, pair, alist, pool, neg, blf)`: the returned
pointer and the pool; `bo` stands for the calls of `build_obj`. -/
def obj_loc (bo : BuildObj) (obj : Nat) (pair : Str) (alist : Option Nat)
    (pool : jhcNodePool) (neg : Int) (blf : Nat) : Option (Option Nat × jhcNodePool) :=
  let rel := SlotGet pair (some "LOC".toList) SlotGet_lower
  match bo alist pool with
  | none => none
  | some ((none, _), p1) => some (alist, p1)
  | some ((some ref, tail), p1) =>
    let pr := AddProp p1 (some obj) "loc".toList rel neg blf none
    if SlotStart pair (some "LOC-2".toList) ≤ 0 then some (tail, AddArg pr.2 pr.1 "wrt".toList ref)
    else
      match bo tail (AddArg pr.2 pr.1 "wrt".toList ref) with
      | none => none
      | some ((none, _), p4) => some (tail, p4)
      | some ((some ref2, t2), p4) => some (t2, AddArg p4 pr.1 "wrt".toList ref2)

/-- Source function `jhcGraphizer::obj_has (obj, prep, alist, pool, neg, blf)`. -/
def obj_has (bo : BuildObj) (obj : Nat) (prep : Str) (alist : Option Nat)
    (pool : jhcNodePool) (neg : Int) (blf : Nat) : Option (Option Nat × jhcNodePool) :=
  match bo alist pool with
  | none => none
  | some ((none, _), p1) => some (alist, p1)
  | some ((some part, tail), p1) =>
    let pr := AddProp p1 (some obj) "has".toList (some prep) neg blf none
    some (tail, AddArg pr.2 pr.1 "obj".toList part)

/-- Source function `jhcGraphizer::obj_deg (obj, amt, alist, pool, neg, blf)`. -/
def obj_deg (bo : BuildObj) (u : Uninit) (list : Str) (obj : Nat) (amt : Str)
    (alist : Option Nat) (pool : jhcNodePool) (neg : Int) (blf : Nat) :
    Option (Option Nat × jhcNodePool) :=
  match FragNextPair list alist u.array 200 with
  | .fault => none
  | .null => some (alist, pool)
  | .ptr (p, tail) =>
    match SlotGet (cstr p) (some "HQ".toList) SlotGet_lower with
    | some val =>
      let pr := AddProp pool (some obj) "hq".toList (some val) neg blf none
      some (some tail, (AddProp pr.2 (some pr.1) "deg".toList (some amt) 0 10 none).2)
    | none =>
      match SlotGet (cstr p) (some "LOC".toList) SlotGet_lower with
      | some _ =>
        match obj_loc bo obj (cstr p) (some tail) pool neg blf with
        | none => none
        | some (tail1, p1) =>
          some (tail1, (AddProp p1 ((Facts p1 obj "loc".toList).getLast?) "deg".toList
            (some amt) 0 10 none).2)
      | none => some (alist, pool)

/-- The body of the `while` loop of `jhcGraphizer::build_obj` for one pair: the pointer
`tail`, the scratch pool (the object described is its node 0) and the local `t`
after it. -/
def build_obj_pair (bo : BuildObj) (u : Uninit) (list : Str)
    (nr : jhcNodePool) (pair : Str) (tail : Nat) (t : Nat) (blf : Nat) :
    Option (Option Nat × jhcNodePool × Nat) :=
  match SlotGet pair (some "REF".toList) 0 with
  | some val => some (some tail, ref_props nr 0 val, t)
  | none =>
  match SlotGet pair (some "NAME".toList) 0 with
  | some val => some (some tail, (AddLex nr 0 val 0 blf).2, t)
  | none =>
  match base_noun ((nr.getD 0 ⟨[], none, 0, 0, [], 0⟩).tags) pair with
  | (some val, tg) =>
    some (some tail, (AddProp (SetTags nr 0 tg) (some 0) "ako".toList (some val) 0 blf none).2, t)
  | (none, tg) =>
  match SlotGet pair (some "HQ".toList) SlotGet_lower with
  | some val =>
    some (some tail, (AddProp (SetTags nr 0 tg) (some 0) "hq".toList (some val) 0 blf none).2, t)
  | none =>
  match SlotGet pair (some "DEG".toList) SlotGet_lower with
  | some val =>
    (obj_deg bo u list 0 val (some tail) (SetTags nr 0 tg) 0 blf).map (fun r => (r.1, r.2, t))
  | none =>
  if SlotStart pair (some "ACT-G".toList) > 0 then
    some (some tail,
      SetTags (AddProp (SetTags nr 0 tg) (some 0) "agt".toList (base_verb t pair).1 0 blf
        (some "act".toList)).2
        (AddProp (SetTags nr 0 tg) (some 0) "agt".toList (base_verb t pair).1 0 blf
          (some "act".toList)).1 (base_verb t pair).2,
      (base_verb t pair).2)
  else if SlotStart pair (some "LOC".toList) > 0 then
    (obj_loc bo 0 pair (some tail) (SetTags nr 0 tg) 0 blf).map (fun r => (r.1, r.2, t))
  else
  match SlotGet pair (some "HAS".toList) SlotGet_lower with
  | some val =>
    (obj_has bo 0 val (some tail) (SetTags nr 0 tg) 0 blf).map (fun r => (r.1, r.2, t))
  | none => some (some tail, SetTags nr 0 tg, t)

/-- The `while` loop of `jhcGraphizer::build_obj`: the scratch pool when the loop ends. -/
def build_obj_loop (bo : BuildObj) (u : Uninit) (list : Str)
    (blf : Nat) : Nat → Option Nat → Str → jhcNodePool → Nat → Option jhcNodePool
  | 0, _, _, nr, _ => some nr
  | fuel + 1, tail, next, nr, t =>
    match FragNextPair list tail next 200 with
    | .fault => none
    | .null => some nr
    | .ptr (p, tl) =>
      match build_obj_pair bo u list nr (cstr p) tl t blf with
      | none => none
      | some (tail1, nr1, t1) => build_obj_loop bo u list blf fuel tail1 p nr1 t1

/-- The description that `jhcGraphizer::build_obj` builds in its scratch pool `nr` before it
asks for the referent, and the value of `find`; the outer `none` is a
runtime-constraint violation, the inner one the early NULL return. -/
def build_obj_nr (bo : BuildObj) (u : Uninit) (list : Str)
    (alist : Option Nat) (blf : Nat) : Option (Option (jhcNodePool × Int)) :=
  match (NextEntry list alist u.array 200).run with
  | none => none
  | some r =>
    let next := (r.map (·.1)).getD u.array
    if ! strncmp_eq (cstr next) "%obj".toList 4 then some none
    else
      (build_obj_loop bo u list blf (list.length + 1) (r.map (·.2)) next
        (MakeNode [] "obj".toList none 0 10).2 u.tags).map
        (fun nr => some (nr, if strncmp_eq (cstr next) "%obj-i".toList 6 then 0 else 1))

/-- Source function `jhcGraphizer::build_obj (after, alist, pool, f0, blf)` with a bound on the
nesting of object descriptions: the node returned, the value written to
`*after` (when `after` is not NULL), and the pool. -/
def build_obj_fuel (u : Uninit) (list : Str) :
    Nat → Bool → Option Nat → jhcNodePool → Option Nat → Nat →
      Option ((Option Nat × Option Nat) × jhcNodePool)
  | 0, _, _, _, _, _ => none
  | fuel + 1, after, alist, pool, f0, blf =>
    match build_obj_nr (fun a p => build_obj_fuel u list fuel true a p none 10) u list
        alist blf with
    | none => none
    | some none => some ((none, none), pool)
    | some (some (nr, find)) =>
      match (if after then (FragClose list alist FragClose_skip u.array).run else some none) with
      | none => none
      | some tail => some (((FindMake nr pool find f0).1, tail), (FindMake nr pool find f0).2)

/-- Source function `jhcGraphizer::build_obj (after, alist, pool, f0, blf)`; every nested
description starts further down the list, so the bound on the nesting is the
length of the list. -/
def build_obj (u : Uninit) (list : Str) (after : Bool) (alist : Option Nat)
    (pool : jhcNodePool) (f0 : Option Nat) (blf : Nat) :
    Option ((Option Nat × Option Nat) × jhcNodePool) :=
  build_obj_fuel u list (list.length + 1) after alist pool f0 blf

/-- The calls `build_obj(&tail, alist, pool)` made outside `build_obj`. -/
def build_obj_dflt (u : Uninit) (list : Str) : BuildObj :=
  fun alist pool => build_obj u list true alist pool none 10

/-- The second `while` loop of `jhcGraphizer::add_evt` (the complements of the event). -/
def add_evt_loop (u : Uninit) (list : Str) (evt : Nat) :
    Nat → Option Nat → Str → jhcNodePool → Option jhcNodePool
  | 0, _, _, pool => some pool
  | fuel + 1, tail, next, pool =>
    match FragNextPair list tail next 200 with
    | .fault => none
    | .null => some pool
    | .ptr (p, tl) =>
      if SlotStart (cstr p) (some "LOC".toList) > 0 then
        match obj_loc (build_obj_dflt u list) evt (cstr p) (some tl) pool 0 10 with
        | none => none
        | some (tail1, p1) => add_evt_loop u list evt fuel tail1 p p1
      else
        match SlotGet (cstr p) (some "HAS".toList) SlotGet_lower with
        | some val =>
          match obj_has (build_obj_dflt u list) evt val (some tl) pool 0 10 with
          | none => none
          | some (tail1, p1) => add_evt_loop u list evt fuel tail1 p p1
        | none => add_evt_loop u list evt fuel (some tl) p pool

/-- Source function `jhcGraphizer::add_evt (obj, alist, pool, neg, blf)`. -/
def add_evt (u : Uninit) (list : Str) (obj : Nat) (alist : Option Nat)
    (pool : jhcNodePool) (neg : Int) (blf : Nat) : Option (Option Nat × jhcNodePool) :=
  match (NextMatches list alist "%evt".toList 4).run with
  | none => none
  | some none => some (alist, pool)
  | some (some tail) =>
    match FragNextPair list (some tail) u.array 200 with
    | .fault => none
    | .null => some (alist, pool)
    | .ptr (p, tl) =>
      match base_verb u.tags (cstr p) with
      | (none, _) => some (alist, pool)
      | (some val, t) =>
        let pr := AddProp pool (some obj) "agt".toList (some val) neg blf (some "act".toList)
        match add_evt_loop u list pr.1 (list.length + 1) (some tl) p (SetTags pr.2 pr.1 t) with
        | none => none
        | some p2 => (FragClose list alist FragClose_skip u.array).run.map (fun r => (r, p2))

/-- The body of the `while` loop of `jhcGraphizer::add_cop` for one pair, up to `post = tail`:
the pointer `tail`, the pool, `neg` and `blf` after it. -/
def add_cop_pair (u : Uninit) (list : Str) (obj : Nat) (pair : Str)
    (tail : Nat) (pool : jhcNodePool) (neg : Int) (blf : Nat) :
    Option (Option Nat × jhcNodePool × Int × Nat) :=
  match SlotGet pair (some "BLF".toList) SlotGet_lower with
  | some val => some (some tail, pool, neg, belief_val val)
  | none =>
  if SlotStart pair (some "NEG".toList) > 0 then some (some tail, pool, 1, blf)
  else
  match SlotGet pair (some "NAME".toList) 0 with
  | some val => some (some tail, (AddProp pool (some obj) "lex".toList none neg blf (some val)).2,
      neg, blf)
  | none =>
  match SlotGet pair (some "HQ".toList) SlotGet_lower with
  | some val => some (some tail, (AddProp pool (some obj) "hq".toList (some val) neg blf none).2,
      neg, blf)
  | none =>
  match SlotGet pair (some "DEG".toList) SlotGet_lower with
  | some val =>
    (obj_deg (build_obj_dflt u list) u list obj val (some tail) pool neg blf).map
      (fun r => (r.1, r.2, neg, blf))
  | none =>
  if SlotStart pair (some "LOC".toList) > 0 then
    (obj_loc (build_obj_dflt u list) obj pair (some tail) pool neg blf).map
      (fun r => (r.1, r.2, neg, blf))
  else some (some tail, pool, neg, blf)

/-- The `while` loop of `jhcGraphizer::add_cop`: the pool, `neg`, `blf` and `post` when the
loop ends. -/
def add_cop_loop (u : Uninit) (list : Str) (obj : Nat) :
    Nat → Option Nat → Str → jhcNodePool → Int → Nat → Option Nat →
      Option (jhcNodePool × Int × Nat × Option Nat)
  | 0, _, _, pool, neg, blf, post => some (pool, neg, blf, post)
  | fuel + 1, tail, next, pool, neg, blf, post =>
    match FragNextPair list tail next 200 with
    | .fault => none
    | .null => some (pool, neg, blf, post)
    | .ptr (p, tl) =>
      match add_cop_pair u list obj (cstr p) tl pool neg blf with
      | none => none
      | some (tail1, p1, neg1, blf1) => add_cop_loop u list obj fuel tail1 p p1 neg1 blf1 tail1

/-- Source function `jhcGraphizer::add_cop (obj, alist, pool)`: the returned pointer and the
pool. -/
def add_cop (u : Uninit) (list : Str) (obj : Nat) (alist : Option Nat)
    (pool : jhcNodePool) : Option (Option Nat × jhcNodePool) :=
  match (NextMatches list alist "$add".toList 4).run with
  | none => none
  | some none => some (alist, pool)
  | some (some tail) =>
    match add_cop_loop u list obj (list.length + 1) (some tail) u.array pool 0 10
        (some tail) with
    | none => none
    | some (p1, neg, blf, post) =>
      match build_obj u list false post p1 (some obj) blf with
      | none => none
      | some ((some _, _), p2) =>
        (FragClose list alist FragClose_skip u.array).run.map (fun r => (r, p2))
      | some ((none, _), p2) =>
        match add_evt u list obj post p2 neg blf with
        | none => none
        | some (_, p3) => (FragClose list alist FragClose_skip u.array).run.map (fun r => (r, p3))

end jhcGraphizer

/-! ## Chains, directives, rules and operators -/

/-- Modelled from the spec: the directive kinds of `jhcAliaDir` (class not among
the sources): DO, NOTE, FIND, CHK, ADD, ANTE, PUNT. -/
inductive JDIR_KIND where
  | NOTE | DO | PUNT | FIND | CHK | ADD | ANTE
deriving DecidableEq, Repr

/-- Modelled from the spec: what a link of a speech-act node points to: the
robot or the user (`attn->self`, `attn->user`), a node of the same key by its
rank, or the main node of the key of the directive held by a chain step. -/
inductive NodeRef where
  | self
  | user
  | item (i : Nat)
  | main (step : Nat)
deriving DecidableEq, Repr

/-- Modelled from the spec: a node that a speech-act function makes in the key
of its directive (classes `jhcNetNode` and `jhcAliaAttn` not among the sources). -/
structure TagNode where
  kind : Str
  lex : Option Str
  neg : Int
  args : List (Str × NodeRef)
deriving DecidableEq, Repr

/-- Modelled from the spec: a directive (`jhcAliaDir`, not among the sources): its
kind and the nodes that the speech-act functions put in its key.  What the
node-level builders put in a key is part of their own state. -/
structure jhcAliaDir where
  kind : JDIR_KIND
  key : List TagNode
deriving DecidableEq, Repr

/-- Modelled from the spec: a chain step (`jhcAliaChain`, not among the sources):
the directive bound to it, or the required activities of the play bound to it,
and the continuation.  A pointer to a step is its rank among the steps made. -/
structure jhcAliaChain where
  dir : Option jhcAliaDir
  play : Option (List Nat)
  cont : Option Nat
deriving DecidableEq, Repr

/-- Modelled from the spec: a rule (`jhcAliaRule`, not among the sources); its two
graphlets are filled by the node-level builders, in their own state. -/
structure jhcAliaRule where
deriving DecidableEq, Repr

/-- Modelled from the spec: an operator (`jhcAliaOp`, not among the sources): the
kind of its trigger directive, the preference (in tenths, 1.0 unless set) and
the first step of its procedure. -/
structure jhcAliaOp where
  kind : JDIR_KIND
  pref : Nat
  meth : Option Nat
deriving DecidableEq, Repr

/-- The memory that the builders act on: the state of the node pools as the
node-level builders see it, the chain steps made so far, the chains handed to
`delete`, and the chains pushed on the attention queue (`jhcAliaAttn::AddFocus`), oldest
first. -/
structure Mem (σ : Type) where
  pools : σ
  chains : List jhcAliaChain
  freed : List Nat
  foci : List Nat

/-- The node level as the control flow of the builders sees it.  The functions
`query_ako`, `query_hq`, `build_cmd` and `build_fact` of the sources, and the calls into the
node classes that are not among the sources, act on node pools only: they are
`const` members that are handed a pool, so the handles `rule`, `op` and `bulk`, the
chain steps and the attention queue are out of their reach.  Here they are
arbitrary functions on the state `σ` of the pools that return nodes of type `ν`;
`none` is a run that does not return.  `CvtKind` stands for `jhcAliaDir::CvtKind` and for
the test of `SetKind` (`none`: not a directive kind).  `build_obj` gives the node
with the value written to `*after`; the node given to `add_cop` is `none` when the
variable passed was never assigned.  The object builder and the copula handler
are embedded in full above; here only their outcome matters. -/
structure NodeLevel (σ ν : Type) where
  CvtKind : Str → Option JDIR_KIND
  BuildIn : σ → Option Str → σ
  MakeNode : σ → Str → Option Str → ν × σ
  AddProp : σ → ν → Str → Str → ν × σ
  AddLex : σ → ν → Str → σ
  MainProp : σ → Option ν × σ
  SetMain : σ → ν → σ
  query_ako : σ → Option Nat → Option (Option ν × σ)
  query_hq : σ → Option Nat → Option (Option ν × σ)
  build_cmd : σ → Option Nat → Option (Option ν × σ)
  build_obj : σ → Option Nat → Option (Option (ν × Option Nat) × σ)
  build_fact : σ → Option ν → Option Nat → Option (Option Nat × σ)
  add_cop : σ → Option ν → Option Nat → Option (Option Nat × σ)

/-- A new chain step (`new jhcAliaChain`, then `BindDir` or `BindPlay`). -/
def Mem.alloc {σ : Type} (m : Mem σ) (c : jhcAliaChain) : Nat × Mem σ :=
  (m.chains.length, { m with chains := m.chains ++ [c] })

/-- Assignment `ch->cont = x` for a step `ch` that exists. -/
def Mem.setCont {σ : Type} (m : Mem σ) (ch : Nat) (x : Option Nat) : Mem σ :=
  match m.chains[ch]? with
  | none => m
  | some c => { m with chains := m.chains.set ch { c with cont := x } }

/-- Call `play->AddReq(ch)` on the play bound to step `pod`. -/
def Mem.addReq {σ : Type} (m : Mem σ) (pod ch : Nat) : Mem σ :=
  match m.chains[pod]? with
  | none => m
  | some c => { m with chains := m.chains.set pod { c with play := c.play.map (· ++ [ch]) } }

/-- Statement `delete start` (nothing happens for a NULL pointer). -/
def Mem.free {σ : Type} (m : Mem σ) (start : Option Nat) : Mem σ :=
  match start with
  | none => m
  | some c => { m with freed := m.freed ++ [c] }

/-- Source function `dir_step (kind)` of `jhcGraphizer` and `jhcNetBuild`: a new chain step
holding a directive of the given kind, NULL when the kind is not valid. -/
def dir_step {σ ν : Type} (B : NodeLevel σ ν) (m : Mem σ) (kind : Str) : Option Nat × Mem σ :=
  match B.CvtKind kind with
  | none => (none, m)
  | some k => ((m.alloc ⟨some ⟨k, []⟩, none, none⟩).1, (m.alloc ⟨some ⟨k, []⟩, none, none⟩).2)

/-- The local variables of `build_chain`: `play` and `pod` (the step the current
play is bound to), `start`, `ch`, and whether `dir` is not NULL. -/
structure ChainVars where
  play : Option Nat
  pod : Option Nat
  start : Option Nat
  ch : Option Nat
  dir : Bool
deriving DecidableEq, Repr

/-- A call `build_dir(gr, entry, tail, pool)`: state, fragment tag and pointer to the
returned pointer and the state. -/
abbrev BuildDir (σ : Type) := σ → Str → Option Nat → Option (Option Nat × σ)

/-- The `while` loop of `build_chain` (the same in `jhcGraphizer` and `jhcNetBuild`): the
local variables and the memory when the loop is left. -/
def build_chain_loop {σ ν : Type} (B : NodeLevel σ ν) (bd : BuildDir σ) (u : Uninit)
    (alist : Str) : Nat → Option Nat → ChainVars → Mem σ → Option (ChainVars × Mem σ)
  | 0, _, v, m => some (v, m)
  | fuel + 1, tail, v, m =>
    match (NextFrag alist tail 200).run with
    | none => none
    | some none => some (v, m)
    | some (some (entry, tl)) =>
      if entry = "%play".toList then
        build_chain_loop B bd u alist fuel (some tl)
          { play := some m.chains.length, pod := some m.chains.length,
            start := if v.ch = none then some m.chains.length else v.start,
            ch := none, dir := v.dir }
          (match v.ch with
            | none => (m.alloc ⟨none, some [], none⟩).2
            | some c => (m.alloc ⟨none, some [], none⟩).2.setCont c (some m.chains.length))
      else if entry = "%".toList ∧ v.play ≠ none then
        build_chain_loop B bd u alist fuel (some tl) { v with ch := v.pod, play := none } m
      else if entry.head? = some '!' then
        match dir_step B m (entry.drop 1) with
        | (none, m1) => some ({ v with ch := none }, m1)
        | (some c, m1) =>
          match bd m1.pools entry (some tl) with
          | none => none
          | some (none, s) => some ({ v with ch := some c, dir := true }, { m1 with pools := s })
          | some (some t2, s) =>
            match (FragClose alist (some t2) 0 u.array).run with
            | none => none
            | some t3 =>
              build_chain_loop B bd u alist fuel t3
                { v with ch := some c, dir := false,
                         start := if v.play = none ∧ v.ch = none then some c else v.start }
                (match v.play, v.ch with
                  | some pl, _ => ({ m1 with pools := s } : Mem σ).addReq pl c
                  | none, none => { m1 with pools := s }
                  | none, some c0 => ({ m1 with pools := s } : Mem σ).setCont c0 (some c))
      else build_chain_loop B bd u alist fuel (some tl) v m

/-- Source function `build_chain (alist, final, pool)` of `jhcGraphizer` and `jhcNetBuild`, given
their `build_dir`: the chain returned and the memory; `none` when `ch->cont = final`
is reached with `ch` NULL (or a string copy fails). -/
def build_chain {σ ν : Type} (B : NodeLevel σ ν) (bd : BuildDir σ) (u : Uninit)
    (alist : Str) (pos : Option Nat) (final : Option Nat) (m : Mem σ) :
    Option (Option Nat × Mem σ) :=
  match build_chain_loop B bd u alist (alist.length + 1) pos ⟨none, none, none, none, false⟩ m with
  | none => none
  | some (v, m1) =>
    if v.dir = false then
      match v.ch with
      | none => none
      | some c => some (v.start, m1.setCont c final)
    else some (none, m1.free v.start)

/-- The end of `build_dir`: NULL without a main node, else `gr.SetMain(main)` and the
pointer `tail`. -/
def build_dir_end {σ ν : Type} (B : NodeLevel σ ν) (main : Option ν) (tail : Option Nat)
    (s : σ) : Option (Option Nat × σ) :=
  match main with
  | none => some (none, s)
  | some mn => some (tail, B.SetMain s mn)

/-- Source function `jhcGraphizer::pref_val (word)`, the same as `jhcNetBuild::pref_val`, in tenths. -/
def pref_val (word : Str) : Nat :=
  match (["might", "could", "should", "must", "always"].zip [3, 5, 12, 15, 20]).find?
      (fun tv => tv.1.toList == word) with
  | some tv => tv.2
  | none => 10

/-- The `while` loop of `create_op`: the kind found (`none` when `CvtKind` rejects
the name, which makes `create_op` return NULL) and the `entry` array. -/
def create_op_loop {σ ν : Type} (B : NodeLevel σ ν) (u : Uninit) (alist : Str) (veto : Bool) :
    Nat → Option Nat → Str → Option (Option JDIR_KIND × Str)
  | 0, _, entry => some (some JDIR_KIND.NOTE, entry)
  | fuel + 1, tail, entry =>
    match FragNextFrag alist tail entry 200 u.array with
    | none => none
    | some (e, none) => some (some JDIR_KIND.NOTE, e)
    | some (e, some t) =>
      if e.head? = some '!' then
        match B.CvtKind (e.drop 1) with
        | none => some (none, e)
        | some k => some (some (if k = JDIR_KIND.DO ∧ veto then JDIR_KIND.ANTE else k), e)
      else create_op_loop B u alist veto fuel (some t) e

/-- Source function `create_op (after, entry, alist, ssz)` of `jhcGraphizer` and `jhcNetBuild`: the
operator, the value of `*after`, the `entry` array and the memory. -/
def create_op {σ ν : Type} (B : NodeLevel σ ν) (u : Uninit) (alist : Str) (pos : Option Nat)
    (m : Mem σ) : Option ((Option jhcAliaOp × Option Nat × Str) × Mem σ) :=
  match (FindFrag alist pos "$trig-n".toList).run with
  | none => none
  | some t1 =>
    match (if t1 = none then (FindFrag alist pos "$trig".toList).run else some t1) with
    | none => none
    | some none => some ((none, pos, cstr u.array), m)
    | some (some tail) =>
      match create_op_loop B u alist (t1 ≠ none) (alist.length + 1) (some tail) (cstr u.array) with
      | none => none
      | some (none, e) => some ((none, some tail, e), m)
      | some (some k, e) =>
        match (FindSlot alist pos "PREF".toList FindSlot_local).run with
        | none => none
        | some pv =>
          if t1 ≠ none then
            some ((some ⟨k, (pv.map (fun x => pref_val x.1)).getD 10,
                (dir_step B m "punt".toList).1⟩, some tail, e), (dir_step B m "punt".toList).2)
          else some ((some ⟨k, (pv.map (fun x => pref_val x.1)).getD 10, none⟩, some tail, e), m)

/-- Source function `build_proc (op, alist)` of `jhcGraphizer` and `jhcNetBuild`, given their
`build_dir`: the result, the operator and the memory. -/
def build_proc {σ ν : Type} (B : NodeLevel σ ν) (bd : BuildDir σ) (u : Uninit) (alist : Str)
    (op : jhcAliaOp) (pos : Option Nat) (m : Mem σ) : Option (Int × jhcAliaOp × Mem σ) :=
  match (FindFrag alist pos "$proc".toList).run with
  | none => none
  | some none => some (1, op, m)
  | some (some tail) =>
    match build_chain B bd u alist (some tail) op.meth m with
    | none => none
    | some (none, m1) => some (0, { op with meth := none }, m1)
    | some (some c, m1) => some (1, { op with meth := some c }, m1)

/-- Source function `build_macro (alist)` of `jhcGraphizer` and `jhcNetBuild`: the result, the
rule handle and the state of the pools. -/
def build_macro {σ ν : Type} (B : NodeLevel σ ν) (u : Uninit) (alist : Str)
    (rule : Option jhcAliaRule) (pos : Option Nat) (s : σ) :
    Option (Int × Option jhcAliaRule × σ) :=
  match FragNextPair alist pos u.array 200 with
  | .fault => none
  | .null => some (0, rule, s)
  | .ptr (p, tail) =>
    match SlotGet (cstr p) none SlotGet_lower with
    | none => some (0, rule, s)
    | some wd =>
      match FragNextPair alist (some tail) u.array 200 with
      | .fault => none
      | .null => some (0, rule, s)
      | .ptr (p2, _) =>
        match SlotGet (cstr p2) none SlotGet_lower with
        | none => some (0, rule, s)
        | some wd2 =>
          some (1, some ⟨⟩,
            B.AddLex (B.BuildIn (B.MakeNode (B.BuildIn s (some "cond".toList)) "sub".toList
              (some wd)).2 (some "result".toList))
              (B.MakeNode (B.BuildIn s (some "cond".toList)) "sub".toList (some wd)).1 wd2)

/-- Source function `build_fwd (alist)` of `jhcGraphizer` and `jhcNetBuild`. -/
def build_fwd {σ ν : Type} (B : NodeLevel σ ν) (alist : Str) (pos : Option Nat) (s : σ) :
    Option (Int × Option jhcAliaRule × σ) :=
  match B.build_fact (B.BuildIn s (some "cond".toList)) none pos with
  | none => none
  | some (none, s1) => some (0, none, s1)
  | some (some tail, s1) =>
    match (NextMatches alist (some tail) "$res".toList 0).run with
    | none => none
    | some none => some (0, none, (B.MainProp s1).2)
    | some (some t2) =>
      match B.build_fact (B.BuildIn (B.MainProp s1).2 (some "result".toList)) none (some t2) with
      | none => none
      | some (none, s2) => some (0, none, s2)
      | some (some _, s2) => some (1, some ⟨⟩, s2)

/-- Source function `build_rev (alist)` of `jhcGraphizer` and `jhcNetBuild`. -/
def build_rev {σ ν : Type} (B : NodeLevel σ ν) (alist : Str) (pos : Option Nat) (s : σ) :
    Option (Int × Option jhcAliaRule × σ) :=
  match B.build_fact (B.BuildIn s (some "result".toList)) none pos with
  | none => none
  | some (none, s1) => some (0, none, s1)
  | some (some tail, s1) =>
    match (NextMatches alist (some tail) "$cond".toList 0).run with
    | none => none
    | some none => some (0, none, s1)
    | some (some t2) =>
      match B.build_fact (B.BuildIn s1 (some "cond".toList)) none (some t2) with
      | none => none
      | some (none, s2) => some (0, none, s2)
      | some (some _, s2) => some (1, some ⟨⟩, (B.MainProp s2).2)

/-- Source function `build_ifwd (alist)` of `jhcGraphizer` and `jhcNetBuild`.  The variable
`prop` is assigned only when no object is built for the condition; the node
given to `add_cop` is `none` when it was not. -/
def build_ifwd {σ ν : Type} (B : NodeLevel σ ν) (u : Uninit) (alist : Str) (pos : Option Nat)
    (s : σ) : Option (Int × Option jhcAliaRule × σ) :=
  match B.build_obj (B.BuildIn s (some "cond".toList)) pos with
  | none => none
  | some (ob, s1) =>
    match (match ob with
      | some (_, tail) => some (some ((none : Option ν), tail, s1))
      | none =>
        match FragNextPair alist pos u.array 200 with
        | .fault => none
        | .null => some none
        | .ptr (p, tl) =>
          match SlotGet (cstr p) (some "HQ".toList) SlotGet_lower with
          | none => some none
          | some val =>
            some (some (some (B.AddProp (B.MakeNode s1 "obj".toList none).2
                (B.MakeNode s1 "obj".toList none).1 "hq".toList val).1, some tl,
              (B.AddProp (B.MakeNode s1 "obj".toList none).2
                (B.MakeNode s1 "obj".toList none).1 "hq".toList val).2))) with
    | none => none
    | some none => some (0, none, s1)
    | some (some (prop, tail, s2)) =>
      match (FragClose alist tail 0 u.array).run with
      | none => none
      | some t1 =>
        match (NextMatches alist t1 "$res-i".toList 0).run with
        | none => none
        | some none => some (0, none, (B.MainProp s2).2)
        | some (some t2) =>
          match B.add_cop (B.BuildIn (B.MainProp s2).2 (some "result".toList)) prop (some t2) with
          | none => none
          | some (none, s3) => some (0, none, s3)
          | some (some _, s3) => some (1, some ⟨⟩, s3)

/-- Source function `build_sfwd (alist)` of `jhcGraphizer` and `jhcNetBuild`. -/
def build_sfwd {σ ν : Type} (B : NodeLevel σ ν) (u : Uninit) (alist : Str) (pos : Option Nat)
    (s : σ) : Option (Int × Option jhcAliaRule × σ) :=
  match B.build_obj (B.BuildIn s (some "cond".toList)) pos with
  | none => none
  | some (none, s1) => some (0, none, s1)
  | some (some (obj, tail), s1) =>
    match (FragClose alist tail 0 u.array).run with
    | none => none
    | some t1 =>
      match (NextMatches alist t1 "$res-s".toList 0).run with
      | none => none
      | some none => some (0, none, (B.MainProp s1).2)
      | some (some t2) =>
        match B.build_fact (B.BuildIn (B.MainProp s1).2 (some "result".toList)) (some obj)
            (some t2) with
        | none => none
        | some (none, s2) => some (0, none, s2)
        | some (some _, s2) => some (1, some ⟨⟩, s2)

/-- The dispatch of `cvt_rule` (the same in `jhcGraphizer` and `jhcNetBuild`) on the first
entry, up to the test of `ok`: `ok`, the rule handle and the state of the pools;
the inner `none` is the early return when no entry is left. -/
def cvt_rule_ok {σ ν : Type} (B : NodeLevel σ ν) (u : Uninit) (alist : Str)
    (rule : Option jhcAliaRule) (pos : Option Nat) (s : σ) :
    Option (Option (Int × Option jhcAliaRule × σ)) :=
  match (NextEntry alist pos u.array 200).run with
  | none => none
  | some none => some none
  | some (some (next, tail)) =>
    (if cstr next = "$macro".toList then build_macro B u alist rule (some tail) s
    else if cstr next = "$cond".toList then build_fwd B alist (some tail) s
    else if cstr next = "$cond-i".toList then build_ifwd B u alist (some tail) s
    else if cstr next = "$cond-s".toList then build_sfwd B u alist (some tail) s
    else if cstr next = "$res".toList then build_rev B alist (some tail) s
    else some (0, rule, s)).map some

/-- Append a node to the key of the directive of a chain step (`attn->MakeNode`,
`attn->AddProp` and `attn->AddLex` while the key of that directive is the target). -/
def Mem.keyAdd {σ : Type} (m : Mem σ) (ch : Nat) (nd : TagNode) : Mem σ :=
  match m.chains[ch]? with
  | none => m
  | some c =>
    { m with chains :=
        m.chains.set ch ⟨c.dir.map (fun d => ⟨d.kind, d.key ++ [nd]⟩), c.play, c.cont⟩ }

/-- Call `input->AddArg(role, x)` on the first node of the key of a chain step. -/
def Mem.argAdd {σ : Type} (m : Mem σ) (ch : Nat) (role : Str) (x : NodeRef) : Mem σ :=
  match m.chains[ch]? with
  | none => m
  | some c =>
    { m with chains := (m.chains.set ch
        ⟨c.dir.map (fun d => ⟨d.kind, d.key.modifyHead
          (fun n => ⟨n.kind, n.lex, n.neg, n.args ++ [(role, x)]⟩)⟩), c.play, c.cont⟩) }

/-- The number of nodes in the key of a chain step. -/
def Mem.keySize {σ : Type} (m : Mem σ) (ch : Nat) : Nat :=
  match m.chains[ch]? with
  | some ⟨some d, _, _⟩ => d.key.length
  | _ => 0

/-- Call `attn->AddFocus(ch)` followed by `attn->BuildIn(NULL)`, the end of every speech-act
function. -/
def Mem.focus {σ ν : Type} (B : NodeLevel σ ν) (m : Mem σ) (ch : Nat) : Mem σ :=
  { m with foci := m.foci ++ [ch], pools := B.BuildIn m.pools none }

/-- The members of a `jhcGraphizer` that the conversion uses: whether `core` is
bound, and the handles `rule` and `op`. -/
structure jhcGraphizer where
  core : Bool
  rule : Option jhcAliaRule
  op : Option jhcAliaOp
deriving DecidableEq, Repr

/-- The members of a `jhcNetBuild` that the conversion uses: whether `core` is
bound, and the handles `bulk`, `rule` and `op`. -/
structure jhcNetBuild where
  core : Bool
  bulk : Option Nat
  rule : Option jhcAliaRule
  op : Option jhcAliaOp
deriving DecidableEq, Repr

/-- The test of `cvt_attn` on the first fragment: a directive or a play. -/
def isCommand (r : Option (Str × Nat)) : Bool :=
  match r with
  | none => false
  | some (entry, _) => entry.head? = some '!' || entry == "%play".toList

/-- The node that `huh_tag` makes: `understand`, negated, with the robot as agent
and the user as object. -/
def huhNode : TagNode :=
  ⟨"meta".toList, some "understand".toList, 1,
    [("agt".toList, NodeRef.self), ("obj".toList, NodeRef.user)]⟩

namespace jhcGraphizer

/-- Source function `jhcGraphizer::build_dir (gr, entry, alist, pool)`; `gr` names the graphlet. -/
def build_dir {σ ν : Type} (B : NodeLevel σ ν) (gr : Str) : BuildDir σ := fun s entry alist =>
  if entry = "!find-ako".toList then
    match B.query_ako (B.BuildIn s (some gr)) alist with
    | none => none
    | some (main, s1) => build_dir_end B main alist s1
  else if entry = "!find-hq".toList then
    match B.query_hq (B.BuildIn s (some gr)) alist with
    | none => none
    | some (main, s1) => build_dir_end B main alist s1
  else
    match B.build_cmd (B.BuildIn s (some gr)) alist with
    | none => none
    | some (some main, s1) => build_dir_end B (some main) alist s1
    | some (none, s1) =>
      match B.build_obj s1 alist with
      | none => none
      | some (none, s2) => some (none, s2)
      | some (some (main, tail), s2) =>
        match B.add_cop s2 (some main) tail with
        | none => none
        | some (none, s3) => some (none, s3)
        | some (some t, s3) => build_dir_end B (B.MainProp s3).1 (some t) (B.MainProp s3).2

/-- Source function `jhcGraphizer::build_chain (alist, final, pool)`. -/
def build_chain {σ ν : Type} (B : NodeLevel σ ν) (u : Uninit) (alist : Str) (pos : Option Nat)
    (final : Option Nat) (m : Mem σ) : Option (Option Nat × Mem σ) :=
  ALIA.build_chain B (build_dir B "key".toList) u alist pos final m

/-- Source function `jhcGraphizer::huh_tag ()`: a NOTE that the input was not understood is
pushed on the attention queue; the result is 0. -/
def huh_tag {σ ν : Type} (B : NodeLevel σ ν) (m : Mem σ) : Int × Mem σ :=
  (0, Mem.focus B
    (({ m with pools := B.BuildIn m.pools (some "key".toList) } : Mem σ).alloc
      ⟨some ⟨JDIR_KIND.NOTE, [huhNode]⟩, none, none⟩).2 m.chains.length)

/-- Source function `jhcGraphizer::build_tag (node, alist)`: the new chain step with its NOTE; the
node `*node` is the first node of its key. -/
def build_tag {σ ν : Type} (B : NodeLevel σ ν) (alist : Str) (pos : Option Nat) (m : Mem σ) :
    Option (Nat × Mem σ) :=
  match (match pos with
    | none => some false
    | some _ => HasSlot alist pos "POLITE".toList FindSlot_local) with
  | none => none
  | some polite =>
    some (({ m with pools := B.BuildIn m.pools (some "key".toList) } : Mem σ).alloc
      ⟨some ⟨JDIR_KIND.NOTE,
        ⟨"meta".toList, none, 0, [("agt".toList, NodeRef.user), ("dest".toList, NodeRef.self)]⟩ ::
          (if polite then [⟨"mod".toList, some "polite".toList, 0, [("mod".toList, NodeRef.item 0)]⟩]
           else [])⟩, none, none⟩)

/-- The body shared by `hail_tag`, `greet_tag` and `farewell_tag`: a NOTE whose node has
the given word, pushed on the attention queue. -/
def word_tag {σ ν : Type} (B : NodeLevel σ ν) (word : Str) (m : Mem σ) : Option (Mem σ) :=
  match build_tag B [] none m with
  | none => none
  | some (ch, m1) =>
    some (Mem.focus B (m1.keyAdd ch ⟨word, none, 0, [("lex".toList, NodeRef.item 0)]⟩) ch)

/-- Source function `jhcGraphizer::hail_tag ()`. -/
def hail_tag {σ ν : Type} (B : NodeLevel σ ν) (m : Mem σ) : Option (Int × Mem σ) :=
  (word_tag B "hail".toList m).map (fun m1 => (5, m1))

/-- Source function `jhcGraphizer::greet_tag ()`. -/
def greet_tag {σ ν : Type} (B : NodeLevel σ ν) (m : Mem σ) : Option (Int × Mem σ) :=
  (word_tag B "greet".toList m).map (fun m1 => (6, m1))

/-- Source function `jhcGraphizer::farewell_tag ()`. -/
def farewell_tag {σ ν : Type} (B : NodeLevel σ ν) (m : Mem σ) : Option (Int × Mem σ) :=
  (word_tag B "dismiss".toList m).map (fun m1 => (6, m1))

/-- Source function `jhcGraphizer::add_tag (rule, alist)`. -/
def add_tag {σ ν : Type} (B : NodeLevel σ ν) (rule : Int) (alist : Str) (pos : Option Nat)
    (m : Mem σ) : Option (Int × Mem σ) :=
  match build_tag B alist pos m with
  | none => none
  | some (ch, m1) =>
    some (if rule > 0 then 3 else 4,
      Mem.focus B
        ((((((m1.keyAdd ch ⟨"give".toList, none, 0, [("lex".toList, NodeRef.item 0)]⟩).keyAdd ch
              ⟨"obj".toList, none, 0, []⟩).argAdd ch "obj".toList
              (NodeRef.item (m1.keySize ch + 1))).keyAdd ch
            ⟨"ako".toList, some (if rule > 0 then "rule".toList else "operator".toList), 0,
              [("ako".toList, NodeRef.item (m1.keySize ch + 1))]⟩).alloc
          ⟨some ⟨JDIR_KIND.ADD, []⟩, none, none⟩).2.setCont ch (some (m1.chains.length))) ch)

/-- The `while` loop of `attn_args`: the main node of every DO directive along the
chain becomes a `cmd` argument of the speech act. -/
def attn_cmds {σ : Type} (input : Nat) : Nat → Option Nat → Mem σ → Mem σ
  | 0, _, m => m
  | _ + 1, none, m => m
  | fuel + 1, some ch, m =>
    match m.chains[ch]? with
    | none => m
    | some c =>
      attn_cmds input fuel c.cont
        (if (c.dir.map (·.kind)) = some JDIR_KIND.DO then
          m.argAdd input "cmd".toList (NodeRef.main ch) else m)

/-- Source function `jhcGraphizer::attn_args (input, bulk)`; `input` is the first node of the
key of the step `tag`. -/
def attn_args {σ : Type} (tag : Nat) (bulk : Nat) (m : Mem σ) : Mem σ :=
  match (m.chains[bulk]?).bind (·.dir) with
  | some ⟨JDIR_KIND.CHK, _⟩ =>
    (m.keyAdd tag ⟨"ask".toList, none, 0, [("lex".toList, NodeRef.item 0)]⟩).argAdd tag
      "ynq".toList (NodeRef.main bulk)
  | some ⟨JDIR_KIND.FIND, _⟩ =>
    (m.keyAdd tag ⟨"ask".toList, none, 0, [("lex".toList, NodeRef.item 0)]⟩).argAdd tag
      "whq".toList (NodeRef.main bulk)
  | some ⟨JDIR_KIND.NOTE, _⟩ =>
    ((m.keyAdd tag ⟨"tell".toList, none, 0, [("lex".toList, NodeRef.item 0)]⟩).keyAdd tag
      ⟨"data".toList, none, 0, []⟩).argAdd tag "obj".toList (NodeRef.item (m.keySize tag + 1))
  | _ =>
    attn_cmds tag (m.chains.length + 1) (some bulk)
      (m.keyAdd tag ⟨"tell".toList, none, 0, [("lex".toList, NodeRef.item 0)]⟩)

/-- Source function `jhcGraphizer::attn_tag (bulk, alist)`. -/
def attn_tag {σ ν : Type} (B : NodeLevel σ ν) (alist : Str) (pos : Option Nat) (bulk : Nat)
    (m : Mem σ) : Option (Int × Mem σ) :=
  match build_tag B alist pos m with
  | none => none
  | some (ch, m1) =>
    some (if ((m.chains[bulk]?).bind (·.dir)).map (·.kind) = some JDIR_KIND.NOTE then 1 else 2,
      Mem.focus B (attn_args ch bulk (m1.setCont ch (some bulk))) ch)

/-- Source function `jhcGraphizer::cvt_attn (alist)`. -/
def cvt_attn {σ ν : Type} (B : NodeLevel σ ν) (u : Uninit) (alist : Str) (pos : Option Nat)
    (m : Mem σ) : Option (Int × Mem σ) :=
  match (NextFrag alist pos 200).run with
  | none => none
  | some r =>
    if isCommand r then
      match build_chain B u alist pos none m with
      | none => none
      | some (none, m1) => some (huh_tag B m1)
      | some (some ch, m1) => attn_tag B alist pos ch m1
    else
      match B.build_fact (B.BuildIn m.pools (some "key".toList)) none pos with
      | none => none
      | some (none, s) => some (huh_tag B { m with pools := B.BuildIn s none })
      | some (some _, s) =>
        attn_tag B alist pos m.chains.length
          (({ m with pools := (B.MainProp s).2 } : Mem σ).alloc
            ⟨some ⟨JDIR_KIND.NOTE, []⟩, none, none⟩).2

/-- Source function `jhcGraphizer::cvt_rule (alist)`. -/
def cvt_rule {σ ν : Type} (B : NodeLevel σ ν) (u : Uninit) (g : jhcGraphizer) (alist : Str)
    (pos : Option Nat) (m : Mem σ) : Option (Int × jhcGraphizer × Mem σ) :=
  match cvt_rule_ok B u alist g.rule pos m.pools with
  | none => none
  | some none => some ((huh_tag B m).1, g, (huh_tag B m).2)
  | some (some (ok, rule, s)) =>
    if ok > 0 then
      (add_tag B 1 alist pos { m with pools := s }).map
        (fun r => (r.1, { g with rule := rule }, r.2))
    else some ((huh_tag B { m with pools := s }).1, { g with rule := rule },
      (huh_tag B { m with pools := s }).2)

/-- Source function `jhcGraphizer::build_trig (op, entry, alist)`. -/
def build_trig {σ ν : Type} (B : NodeLevel σ ν) (alist : Str) (entry : Str) (pos : Option Nat)
    (s : σ) : Option (Option Nat × σ) :=
  build_dir B "cond".toList s entry
    (if entry.head? = some '!' then NextEntryNull alist pos else pos)

/-- Source function `jhcGraphizer::cvt_op (alist)`. -/
def cvt_op {σ ν : Type} (B : NodeLevel σ ν) (u : Uninit) (g : jhcGraphizer) (alist : Str)
    (pos : Option Nat) (m : Mem σ) : Option (Int × jhcGraphizer × Mem σ) :=
  match create_op B u alist pos m with
  | none => none
  | some ((none, _, _), m1) => some ((huh_tag B m1).1, { g with op := none }, (huh_tag B m1).2)
  | some ((some op, tail, entry), m1) =>
    match build_trig B alist entry tail m1.pools with
    | none => none
    | some (none, s) =>
      some ((huh_tag B { m1 with pools := s }).1, { g with op := none },
        (huh_tag B { m1 with pools := s }).2)
    | some (some t, s) =>
      match build_proc B (build_dir B "key".toList) u alist op (some t) { m1 with pools := s } with
      | none => none
      | some (r, op1, m2) =>
        if r > 0 then (add_tag B 0 alist pos m2).map (fun x => (x.1, { g with op := some op1 }, x.2))
        else some ((huh_tag B m2).1, { g with op := none }, (huh_tag B m2).2)

/-- Source function `jhcGraphizer::Convert (alist)`: the result, the builder and the memory; `pos`
is `none` for a NULL list. -/
def Convert {σ ν : Type} (B : NodeLevel σ ν) (u : Uninit) (g : jhcGraphizer) (alist : Str)
    (pos : Option Nat) (m : Mem σ) : Option (Int × jhcGraphizer × Mem σ) :=
  if g.core = false then some (-2, g, m)
  else
    match pos with
    | none => some ((huh_tag B m).1, { g with rule := none, op := none }, (huh_tag B m).2)
    | some _ =>
      match (NextFrag alist pos 200).run with
      | none => none
      | some (some (entry, marks)) =>
        if entry = "%Attn".toList then
          (cvt_attn B u alist (some marks) m).map
            (fun r => (r.1, { g with rule := none, op := none }, r.2))
        else if entry = "%Rule".toList then
          cvt_rule B u { g with rule := none, op := none } alist (some marks) m
        else if entry = "%Operator".toList then
          cvt_op B u { g with rule := none, op := none } alist (some marks) m
        else some ((huh_tag B m).1, { g with rule := none, op := none }, (huh_tag B m).2)
      | some none =>
        match HasSlot alist pos "HELLO".toList FindSlot_local with
        | none => none
        | some true => (greet_tag B m).map (fun r => (r.1, { g with rule := none, op := none }, r.2))
        | some false =>
          match HasSlot alist pos "BYE".toList FindSlot_local with
          | none => none
          | some true =>
            (farewell_tag B m).map (fun r => (r.1, { g with rule := none, op := none }, r.2))
          | some false =>
            match HasSlot alist pos "ATTN".toList FindSlot_local with
            | none => none
            | some true =>
              (hail_tag B m).map (fun r => (r.1, { g with rule := none, op := none }, r.2))
            | some false =>
              some ((huh_tag B m).1, { g with rule := none, op := none }, (huh_tag B m).2)

end jhcGraphizer

namespace jhcNetBuild

/-- Source function `jhcNetBuild::build_dir (gr, entry, alist, pool)`; `gr` names the graphlet. -/
def build_dir {σ ν : Type} (B : NodeLevel σ ν) (gr : Str) : BuildDir σ := fun s entry alist =>
  if entry = "!find-ako".toList then
    match B.query_ako (B.BuildIn s (some gr)) alist with
    | none => none
    | some (main, s1) => build_dir_end B main alist s1
  else if entry = "!find-hq".toList then
    match B.query_hq (B.BuildIn s (some gr)) alist with
    | none => none
    | some (main, s1) => build_dir_end B main alist s1
  else
    match B.build_cmd (B.BuildIn s (some gr)) alist with
    | none => none
    | some (some main, s1) => build_dir_end B (some main) alist s1
    | some (none, s1) =>
      match B.build_obj s1 alist with
      | none => none
      | some (none, s2) => some (none, s2)
      | some (some (main, tail), s2) =>
        match B.build_fact s2 (some main) tail with
        | none => none
        | some (none, s3) => some (none, s3)
        | some (some t, s3) => build_dir_end B (B.MainProp s3).1 (some t) (B.MainProp s3).2

/-- Source function `jhcNetBuild::build_chain (alist, final, pool)`. -/
def build_chain {σ ν : Type} (B : NodeLevel σ ν) (u : Uninit) (alist : Str) (pos : Option Nat)
    (final : Option Nat) (m : Mem σ) : Option (Option Nat × Mem σ) :=
  ALIA.build_chain B (build_dir B "key".toList) u alist pos final m

/-- Source function `jhcNetBuild::ClearLast ()`. -/
def ClearLast (g : jhcNetBuild) : jhcNetBuild := { g with rule := none, op := none }

/-- Source function `jhcNetBuild::cvt_attn (alist)`. -/
def cvt_attn {σ ν : Type} (B : NodeLevel σ ν) (u : Uninit) (g : jhcNetBuild) (alist : Str)
    (pos : Option Nat) (m : Mem σ) : Option (Int × jhcNetBuild × Mem σ) :=
  match (NextFrag alist pos 200).run with
  | none => none
  | some r =>
    if isCommand r then
      match build_chain B u alist pos none m with
      | none => none
      | some (none, m1) => some (0, { g with bulk := none }, m1)
      | some (some ch, m1) => some (2, { g with bulk := some ch }, m1)
    else
      match B.build_fact (B.BuildIn m.pools (some "key".toList)) none pos with
      | none => none
      | some (none, s) => some (0, g, { m with pools := B.BuildIn s none })
      | some (some _, s) =>
        some (1, { g with bulk := some m.chains.length },
          (({ m with pools := (B.MainProp s).2 } : Mem σ).alloc
            ⟨some ⟨JDIR_KIND.NOTE, []⟩, none, none⟩).2)

/-- Source function `jhcNetBuild::cvt_rule (alist)`. -/
def cvt_rule {σ ν : Type} (B : NodeLevel σ ν) (u : Uninit) (g : jhcNetBuild) (alist : Str)
    (pos : Option Nat) (m : Mem σ) : Option (Int × jhcNetBuild × Mem σ) :=
  match cvt_rule_ok B u alist g.rule pos m.pools with
  | none => none
  | some none => some (0, g, m)
  | some (some (ok, rule, s)) =>
    some (if ok > 0 then 3 else 0, { g with rule := rule }, { m with pools := s })

/-- Source function `jhcNetBuild::build_trig (op, entry, alist)`. -/
def build_trig {σ ν : Type} (B : NodeLevel σ ν) (entry : Str) (pos : Option Nat) (s : σ) :
    Option (Option Nat × σ) :=
  build_dir B "cond".toList s entry pos

/-- Source function `jhcNetBuild::cvt_op (alist)`. -/
def cvt_op {σ ν : Type} (B : NodeLevel σ ν) (u : Uninit) (g : jhcNetBuild) (alist : Str)
    (pos : Option Nat) (m : Mem σ) : Option (Int × jhcNetBuild × Mem σ) :=
  match create_op B u alist pos m with
  | none => none
  | some ((none, _, _), m1) => some (0, { g with op := none }, m1)
  | some ((some op, tail, entry), m1) =>
    match build_trig B entry tail m1.pools with
    | none => none
    | some (none, s) => some (0, { g with op := none }, { m1 with pools := s })
    | some (some t, s) =>
      match build_proc B (build_dir B "key".toList) u alist op (some t) { m1 with pools := s } with
      | none => none
      | some (r, op1, m2) =>
        if r > 0 then some (4, { g with op := some op1 }, m2)
        else some (0, { g with op := none }, m2)

/-- Source function `jhcNetBuild::Assemble (alist)`: the result, the builder and the memory; `pos`
is `none` for a NULL list. -/
def Assemble {σ ν : Type} (B : NodeLevel σ ν) (u : Uninit) (g : jhcNetBuild) (alist : Str)
    (pos : Option Nat) (m : Mem σ) : Option (Int × jhcNetBuild × Mem σ) :=
  if g.core = false then some (-1, g, m)
  else
    match pos with
    | none => some (0, g, m)
    | some _ =>
      match (NextFrag alist pos 200).run with
      | none => none
      | some (some (entry, marks)) =>
        if entry = "%Attn".toList then cvt_attn B u g alist (some marks) m
        else if entry = "%Rule".toList then cvt_rule B u g alist (some marks) m
        else if entry = "%Operator".toList then cvt_op B u g alist (some marks) m
        else some (0, g, m)
      | some none => some (0, g, m)

end jhcNetBuild

/-! ## jhcSlotVal: slots of a fragment -/

/-- The `while` loop of `jhcSlotVal::FragHasSlot`: the assignment `*sep = '\0'` cuts the pair
in the array at its '=' (`FragNextPair` returns pairs only; a pair without '=' would
be a store through NULL). -/
def FragHasSlotLoop (alist slot : Str) : Nat → Option Nat → Str → Option Bool
  | 0, _, _ => some false
  | fuel + 1, tail, pair =>
    match FragNextPair alist tail pair 200 with
    | .fault => none
    | .null => some false
    | .ptr (p, t) =>
      match strchr (cstr p) '=' with
      | none => none
      | some k =>
        if (cstr p).take k = slot then some true
        else FragHasSlotLoop alist slot fuel (some t) (p.set k NUL)

/-- Source function `jhcSlotVal::FragHasSlot (alist, slot)`; `pair0` is what the array `pair[200]`
holds on entering the function; `none` for a runtime-constraint violation. -/
def FragHasSlot (alist : Str) (pos : Option Nat) (slot : Str) (pair0 : Str) : Option Bool :=
  FragHasSlotLoop alist slot (alist.length + 1) pos pair0

/-! ## Action phrases -/

/-- A call `build_cmd(alist, pool)`: the node returned and the pool; `none` for a
runtime-constraint violation. -/
abbrev BuildCmd := Option Nat → jhcNodePool → Option (Option Nat × jhcNodePool)

/-- Source function `act_deg (act, amt, alist, pool)`, the same text in `jhcGraphizer` and in
`jhcNetBuild`: the returned pointer and the pool. -/
def act_deg (u : Uninit) (list : Str) (act : Nat) (amt : Str) (alist : Option Nat)
    (pool : jhcNodePool) : Option (Option Nat × jhcNodePool) :=
  match FragNextPair list alist u.array 200 with
  | .fault => none
  | .null => some (alist, pool)
  | .ptr (p, tail) =>
    match SlotGet (cstr p) (some "MOD".toList) SlotGet_lower with
    | none => some (alist, pool)
    | some val =>
      let pr := AddProp pool (some act) "mod".toList (some val) 0 10 none
      some (some tail, (AddProp pr.2 (some pr.1) "deg".toList (some amt) 0 10 none).2)

/-- The `while` loop of `add_quote`.  Modelled from the spec: `jhcNetNode::SetString` is
not among the sources; the literal is kept as the word of the `txt` node. -/
def add_quote_loop (list : Str) (v : Nat) :
    Nat → Option Nat → Str → jhcNodePool → Option (Int × jhcNodePool)
  | 0, _, _, pool => some (0, pool)
  | fuel + 1, tail, next, pool =>
    match FragNextPair list tail next 200 with
    | .fault => none
    | .null => some (0, pool)
    | .ptr (p, tl) =>
      match SlotGet (cstr p) (some "QUOTE".toList) 0 with
      | some val =>
        let q := MakeNode pool "txt".toList (some val) 0 10
        some (1, AddArg q.2 v "obj".toList q.1)
      | none => add_quote_loop list v fuel (some tl) p pool

/-- Source function `add_quote (v, alist, pool)`, the same text in `jhcGraphizer` and in
`jhcNetBuild`: the result and the pool. -/
def add_quote (u : Uninit) (list : Str) (v : Nat) (alist : Option Nat) (pool : jhcNodePool) :
    Option (Int × jhcNodePool) :=
  add_quote_loop list v (list.length + 1) alist u.array pool

/-- Source function `add_args (v, alist, pool)`, the same text in `jhcGraphizer` and in
`jhcNetBuild`: the node returned and the pool; `bo` and `bc` stand for the calls of
`build_obj` and of `build_cmd`. -/
def add_args (bo : BuildObj) (bc : BuildCmd) (list : Str) (v : Nat) (alist : Option Nat)
    (pool : jhcNodePool) : Option (Option Nat × jhcNodePool) :=
  match alist with
  | none => some (none, pool)
  | some _ =>
    match bo alist pool with
    | none => none
    | some ((none, _), p1) => some (some v, p1)
    | some ((some dobj, t2), p1) =>
      match bo t2 p1 with
      | none => none
      | some ((some obj2, _), p2) =>
        some (some v, AddArg (AddArg p2 v "dest".toList dobj) v "obj".toList obj2)
      | some ((none, _), p2) =>
        match (NextFrag list t2 200).run with
        | none => none
        | some none => some (some v, AddArg p2 v "obj".toList dobj)
        | some (some (entry, t3)) =>
          if entry = "!do".toList then
            match bc (some t3) p2 with
            | none => none
            | some (none, p3) => some (some v, AddArg p3 v "obj".toList dobj)
            | some (some act, p3) =>
              some (some act, AddArg (AddArg p3 v "dest".toList dobj) v "cmd".toList act)
          else some (some v, AddArg p2 v "obj".toList dobj)

namespace jhcGraphizer

/-- The first `while` loop of `jhcGraphizer::build_cmd` (the search for the main verb): `val`,
`t`, the array `next` and `tail` when the loop ends with a verb, `none` when it
ends without one. -/
def build_cmd_verb (list : Str) :
    Nat → Option Nat → Str → Nat → Option (Option (Str × Nat × Str × Nat))
  | 0, _, _, _ => some none
  | fuel + 1, tail, next, t =>
    match FragNextPair list tail next 200 with
    | .fault => none
    | .null => some none
    | .ptr (p, tl) =>
      match base_verb t (cstr p) with
      | (some val, t1) => some (some (val, t1, p, tl))
      | (none, t1) => build_cmd_verb list fuel (some tl) p t1

/-- The second `while` loop of `jhcGraphizer::build_cmd` (the adverbial modifiers of the
action `act`): the pool when the loop ends. -/
def build_cmd_mods (u : Uninit) (list : Str) (act : Nat) :
    Nat → Option Nat → Str → jhcNodePool → Option jhcNodePool
  | 0, _, _, pool => some pool
  | fuel + 1, tail, next, pool =>
    match FragNextPair list tail next 200 with
    | .fault => none
    | .null => some pool
    | .ptr (p, tl) =>
      match SlotGet (cstr p) (some "DEG".toList) SlotGet_lower with
      | some val =>
        match act_deg u list act val (some tl) pool with
        | none => none
        | some (tail1, p1) => build_cmd_mods u list act fuel tail1 p p1
      | none =>
      match SlotGet (cstr p) (some "MOD".toList) SlotGet_lower with
      | some val =>
        build_cmd_mods u list act fuel (some tl) p
          (AddProp pool (some act) "mod".toList (some val) 0 10 none).2
      | none =>
      match SlotGet (cstr p) (some "AMT".toList) SlotGet_lower with
      | some val =>
        build_cmd_mods u list act fuel (some tl) p
          (AddProp pool (some act) "amt".toList (some val) 0 10 none).2
      | none =>
      match SlotGet (cstr p) (some "DIR".toList) SlotGet_lower with
      | some val =>
        build_cmd_mods u list act fuel (some tl) p
          (AddProp pool (some act) "dir".toList (some val) 0 10 none).2
      | none => build_cmd_mods u list act fuel (some tl) p pool

/-- Source function `jhcGraphizer::build_cmd (alist, pool)` with a bound on the nesting of
embedded commands: the node returned and the pool. -/
def build_cmd_fuel (u : Uninit) (list : Str) :
    Nat → Option Nat → jhcNodePool → Option (Option Nat × jhcNodePool)
  | 0, _, _ => none
  | fuel + 1, alist, pool =>
    match (NextEntry list alist u.array 200).run with
    | none => none
    | some r =>
      let next0 := (r.map (·.1)).getD u.array
      let tail : Option Nat :=
        match r with
        | some (e, t2) => if e.getD 0 NUL = '!' then some t2 else alist
        | none => alist
      match FragHasSlot list tail "NEG-V".toList u.array with
      | none => none
      | some has =>
        match build_cmd_verb list (list.length + 1) tail next0 0 with
        | none => none
        | some none => some (none, pool)
        | some (some (val, t, next, tl)) =>
          let act := MakeNode pool "act".toList
            (if val = "do something".toList then none else some val) (if has then 1 else 0) 10
          match build_obj_dflt u list alist (SetTags act.2 act.1 t) with
          | none => none
          | some ((agt, _), p2) =>
            match build_cmd_mods u list act.1 (list.length + 1) alist next
                (match agt with
                  | some a => AddArg p2 act.1 "agt".toList a
                  | none => p2) with
            | none => none
            | some p4 =>
              if strncmp_eq (cstr next) "SAY".toList 3 then
                (add_quote u list act.1 (some tl) p4).map (fun q => (some act.1, q.2))
              else
                add_args (build_obj_dflt u list) (build_cmd_fuel u list fuel) list act.1
                  (some tl) p4

/-- Source function `jhcGraphizer::build_cmd (alist, pool)`; every embedded command starts
further down the list, so the bound on the nesting is the length of the list. -/
def build_cmd (u : Uninit) (list : Str) (alist : Option Nat) (pool : jhcNodePool) :
    Option (Option Nat × jhcNodePool) :=
  build_cmd_fuel u list (list.length + 1) alist pool

/-- Source function `jhcGraphizer::add_args (v, alist, pool)`. -/
def add_args (u : Uninit) (list : Str) (v : Nat) (alist : Option Nat) (pool : jhcNodePool) :
    Option (Option Nat × jhcNodePool) :=
  ALIA.add_args (build_obj_dflt u list) (build_cmd u list) list v alist pool

end jhcGraphizer

/-! ## Statement vocabulary for the builder claims -/

/-- The relations under which an object description holds its names, types,
properties, locations and parts. -/
def negRoles : List Str := ["lex".toList, "ako".toList, "hq".toList, "loc".toList, "has".toList]

/-- Every fact of node `n` under one of the relations `negRoles` has the negation
flag `neg`. -/
def factsNeg (pool : jhcNodePool) (n : Nat) (neg : Int) : Prop :=
  ∀ nd ∈ pool, ∀ role ∈ negRoles, (role, n) ∈ nd.args → nd.neg = neg

/-- The calls `bo` of `build_obj` leave the facts of node `n` negated as they
were and leave the node in the pool. -/
def keepsFacts (bo : BuildObj) (n : Nat) (neg : Int) : Prop :=
  ∀ a p r p1, bo a p = some (r, p1) → factsNeg p n neg → n < p.length →
    factsNeg p1 n neg ∧ n < p1.length

/-- No node of the pool is negated. -/
def allPlain (pool : jhcNodePool) : Prop := ∀ nd ∈ pool, nd.neg = 0

/-- The calls `bo` of `build_obj` add no negated node to a pool that has none. -/
def keepsPlain (bo : BuildObj) : Prop :=
  ∀ a p r p1, bo a p = some (r, p1) → allPlain p → allPlain p1

/-! ## Node levels of the examples -/

/-- The directive kinds by their lower-case names, for the examples (the real
table is in `jhcAliaDir`, not among the sources). -/
def kindNames : List (Str × JDIR_KIND) :=
  [("note".toList, JDIR_KIND.NOTE), ("do".toList, JDIR_KIND.DO), ("punt".toList, JDIR_KIND.PUNT),
   ("find".toList, JDIR_KIND.FIND), ("chk".toList, JDIR_KIND.CHK), ("add".toList, JDIR_KIND.ADD),
   ("ante".toList, JDIR_KIND.ANTE)]

/-- A node level for the examples: the kinds are those of `kindNames`, the state
counts the nodes made, every command builds (one node, the list pointer where
it was) and every fact builds (consuming nothing); no object is ever found. -/
def cmdLevel : NodeLevel Nat Nat where
  CvtKind := fun k => (kindNames.find? (fun p => p.1 == k)).map (·.2)
  BuildIn := fun s _ => s
  MakeNode := fun s _ _ => (s, s + 1)
  AddProp := fun s _ _ _ => (s, s + 1)
  AddLex := fun s _ _ => s + 1
  MainProp := fun s => (if s = 0 then none else some (s - 1), s)
  SetMain := fun s _ => s
  query_ako := fun s _ => some (some s, s + 1)
  query_hq := fun s _ => some (some s, s + 1)
  build_cmd := fun s _ => some (some s, s + 1)
  build_obj := fun s _ => some (none, s)
  build_fact := fun s _ t => some (t, s + 1)
  add_cop := fun s _ t => some (t, s + 1)

/-- A node level for the examples on which nothing builds: no command, no
object, no fact. -/
def nilLevel : NodeLevel Nat Nat :=
  { cmdLevel with
    build_cmd := fun s _ => some (none, s)
    build_fact := fun s _ _ => some (none, s)
    add_cop := fun s _ _ => some (none, s) }

/-- The memory before anything is built. -/
def Mem.empty : Mem Nat := ⟨0, [], [], []⟩

/-! ## jhcGraphizer: statements -/

namespace jhcGraphizer

/-- Source function `jhcGraphizer::build_fact (subj, alist, pool)`: the returned pointer and the
pool; `none` for a runtime-constraint violation. -/
def build_fact (u : Uninit) (list : Str) (subj : Option Nat) (alist : Option Nat)
    (pool : jhcNodePool) : Option (Option Nat × jhcNodePool) :=
  match HasFrag list alist "$add".toList with
  | none => none
  | some true =>
    match (match subj with
        | some a => some ((some a, alist), pool)
        | none => build_obj_dflt u list alist pool) with
    | none => none
    | some ((none, _), p1) => some (none, p1)
    | some ((some agt, tail), p1) =>
      match add_cop u list agt tail p1 with
      | none => none
      | some (t1, p2) => (FragClose list t1 0 u.array).run.map (fun r => (r, p2))
  | some false =>
    match FragHasSlot list alist "NEG-V".toList u.array with
    | none => none
    | some has =>
      match build_cmd_verb list (list.length + 1) alist u.array 0 with
      | none => none
      | some none => some (none, pool)
      | some (some (val, t, next, after)) =>
        let act := MakeNode pool "act".toList (some val) (if has then 1 else 0) 10
        match (match subj with
            | some a => some ((some a, (none : Option Nat)), SetTags act.2 act.1 t)
            | none => build_obj_dflt u list alist (SetTags act.2 act.1 t)) with
        | none => none
        | some ((agt, _), p2) =>
          match build_cmd_mods u list act.1 (list.length + 1) alist next
              (match agt with
                | some a => AddArg p2 act.1 "agt".toList a
                | none => p2) with
          | none => none
          | some p4 =>
            match add_args u list act.1 (some after) p4 with
            | none => none
            | some (_, p5) => (FragClose list (some after) 0 u.array).run.map (fun r => (r, p5))

end jhcGraphizer

/-! ## jhcGraphizer: the node level -/

namespace jhcGraphizer

/-- Source function `jhcGraphizer::query_ako (alist, pool)`: the node returned and the pool. -/
def query_ako (u : Uninit) (list : Str) (alist : Option Nat) (pool : jhcNodePool) :
    Option (Option Nat × jhcNodePool) :=
  match build_obj_dflt u list alist pool with
  | none => none
  | some ((none, _), p1) => some (none, p1)
  | some ((some obj, _), p1) =>
    some (some (AddProp p1 (some obj) "ako".toList none 0 10 none).1,
      (AddProp p1 (some obj) "ako".toList none 0 10 none).2)

/-- Source function `jhcGraphizer::query_hq (alist, pool)`: the node returned and the pool. -/
def query_hq (u : Uninit) (list : Str) (alist : Option Nat) (pool : jhcNodePool) :
    Option (Option Nat × jhcNodePool) :=
  match (NextEntry list alist u.array 200).run with
  | none => none
  | some none => some (none, pool)
  | some (some (entry, tail)) =>
    match SlotGet (cstr entry) (some "AKO".toList) SlotGet_lower with
    | none => some (none, pool)
    | some kind =>
      match build_obj_dflt u list (some tail) pool with
      | none => none
      | some ((none, _), p1) => some (none, p1)
      | some ((some obj, _), p1) =>
        let main := AddProp p1 (some obj) "hq".toList none 0 10 none
        some (some main.1, (AddProp main.2 (some main.1) "ako".toList (some kind) 0 10 none).2)

/-- The node level of `jhcGraphizer` on a list: the builders embedded above, acting on the
pool.  Modelled from the spec: the kinds of `jhcAliaDir` by their names, and the
graphlet of `jhcGraphlet` (classes not among the sources): `BuildIn` and `SetMain` leave
the pool as it is, and `MainProp` gives the node made last.  A node that was never
assigned cannot be handed to `add_cop`. -/
def level (u : Uninit) (list : Str) : NodeLevel jhcNodePool Nat where
  CvtKind := fun k => (kindNames.find? (fun p => p.1 == k)).map (fun p => p.2)
  BuildIn := fun s _ => s
  MakeNode := fun s kind word => ALIA.MakeNode s kind word 0 10
  AddProp := fun s n role word => ALIA.AddProp s (some n) role (some word) 0 10 none
  AddLex := fun s n word => (ALIA.AddLex s n word 0 10).2
  MainProp := fun s => (if s.length = 0 then none else some (s.length - 1), s)
  SetMain := fun s _ => s
  query_ako := fun s t => query_ako u list t s
  query_hq := fun s t => query_hq u list t s
  build_cmd := fun s t => build_cmd u list t s
  build_obj := fun s t =>
    (build_obj_dflt u list t s).map
      (fun r => (match r.1 with
        | (some n, tl) => some (n, tl)
        | (none, _) => none, r.2))
  build_fact := fun s subj t => build_fact u list subj t s
  add_cop := fun s n t =>
    match n with
    | some a => add_cop u list a t s
    | none => none

end jhcGraphizer

/-! ## Statement vocabulary for the chain and conversion claims -/

/-- The chain step that `huh_tag` pushes: a NOTE whose key is the negated
`understand` node. -/
def huhStep : jhcAliaChain := ⟨some ⟨JDIR_KIND.NOTE, [huhNode]⟩, none, none⟩

/-- The outcome `r` of a conversion pushed exactly one focus on the queue `f`,
its code is not negative, and when the code is 0 the focus pushed is the step
of `huh_tag`. -/
def oneFocus {σ : Type} (f : List Nat) (r : Int × Mem σ) : Prop :=
  ∃ c, r.2.foci = f ++ [c] ∧ 0 ≤ r.1 ∧ (r.1 = 0 → r.2.chains[c]? = some huhStep)

/-- A directive fragment of an association list: the entry `!name`, the entries
of its body and the bare marker that closes it, with the kind that the name
stands for. -/
structure DirFrag where
  name : Str
  kind : JDIR_KIND
  body : List Str
  close : Str

/-- The entries of a directive fragment. -/
def DirFrag.text (d : DirFrag) : List Str := ('!' :: d.name) :: (d.body ++ [d.close])

/-- The entries of directive fragments that follow each other. -/
def fragsText : List DirFrag → List Str
  | [] => []
  | d :: ds => d.text ++ fragsText ds

/-- An entry as the parser writes it: not empty, shorter than the 200 byte
arrays, without a tab and without a blank at its end. -/
def Clean (f : Str) : Prop := f ≠ [] ∧ f.length < 200 ∧ TAB ∉ f ∧ f.getLast? ≠ some ' '

instance (f : Str) : Decidable (Clean f) := by unfold Clean; exact inferInstance

/-- The markers of a body are balanced: every prefix opens at least as many
fragments as it closes, and the whole body closes all that it opens. -/
def Balanced (body : List Str) : Prop :=
  net body = 0 ∧ ∀ j, j ≤ body.length → 0 ≤ net (body.take j)

instance (body : List Str) : Decidable (Balanced body) := by unfold Balanced; exact inferInstance

/-- A directive fragment with a valid kind and well-formed text. -/
def GoodFrag {σ ν : Type} (B : NodeLevel σ ν) (d : DirFrag) : Prop :=
  B.CvtKind d.name = some d.kind ∧ Clean ('!' :: d.name) ∧ (∀ f ∈ d.body, Clean f) ∧
    Balanced d.body ∧ isClose d.close = true

instance {σ ν : Type} (B : NodeLevel σ ν) (d : DirFrag) : Decidable (GoodFrag B d) := by
  unfold GoodFrag; exact inferInstance

/-- The directive fragments `ds`, standing one after the other from position `pos` of
the list, build with `bd`: whatever the state, the call of `build_dir` for each of
them, made with the pointer just after its tag, returns that pointer. -/
def BuildsAt {σ : Type} (bd : BuildDir σ) : Nat → List DirFrag → Prop
  | _, [] => True
  | pos, d :: ds =>
    (∀ s, ∃ s1, bd s ('!' :: d.name) (some (pos + 1 + ('!' :: d.name).length)) =
      some (some (pos + 1 + ('!' :: d.name).length), s1)) ∧
    BuildsAt bd (pos + (render d.text).length) ds

/-- Every directive body builds as a command or a query: `build_cmd`, `query_ako` and
`query_hq` return a node whatever they are given. -/
def Builds {σ ν : Type} (B : NodeLevel σ ν) : Prop :=
  (∀ s t, ∃ n s1, B.build_cmd s t = some (some n, s1)) ∧
  (∀ s t, ∃ n s1, B.query_ako s t = some (some n, s1)) ∧
  (∀ s t, ∃ n s1, B.query_hq s t = some (some n, s1))

/-- A chain step that holds a directive of kind `k` with nothing in its key and
no continuation, as `dir_step` makes it. -/
def dirStep (k : JDIR_KIND) : jhcAliaChain := ⟨some ⟨k, []⟩, none, none⟩

/-- The steps of a chain laid out from rank `n`: one directive for each kind,
each continuing with the step of the next rank, then the step `last`. -/
def chainSteps (n : Nat) (last : jhcAliaChain) : List JDIR_KIND → List jhcAliaChain
  | [] => [last]
  | k :: ks => ⟨some ⟨k, []⟩, none, some (n + 1)⟩ :: chainSteps (n + 1) last ks

/-- The association list of `m` directive fragments followed by a play of `k`
directive fragments. -/
def chainText (ds ps : List DirFrag) : List Str :=
  fragsText ds ++ "%play".toList :: (fragsText ps ++ ["%".toList])

/-- The step `c` at rank `n` followed by one directive for each kind, every one of
them continuing with the step of the next rank. -/
def linked (n : Nat) (c : jhcAliaChain) : List JDIR_KIND → List jhcAliaChain
  | [] => [{ c with cont := some (n + 1) }]
  | k :: ks => { c with cont := some (n + 1) } :: linked (n + 1) (dirStep k) ks

/-- The fragment `!do ACT=act %` of the examples. -/
def doFrag (act : Str) : DirFrag :=
  ⟨"do".toList, JDIR_KIND.DO, ["ACT=".toList ++ act], "%".toList⟩

/-! ## Statement vocabulary for the fragment scans -/

/-- The test `strchr("!$%", *entry) != NULL` of `NextFrag` on an entry read as a C string: an
entry that begins with a marker character passes it, and so does an empty
entry, whose first byte is the terminator. -/
def isFragTag (e : Str) : Bool :=
  match e with
  | [] => true
  | c :: _ => c == '!' || c == '$' || c == '%'

/-- The scan of `NextFrag` over a list of entries with their end positions and a
`frag` array of `ssz` bytes: the first entry that passes the marker test. -/
def fragScan (ssz : Nat) : List (Str × Nat) → Ret (Str × Nat)
  | [] => .null
  | (e, t) :: rest =>
    if ¬ e.length < 200 then .fault
    else if isFragTag e then (if e.length < ssz then .ptr (e, t) else .fault)
    else fragScan ssz rest

/-! ## Statement vocabulary for the action phrases -/

/-- The calls `bo` of `build_obj` never shorten the pool. -/
def growsObj (bo : BuildObj) : Prop :=
  ∀ a p r p1, bo a p = some (r, p1) → p.length ≤ p1.length

/-- The calls `bc` of `build_cmd` never shorten the pool and return a node made during
the call. -/
def growsCmd (bc : BuildCmd) : Prop :=
  ∀ a p r p1, bc a p = some (r, p1) → p.length ≤ p1.length ∧ ∀ n, r = some n → p.length ≤ n

/-! ## Statement vocabulary for the slots -/

/-- The slot name of an entry fits the 80 byte array that `FindSlot` hands to `NextSlot`: the
'=' of the entry, if it has one, stands before the 80th character. -/
def slotFits (f : Str) : Bool :=
  match strchr f '=' with
  | none => true
  | some k => decide (k < 80)

/-- The preference that `create_op` sets from the outcome of its search for a PREF slot:
the value of the qualifier found, 1.0 when there is none. -/
def prefOf (pv : Option (Str × Nat)) : Nat := (pv.map (fun x => pref_val x.1)).getD 10

/-! ## jhcGraphizer: attention -/

namespace jhcGraphizer

/-- Source function `jhcGraphizer::NameSaid (alist, mode)`; `none` for a runtime-constraint
violation. -/
def NameSaid (alist : Str) (pos : Option Nat) (mode : Int) : Option Int :=
  if mode ≤ 0 then some 1
  else
    match HasSlot alist pos "ATTN".toList FindSlot_local with
    | none => none
    | some false => some 0
    | some true =>
      if mode = 1 then some 1
      else
        match (NextMatches alist pos "ATTN".toList 4).run with
        | none => none
        | some none => some 0
        | some (some tail) =>
          if mode = 2 then some 1
          else if alist.getD tail NUL ≠ NUL then some 0
          else some 1

end jhcGraphizer

/-! ## More node levels of the examples -/

/-- A node level for the examples on which an object is found wherever it is
looked for (a new node, the list pointer where it was) and the copula builds
only when it is handed a node. -/
def objLevel : NodeLevel Nat Nat :=
  { cmdLevel with
    build_obj := fun s t => some (some (s, t), s + 1)
    add_cop := fun s n t => some (if n = none then none else t, s + 1) }

/-! ## Statement vocabulary for the copula -/

/-- A pair of a copula fragment, as far as its negation goes: the word of
negation, a name, or a property. -/
inductive CopPair where
  | neg (word : Str)
  | name (val : Str)
  | hq (val : Str)
deriving DecidableEq, Repr

/-- The entry of a pair of a copula fragment. -/
def CopPair.text : CopPair → Str
  | .neg w => "NEG=".toList ++ w
  | .name v => "NAME=".toList ++ v
  | .hq v => "HQ=".toList ++ v

/-- The facts that the pairs of a copula fragment give the subject `obj`, read
in order with the negation `n` in force: a word of negation turns the
negation on for the pairs after it; a name or a property is a fact with the
negation in force when it is read. -/
def copFacts (obj : Nat) : Int → List CopPair → List jhcNetNode
  | _, [] => []
  | _, .neg _ :: ps => copFacts obj 1 ps
  | n, .name v :: ps => ⟨v, none, n, 10, [("lex".toList, obj)], 0⟩ :: copFacts obj n ps
  | n, .hq v :: ps =>
    ⟨"hq".toList, some (all_lower v), n, 10, [("hq".toList, obj)], 0⟩ :: copFacts obj n ps

/-- The negation in force after the pairs. -/
def copNeg : Int → List CopPair → Int
  | n, [] => n
  | _, .neg _ :: ps => copNeg 1 ps
  | n, _ :: ps => copNeg n ps

/-! ## Statement vocabulary for the content of a fragment -/

/-- A closed fragment that stands inside another one, with the plain pairs that come
before it: the pairs, the entry of its tag, the entries of its body and the
bare marker that closes it. -/
structure SubFrag where
  pairs : List Str
  tag : Str
  body : List Str
  close : Str

/-- The entries of a closed fragment and of the pairs before it. -/
def SubFrag.text (s : SubFrag) : List Str := s.pairs ++ s.tag :: (s.body ++ [s.close])

/-- The entries of closed fragments that follow each other. -/
def subsText : List SubFrag → List Str
  | [] => []
  | s :: ss => s.text ++ subsText ss

/-- Well-formed text of a closed fragment: the pairs before it begin with no
marker, the tag is a marker followed by a name, the body is balanced. -/
def SubFrag.Good (s : SubFrag) : Prop :=
  (∀ f ∈ s.pairs, Clean f ∧ isFragTag f = false) ∧ Clean s.tag ∧ isFragTag s.tag = true ∧
    2 ≤ s.tag.length ∧ (∀ f ∈ s.body, Clean f) ∧ Balanced s.body ∧ isClose s.close = true

instance (s : SubFrag) : Decidable s.Good := by unfold SubFrag.Good; exact inferInstance

/-- The marker of a trigger: `$trig-n` for a prohibition, `$trig` otherwise. -/
def trigTag (veto : Bool) : Str := if veto then "$trig-n".toList else "$trig".toList

/-! ## Statement vocabulary for the procedure of an operator -/

theorem chr_cast (s : Str) (n : Nat) : chr s (n : Int) = s.getD n NUL := by
  simp [chr]

theorem setc_NUL_cast (s : Str) (n : Nat) : setc s (n : Int) NUL = s.take n := by
  simp [setc]

theorem setc_cast (s : Str) (n : Nat) (c : Char) (h : c ≠ NUL) :
    setc s (n : Int) c = s.set n c := by
  simp [setc, h]

theorem getD_append_add (a b : Str) (k : Nat) :
    (a ++ b).getD (a.length + k) NUL = b.getD k NUL := by
  simp [List.getD_eq_getElem?_getD, List.getElem?_append_right]

theorem take_append_add (a b : Str) (k : Nat) :
    (a ++ b).take (a.length + k) = a ++ b.take k := by
  simp [List.take_append_eq_append_take]

theorem get_base_noExcept (v : Str) (t : Nat) : get_base noExcept v t = none := by
  simp [get_base, scan_for, noExcept, ClrExcept]

theorem BaseVerb_ACT (t : Nat) (v : Str) :
    BaseVerb noExcept t (mkPair "ACT".toList v) = (some (verb_stem v JTAG_VIMP), JTAG_VIMP) := by
  simp [BaseVerb, get_base_noExcept, SlotRef, SlotMatch, SlotStart, strncmp_eq, gram_tag, strchr, chr,
    mkPair]
  decide

theorem BaseVerb_ACT_S (t : Nat) (v : Str) :
    BaseVerb noExcept t (mkPair "ACT-S".toList v) = (some (verb_stem v JTAG_VPRES), JTAG_VPRES) := by
  simp [BaseVerb, get_base_noExcept, SlotRef, SlotMatch, SlotStart, strncmp_eq, gram_tag, strchr, chr,
    mkPair]
  decide

theorem BaseVerb_ACT_D (t : Nat) (v : Str) :
    BaseVerb noExcept t (mkPair "ACT-D".toList v) = (some (verb_stem v JTAG_VPAST), JTAG_VPAST) := by
  simp [BaseVerb, get_base_noExcept, SlotRef, SlotMatch, SlotStart, strncmp_eq, gram_tag, strchr, chr,
    mkPair]
  decide

theorem BaseVerb_ACT_G (t : Nat) (v : Str) :
    BaseVerb noExcept t (mkPair "ACT-G".toList v) = (some (verb_stem v JTAG_VPROG), JTAG_VPROG) := by
  simp [BaseVerb, get_base_noExcept, SlotRef, SlotMatch, SlotStart, strncmp_eq, gram_tag, strchr, chr,
    mkPair]
  decide


theorem chr_append_right (u l : Str) (i : Int) (h : (u.length : Int) ≤ i) :
    chr (u ++ l) i = chr l (i - u.length) := by
  have e : i.toNat = u.length + (i - u.length).toNat := by omega
  unfold chr
  rw [e]
  exact getD_append_add u l _

theorem chr_cons_pos (x : Char) (l : Str) (i : Int) (h : 0 < i) :
    chr (x :: l) i = chr l (i - 1) := by
  have e : i.toNat = (i - 1).toNat + 1 := by omega
  unfold chr
  rw [e]
  rfl

theorem chr_cons_zero (x : Char) (l : Str) (i : Int) (h : i = 0) : chr (x :: l) i = x := by
  subst h; rfl

theorem setc_append_right (u l : Str) (i : Int) (c : Char) (h : (u.length : Int) ≤ i) :
    setc (u ++ l) i c = u ++ setc l (i - u.length) c := by
  have e : i.toNat = u.length + (i - u.length).toNat := by omega
  unfold setc
  rw [e]
  by_cases hc : c = NUL
  · rw [if_pos hc, if_pos hc]
    exact take_append_add u l _
  · rw [if_neg hc, if_neg hc]
    simp [List.set_append]

theorem setc_cons_pos (x : Char) (l : Str) (i : Int) (c : Char) (h : 0 < i) :
    setc (x :: l) i c = x :: setc l (i - 1) c := by
  have e : i.toNat = (i - 1).toNat + 1 := by omega
  unfold setc
  rw [e]
  by_cases hc : c = NUL
  · rw [if_pos hc, if_pos hc]; rfl
  · rw [if_neg hc, if_neg hc]; rfl

theorem setc_cons_zero (x : Char) (l : Str) (i : Int) (h : i = 0) : setc (x :: l) i NUL = [] := by
  subst h; rfl

theorem setc_cons_zero_y (x : Char) (l : Str) (i : Int) (h : i = 0) :
    setc (x :: l) i 'y' = 'y' :: l := by
  subst h; rfl

theorem JTAG_VPROG_ne : JTAG_VPROG ≠ 0 := by decide

theorem JTAG_VPAST_ne : JTAG_VPAST ≠ 0 := by decide

theorem JTAG_VPRES_ne : JTAG_VPRES ≠ 0 := by decide

theorem JTAG_NPL_ne : JTAG_NPL ≠ 0 := by decide

theorem verb_stem_prog (u : Str) (c : Char) (hu : 1 ≤ u.length) :
    verb_stem (u ++ [c, c, 'i', 'n', 'g']) JTAG_VPROG = u ++ [c] := by
  have e1 : (u ++ [c, c, 'i', 'n', 'g']).length = u.length + 5 := by simp
  have t1 : JTAG_VPROG &&& JTAG_VPRES = 0 := by decide
  have t2 : JTAG_VPROG &&& JTAG_VPAST = 0 := by decide
  have h2 : ((u ++ [c, c, 'i', 'n', 'g']).length : Int) - 1 > 2 := by omega
  have h4 : ((u ++ [c, c, 'i', 'n', 'g']).length : Int) - 1 > 4 := by omega
  simp (disch := omega) only [verb_stem, t1, t2, chr_append_right, chr_cons_pos, chr_cons_zero,
    setc_append_right, setc_cons_pos, setc_cons_zero, h2, h4]
  simp [JTAG_VPROG_ne]

theorem verb_stem_past (u : Str) (c : Char) (hu : 1 ≤ u.length) :
    verb_stem (u ++ [c, c, 'e', 'd']) JTAG_VPAST = u ++ [c] := by
  have e1 : (u ++ [c, c, 'e', 'd']).length = u.length + 4 := by simp
  have t1 : JTAG_VPAST &&& JTAG_VPRES = 0 := by decide
  have h2 : ((u ++ [c, c, 'e', 'd']).length : Int) - 1 > 1 := by omega
  have h4 : ((u ++ [c, c, 'e', 'd']).length : Int) - 1 > 3 := by omega
  simp (disch := omega) only [verb_stem, t1, chr_append_right, chr_cons_pos, chr_cons_zero,
    setc_append_right, setc_cons_pos, setc_cons_zero, h2, h4]
  simp [JTAG_VPAST_ne]

theorem base_verb_prog (t : Nat) (u : Str) (c : Char) (hu : 1 ≤ u.length) :
    base_verb t (mkPair "ACT-G".toList (u ++ [c, c, 'i', 'n', 'g'])) =
      (some (u ++ [c]), JTAG_VPROG) := by
  have h3 : 3 < (u.length : Int) + 5 := by omega
  simp [base_verb, strncmp_eq, strchr, mkPair]
  simp (disch := omega) only [chr_append_right, chr_cons_pos, chr_cons_zero,
    setc_append_right, setc_cons_pos, setc_cons_zero]
  simp [h3]
  rintro rfl
  simp at hu

theorem base_verb_past (t : Nat) (u : Str) (c : Char) (hu : 1 ≤ u.length) :
    base_verb t (mkPair "ACT-D".toList (u ++ [c, c, 'e', 'd'])) =
      (some (u ++ [c]), JTAG_VPAST) := by
  have h3 : 2 < (u.length : Int) + 4 := by omega
  simp [base_verb, strncmp_eq, strchr, mkPair]
  simp (disch := omega) only [chr_append_right, chr_cons_pos, chr_cons_zero,
    setc_append_right, setc_cons_pos, setc_cons_zero]
  simp [h3]
  rintro rfl
  simp at hu

theorem getLast?_split (w : Str) (c : Char) (h : w.getLast? = some c) :
    ∃ u, w = u ++ [c] := by
  rcases List.eq_nil_or_concat w with rfl | ⟨u, b, rfl⟩
  · simp at h
  · simp at h
    exact ⟨u, by rw [h]; simp⟩

/-- C5: with no exceptions loaded, for every word `w` of length at least 2 with
last character `c`, `BaseVerb` (and the inlined `base_verb`) maps the pair
`ACT-G=` w c `ing` to `w` with the progressive tag and `ACT-D=` w c `ed` to `w`
with the past tag. -/
theorem doubled_consonant_repair (t : Nat) (w : Str) (c : Char) (hw : 2 ≤ w.length)
    (hc : w.getLast? = some c) :
    BaseVerb noExcept t (mkPair "ACT-G".toList (w ++ c :: "ing".toList)) = (some w, JTAG_VPROG) ∧
    BaseVerb noExcept t (mkPair "ACT-D".toList (w ++ c :: "ed".toList)) = (some w, JTAG_VPAST) ∧
    base_verb t (mkPair "ACT-G".toList (w ++ c :: "ing".toList)) = (some w, JTAG_VPROG) ∧
    base_verb t (mkPair "ACT-D".toList (w ++ c :: "ed".toList)) = (some w, JTAG_VPAST) := by
  obtain ⟨u, rfl⟩ := getLast?_split w c hc
  have hu : 1 ≤ u.length := by simp at hw; omega
  have e1 : u ++ [c] ++ c :: "ing".toList = u ++ [c, c, 'i', 'n', 'g'] := by simp
  have e2 : u ++ [c] ++ c :: "ed".toList = u ++ [c, c, 'e', 'd'] := by simp
  rw [e1, e2, BaseVerb_ACT_G, BaseVerb_ACT_D, verb_stem_prog u c hu, verb_stem_past u c hu,
    base_verb_prog t u c hu, base_verb_past t u c hu]
  exact ⟨rfl, rfl, rfl, rfl⟩

theorem doubled_consonant_repair_witness :
    BaseVerb noExcept 0 "ACT-G=tipping".toList = (some "tip".toList, JTAG_VPROG) ∧
    BaseVerb noExcept 0 "ACT-D=tipped".toList = (some "tip".toList, JTAG_VPAST) ∧
    base_verb 0 "ACT-G=tipping".toList = (some "tip".toList, JTAG_VPROG) ∧
    base_verb 0 "ACT-D=tipped".toList = (some "tip".toList, JTAG_VPAST) :=
  doubled_consonant_repair 0 "tip".toList 'p' (by decide) (by decide)


theorem suffix_append_of_length (u l s : Str) (h : l.length = s.length) :
    s <:+ u ++ l ↔ s = l := by
  constructor
  · intro hs
    have h2 : l <:+ u ++ l := List.suffix_append u l
    exact (List.suffix_of_suffix_length_le hs h2 (by omega)).eq_of_length (by omega)
  · rintro rfl
    exact List.suffix_append u s

theorem BaseNoun_AKO_S (t : Nat) (v : Str) (h1 : v ≠ "thing".toList)
    (h2 : v ≠ "something".toList) :
    BaseNoun noExcept t (mkPair "AKO-S".toList v) = (some (noun_stem v JTAG_NPL), JTAG_NPL) := by
  have h1' : ¬ v = ['t', 'h', 'i', 'n', 'g'] := h1
  have h2' : ¬ v = ['s', 'o', 'm', 'e', 't', 'h', 'i', 'n', 'g'] := h2
  simp [BaseNoun, get_base_noExcept, SlotRef, SlotMatch, SlotStart, strncmp_eq, gram_tag, strchr, chr,
    mkPair, h1', h2']
  decide

theorem base_noun_AKO_S (t : Nat) (v : Str) (h1 : v ≠ "thing".toList)
    (h2 : v ≠ "something".toList) :
    base_noun t (mkPair "AKO-S".toList v) = (some (noun_stem v JTAG_NPL), JTAG_NPL) := by
  have h1' : ¬ v = ['t', 'h', 'i', 'n', 'g'] := h1
  have h2' : ¬ v = ['s', 'o', 'm', 'e', 't', 'h', 'i', 'n', 'g'] := h2
  simp only [base_noun, noun_stem]
  simp [strncmp_eq, strchr, mkPair, h1', h2', JTAG_NPL_ne]
  split_ifs <;> rfl

theorem noun_stem_long (u : Str) (x y : Char) (hu : 1 ≤ u.length) :
    noun_stem (u ++ [x, y, 's']) JTAG_NPL =
      if x = 's' ∧ y = 'e' then u ++ [x]
      else if x = 'i' ∧ y = 'e' then u ++ ['y'] else u ++ [x, y] := by
  have e1 : (u ++ [x, y, 's']).length = u.length + 3 := by simp
  have t1 : JTAG_NPL &&& JTAG_NPL ≠ 0 := by decide
  have h0 : ((u ++ [x, y, 's']).length : Int) - 1 > 0 := by omega
  have h2 : ((u ++ [x, y, 's']).length : Int) - 1 > 2 := by omega
  simp (disch := omega) only [noun_stem, chr_append_right, chr_cons_pos, chr_cons_zero,
    setc_append_right, setc_cons_pos, setc_cons_zero, setc_cons_zero_y, h0, h2]
  simp [JTAG_NPL_ne]

theorem noun_stem_short (w : Str) (h1 : 1 ≤ w.length) (h2 : w.length ≤ 2) :
    noun_stem (w ++ ['s']) JTAG_NPL = w := by
  have e1 : (w ++ ['s']).length = w.length + 1 := by simp
  have t1 : JTAG_NPL &&& JTAG_NPL ≠ 0 := by decide
  have h0 : ((w ++ ['s']).length : Int) - 1 > 0 := by omega
  have h2 : ¬ ((w ++ ['s']).length : Int) - 1 > 2 := by omega
  simp (disch := omega) only [noun_stem, chr_append_right, chr_cons_pos, chr_cons_zero,
    setc_append_right, setc_cons_pos, setc_cons_zero, setc_cons_zero_y, h0, h2]
  simp [JTAG_NPL_ne]

theorem noun_stem_s (w : Str) (hw : w ≠ []) (h1 : ¬ "se".toList <:+ w)
    (h2 : ¬ "ie".toList <:+ w) : noun_stem (w ++ ['s']) JTAG_NPL = w := by
  rcases List.eq_nil_or_concat w with rfl | ⟨w1, y, rfl⟩
  · exact absurd rfl hw
  rcases List.eq_nil_or_concat w1 with rfl | ⟨w2, x, rfl⟩
  · exact noun_stem_short _ (by simp) (by simp)
  rcases List.eq_nil_or_concat w2 with rfl | ⟨w3, z, rfl⟩
  · exact noun_stem_short _ (by simp) (by simp)
  have e : ((w3.concat z).concat x).concat y = (w3 ++ [z]) ++ [x, y] := by simp
  rw [e] at h1 h2 ⊢
  rw [suffix_append_of_length _ [x, y] "se".toList rfl] at h1
  rw [suffix_append_of_length _ [x, y] "ie".toList rfl] at h2
  have e2 : w3 ++ [z] ++ [x, y] ++ ['s'] = (w3 ++ [z]) ++ [x, y, 's'] := by simp
  rw [e2, noun_stem_long _ x y (by simp)]
  have h1' : ¬ (x = 's' ∧ y = 'e') := by
    rintro ⟨rfl, rfl⟩; exact h1 rfl
  have h2' : ¬ (x = 'i' ∧ y = 'e') := by
    rintro ⟨rfl, rfl⟩; exact h2 rfl
  rw [if_neg h1', if_neg h2']

theorem noun_stem_ies (w : Str) (hw : w ≠ []) :
    noun_stem (w ++ ['i', 'e', 's']) JTAG_NPL = w ++ ['y'] := by
  have hl : 1 ≤ w.length := by
    cases w with
    | nil => exact absurd rfl hw
    | cons a l => simp
  rw [noun_stem_long w 'i' 'e' hl]
  simp

theorem ne_of_getLast_ne (a b : Str) (h : a.getLast? ≠ b.getLast?) : a ≠ b := by
  rintro rfl; exact h rfl

/-- C6: with no exceptions loaded, for every non-empty word `w` not ending in
`se` or `ie`, `BaseNoun` (and the inlined `base_noun`) maps `AKO-S=` w `s` to `w`,
and for every non-empty `w` it maps `AKO-S=` w `ies` to w `y`, with the plural tag. -/
theorem regular_plural_repair (t : Nat) (w : Str) (hw : w ≠ []) :
    ((¬ "se".toList <:+ w ∧ ¬ "ie".toList <:+ w) →
      BaseNoun noExcept t (mkPair "AKO-S".toList (w ++ "s".toList)) = (some w, JTAG_NPL) ∧
      base_noun t (mkPair "AKO-S".toList (w ++ "s".toList)) = (some w, JTAG_NPL)) ∧
    BaseNoun noExcept t (mkPair "AKO-S".toList (w ++ "ies".toList)) =
      (some (w ++ "y".toList), JTAG_NPL) ∧
    base_noun t (mkPair "AKO-S".toList (w ++ "ies".toList)) =
      (some (w ++ "y".toList), JTAG_NPL) := by
  have n1 : w ++ "s".toList ≠ "thing".toList := ne_of_getLast_ne _ _ (by simp)
  have n2 : w ++ "s".toList ≠ "something".toList := ne_of_getLast_ne _ _ (by simp)
  have n3 : w ++ "ies".toList ≠ "thing".toList := ne_of_getLast_ne _ _ (by simp)
  have n4 : w ++ "ies".toList ≠ "something".toList := ne_of_getLast_ne _ _ (by simp)
  rw [BaseNoun_AKO_S t _ n3 n4, base_noun_AKO_S t _ n3 n4, BaseNoun_AKO_S t _ n1 n2,
    base_noun_AKO_S t _ n1 n2]
  refine ⟨fun h => ?_, ?_, ?_⟩
  · have := noun_stem_s w hw h.1 h.2
    simp only [String.toList] at this ⊢
    exact ⟨by rw [this], by rw [this]⟩
  · have := noun_stem_ies w hw
    simp only [String.toList] at this ⊢
    rw [this]
  · have := noun_stem_ies w hw
    simp only [String.toList] at this ⊢
    rw [this]

theorem regular_plural_repair_witness :
    (BaseNoun noExcept 0 (mkPair "AKO-S".toList ("dog".toList ++ "s".toList)) =
        (some "dog".toList, JTAG_NPL) ∧
      base_noun 0 (mkPair "AKO-S".toList ("dog".toList ++ "s".toList)) =
        (some "dog".toList, JTAG_NPL)) ∧
    BaseNoun noExcept 0 (mkPair "AKO-S".toList ("dog".toList ++ "ies".toList)) =
      (some ("dog".toList ++ "y".toList), JTAG_NPL) ∧
    base_noun 0 (mkPair "AKO-S".toList ("dog".toList ++ "ies".toList)) =
      (some ("dog".toList ++ "y".toList), JTAG_NPL) :=
  ⟨(regular_plural_repair 0 "dog".toList (by decide)).1 ⟨by decide, by decide⟩,
    (regular_plural_repair 0 "dog".toList (by decide)).2⟩

theorem noun_stem_es (w : Str) (c : Char) (hc : w.getLast? = some c) :
    noun_stem (w ++ ['e', 's']) JTAG_NPL =
      if 2 ≤ w.length ∧ c = 's' then w
      else if 2 ≤ w.length ∧ c = 'i' then w.dropLast ++ ['y'] else w ++ ['e'] := by
  obtain ⟨u, rfl⟩ := getLast?_split w c hc
  rcases List.eq_nil_or_concat u with rfl | ⟨u1, z, rfl⟩
  · have := noun_stem_short [c, 'e'] (by simp) (by simp)
    simpa using this
  · have e : u1.concat z ++ [c] ++ ['e', 's'] = (u1 ++ [z]) ++ [c, 'e', 's'] := by simp
    rw [e, noun_stem_long _ c 'e' (by simp)]
    simp

/-- C7 (as stated, refuted): on `AKO-S=dishes` the noun normalizer returns
`dishe`, not `dish`: only a word ending in `ses` loses its `e`. -/
theorem sibilant_plural_dishes :
    BaseNoun noExcept 0 "AKO-S=dishes".toList = (some "dishe".toList, JTAG_NPL) ∧
    (BaseNoun noExcept 0 "AKO-S=dishes".toList).1 ≠ some "dish".toList := by
  decide

/-- C7 (amended): with no exceptions loaded, `BaseNoun` (and `base_noun`) on
`AKO-S=` w `es` returns `w` when `w` has at least two characters and ends in `s`;
when it ends in `i` the `ie` becomes `y`; for every other ending, sibilant or not,
only the final `s` is stripped and the result is w `e`. -/
theorem sibilant_plural_repair (t : Nat) (w : Str) (c : Char) (hc : w.getLast? = some c) :
    BaseNoun noExcept t (mkPair "AKO-S".toList (w ++ "es".toList)) =
      (some (if 2 ≤ w.length ∧ c = 's' then w
        else if 2 ≤ w.length ∧ c = 'i' then w.dropLast ++ "y".toList else w ++ "e".toList),
        JTAG_NPL) ∧
    base_noun t (mkPair "AKO-S".toList (w ++ "es".toList)) =
      (some (if 2 ≤ w.length ∧ c = 's' then w
        else if 2 ≤ w.length ∧ c = 'i' then w.dropLast ++ "y".toList else w ++ "e".toList),
        JTAG_NPL) := by
  have n1 : w ++ "es".toList ≠ "thing".toList := ne_of_getLast_ne _ _ (by simp)
  have n2 : w ++ "es".toList ≠ "something".toList := ne_of_getLast_ne _ _ (by simp)
  rw [BaseNoun_AKO_S t _ n1 n2, base_noun_AKO_S t _ n1 n2]
  have := noun_stem_es w c hc
  simp only [String.toList] at this ⊢
  rw [this]
  exact ⟨rfl, rfl⟩

theorem sibilant_plural_repair_witness :
    BaseNoun noExcept 0 (mkPair "AKO-S".toList ("glass".toList ++ "es".toList)) =
      (some "glass".toList, JTAG_NPL) ∧
    base_noun 0 (mkPair "AKO-S".toList ("glass".toList ++ "es".toList)) =
      (some "glass".toList, JTAG_NPL) :=
  sibilant_plural_repair 0 "glass".toList 's' (by decide)


theorem split_last1 (v : Str) (h : 1 ≤ v.length) : ∃ u a, v = u ++ [a] := by
  rcases List.eq_nil_or_concat v with rfl | ⟨u, a, rfl⟩
  · simp at h
  · exact ⟨u, a, by simp⟩

theorem split_last2 (v : Str) (h : 2 ≤ v.length) : ∃ u a b, v = u ++ [a, b] := by
  obtain ⟨u, b, rfl⟩ := split_last1 v (by omega)
  obtain ⟨u1, a, rfl⟩ := split_last1 u (by simp at h; omega)
  exact ⟨u1, a, b, by simp⟩

theorem split_last3 (v : Str) (h : 3 ≤ v.length) : ∃ u a b c, v = u ++ [a, b, c] := by
  obtain ⟨u, b, c, rfl⟩ := split_last2 v (by omega)
  obtain ⟨u1, a, rfl⟩ := split_last1 u (by simp at h; omega)
  exact ⟨u1, a, b, c, by simp⟩

theorem verb_stem_imp (v : Str) : verb_stem v JTAG_VIMP = v := by
  have t1 : JTAG_VIMP &&& JTAG_VPRES = 0 := by decide
  have t2 : JTAG_VIMP &&& JTAG_VPAST = 0 := by decide
  have t3 : JTAG_VIMP &&& JTAG_VPROG = 0 := by decide
  simp [verb_stem, t1, t2, t3]

theorem verb_stem_pres_eq (v : Str) :
    verb_stem v JTAG_VPRES =
      if (v.length : Int) - 1 > 0 ∧ chr v ((v.length : Int) - 1) = 's' then
        setc v ((v.length : Int) - 1) NUL
      else v := by
  simp only [verb_stem, eq_true (by decide : JTAG_VPRES &&& JTAG_VPRES ≠ 0), if_true]

theorem verb_stem_past_eq (v : Str) :
    verb_stem v JTAG_VPAST =
      if (v.length : Int) - 1 > 1 ∧ chr v ((v.length : Int) - 1 - 1) = 'e' ∧
          chr v ((v.length : Int) - 1) = 'd' then
        if (v.length : Int) - 1 > 3 ∧
            chr v ((v.length : Int) - 1 - 3) = chr v ((v.length : Int) - 1 - 2) then
          setc v ((v.length : Int) - 1 - 2) NUL
        else setc v ((v.length : Int) - 1 - 1) NUL
      else v := by
  simp only [verb_stem, eq_false (by decide : ¬ JTAG_VPAST &&& JTAG_VPRES ≠ 0),
    eq_true (by decide : JTAG_VPAST &&& JTAG_VPAST ≠ 0), if_true, if_false]

theorem verb_stem_prog_eq (v : Str) :
    verb_stem v JTAG_VPROG =
      if (v.length : Int) - 1 > 2 ∧ chr v ((v.length : Int) - 1 - 2) = 'i' ∧
          chr v ((v.length : Int) - 1 - 1) = 'n' ∧ chr v ((v.length : Int) - 1) = 'g' then
        if (v.length : Int) - 1 > 4 ∧
            chr v ((v.length : Int) - 1 - 4) = chr v ((v.length : Int) - 1 - 3) then
          setc v ((v.length : Int) - 1 - 3) NUL
        else setc v ((v.length : Int) - 1 - 2) NUL
      else v := by
  simp only [verb_stem, eq_false (by decide : ¬ JTAG_VPROG &&& JTAG_VPRES ≠ 0),
    eq_false (by decide : ¬ JTAG_VPROG &&& JTAG_VPAST ≠ 0),
    eq_true (by decide : JTAG_VPROG &&& JTAG_VPROG ≠ 0), if_true, if_false]

theorem verb_stem_pres_stable (v : Str) (h : ¬ endsIn v "s".toList) :
    verb_stem v JTAG_VPRES = v := by
  rw [verb_stem_pres_eq]
  by_cases hl : 2 ≤ v.length
  · obtain ⟨u, a, rfl⟩ := split_last1 v (by omega)
    have hu : 1 ≤ u.length := by simp at hl; omega
    have e1 : (u ++ [a]).length = u.length + 1 := by simp
    have ha : ¬ a = 's' := by
      rintro rfl
      exact h ⟨by simp, by simp; omega, List.suffix_append u _⟩
    simp (disch := omega) only [chr_append_right, chr_cons_pos, chr_cons_zero]
    rw [if_neg (fun hc => ha hc.2)]
  · rw [if_neg (fun hc => hl (by omega))]

theorem verb_stem_past_stable (v : Str) (h : ¬ endsIn v "ed".toList) :
    verb_stem v JTAG_VPAST = v := by
  rw [verb_stem_past_eq]
  by_cases hl : 3 ≤ v.length
  · obtain ⟨u, a, b, rfl⟩ := split_last2 v (by omega)
    have hu : 1 ≤ u.length := by simp at hl; omega
    have e1 : (u ++ [a, b]).length = u.length + 2 := by simp
    have hab : ¬ (a = 'e' ∧ b = 'd') := by
      rintro ⟨rfl, rfl⟩
      exact h ⟨by simp, by simp; omega, List.suffix_append u _⟩
    simp (disch := omega) only [chr_append_right, chr_cons_pos, chr_cons_zero]
    rw [if_neg (fun hc => hab ⟨hc.2.1, hc.2.2⟩)]
  · rw [if_neg (fun hc => hl (by omega))]

theorem verb_stem_prog_stable (v : Str) (h : ¬ endsIn v "ing".toList) :
    verb_stem v JTAG_VPROG = v := by
  rw [verb_stem_prog_eq]
  by_cases hl : 4 ≤ v.length
  · obtain ⟨u, a, b, c, rfl⟩ := split_last3 v (by omega)
    have hu : 1 ≤ u.length := by simp at hl; omega
    have e1 : (u ++ [a, b, c]).length = u.length + 3 := by simp
    have hab : ¬ (a = 'i' ∧ b = 'n' ∧ c = 'g') := by
      rintro ⟨rfl, rfl, rfl⟩
      exact h ⟨by simp, by simp; omega, List.suffix_append u _⟩
    simp (disch := omega) only [chr_append_right, chr_cons_pos, chr_cons_zero]
    rw [if_neg (fun hc => hab ⟨hc.2.1, hc.2.2.1, hc.2.2.2⟩)]
  · rw [if_neg (fun hc => hl (by omega))]

/-- C8 (as stated, refuted): under the past slot `needed` stems to `need`, and
stemming `need` again under the same slot gives `ne`. -/
theorem verb_stem_not_idempotent :
    BaseVerb noExcept 0 (mkPair "ACT-D".toList "needed".toList) =
      (some "need".toList, JTAG_VPAST) ∧
    BaseVerb noExcept 0 (mkPair "ACT-D".toList "need".toList) =
      (some "ne".toList, JTAG_VPAST) := by
  decide

/-- C8 (amended): with no exceptions loaded, for every verb slot and every
surface word, if the stem `BaseVerb` returns is not a longer word still ending
in the suffix of that slot (`s`, `ed`, `ing`; none for `ACT`), stemming it again
under the same slot gives the same word and tag. -/
theorem verb_restem (t : Nat) (slot suf w s : Str) (hf : (slot, suf) ∈ verbForms)
    (hs : (BaseVerb noExcept t (mkPair slot w)).1 = some s) (hend : ¬ endsIn s suf) :
    BaseVerb noExcept t (mkPair slot s) = BaseVerb noExcept t (mkPair slot w) := by
  simp only [verbForms, List.mem_cons, Prod.mk.injEq, List.mem_singleton, List.not_mem_nil,
    or_false] at hf
  rcases hf with ⟨rfl, rfl⟩ | ⟨rfl, rfl⟩ | ⟨rfl, rfl⟩ | ⟨rfl, rfl⟩
  · rw [BaseVerb_ACT, verb_stem_imp] at hs
    rw [BaseVerb_ACT, BaseVerb_ACT, verb_stem_imp, verb_stem_imp]
    simpa using hs.symm
  · rw [BaseVerb_ACT_S] at hs ⊢
    rw [BaseVerb_ACT_S, verb_stem_pres_stable s hend]
    simpa using hs.symm
  · rw [BaseVerb_ACT_D] at hs ⊢
    rw [BaseVerb_ACT_D, verb_stem_past_stable s hend]
    simpa using hs.symm
  · rw [BaseVerb_ACT_G] at hs ⊢
    rw [BaseVerb_ACT_G, verb_stem_prog_stable s hend]
    simpa using hs.symm

theorem verb_restem_witness :
    BaseVerb noExcept 0 (mkPair "ACT-D".toList "grab".toList) =
      BaseVerb noExcept 0 (mkPair "ACT-D".toList "grabbed".toList) :=
  verb_restem 0 "ACT-D".toList "ed".toList "grabbed".toList "grab".toList (by decide)
    (by decide) (by decide)


theorem noun_stem_stable (v : Str) (h : ¬ endsIn v "s".toList) : noun_stem v JTAG_NPL = v := by
  simp only [noun_stem, eq_true (by decide : JTAG_NPL &&& JTAG_NPL ≠ 0), if_true]
  by_cases hl : 2 ≤ v.length
  · obtain ⟨u, a, rfl⟩ := split_last1 v (by omega)
    have hu : 1 ≤ u.length := by simp at hl; omega
    have e1 : (u ++ [a]).length = u.length + 1 := by simp
    have ha : ¬ a = 's' := by
      rintro rfl
      exact h ⟨by simp, by simp; omega, List.suffix_append u _⟩
    simp (disch := omega) only [chr_append_right, chr_cons_pos, chr_cons_zero]
    rw [if_neg (fun hc => ha hc.2)]
  · rw [if_neg (fun hc => hl (by omega))]

/-- C9 (as stated, refuted): under the plural slot `glasses` stems to `glass`,
and stemming `glass` again gives `glas`; `things` stems to `thing`, for which
the second call returns no match. -/
theorem noun_stem_not_idempotent :
    BaseNoun noExcept 0 (mkPair "AKO-S".toList "glasses".toList) =
      (some "glass".toList, JTAG_NPL) ∧
    BaseNoun noExcept 0 (mkPair "AKO-S".toList "glass".toList) =
      (some "glas".toList, JTAG_NPL) ∧
    BaseNoun noExcept 0 (mkPair "AKO-S".toList "things".toList) =
      (some "thing".toList, JTAG_NPL) ∧
    (BaseNoun noExcept 0 (mkPair "AKO-S".toList "thing".toList)).1 = none := by
  decide

theorem BaseNoun_placeholder (t : Nat) (slot v : Str)
    (h : v = "thing".toList ∨ v = "something".toList) (hslot : '=' ∉ slot) :
    (BaseNoun noExcept t (mkPair slot v)).1 = none := by
  have e : SlotRef (mkPair slot v) = some v := by
    unfold mkPair SlotRef
    induction slot with
    | nil => simp [strchr]
    | cons a l ih =>
      have ha : ¬ a = '=' := fun h => hslot (by simp [h])
      have hl : '=' ∉ l := fun h => hslot (by simp [h])
      have ih := ih hl
      simp only [List.cons_append, strchr, ha, if_false]
      cases hk : strchr (l ++ '=' :: v) '=' with
      | none => simp [hk] at ih
      | some k => simpa [hk] using ih
  simp only [BaseNoun, e]
  rw [if_pos h]

/-- C9 (amended): with no exceptions loaded, for every surface word, if the
canonical form `BaseNoun` returns under `AKO-S` is not a longer word still
ending in `s` and is not one of the placeholders `thing` and `something`, then
`BaseNoun` under `AKO-S` maps it to the same canonical form and tag. -/
theorem noun_restem (t : Nat) (w s : Str)
    (hs : (BaseNoun noExcept t (mkPair "AKO-S".toList w)).1 = some s)
    (hend : ¬ endsIn s "s".toList) (h1 : s ≠ "thing".toList) (h2 : s ≠ "something".toList) :
    BaseNoun noExcept t (mkPair "AKO-S".toList s) =
      BaseNoun noExcept t (mkPair "AKO-S".toList w) := by
  have hw1 : w ≠ "thing".toList := by
    intro h
    rw [BaseNoun_placeholder t _ w (Or.inl h) (by decide)] at hs
    exact absurd hs (by simp)
  have hw2 : w ≠ "something".toList := by
    intro h
    rw [BaseNoun_placeholder t _ w (Or.inr h) (by decide)] at hs
    exact absurd hs (by simp)
  rw [BaseNoun_AKO_S t w hw1 hw2] at hs ⊢
  rw [BaseNoun_AKO_S t s h1 h2, noun_stem_stable s hend]
  simpa using hs.symm

theorem noun_restem_witness :
    BaseNoun noExcept 0 (mkPair "AKO-S".toList "dog".toList) =
      BaseNoun noExcept 0 (mkPair "AKO-S".toList "dogs".toList) :=
  noun_restem 0 "dogs".toList "dog".toList (by decide) (by decide) (by decide) (by decide)

theorem BaseAdj_HQ (t : Nat) (v : Str) :
    BaseAdj noExcept t (mkPair "HQ".toList v) = (some (adj_stem v JTAG_PROP), JTAG_PROP) := by
  simp [BaseAdj, get_base_noExcept, SlotRef, SlotMatch, SlotStart, strncmp_eq, gram_tag, strchr, chr,
    mkPair]
  decide

theorem BaseAdj_HQ_ER (t : Nat) (v : Str) :
    BaseAdj noExcept t (mkPair "HQ-ER".toList v) = (some (adj_stem v JTAG_COMP), JTAG_COMP) := by
  simp [BaseAdj, get_base_noExcept, SlotRef, SlotMatch, SlotStart, strncmp_eq, gram_tag, strchr, chr,
    mkPair]
  decide

theorem BaseAdj_HQ_EST (t : Nat) (v : Str) :
    BaseAdj noExcept t (mkPair "HQ-EST".toList v) = (some (adj_stem v JTAG_SUP), JTAG_SUP) := by
  simp [BaseAdj, get_base_noExcept, SlotRef, SlotMatch, SlotStart, strncmp_eq, gram_tag, strchr, chr,
    mkPair]
  decide


theorem take_length_self (v : Str) : setc v (v.length : Int) NUL = v := by
  simp [setc]

theorem adj_repair_settled (v : Str) (hr : repairable v = false) :
    adj_repair v (v.length : Int) = v := by
  unfold adj_repair
  by_cases h3 : 3 ≤ v.length
  · obtain ⟨u, z, x, y, rfl⟩ := split_last3 v h3
    have e1 : (u ++ [z, x, y]).length = u.length + 3 := by simp
    simp [repairable] at hr
    simp (disch := omega) only [chr_append_right, chr_cons_pos, chr_cons_zero]
    rw [if_neg (fun hc => ?_), if_neg (fun hc => ?_), if_neg (fun hc => ?_)]
    · have := hr.2 hc.2.1
      rw [this] at hc
      exact absurd hc.2.2 (by simp)
    · exact hr.1.2 hc.2
    · exact hc.2.2 (hr.1.1 hc.2.1)
  · by_cases h2 : 2 ≤ v.length
    · obtain ⟨u, x, y, rfl⟩ := split_last2 v h2
      have hu : u = [] := by
        cases u with
        | nil => rfl
        | cons a l => simp at h3
      subst hu
      simp [repairable] at hr
      simp (disch := omega) only [chr_cons_pos, chr_cons_zero, List.nil_append]
      rw [if_neg (fun hc => ?_), if_neg (fun hc => ?_), if_neg (fun hc => ?_)]
      · simp at hc
      · exact hr hc.2
      · simp at hc
    · rw [if_neg (fun hc => h3 (by omega)), if_neg (fun hc => h2 (by omega)),
        if_neg (fun hc => h3 (by omega))]


theorem adj_stem_prop (v : Str) : adj_stem v JTAG_PROP = adj_repair v (v.length : Int) := by
  simp only [adj_stem, eq_false (by decide : ¬ JTAG_PROP &&& JTAG_COMP ≠ 0),
    eq_false (by decide : ¬ JTAG_PROP &&& JTAG_SUP ≠ 0), if_false, sub_zero, take_length_self]

theorem adj_stem_comp_nostrip (v : Str) (h : ¬ endsIn v "er".toList) :
    adj_stem v JTAG_COMP = adj_repair v (v.length : Int) := by
  have hc : ¬ ((v.length : Int) > 2 ∧ v.drop ((v.length : Int) - 2).toNat = "er".toList) := by
    rintro ⟨h1, h2⟩
    refine h ⟨by simp, by simp; omega, ?_⟩
    rw [← h2]
    exact List.drop_suffix _ _
  simp only [adj_stem, eq_true (by decide : JTAG_COMP &&& JTAG_COMP ≠ 0), if_true, hc, if_false,
    sub_zero, take_length_self]

theorem adj_stem_sup_nostrip (v : Str) (h : ¬ endsIn v "est".toList) :
    adj_stem v JTAG_SUP = adj_repair v (v.length : Int) := by
  have hc : ¬ ((v.length : Int) > 3 ∧ v.drop ((v.length : Int) - 3).toNat = "est".toList) := by
    rintro ⟨h1, h2⟩
    refine h ⟨by simp, by simp; omega, ?_⟩
    rw [← h2]
    exact List.drop_suffix _ _
  simp only [adj_stem, eq_false (by decide : ¬ JTAG_SUP &&& JTAG_COMP ≠ 0),
    eq_true (by decide : JTAG_SUP &&& JTAG_SUP ≠ 0), if_true, hc, if_false,
    sub_zero, take_length_self]

/-- C10 (as stated, refuted): under the superlative slot `honestest` stems to
`honest` and `honest` stems to `hone`; and the base form `big` obtained from
`bigger` is not returned unchanged but as `bige`, under `HQ-ER` and under `HQ`. -/
theorem adj_stem_not_idempotent :
    adj_stem "honestest".toList JTAG_SUP = "honest".toList ∧
    adj_stem "honest".toList JTAG_SUP = "hone".toList ∧
    adj_stem "bigger".toList JTAG_COMP = "big".toList ∧
    adj_stem "big".toList JTAG_COMP = "bige".toList ∧
    BaseAdj noExcept 0 (mkPair "HQ".toList "big".toList) = (some "bige".toList, JTAG_PROP) := by
  decide

/-- C10 (amended): with no exceptions loaded, for every adjective slot and every
word, if the stem `BaseAdj` returns is not a longer word still ending in the
suffix of that slot (`er`, `est`; none for `HQ`) and does not end in `i`, in a
doubled letter other than `l`, or in a vowel followed by a non-vowel, then
stemming it again under the same slot gives the same word and tag. -/
theorem adj_restem (t : Nat) (slot suf w s : Str) (hf : (slot, suf) ∈ adjForms)
    (hs : (BaseAdj noExcept t (mkPair slot w)).1 = some s) (hend : ¬ endsIn s suf)
    (hrep : repairable s = false) :
    BaseAdj noExcept t (mkPair slot s) = BaseAdj noExcept t (mkPair slot w) := by
  simp only [adjForms, List.mem_cons, Prod.mk.injEq, List.mem_singleton, List.not_mem_nil,
    or_false] at hf
  rcases hf with ⟨rfl, rfl⟩ | ⟨rfl, rfl⟩ | ⟨rfl, rfl⟩
  · rw [BaseAdj_HQ] at hs ⊢
    rw [BaseAdj_HQ, adj_stem_prop s, adj_repair_settled s hrep]
    simpa using hs.symm
  · rw [BaseAdj_HQ_ER] at hs ⊢
    rw [BaseAdj_HQ_ER, adj_stem_comp_nostrip s hend, adj_repair_settled s hrep]
    simpa using hs.symm
  · rw [BaseAdj_HQ_EST] at hs ⊢
    rw [BaseAdj_HQ_EST, adj_stem_sup_nostrip s hend, adj_repair_settled s hrep]
    simpa using hs.symm

theorem adj_restem_witness :
    BaseAdj noExcept 0 (mkPair "HQ-ER".toList "nice".toList) =
      BaseAdj noExcept 0 (mkPair "HQ-ER".toList "nicer".toList) :=
  adj_restem 0 "HQ-ER".toList "er".toList "nicer".toList "nice".toList (by decide)
    (by decide) (by decide) (by decide)

/-! ## The cursor: entries -/

theorem TAB_ne_NUL : TAB ≠ NUL := by decide

theorem strchr_of_not_mem (s : Str) (c : Char) (hc : c ≠ NUL) (h : c ∉ s) :
    strchr s c = none := by
  induction s with
  | nil => simp [strchr, hc]
  | cons x xs ih =>
    have hx : ¬ x = c := fun e => h (by simp [e])
    have hxs : c ∉ xs := fun e => h (by simp [e])
    simp [strchr, hx, ih hxs]

theorem strchr_append (a b : Str) (c : Char) (h : c ∉ a) :
    strchr (a ++ c :: b) c = some a.length := by
  induction a with
  | nil => simp [strchr]
  | cons x xs ih =>
    have hx : ¬ x = c := fun e => h (by simp [e])
    have hxs : c ∉ xs := fun e => h (by simp [e])
    simp [strchr, hx, ih hxs]

theorem fields_of_not_mem (s : Str) (h : TAB ∉ s) : fields s = [s] := by
  induction s with
  | nil => rfl
  | cons x xs ih =>
    have hx : ¬ x = TAB := fun e => h (by simp [e])
    have hxs : TAB ∉ xs := fun e => h (by simp [e])
    simp [fields, hx, ih hxs]

theorem fields_append (a b : Str) (h : TAB ∉ a) : fields (a ++ TAB :: b) = a :: fields b := by
  induction a with
  | nil => simp [fields]
  | cons x xs ih =>
    have hx : ¬ x = TAB := fun e => h (by simp [e])
    have hxs : TAB ∉ xs := fun e => h (by simp [e])
    simp [fields, hx, ih hxs]

/-- Every string is its first field, or its first field, a tab and the rest. -/
theorem fields_cases (s : Str) :
    (TAB ∉ s ∧ fields s = [s]) ∨
    ∃ a b, s = a ++ TAB :: b ∧ TAB ∉ a ∧ fields s = a :: fields b := by
  induction s with
  | nil => left; exact ⟨by simp, rfl⟩
  | cons x xs ih =>
    by_cases hx : x = TAB
    · right
      exact ⟨[], xs, by simp [hx], by simp, by simp [fields, hx]⟩
    · rcases ih with ⟨h1, h2⟩ | ⟨a, b, h1, h2, h3⟩
      · left
        have : TAB ∉ x :: xs := by
          simp only [List.mem_cons, not_or]
          exact ⟨fun e => hx e.symm, h1⟩
        exact ⟨this, fields_of_not_mem _ this⟩
      · right
        have : TAB ∉ x :: a := by
          simp only [List.mem_cons, not_or]
          exact ⟨fun e => hx e.symm, h2⟩
        refine ⟨x :: a, b, by simp [h1], this, ?_⟩
        rw [h1]
        exact fields_append (x :: a) b this

theorem rstrip_append_blank (g : Str) : rstrip (g ++ [' ']) = rstrip g := by
  simp [rstrip, List.dropWhile]

theorem rstrip_append_other (g : Str) (x : Char) (hx : x ≠ ' ') : rstrip (g ++ [x]) = g ++ [x] := by
  simp [rstrip, List.dropWhile, hx]

theorem rstrip_isPre (f : Str) : rstrip f <+: f := by
  unfold rstrip
  rw [← List.reverse_suffix]
  simp only [List.reverse_reverse]
  exact List.dropWhile_suffix _

theorem entryText_isPre (f : Str) : entryText f <+: f := by
  unfold entryText
  split
  · exact List.take_prefix 1 f
  · exact rstrip_isPre f

theorem backUp_congr (a b : Str) (n : Nat) (h : ∀ t, t < n → a.getD t NUL = b.getD t NUL) :
    backUp a n = backUp b n := by
  induction n with
  | zero => rfl
  | succ t ih =>
    have ih := ih (fun k hk => h k (by omega))
    simp only [backUp, h t (by omega), ih]

theorem backUp_entryText (f : Str) : backUp f f.length = (entryText f).length := by
  induction f using List.reverseRecOn with
  | nil => simp [backUp, entryText, rstrip]
  | append_singleton g x ih =>
    have hg : backUp (g ++ [x]) g.length = backUp g g.length :=
      backUp_congr _ _ _ (fun t ht => by
        simp [List.getD_eq_getElem?_getD, List.getElem?_append_left ht])
    have hx : (g ++ [x]).getD g.length NUL = x := by
      simp [List.getD_eq_getElem?_getD]
    rw [List.length_append, List.length_singleton, backUp, hx, hg, ih]
    by_cases h0 : 0 < g.length
    · rw [if_pos h0]
      by_cases hb : x = ' '
      · subst hb
        have hne : g ≠ [] := by rintro rfl; simp at h0
        simp only [ne_eq, not_true_eq_false, if_false, entryText, rstrip_append_blank]
        split
        · cases g with
          | nil => exact absurd rfl hne
          | cons a l => simp
        · rfl
      · rw [if_pos hb]
        simp [entryText, rstrip_append_other g x hb]
    · rw [if_neg h0]
      have hg0 : g = [] := by
        cases g with
        | nil => rfl
        | cons a l => simp at h0
      subst hg0
      by_cases hb : x = ' '
      · subst hb; simp [entryText, rstrip]
      · simp [entryText, rstrip, hb]


theorem fields_render_aux (n : Nat) : ∀ s : Str, s.length ≤ n →
    ∃ junk fs, fields s = junk :: fs ∧ s = junk ++ render fs ∧ TAB ∉ junk ∧
      ∀ f ∈ fs, TAB ∉ f := by
  induction n with
  | zero =>
    intro s hs
    have : s = [] := List.length_eq_zero.1 (by omega)
    subst this
    exact ⟨[], [], rfl, rfl, by simp, by simp⟩
  | succ n ih =>
    intro s hs
    rcases fields_cases s with ⟨h1, h2⟩ | ⟨a, b, h1, h2, h3⟩
    · exact ⟨s, [], h2, by simp [render], h1, by simp⟩
    · obtain ⟨j, fs, e1, e2, e3, e4⟩ := ih b (by rw [h1] at hs; simp at hs; omega)
      refine ⟨a, j :: fs, by rw [h3, e1], ?_, h2, ?_⟩
      · rw [h1]; simp only [render]; rw [← e2]
      · intro f hf
        rcases List.mem_cons.1 hf with rfl | hf
        · exact e3
        · exact e4 f hf

theorem fields_render (s : Str) :
    ∃ junk fs, fields s = junk :: fs ∧ s = junk ++ render fs ∧ TAB ∉ junk ∧
      ∀ f ∈ fs, TAB ∉ f :=
  fields_render_aux s.length s (Nat.le_refl _)

theorem render_length (fs : List Str) : fs.length ≤ (render fs).length := by
  induction fs with
  | nil => simp [render]
  | cons f fs ih => simp [render]; omega

theorem strchr_field (f rest : Str) (hf : TAB ∉ f) (hr : rest = [] ∨ ∃ r, rest = TAB :: r) :
    (match strchr (f ++ rest) TAB with
      | none => (f ++ rest).length
      | some j => j) = f.length := by
  rcases hr with rfl | ⟨r, rfl⟩
  · rw [List.append_nil, strchr_of_not_mem f TAB TAB_ne_NUL hf]
  · rw [strchr_append f r TAB hf]

theorem drop_past_tab (alist : Str) (pos : Nat) (junk tl : Str)
    (hs : alist.drop pos = junk ++ TAB :: tl) :
    alist.drop (pos + junk.length + 1) = tl := by
  have : pos + junk.length + 1 = pos + (junk.length + 1) := by omega
  rw [this, ← List.drop_drop, hs]
  simp

theorem take_of_pre (e f rest : Str) (h : e <+: f) : (f ++ rest).take e.length = e := by
  obtain ⟨g, rfl⟩ := h
  simp

theorem drop_of_pre (e f rest : Str) (h : e <+: f) :
    (f ++ rest).drop e.length = f.drop e.length ++ rest := by
  obtain ⟨g, rfl⟩ := h
  simp

theorem entrySpan_step (alist : Str) (pos : Nat) (junk f rest : Str)
    (hs : alist.drop pos = junk ++ TAB :: (f ++ rest)) (hj : TAB ∉ junk) (hf : TAB ∉ f)
    (hr : rest = [] ∨ ∃ r, rest = TAB :: r) :
    entrySpan alist (some pos) =
      some (pos + junk.length + 1, pos + junk.length + 1 + (entryText f).length) := by
  have h1 : strchr (alist.drop pos) TAB = some junk.length := by
    rw [hs]; exact strchr_append junk _ TAB hj
  have h2 := drop_past_tab alist pos junk _ hs
  have h3 : backUp (f ++ rest) f.length = (entryText f).length := by
    rw [← backUp_entryText f]
    exact backUp_congr _ _ _ (fun t ht => by
      simp [List.getD_eq_getElem?_getD, List.getElem?_append_left ht])
  simp only [entrySpan, h1, h2, strchr_field f rest hf hr, h3]

theorem NextEntry_step (alist : Str) (pos : Nat) (junk f rest entry : Str) (ssz : Nat)
    (hs : alist.drop pos = junk ++ TAB :: (f ++ rest)) (hj : TAB ∉ junk) (hf : TAB ∉ f)
    (hr : rest = [] ∨ ∃ r, rest = TAB :: r) :
    NextEntry alist (some pos) entry ssz =
      if (entryText f).length < ssz then
        .ptr (entryText f ++ NUL :: entry.drop ((entryText f).length + 1),
          pos + junk.length + 1 + (entryText f).length)
      else .fault := by
  have h2 := drop_past_tab alist pos junk _ hs
  have hlen : (entryText f).length ≤ (f ++ rest).length := by
    have := (entryText_isPre f).length_le
    simp; omega
  have htake := take_of_pre _ f rest (entryText_isPre f)
  simp only [NextEntry, entrySpan_step alist pos junk f rest hs hj hf hr, h2, strncpy_s,
    Nat.add_sub_cancel_left, Nat.min_eq_left hlen, htake]
  split_ifs <;> rfl

theorem drop_after_entry (alist : Str) (pos : Nat) (junk f rest : Str)
    (hs : alist.drop pos = junk ++ TAB :: (f ++ rest)) :
    alist.drop (pos + junk.length + 1 + (entryText f).length) =
      f.drop (entryText f).length ++ rest := by
  have h2 := drop_past_tab alist pos junk _ hs
  rw [← List.drop_drop, h2]
  exact drop_of_pre _ f rest (entryText_isPre f)

/-! ## The cursor: the buffer after a copy -/

theorem cstr_copy (e stale : Str) (h : NUL ∉ e) : cstr (e ++ NUL :: stale) = e := by
  unfold cstr
  induction e with
  | nil => simp [List.takeWhile]
  | cons x xs ih =>
    have hx : decide (x ≠ NUL) = true := by
      simpa using fun e => h (by simp [e])
    have hxs : NUL ∉ xs := fun e => h (by simp [e])
    rw [List.cons_append, List.takeWhile_cons, hx, if_pos rfl, ih hxs]

theorem isMark_eq (c : Char) (hc : c ≠ NUL) :
    isMark c = (c == '!' || c == '$' || c == '%') := by
  have h1 : ¬ ('!' = c) ↔ ¬ (c = '!') := by constructor <;> exact fun h e => h e.symm
  by_cases a : c = '!'
  · subst a; decide
  by_cases b : c = '$'
  · subst b; decide
  by_cases d : c = '%'
  · subst d; decide
  have a' : ¬ '!' = c := fun e => a e.symm
  have b' : ¬ '$' = c := fun e => b e.symm
  have d' : ¬ '%' = c := fun e => d e.symm
  simp [isMark, strchr, a, b, d, a', b', d', hc]

theorem strchr_isSome (s : Str) (c : Char) (hc : c ≠ NUL) :
    (strchr s c).isSome = s.contains c := by
  induction s with
  | nil => simp [strchr, hc]
  | cons x xs ih =>
    by_cases hx : x = c
    · simp [strchr, hx]
    · have hx' : ¬ c = x := fun e => hx e.symm
      rw [List.contains_cons, ← ih]
      simp [strchr, hx, hx']

theorem not_mem_of_drop (alist : Str) (pos : Nat) (junk f rest : Str) (c : Char)
    (hs : alist.drop pos = junk ++ TAB :: (f ++ rest)) (h : c ∉ alist) : c ∉ entryText f := by
  intro hc
  have h1 : c ∈ f := (entryText_isPre f).subset hc
  have h2 : c ∈ alist.drop pos := by rw [hs]; simp [h1]
  exact h (List.mem_of_mem_drop h2)

theorem render_cases (fs : List Str) : render fs = [] ∨ ∃ r, render fs = TAB :: r := by
  cases fs with
  | nil => left; rfl
  | cons f fs => right; exact ⟨_, rfl⟩

theorem NextEntry_done (alist : Str) (pos : Nat) (entry : Str) (ssz : Nat)
    (h : TAB ∉ alist.drop pos) : NextEntry alist (some pos) entry ssz = .null := by
  simp [NextEntry, entrySpan, strchr_of_not_mem _ TAB TAB_ne_NUL h]

theorem locate_next (e f : Str) (h : Nat) (fs : List Str) (he : e <+: f) :
    locate (h + e.length + (f.drop e.length).length + 1) fs = locate (h + f.length + 1) fs := by
  have := he.length_le
  congr 1
  simp
  omega

/-- The loop of `FragNextPair` reads the entries of the list one by one: on a
list whose entries are not empty it computes `pairScan`. -/
theorem pairLoop_refines (alist : Str) (ssz : Nat) (hnul : NUL ∉ alist) :
    ∀ (fs : List Str) (pos : Nat) (junk pair : Str) (d : Int) (fuel : Nat),
      alist.drop pos = junk ++ render fs → TAB ∉ junk → (∀ f ∈ fs, TAB ∉ f) →
      (∀ f ∈ fs, entryText f ≠ []) → fs.length < fuel →
      (FragNextPairLoop alist ssz fuel pos pair d).text =
        pairScan ssz (locate (pos + junk.length + 1) fs) d := by
  intro fs
  induction fs with
  | nil =>
    intro pos junk pair d fuel hs hj _ _ hfuel
    obtain ⟨k, rfl⟩ : ∃ k, fuel = k + 1 := ⟨fuel - 1, by omega⟩
    have : TAB ∉ alist.drop pos := by rw [hs]; simpa [render] using hj
    simp [FragNextPairLoop, NextEntry_done alist pos pair ssz this, Ret.text, locate, pairScan]
  | cons f fs ih =>
    intro pos junk pair d fuel hs hj hf hne hfuel
    obtain ⟨k, rfl⟩ : ∃ k, fuel = k + 1 := ⟨fuel - 1, by omega⟩
    have hk : fs.length < k := by simp at hfuel; omega
    have hs' : alist.drop pos = junk ++ TAB :: (f ++ render fs) := by rw [hs]; rfl
    have hft : TAB ∉ f := hf f (by simp)
    have hstep := NextEntry_step alist pos junk f (render fs) pair ssz hs' hj hft (render_cases fs)
    have hnulE : NUL ∉ entryText f := not_mem_of_drop alist pos junk f _ NUL hs' hnul
    have hneE : entryText f ≠ [] := hne f (by simp)
    have hdrop := drop_after_entry alist pos junk f (render fs) hs'
    have hjunk : TAB ∉ f.drop (entryText f).length := fun h => hft (List.mem_of_mem_drop h)
    have hloc := locate_next (entryText f) f (pos + junk.length + 1) fs (entryText_isPre f)
    simp only [FragNextPairLoop, hstep, locate, pairScan]
    by_cases hfit : (entryText f).length < ssz
    · simp only [hfit, if_true, not_true_eq_false, if_false]
      have IH := fun pair d => ih (pos + junk.length + 1 + (entryText f).length)
        (f.drop (entryText f).length) pair d k hdrop hjunk
        (fun g hg => hf g (by simp [hg])) (fun g hg => hne g (by simp [hg])) hk
      rw [hloc] at IH
      cases he : entryText f with
      | nil => exact absurd he hneE
      | cons c tl =>
        rw [he] at hnulE IH
        have hc : c ≠ NUL := fun e => hnulE (by simp [e])
        have hcs := cstr_copy (c :: tl) (pair.drop ((c :: tl).length + 1)) hnulE
        cases tl with
        | nil =>
          simp only [List.cons_append, List.nil_append, List.getD_cons_zero, List.getD_cons_succ,
            isMark_eq c hc, isOpen, isClose] at hcs ⊢
          by_cases hm : (c == '!' || c == '$' || c == '%') = true
          · simp only [hm, if_true, Bool.false_eq_true, false_or, if_true]
            split_ifs
            · rfl
            · exact IH _ _
          · have hm' : (c == '!' || c == '$' || c == '%') = false := by simpa using hm
            simp only [hm', Bool.false_eq_true, if_false, or_self]
            rw [hcs, strchr_isSome _ _ (by decide)]
            split_ifs
            · simp only [Ret.text, hcs]
            · exact IH _ _
        | cons c2 tl2 =>
          have hc2 : c2 ≠ NUL := fun e => hnulE (by simp [e])
          simp only [List.cons_append, List.getD_cons_zero, List.getD_cons_succ,
            isMark_eq c hc, isOpen, isClose, hc2, if_false] at hcs ⊢
          by_cases hm : (c == '!' || c == '$' || c == '%') = true
          · simp only [hm, if_true, Bool.false_eq_true, or_false, if_false]
            split_ifs
            · rfl
            · exact IH _ _
          · have hm' : (c == '!' || c == '$' || c == '%') = false := by simpa using hm
            simp only [hm', Bool.false_eq_true, if_false, or_self]
            rw [hcs, strchr_isSome _ _ (by decide)]
            split_ifs
            · simp only [Ret.text, hcs]
            · exact IH _ _
    · simp only [hfit, if_false, not_false_eq_true, if_true]
      rfl

/-! ## The cursor: properties of the scans -/

theorem depthAt_zero (es : List (Str × Nat)) : depthAt es 0 = 0 := by
  simp [depthAt, net]

theorem depthAt_succ (e : Str) (t : Nat) (es : List (Str × Nat)) (j : Nat) :
    depthAt ((e, t) :: es) (j + 1) = delta e + depthAt es j := by
  simp [depthAt, net]

theorem not_open_of_close (e : Str) (h : isClose e = true) : isOpen e = false := by
  match e with
  | [] => rfl
  | [_] => rfl
  | _ :: _ :: _ => simp [isClose] at h

theorem delta_mark (e : Str) (h : isOpen e = true ∨ isClose e = true) :
    delta e = if isClose e = true then -1 else 1 := by
  unfold delta
  rcases h with h | h
  · have : isClose e = false := by
      cases hc : isClose e with
      | false => rfl
      | true => rw [not_open_of_close e hc] at h; exact absurd h (by simp)
    simp [h, this]
  · simp [h, not_open_of_close e h]

theorem delta_other (e : Str) (h : ¬ (isOpen e = true ∨ isClose e = true)) : delta e = 0 := by
  unfold delta
  have h1 : isOpen e = false := by
    cases hc : isOpen e with
    | false => rfl
    | true => exact absurd (Or.inl hc) h
  have h2 : isClose e = false := by
    cases hc : isClose e with
    | false => rfl
    | true => exact absurd (Or.inr hc) h
  simp [h1, h2]

theorem pairScan_ptr (ssz : Nat) : ∀ (es : List (Str × Nat)) (d : Int) (e : Str) (t : Nat),
    0 ≤ d → pairScan ssz es d = .ptr (e, t) →
    ∃ k, es[k]? = some (e, t) ∧ e.contains '=' = true ∧ isOpen e = false ∧ isClose e = false ∧
      d + depthAt es k = 0 ∧ ∀ j ≤ k, 0 ≤ d + depthAt es j := by
  intro es
  induction es with
  | nil => intro d e t _ h; simp [pairScan] at h
  | cons x rest ih =>
    obtain ⟨e0, t0⟩ := x
    intro d e t hd h
    simp only [pairScan] at h
    by_cases hfit : e0.length < ssz
    · simp only [hfit, not_true_eq_false, if_false] at h
      by_cases hm : isOpen e0 = true ∨ isClose e0 = true
      · simp only [hm, if_true] at h
        by_cases hneg : d + (if isClose e0 = true then -1 else 1) < 0
        · simp [hneg] at h
        · simp only [hneg, if_false] at h
          obtain ⟨k, h1, h2, h3, h4, h5, h6⟩ := ih _ e t (by omega) h
          refine ⟨k + 1, by simpa using h1, h2, h3, h4, ?_, ?_⟩
          · rw [depthAt_succ, delta_mark e0 hm]; omega
          · intro j hj
            cases j with
            | zero => rw [depthAt_zero]; omega
            | succ j =>
              rw [depthAt_succ, delta_mark e0 hm]
              have := h6 j (by omega)
              omega
      · simp only [hm, if_false] at h
        by_cases hp : d = 0 ∧ e0.contains '=' = true
        · simp only [hp, and_self, if_true, Ret.ptr.injEq, Prod.mk.injEq] at h
          obtain ⟨rfl, rfl⟩ := h
          have h1 : isOpen e0 = false := by
            cases hc : isOpen e0 with
            | false => rfl
            | true => exact absurd (Or.inl hc) hm
          have h2 : isClose e0 = false := by
            cases hc : isClose e0 with
            | false => rfl
            | true => exact absurd (Or.inr hc) hm
          refine ⟨0, by simp, hp.2, h1, h2, by rw [depthAt_zero]; omega, ?_⟩
          intro j hj
          have : j = 0 := by omega
          subst this
          rw [depthAt_zero]; omega
        · simp only [hp, if_false] at h
          obtain ⟨k, h1, h2, h3, h4, h5, h6⟩ := ih _ e t hd h
          refine ⟨k + 1, by simpa using h1, h2, h3, h4, ?_, ?_⟩
          · rw [depthAt_succ, delta_other e0 hm]; omega
          · intro j hj
            cases j with
            | zero => rw [depthAt_zero]; omega
            | succ j =>
              rw [depthAt_succ, delta_other e0 hm]
              have := h6 j (by omega)
              omega
    · simp [hfit] at h

theorem pairScan_close (ssz : Nat) : ∀ (k : Nat) (es : List (Str × Nat)) (d : Int),
    isClose (es.getD k ([], 0)).1 = true → k < es.length →
    d + depthAt es k = 0 → (∀ j ≤ k, 0 ≤ d + depthAt es j) →
    (∀ j < k, d + depthAt es j = 0 → isPair (es.getD j ([], 0)).1 = false) →
    (∀ j ≤ k, (es.getD j ([], 0)).1.length < ssz) →
    pairScan ssz es d = .null := by
  intro k
  induction k with
  | zero =>
    intro es d hc hk hd _ _ hfit
    cases es with
    | nil => simp at hk
    | cons x rest =>
      obtain ⟨e0, t0⟩ := x
      have hfit0 := hfit 0 (Nat.le_refl _)
      simp only [List.getD_cons_zero] at hc hfit0
      rw [depthAt_zero] at hd
      have : d = 0 := by omega
      subst this
      simp [pairScan, hfit0, hc]
  | succ k ih =>
    intro es d hc hk hd hnn hnp hfit
    cases es with
    | nil => simp at hk
    | cons x rest =>
      obtain ⟨e0, t0⟩ := x
      have hfit0 := hfit 0 (by omega)
      simp only [List.getD_cons_zero] at hfit0
      simp only [List.getD_cons_succ] at hc
      have hd0 := hnn 0 (by omega)
      rw [depthAt_zero] at hd0
      have hd1 := hnn 1 (by omega)
      rw [depthAt_succ, depthAt_zero] at hd1
      rw [depthAt_succ] at hd
      have IH := fun d' (h1 : d' = d + delta e0) => ih rest d' hc (by simpa using hk)
        (by omega)
        (fun j hj => by
          have := hnn (j + 1) (by omega)
          rw [depthAt_succ] at this
          omega)
        (fun j hj h0 => by
          have := hnp (j + 1) (by omega)
          rw [depthAt_succ] at this
          simpa using this (by omega))
        (fun j hj => by
          have := hfit (j + 1) (by omega)
          simpa using this)
      simp only [pairScan, hfit0, not_true_eq_false, if_false]
      by_cases hm : isOpen e0 = true ∨ isClose e0 = true
      · have hdm := delta_mark e0 hm
        simp only [hm, if_true]
        rw [← hdm]
        rw [if_neg (by omega)]
        exact IH _ rfl
      · have hdm := delta_other e0 hm
        simp only [hm, if_false]
        have hp := hnp 0 (by omega)
        rw [depthAt_zero] at hp
        simp only [List.getD_cons_zero] at hp
        have hnot : ¬ (d = 0 ∧ e0.contains '=' = true) := by
          rintro ⟨h1, h2⟩
          have := hp (by omega)
          have h3 : isOpen e0 = false := by
            cases hc : isOpen e0 with
            | false => rfl
            | true => exact absurd (Or.inl hc) hm
          have h4 : isClose e0 = false := by
            cases hc : isClose e0 with
            | false => rfl
            | true => exact absurd (Or.inr hc) hm
          simp only [isPair, h3, h4, Bool.not_false, Bool.and_true] at this
          rw [h2] at this
          exact absurd this (by simp)
        rw [if_neg hnot]
        exact IH _ (by omega)

/-! ## The cursor: claims -/

theorem mem_locate (fs : List Str) : ∀ (h : Nat) (f : Str), f ∈ fs →
    ∃ t, (entryText f, t) ∈ locate h fs := by
  induction fs with
  | nil => intro h f hf; simp at hf
  | cons g gs ih =>
    intro h f hf
    rcases List.mem_cons.1 hf with rfl | hf
    · exact ⟨h + (entryText f).length, by simp [locate]⟩
    · obtain ⟨t, ht⟩ := ih (h + g.length + 1) f hf
      exact ⟨t, by simp [locate, ht]⟩

theorem entriesFrom_render (alist : Str) (pos : Nat) :
    ∃ junk fs, entriesFrom alist pos = locate (pos + junk.length + 1) fs ∧
      alist.drop pos = junk ++ render fs ∧ TAB ∉ junk ∧ (∀ f ∈ fs, TAB ∉ f) ∧
      fs.length < alist.length + 1 := by
  obtain ⟨junk, fs, e1, e2, e3, e4⟩ := fields_render (alist.drop pos)
  refine ⟨junk, fs, by simp [entriesFrom, e1], e2, e3, e4, ?_⟩
  have h1 := render_length fs
  have h2 : (alist.drop pos).length = junk.length + (render fs).length := by
    rw [e2]; simp
  have h3 : (alist.drop pos).length ≤ alist.length := by simp
  omega

theorem FragNextPair_text (alist : Str) (pos : Nat) (pair : Str) (ssz : Nat)
    (hnul : NUL ∉ alist) (hne : ∀ e ∈ entriesFrom alist pos, e.1 ≠ []) :
    (FragNextPair alist (some pos) pair ssz).text = pairScan ssz (entriesFrom alist pos) 0 := by
  obtain ⟨junk, fs, e1, e2, e3, e4, e5⟩ := entriesFrom_render alist pos
  rw [e1] at hne ⊢
  have hne' : ∀ f ∈ fs, entryText f ≠ [] := by
    intro f hf
    obtain ⟨t, ht⟩ := mem_locate fs (pos + junk.length + 1) f hf
    exact hne _ ht
  exact pairLoop_refines alist ssz hnul fs pos junk pair 0 _ e2 e3 e4 hne' e5

theorem not_mark_of_head (e : Str) (c : Char) (h1 : isOpen e = false) (h2 : isClose e = false)
    (hc : e.head? = some c) : c ≠ '!' ∧ c ≠ '$' ∧ c ≠ '%' := by
  match e with
  | [] => simp at hc
  | [x] =>
    simp only [List.head?_cons, Option.some.injEq] at hc
    subst hc
    have := h2
    simp only [isClose, Bool.or_eq_false_iff, beq_eq_false_iff_ne, ne_eq] at this
    exact ⟨this.1.1, this.1.2, this.2⟩
  | x :: _ :: _ =>
    simp only [List.head?_cons, Option.some.injEq] at hc
    subst hc
    have := h1
    simp only [isOpen, Bool.or_eq_false_iff, beq_eq_false_iff_ne, ne_eq] at this
    exact ⟨this.1.1, this.1.2, this.2⟩

/-- C3: on a list without empty entries, the entry `FragNextPair` returns holds
'=', does not begin with a marker character, and the markers between the start
and that entry are balanced with no prefix closing more than it opened; and as
soon as a bare close marker is met at depth 0 (the entries up to it are read,
so they fit the buffer, and no top-level pair comes before it) the result is
NULL, whatever follows in the list. -/
theorem FragNextPair_top_level (alist : Str) (pos : Nat) (pair : Str) (ssz : Nat)
    (hnul : NUL ∉ alist) (hne : ∀ e ∈ entriesFrom alist pos, e.1 ≠ []) :
    (∀ p t, FragNextPair alist (some pos) pair ssz = .ptr (p, t) →
      ∃ k, (entriesFrom alist pos)[k]? = some (cstr p, t) ∧ '=' ∈ cstr p ∧
        (∀ c, (cstr p).head? = some c → c ≠ '!' ∧ c ≠ '$' ∧ c ≠ '%') ∧
        depthAt (entriesFrom alist pos) k = 0 ∧
        ∀ j ≤ k, 0 ≤ depthAt (entriesFrom alist pos) j) ∧
    (∀ k, k < (entriesFrom alist pos).length →
      isClose ((entriesFrom alist pos).getD k ([], 0)).1 = true →
      depthAt (entriesFrom alist pos) k = 0 →
      (∀ j ≤ k, 0 ≤ depthAt (entriesFrom alist pos) j) →
      (∀ j < k, depthAt (entriesFrom alist pos) j = 0 →
        isPair ((entriesFrom alist pos).getD j ([], 0)).1 = false) →
      (∀ j ≤ k, ((entriesFrom alist pos).getD j ([], 0)).1.length < ssz) →
      FragNextPair alist (some pos) pair ssz = .null) := by
  have ht := FragNextPair_text alist pos pair ssz hnul hne
  constructor
  · intro p t h
    rw [h] at ht
    obtain ⟨k, h1, h2, h3, h4, h5, h6⟩ :=
      pairScan_ptr ssz (entriesFrom alist pos) 0 (cstr p) t (Int.le_refl _) ht.symm
    refine ⟨k, h1, by simpa using h2, fun c hc => not_mark_of_head _ c h3 h4 hc, by omega, ?_⟩
    intro j hj
    have := h6 j hj
    omega
  · intro k hk hc hd hnn hnp hfit
    have h := pairScan_close ssz k (entriesFrom alist pos) 0 hc hk (by omega)
      (fun j hj => by have := hnn j hj; omega)
      (fun j hj h0 => hnp j hj (by omega)) hfit
    rw [h] at ht
    cases hr : FragNextPair alist (some pos) pair ssz with
    | fault => rw [hr] at ht; simp [Ret.text] at ht
    | null => rfl
    | ptr x => rw [hr] at ht; simp [Ret.text] at ht

theorem FragNextPair_top_level_witness :
    (∃ k, (entriesFrom "\t!x\ta=b\t!\tc=d\t!\te=f".toList 0)[k]? =
        some (cstr ['c', '=', 'd', NUL], 13) ∧ '=' ∈ cstr ['c', '=', 'd', NUL] ∧
      (∀ c, (cstr ['c', '=', 'd', NUL]).head? = some c → c ≠ '!' ∧ c ≠ '$' ∧ c ≠ '%') ∧
      depthAt (entriesFrom "\t!x\ta=b\t!\tc=d\t!\te=f".toList 0) k = 0 ∧
      ∀ j ≤ k, 0 ≤ depthAt (entriesFrom "\t!x\ta=b\t!\tc=d\t!\te=f".toList 0) j) ∧
    FragNextPair "\t!x\ta=b\t!\tc=d\t!\te=f".toList (some 13) [] 200 = .null :=
  ⟨(FragNextPair_top_level "\t!x\ta=b\t!\tc=d\t!\te=f".toList 0 [] 200 (by decide)
      (by decide)).1 ['c', '=', 'd', NUL] 13 (by decide),
    (FragNextPair_top_level "\t!x\ta=b\t!\tc=d\t!\te=f".toList 13 [] 200 (by decide)
      (by decide)).2 0 (by decide) (by decide) (by decide) (by decide) (by decide) (by decide)⟩


theorem takeWhile_tab_all (a : Str) (h : TAB ∉ a) : a.takeWhile (· ≠ TAB) = a := by
  induction a with
  | nil => rfl
  | cons x xs ih =>
    have hx : decide (x ≠ TAB) = true := by
      simpa using fun e => h (by simp [e])
    have hxs : TAB ∉ xs := fun e => h (by simp [e])
    rw [List.takeWhile_cons, hx, if_pos rfl, ih hxs]

theorem takeWhile_tab_append (a b : Str) (h : TAB ∉ a) :
    (a ++ TAB :: b).takeWhile (· ≠ TAB) = a := by
  induction a with
  | nil => simp [List.takeWhile]
  | cons x xs ih =>
    have hx : decide (x ≠ TAB) = true := by
      simpa using fun e => h (by simp [e])
    have hxs : TAB ∉ xs := fun e => h (by simp [e])
    rw [List.cons_append, List.takeWhile_cons, hx, if_pos rfl, ih hxs]

theorem takeWhile_field (f rest : Str) (hf : TAB ∉ f) (hr : rest = [] ∨ ∃ r, rest = TAB :: r) :
    (f ++ rest).takeWhile (· ≠ TAB) = f := by
  rcases hr with rfl | ⟨r, rfl⟩
  · rw [List.append_nil]; exact takeWhile_tab_all f hf
  · exact takeWhile_tab_append f r hf

theorem exists_field (s : Str) (h : TAB ∈ s) :
    ∃ junk f rest, s = junk ++ TAB :: (f ++ rest) ∧ TAB ∉ junk ∧ TAB ∉ f ∧
      (rest = [] ∨ ∃ r, rest = TAB :: r) := by
  rcases fields_cases s with ⟨h1, _⟩ | ⟨a, b, h1, h2, _⟩
  · exact absurd h h1
  · rcases fields_cases b with ⟨h3, _⟩ | ⟨f, r, h3, h4, _⟩
    · exact ⟨a, b, [], by simpa using h1, h2, h3, Or.inl rfl⟩
    · exact ⟨a, f, TAB :: r, by rw [h1, h3], h2, h4, Or.inr ⟨r, rfl⟩⟩

theorem entryText_of_nonblank (f : Str) (h : ∃ c ∈ f, c ≠ ' ') : entryText f = rstrip f := by
  have : rstrip f ≠ [] := by
    intro e
    have e' : f.reverse.dropWhile (· = ' ') = [] := by
      have := congrArg List.reverse e
      simpa [rstrip] using this
    rw [List.dropWhile_eq_nil_iff] at e'
    obtain ⟨c, hc, hne⟩ := h
    have := e' c (by simpa using hc)
    exact hne (by simpa using this)
  simp [entryText, this]

/-- C4: `NextEntry` returns NULL exactly when there is no tab at or after
`pos`; otherwise, with `h` just past the first such tab and the text running
from `h` to the next tab or the end of the list, when that text holds a
non-blank character and fits the buffer, the entry copied is the text without
its trailing blanks and the pointer returned is `h` plus the length of the entry. -/
theorem NextEntry_spec (alist : Str) (pos : Nat) (entry : Str) (ssz : Nat) :
    (NextEntry alist (some pos) entry ssz = .null ↔ TAB ∉ alist.drop pos) ∧
    (TAB ∈ alist.drop pos →
      (∃ c ∈ fieldAt alist (tabFrom alist pos + 1), c ≠ ' ') →
      (rstrip (fieldAt alist (tabFrom alist pos + 1))).length < ssz →
      ∃ buf, NextEntry alist (some pos) entry ssz =
          .ptr (buf, tabFrom alist pos + 1 + (rstrip (fieldAt alist (tabFrom alist pos + 1))).length) ∧
        buf = rstrip (fieldAt alist (tabFrom alist pos + 1)) ++
          NUL :: entry.drop ((rstrip (fieldAt alist (tabFrom alist pos + 1))).length + 1) ∧
        (NUL ∉ alist → cstr buf = rstrip (fieldAt alist (tabFrom alist pos + 1)))) := by
  constructor
  · constructor
    · intro h ht
      obtain ⟨junk, f, rest, hs, hj, hf, hr⟩ := exists_field _ ht
      rw [NextEntry_step alist pos junk f rest entry ssz hs hj hf hr] at h
      split_ifs at h
    · exact NextEntry_done alist pos entry ssz
  · intro ht
    obtain ⟨junk, f, rest, hs, hj, hf, hr⟩ := exists_field _ ht
    have h1 : tabFrom alist pos = pos + junk.length := by
      rw [tabFrom, hs, takeWhile_tab_append junk _ hj]
    have h2 := drop_past_tab alist pos junk _ hs
    have h3 : fieldAt alist (tabFrom alist pos + 1) = f := by
      rw [fieldAt, tabFrom, h1, h2, takeWhile_field f rest hf hr]
      simp
    rw [h3, h1]
    intro hnb hfit
    have he := entryText_of_nonblank f hnb
    refine ⟨_, ?_, rfl, ?_⟩
    · rw [NextEntry_step alist pos junk f rest entry ssz hs hj hf hr, he, if_pos hfit]
    · intro hnul
      have := not_mem_of_drop alist pos junk f rest NUL hs hnul
      rw [he] at this
      exact cstr_copy _ _ this

theorem NextEntry_spec_witness :
    ∃ buf, NextEntry "ab\t x  y   \t!".toList (some 0) [] 200 = .ptr (buf, 8) ∧
      cstr buf = " x  y".toList :=
  let ⟨buf, h1, _, h3⟩ :=
    (NextEntry_spec "ab\t x  y   \t!".toList 0 [] 200).2 (by decide) (by decide) (by decide)
  ⟨buf, h1, h3 (by decide)⟩

/-- The loop of `FragClose` reads the entries of the list one by one: on a list
whose entries are not empty it computes `closeScan`. -/
theorem closeLoop_refines (alist : Str) (hnul : NUL ∉ alist) :
    ∀ (fs : List Str) (pos : Nat) (junk entry : Str) (d : Int) (fuel : Nat),
      alist.drop pos = junk ++ render fs → TAB ∉ junk → (∀ f ∈ fs, TAB ∉ f) →
      (∀ f ∈ fs, entryText f ≠ []) → fs.length < fuel →
      FragCloseLoop alist fuel pos entry d =
        closeScan 200 (locate (pos + junk.length + 1) fs) d := by
  intro fs
  induction fs with
  | nil =>
    intro pos junk entry d fuel hs hj _ _ hfuel
    obtain ⟨k, rfl⟩ : ∃ k, fuel = k + 1 := ⟨fuel - 1, by omega⟩
    have : TAB ∉ alist.drop pos := by rw [hs]; simpa [render] using hj
    simp [FragCloseLoop, NextEntry_done alist pos entry 200 this, locate, closeScan]
  | cons f fs ih =>
    intro pos junk entry d fuel hs hj hf hne hfuel
    obtain ⟨k, rfl⟩ : ∃ k, fuel = k + 1 := ⟨fuel - 1, by omega⟩
    have hk : fs.length < k := by simp at hfuel; omega
    have hs' : alist.drop pos = junk ++ TAB :: (f ++ render fs) := by rw [hs]; rfl
    have hft : TAB ∉ f := hf f (by simp)
    have hstep := NextEntry_step alist pos junk f (render fs) entry 200 hs' hj hft (render_cases fs)
    have hnulE : NUL ∉ entryText f := not_mem_of_drop alist pos junk f _ NUL hs' hnul
    have hneE : entryText f ≠ [] := hne f (by simp)
    have hdrop := drop_after_entry alist pos junk f (render fs) hs'
    have hjunk : TAB ∉ f.drop (entryText f).length := fun h => hft (List.mem_of_mem_drop h)
    have hloc := locate_next (entryText f) f (pos + junk.length + 1) fs (entryText_isPre f)
    simp only [FragCloseLoop, hstep, locate, closeScan]
    by_cases hfit : (entryText f).length < 200
    · simp only [hfit, if_true, not_true_eq_false, if_false]
      have IH := fun entry d => ih (pos + junk.length + 1 + (entryText f).length)
        (f.drop (entryText f).length) entry d k hdrop hjunk
        (fun g hg => hf g (by simp [hg])) (fun g hg => hne g (by simp [hg])) hk
      rw [hloc] at IH
      cases he : entryText f with
      | nil => exact absurd he hneE
      | cons c tl =>
        rw [he] at hnulE IH
        have hc : c ≠ NUL := fun e => hnulE (by simp [e])
        cases tl with
        | nil =>
          simp only [List.cons_append, List.nil_append, List.getD_cons_zero, List.getD_cons_succ,
            isMark_eq c hc, isOpen, isClose, ne_eq, not_true_eq_false, if_false,
            Bool.false_eq_true]
          by_cases hm : (c == '!' || c == '$' || c == '%') = true
          · simp only [hm, Bool.true_eq_false, if_false, if_true]
            split_ifs
            · rfl
            · exact IH _ _
          · have hm' : (c == '!' || c == '$' || c == '%') = false := by simpa using hm
            simp only [hm', if_true, Bool.false_eq_true, if_false]
            exact IH _ _
        | cons c2 tl2 =>
          have hc2 : c2 ≠ NUL := fun e => hnulE (by simp [e])
          simp only [List.cons_append, List.getD_cons_zero, List.getD_cons_succ,
            isMark_eq c hc, isOpen, isClose, ne_eq, hc2, not_false_eq_true, if_true,
            Bool.false_eq_true, if_false]
          by_cases hm : (c == '!' || c == '$' || c == '%') = true
          · simp only [hm, Bool.true_eq_false, if_false, if_true]
            exact IH _ _
          · have hm' : (c == '!' || c == '$' || c == '%') = false := by simpa using hm
            simp only [hm', if_true, Bool.false_eq_true, if_false]
            exact IH _ _
    · simp only [hfit, if_false, not_false_eq_true, if_true]

/-- On a list whose entries are not empty, `FragClose` computes `closeScan` over
the entries after `pos`, from depth -1 when the header is to be skipped. -/
theorem FragClose_scan (alist : Str) (pos : Nat) (skip : Int) (entry : Str)
    (hnul : NUL ∉ alist) (hne : ∀ e ∈ entriesFrom alist pos, e.1 ≠ []) :
    FragClose alist (some pos) skip entry =
      closeScan 200 (entriesFrom alist pos) (if skip > 0 then -1 else 0) := by
  obtain ⟨junk, fs, e1, e2, e3, e4, e5⟩ := entriesFrom_render alist pos
  rw [e1] at hne ⊢
  have hne' : ∀ f ∈ fs, entryText f ≠ [] := by
    intro f hf
    obtain ⟨t, ht⟩ := mem_locate fs (pos + junk.length + 1) f hf
    exact hne _ ht
  exact closeLoop_refines alist hnul fs pos junk entry _ _ e2 e3 e4 hne' e5


theorem closeScan_balanced (ssz : Nat) : ∀ (es : List (Str × Nat)) (d : Int),
    (∀ j ≤ es.length, 0 ≤ d + depthAt es j) → (∀ e ∈ es, e.1.length < ssz) →
    closeScan ssz es d = .null := by
  intro es
  induction es with
  | nil => intro d _ _; rfl
  | cons x rest ih =>
    obtain ⟨e0, t0⟩ := x
    intro d hnn hfit
    have hfit0 : e0.length < ssz := hfit (e0, t0) (by simp)
    have h1 := hnn 1 (by simp)
    rw [depthAt_succ, depthAt_zero] at h1
    have IH := fun d' (h : d' = d + delta e0) => ih d'
      (fun j hj => by
        have := hnn (j + 1) (by simpa using hj)
        rw [depthAt_succ] at this
        omega)
      (fun e he => hfit e (by simp [he]))
    simp only [closeScan, hfit0, not_true_eq_false, if_false]
    by_cases ho : isOpen e0 = true
    · have hd : delta e0 = 1 := by simp [delta, ho]
      rw [if_pos ho]
      exact IH _ (by omega)
    · rw [if_neg ho]
      by_cases hc : isClose e0 = true
      · have hd : delta e0 = -1 := by simp [delta, ho, hc]
        rw [if_pos hc, if_neg (by omega)]
        exact IH _ (by omega)
      · have hd : delta e0 = 0 := by simp [delta, ho, hc]
        rw [if_neg hc]
        exact IH _ (by omega)

theorem closeScan_no_fault (ssz : Nat) : ∀ (es : List (Str × Nat)) (d : Int),
    (∀ e ∈ es, e.1.length < ssz) → closeScan ssz es d ≠ .fault := by
  intro es
  induction es with
  | nil => intro d _; simp [closeScan]
  | cons x rest ih =>
    obtain ⟨e0, t0⟩ := x
    intro d hfit
    have hfit0 : e0.length < ssz := hfit (e0, t0) (by simp)
    have IH := fun d' => ih d' (fun e he => hfit e (by simp [he]))
    simp only [closeScan, hfit0, not_true_eq_false, if_false]
    split_ifs
    · exact IH _
    · simp
    · exact IH _
    · exact IH _

theorem closeScan_no_close (ssz : Nat) : ∀ (es : List (Str × Nat)) (d : Int),
    (∀ e ∈ es, isClose e.1 = false) → (∀ e ∈ es, e.1.length < ssz) →
    closeScan ssz es d = .null := by
  intro es
  induction es with
  | nil => intro d _ _; rfl
  | cons x rest ih =>
    obtain ⟨e0, t0⟩ := x
    intro d hnc hfit
    have hfit0 : e0.length < ssz := hfit (e0, t0) (by simp)
    have hc : isClose e0 = false := hnc (e0, t0) (by simp)
    have IH := fun d' => ih d' (fun e he => hnc e (by simp [he]))
      (fun e he => hfit e (by simp [he]))
    simp only [closeScan, hfit0, not_true_eq_false, if_false, hc, Bool.false_eq_true]
    split_ifs <;> exact IH _

theorem closeScan_first_close (ssz : Nat) : ∀ (k : Nat) (es : List (Str × Nat)) (d : Int),
    k < es.length → isClose (es.getD k ([], 0)).1 = true →
    d + depthAt es k = 0 → (∀ j ≤ k, 0 ≤ d + depthAt es j) →
    (∀ j ≤ k, (es.getD j ([], 0)).1.length < ssz) →
    closeScan ssz es d = .ptr (es.getD k ([], 0)).2 := by
  intro k
  induction k with
  | zero =>
    intro es d hk hc hd _ hfit
    cases es with
    | nil => simp at hk
    | cons x rest =>
      obtain ⟨e0, t0⟩ := x
      have hfit0 := hfit 0 (Nat.le_refl _)
      simp only [List.getD_cons_zero] at hc hfit0 ⊢
      rw [depthAt_zero] at hd
      have : d = 0 := by omega
      subst this
      simp [closeScan, hfit0, hc, not_open_of_close e0 hc]
  | succ k ih =>
    intro es d hk hc hd hnn hfit
    cases es with
    | nil => simp at hk
    | cons x rest =>
      obtain ⟨e0, t0⟩ := x
      have hfit0 := hfit 0 (by omega)
      simp only [List.getD_cons_zero] at hfit0
      simp only [List.getD_cons_succ] at hc ⊢
      have hd1 := hnn 1 (by omega)
      rw [depthAt_succ, depthAt_zero] at hd1
      rw [depthAt_succ] at hd
      have IH := fun d' (h1 : d' = d + delta e0) => ih rest d' (by simpa using hk) hc
        (by omega)
        (fun j hj => by
          have := hnn (j + 1) (by omega)
          rw [depthAt_succ] at this
          omega)
        (fun j hj => by
          have := hfit (j + 1) (by omega)
          simpa using this)
      simp only [closeScan, hfit0, not_true_eq_false, if_false]
      by_cases ho : isOpen e0 = true
      · have hdl : delta e0 = 1 := by simp [delta, ho]
        rw [if_pos ho]
        exact IH _ (by omega)
      · rw [if_neg ho]
        by_cases hcl : isClose e0 = true
        · have hdl : delta e0 = -1 := by simp [delta, ho, hcl]
          rw [if_pos hcl, if_neg (by omega)]
          exact IH _ (by omega)
        · have hdl : delta e0 = 0 := by simp [delta, ho, hcl]
          rw [if_neg hcl]
          exact IH _ (by omega)

theorem closeScan_ptr (ssz : Nat) : ∀ (es : List (Str × Nat)) (d : Int) (t : Nat),
    0 ≤ d → closeScan ssz es d = .ptr t →
    ∃ k, k < es.length ∧ (es.getD k ([], 0)).2 = t ∧ isClose (es.getD k ([], 0)).1 = true ∧
      d + depthAt es k = 0 ∧ ∀ j ≤ k, 0 ≤ d + depthAt es j := by
  intro es
  induction es with
  | nil => intro d t _ h; simp [closeScan] at h
  | cons x rest ih =>
    obtain ⟨e0, t0⟩ := x
    intro d t hd h
    simp only [closeScan] at h
    by_cases hfit : e0.length < ssz
    · simp only [hfit, not_true_eq_false, if_false] at h
      have step : ∀ d', d' = d + delta e0 → 0 ≤ d' → closeScan ssz rest d' = .ptr t →
          ∃ k, k < ((e0, t0) :: rest).length ∧ (((e0, t0) :: rest).getD k ([], 0)).2 = t ∧
            isClose (((e0, t0) :: rest).getD k ([], 0)).1 = true ∧
            d + depthAt ((e0, t0) :: rest) k = 0 ∧
            ∀ j ≤ k, 0 ≤ d + depthAt ((e0, t0) :: rest) j := by
        intro d' hd' hpos hscan
        obtain ⟨k, h1, h2, h3, h4, h5⟩ := ih d' t hpos hscan
        refine ⟨k + 1, by simpa using h1, by simpa using h2, by simpa using h3, ?_, ?_⟩
        · rw [depthAt_succ]; omega
        · intro j hj
          cases j with
          | zero => rw [depthAt_zero]; omega
          | succ j =>
            rw [depthAt_succ]
            have := h5 j (by omega)
            omega
      by_cases ho : isOpen e0 = true
      · have hdl : delta e0 = 1 := by simp [delta, ho]
        rw [if_pos ho] at h
        exact step _ (by omega) (by omega) h
      · rw [if_neg ho] at h
        by_cases hcl : isClose e0 = true
        · have hdl : delta e0 = -1 := by simp [delta, ho, hcl]
          rw [if_pos hcl] at h
          by_cases h0 : d = 0
          · rw [if_pos h0] at h
            simp only [Ret.ptr.injEq] at h
            refine ⟨0, by simp, by simpa using h, by simpa using hcl,
              by rw [depthAt_zero]; omega, ?_⟩
            intro j hj
            have : j = 0 := by omega
            subst this
            rw [depthAt_zero]; omega
          · rw [if_neg h0] at h
            exact step _ (by omega) (by omega) h
        · have hdl : delta e0 = 0 := by simp [delta, ho, hcl]
          rw [if_neg hcl] at h
          exact step _ (by omega) (by omega) h
    · simp [hfit] at h

/-- A trailing tab gives an empty entry, which `FragClose` takes for a close
marker when the entry before it had one character: the result is the end of the
list whatever the array held on entering the function. -/
theorem FragClose_empty_entry (entry : Str) :
    FragClose "\t!x\t!\t".toList (some 0) 0 entry = .ptr 6 ∧
    FragClose "\t!x\ta\t".toList (some 0) 1 entry = .ptr 6 := by
  constructor <;>
    simp [FragClose, FragCloseLoop, NextEntry, entrySpan, strchr, strncpy_s, backUp, isMark, TAB,
      NUL]

set_option maxRecDepth 100000 in
/-- An entry of 200 characters does not fit the array of `FragClose`: the copy
faults and no pointer is returned. -/
theorem FragClose_long_entry :
    FragClose ("\t!x\t".toList ++ List.replicate 200 'a') (some 0) 0 (List.replicate 200 'z') =
      .fault := by
  decide

/-- C1 (as stated, refuted): in the list `!x`, `!`, empty entry every prefix of
the markers has as many opens as closes, yet `FragClose (pos, 0)` returns the
end of the list; in the list `!x`, `a`, empty entry there is one open marker and
no close, yet `FragClose (pos, 1)` returns the end of the list. -/
theorem FragClose_reports_close :
    (entriesFrom "\t!x\t!\t".toList 0).map Prod.fst = ["!x".toList, "!".toList, []] ∧
    (∀ j ≤ 3, 0 ≤ depthAt (entriesFrom "\t!x\t!\t".toList 0) j) ∧
    FragClose "\t!x\t!\t".toList (some 0) 0 (List.replicate 200 'z') = .ptr 6 ∧
    (entriesFrom "\t!x\ta\t".toList 0).map Prod.fst = ["!x".toList, "a".toList, []] ∧
    FragClose "\t!x\ta\t".toList (some 0) 1 (List.replicate 200 'z') = .ptr 6 := by
  exact ⟨by decide, by decide, (FragClose_empty_entry _).1, by decide,
    (FragClose_empty_entry _).2⟩

/-- C1 (amended): on a list whose entries after `pos` are not empty and fit the
200-byte buffer, if every prefix of the entries after `pos` has at least as many
open markers as bare close markers, `FragClose (pos, 0)` returns NULL; and with
no bare close marker at all it returns NULL for either value of `skip`. -/
theorem FragClose_not_found (alist : Str) (pos : Nat) (entry : Str) (hnul : NUL ∉ alist)
    (hne : ∀ e ∈ entriesFrom alist pos, e.1 ≠ [])
    (hfit : ∀ e ∈ entriesFrom alist pos, e.1.length < 200) :
    ((∀ j ≤ (entriesFrom alist pos).length, 0 ≤ depthAt (entriesFrom alist pos) j) →
      FragClose alist (some pos) 0 entry = .null) ∧
    ((∀ e ∈ entriesFrom alist pos, isClose e.1 = false) →
      ∀ skip, FragClose alist (some pos) skip entry = .null) := by
  constructor
  · intro h
    rw [FragClose_scan alist pos 0 entry hnul hne]
    exact closeScan_balanced 200 _ _ (fun j hj => by have := h j hj; simpa using this) hfit
  · intro h skip
    rw [FragClose_scan alist pos skip entry hnul hne]
    exact closeScan_no_close 200 _ _ h hfit

theorem FragClose_not_found_witness :
    FragClose "\t!x\ta=b\t!y\t!".toList (some 0) 0 [] = .null ∧
    ∀ skip, FragClose "\t!x\ta=b".toList (some 0) skip [] = .null :=
  ⟨(FragClose_not_found "\t!x\ta=b\t!y\t!".toList 0 [] (by decide) (by decide) (by decide)).1
      (by decide),
    (FragClose_not_found "\t!x\ta=b".toList 0 [] (by decide) (by decide) (by decide)).2
      (by decide)⟩

/-- An empty entry before the close marker: the result depends on the byte the
array held at index 1 on entering the function and is never the position just
past the close marker, which is 3. -/
theorem FragClose_empty_entry_first (entry : Str) :
    FragClose "\t\t!".toList (some 0) 0 entry =
      if entry.getD 1 NUL = NUL then .ptr 1 else .null := by
  rcases entry with _ | ⟨a, _ | ⟨b, l⟩⟩ <;>
    simp [FragClose, FragCloseLoop, NextEntry, entrySpan, strchr, strncpy_s, backUp, isMark, TAB,
      NUL]

/-- C2 (as stated, refuted): in the list made of an empty entry and `!`, the
first bare close marker at which closes exceed opens ends at position 3, but
`FragClose (pos, 0)` returns NULL when the array held a non-NUL byte at index 1
and position 1 when it held NUL. -/
theorem FragClose_misses_close :
    entriesFrom "\t\t!".toList 0 = [([], 1), ("!".toList, 3)] ∧
    isClose ((entriesFrom "\t\t!".toList 0).getD 1 ([], 0)).1 = true ∧
    depthAt (entriesFrom "\t\t!".toList 0) 1 = 0 ∧
    FragClose "\t\t!".toList (some 0) 0 (List.replicate 200 'z') = .null ∧
    FragClose "\t\t!".toList (some 0) 0 (List.replicate 200 NUL) = .ptr 1 := by
  refine ⟨by decide, by decide, by decide, ?_, ?_⟩
  · rw [FragClose_empty_entry_first]; decide
  · rw [FragClose_empty_entry_first]; decide

/-- C2 (amended): on a list whose entries after `pos` are not empty and fit the
200-byte buffer, `FragClose (pos, 0)` returns position `t` exactly when `t` is
the position just past the first bare close marker at which the close markers
seen since `pos` exceed the open markers, other entries being ignored; and it
returns NULL exactly when there is no such close marker. -/
theorem FragClose_matching_close (alist : Str) (pos : Nat) (entry : Str) (hnul : NUL ∉ alist)
    (hne : ∀ e ∈ entriesFrom alist pos, e.1 ≠ [])
    (hfit : ∀ e ∈ entriesFrom alist pos, e.1.length < 200) :
    (∀ t, FragClose alist (some pos) 0 entry = .ptr t ↔
      ∃ k, k < (entriesFrom alist pos).length ∧
        ((entriesFrom alist pos).getD k ([], 0)).2 = t ∧
        isClose ((entriesFrom alist pos).getD k ([], 0)).1 = true ∧
        depthAt (entriesFrom alist pos) k = 0 ∧
        ∀ j ≤ k, 0 ≤ depthAt (entriesFrom alist pos) j) ∧
    (FragClose alist (some pos) 0 entry = .null ↔
      ¬ ∃ k, k < (entriesFrom alist pos).length ∧
        isClose ((entriesFrom alist pos).getD k ([], 0)).1 = true ∧
        depthAt (entriesFrom alist pos) k = 0 ∧
        ∀ j ≤ k, 0 ≤ depthAt (entriesFrom alist pos) j) := by
  have hs := FragClose_scan alist pos 0 entry hnul hne
  simp only [gt_iff_lt, lt_self_iff_false, if_false] at hs
  have hfitk : ∀ j, j < (entriesFrom alist pos).length →
      ((entriesFrom alist pos).getD j ([], 0)).1.length < 200 := by
    intro j hj
    apply hfit
    rw [List.getD_eq_getElem _ _ hj]
    exact List.getElem_mem _
  have hptr : ∀ t, closeScan 200 (entriesFrom alist pos) 0 = .ptr t →
      ∃ k, k < (entriesFrom alist pos).length ∧
        ((entriesFrom alist pos).getD k ([], 0)).2 = t ∧
        isClose ((entriesFrom alist pos).getD k ([], 0)).1 = true ∧
        depthAt (entriesFrom alist pos) k = 0 ∧
        ∀ j ≤ k, 0 ≤ depthAt (entriesFrom alist pos) j := by
    intro t h
    obtain ⟨k, h1, h2, h3, h4, h5⟩ := closeScan_ptr 200 _ 0 t (Int.le_refl _) h
    exact ⟨k, h1, h2, h3, by omega, fun j hj => by have := h5 j hj; omega⟩
  have hfirst : ∀ k, k < (entriesFrom alist pos).length →
      isClose ((entriesFrom alist pos).getD k ([], 0)).1 = true →
      depthAt (entriesFrom alist pos) k = 0 →
      (∀ j ≤ k, 0 ≤ depthAt (entriesFrom alist pos) j) →
      closeScan 200 (entriesFrom alist pos) 0 =
        .ptr ((entriesFrom alist pos).getD k ([], 0)).2 := by
    intro k hk hc hd hnn
    exact closeScan_first_close 200 k _ 0 hk hc (by omega)
      (fun j hj => by have := hnn j hj; omega) (fun j hj => hfitk j (by omega))
  rw [hs]
  constructor
  · intro t
    constructor
    · exact hptr t
    · rintro ⟨k, h1, h2, h3, h4, h5⟩
      rw [hfirst k h1 h3 h4 h5, h2]
  · constructor
    · rintro h ⟨k, h1, h3, h4, h5⟩
      rw [hfirst k h1 h3 h4 h5] at h
      exact absurd h (by simp)
    · intro h
      cases hr : closeScan 200 (entriesFrom alist pos) 0 with
      | fault => exact absurd hr (closeScan_no_fault 200 _ 0 hfit)
      | null => rfl
      | ptr t =>
        obtain ⟨k, h1, _, h3, h4, h5⟩ := hptr t hr
        exact absurd ⟨k, h1, h3, h4, h5⟩ h

theorem FragClose_matching_close_witness :
    FragClose "\t!x\ta=b\t!\t!\tc=d".toList (some 0) 0 [] = .ptr 11 :=
  ((FragClose_matching_close "\t!x\ta=b\t!\t!\tc=d".toList 0 [] (by decide) (by decide)
    (by decide)).1 11).2 ⟨3, by decide, by decide, by decide, by decide, by decide⟩

/-! ## The placeholder words -/

theorem SlotRef_mkPair (slot v : Str) (hslot : '=' ∉ slot) : SlotRef (mkPair slot v) = some v := by
  unfold mkPair SlotRef
  induction slot with
  | nil => simp [strchr]
  | cons a l ih =>
    have ha : ¬ a = '=' := fun h => hslot (by simp [h])
    have hl : '=' ∉ l := fun h => hslot (by simp [h])
    have ih := ih hl
    simp only [List.cons_append, strchr, ha, if_false]
    cases hk : strchr (l ++ '=' :: v) '=' with
    | none => simp [hk] at ih
    | some k => simpa [hk] using ih

theorem strchr_mkPair (slot v : Str) (hslot : '=' ∉ slot) :
    strchr (mkPair slot v) '=' = some slot.length := by
  unfold mkPair
  exact strchr_append slot v '=' hslot

theorem BaseNoun_placeholder_any (m : jhcMorphFcns) (t : Nat) (slot v : Str)
    (h : v = "thing".toList ∨ v = "something".toList) (hslot : '=' ∉ slot) :
    BaseNoun m t (mkPair slot v) = (none, t) := by
  have h' : v = ['t', 'h', 'i', 'n', 'g'] ∨ v = ['s', 'o', 'm', 'e', 't', 'h', 'i', 'n', 'g'] := h
  simp only [BaseNoun, SlotRef_mkPair slot v hslot]
  rw [if_pos h]

theorem base_noun_placeholder (t : Nat) (rest v : Str)
    (h : v = "thing".toList ∨ v = "something".toList) (hslot : '=' ∉ rest) :
    base_noun t (mkPair ("AKO".toList ++ rest) v) = (none, 0) := by
  have hs : '=' ∉ "AKO".toList ++ rest := by
    intro hc
    rcases List.mem_append.1 hc with hc | hc
    · exact absurd hc (by decide)
    · exact hslot hc
  have e1 : strncmp_eq (mkPair ("AKO".toList ++ rest) v) "AKO".toList 3 = true := by
    simp [strncmp_eq, mkPair]
  have e2 := strchr_mkPair ("AKO".toList ++ rest) v hs
  have e3 : (mkPair ("AKO".toList ++ rest) v).drop (("AKO".toList ++ rest).length + 1) = v := by
    unfold mkPair
    rw [← List.drop_drop, List.drop_left]
    rfl
  simp only [base_noun, e1, e2, e3, Bool.not_true, Bool.false_eq_true, if_false]
  rw [if_pos h]

theorem BaseNoun_AKO (t : Nat) (v : Str) (h1 : v ≠ "thing".toList)
    (h2 : v ≠ "something".toList) :
    BaseNoun noExcept t (mkPair "AKO".toList v) = (some v, JTAG_NSING) := by
  have h1' : ¬ v = ['t', 'h', 'i', 'n', 'g'] := h1
  have h2' : ¬ v = ['s', 'o', 'm', 'e', 't', 'h', 'i', 'n', 'g'] := h2
  have e : noun_stem v JTAG_NSING = v := by
    simp only [noun_stem, eq_false (by decide : ¬ (JTAG_NSING &&& JTAG_NPL ≠ 0)), if_false]
  simp [BaseNoun, get_base_noExcept, SlotRef, SlotMatch, SlotStart, strncmp_eq, gram_tag, strchr, chr,
    mkPair, h1', h2', e]
  decide

theorem base_noun_AKO (t : Nat) (v : Str) (h1 : v ≠ "thing".toList)
    (h2 : v ≠ "something".toList) :
    base_noun t (mkPair "AKO".toList v) = (some v, 0) := by
  have h1' : ¬ v = ['t', 'h', 'i', 'n', 'g'] := h1
  have h2' : ¬ v = ['s', 'o', 'm', 'e', 't', 'h', 'i', 'n', 'g'] := h2
  simp [base_noun, strncmp_eq, strchr, mkPair, h1', h2']

/-- Under the plural tag only a word made of a placeholder and a final `s`
stems to that placeholder. -/
theorem noun_stem_placeholder (v w : Str) (hw : w = "thing".toList ∨ w = "something".toList)
    (h1 : v ≠ "thing".toList) (h2 : v ≠ "something".toList) :
    noun_stem v JTAG_NPL = w ↔ v = w ++ ['s'] := by
  constructor
  · intro h
    by_cases he : endsIn v "s".toList
    · obtain ⟨_, hlen, hsuf⟩ := he
      obtain ⟨u, rfl⟩ := hsuf
      have hu : 1 ≤ u.length := by simp at hlen; omega
      have e0 : u ++ "s".toList = u ++ ['s'] := rfl
      rw [e0] at h ⊢
      by_cases hl : 3 ≤ u.length
      · obtain ⟨u1, x, y, rfl⟩ := split_last2 u (by omega)
        have hu1 : 1 ≤ u1.length := by simp at hl; omega
        have e : u1 ++ [x, y] ++ ['s'] = u1 ++ [x, y, 's'] := by simp
        rw [e, noun_stem_long u1 x y hu1] at h
        split_ifs at h with c1 c2
        · exfalso
          have hg : (u1 ++ [x]).getLast? = some 's' := by simp [c1.1]
          rw [h] at hg
          rcases hw with rfl | rfl <;> simp at hg
        · exfalso
          have hg : (u1 ++ ['y']).getLast? = some 'y' := by simp
          rw [h] at hg
          rcases hw with rfl | rfl <;> simp at hg
        · rw [h]
      · have h' := noun_stem_short u hu
        by_cases hl2 : u.length ≤ 2
        · rw [h' hl2] at h; rw [h]
        · exfalso; omega
    · rw [noun_stem_stable v he] at h
      rcases hw with rfl | rfl
      · exact absurd h h1
      · exact absurd h h2
  · rintro rfl
    rcases hw with rfl | rfl <;> decide

/-- C12 (as stated, refuted): under the plural slot the word `things` is not a
placeholder, so it passes the test and is stemmed to `thing`, by `BaseNoun` and
by the inlined `base_noun` alike. -/
theorem plural_placeholder_returned :
    BaseNoun noExcept 0 "AKO-S=things".toList = (some "thing".toList, JTAG_NPL) ∧
    base_noun 0 "AKO-S=things".toList = (some "thing".toList, JTAG_NPL) ∧
    BaseNoun noExcept 0 "AKO-S=somethings".toList = (some "something".toList, JTAG_NPL) := by
  decide

/-- C12 (amended): with no exceptions loaded, for a placeholder word `w`
(`thing` or `something`) and every value, `BaseNoun` and `base_noun` never
return `w` under the slot AKO, and under the slot AKO-S they return `w` exactly
when the value is `w` followed by `s`. -/
theorem placeholder_canonical_form (t : Nat) (v w : Str)
    (hw : w = "thing".toList ∨ w = "something".toList) :
    (BaseNoun noExcept t (mkPair "AKO".toList v)).1 ≠ some w ∧
    (base_noun t (mkPair "AKO".toList v)).1 ≠ some w ∧
    ((BaseNoun noExcept t (mkPair "AKO-S".toList v)).1 = some w ↔ v = w ++ ['s']) ∧
    ((base_noun t (mkPair "AKO-S".toList v)).1 = some w ↔ v = w ++ ['s']) := by
  by_cases hv : v = "thing".toList ∨ v = "something".toList
  · have hne : v ≠ w ++ ['s'] := by
      rcases hv with rfl | rfl <;> rcases hw with rfl | rfl <;> decide
    have a1 := BaseNoun_placeholder_any noExcept t "AKO".toList v hv (by decide)
    have a2 := base_noun_placeholder t [] v hv (by simp)
    have a3 := BaseNoun_placeholder_any noExcept t "AKO-S".toList v hv (by decide)
    have a4 := base_noun_placeholder t "-S".toList v hv (by decide)
    simp only [List.append_nil] at a2
    have e4 : "AKO".toList ++ "-S".toList = "AKO-S".toList := rfl
    rw [e4] at a4
    rw [a1, a2, a3, a4]
    simp [hne]
  · have h1 : v ≠ "thing".toList := fun h => hv (Or.inl h)
    have h2 : v ≠ "something".toList := fun h => hv (Or.inr h)
    have hvw : v ≠ w := by
      rcases hw with rfl | rfl
      · exact h1
      · exact h2
    rw [BaseNoun_AKO t v h1 h2, base_noun_AKO t v h1 h2, BaseNoun_AKO_S t v h1 h2,
      base_noun_AKO_S t v h1 h2]
    have key := noun_stem_placeholder v w hw h1 h2
    simp only [ne_eq, Option.some.injEq]
    exact ⟨hvw, hvw, key, key⟩

theorem placeholder_canonical_form_witness :
    (BaseNoun noExcept 0 (mkPair "AKO".toList "dog".toList)).1 ≠ some "thing".toList ∧
    (base_noun 0 (mkPair "AKO".toList "dog".toList)).1 ≠ some "thing".toList ∧
    ((BaseNoun noExcept 0 (mkPair "AKO-S".toList "dog".toList)).1 = some "thing".toList ↔
      "dog".toList = "thing".toList ++ ['s']) ∧
    ((base_noun 0 (mkPair "AKO-S".toList "dog".toList)).1 = some "thing".toList ↔
      "dog".toList = "thing".toList ++ ['s']) :=
  placeholder_canonical_form 0 "dog".toList "thing".toList (Or.inl rfl)

theorem SlotGet_mismatch (pair pfx : Str) (lower : Int)
    (h : strncmp_eq pair pfx pfx.length = false) : SlotGet pair (some pfx) lower = none := by
  simp [SlotGet, SlotStart, h]

theorem SlotStart_mismatch (pair pfx : Str)
    (h : strncmp_eq pair pfx pfx.length = false) : SlotStart pair (some pfx) = -1 := by
  simp [SlotStart, h]

/-- The loop body of the object builder on a placeholder pair: nothing is added
to the description, only the tags of the object are cleared. -/
theorem build_obj_pair_placeholder (bo : BuildObj) (u : Uninit) (list : Str)
    (nr : jhcNodePool) (rest v : Str) (tail t blf : Nat)
    (h : v = "thing".toList ∨ v = "something".toList) (hslot : '=' ∉ rest) :
    jhcGraphizer.build_obj_pair bo u list nr (mkPair ("AKO".toList ++ rest) v) tail t blf =
      some (some tail, SetTags nr 0 0, t) := by
  have r1 := SlotGet_mismatch (mkPair ("AKO".toList ++ rest) v) "REF".toList 0
    (by simp [strncmp_eq, mkPair])
  have r2 := SlotGet_mismatch (mkPair ("AKO".toList ++ rest) v) "NAME".toList 0
    (by simp [strncmp_eq, mkPair])
  have r3 := SlotGet_mismatch (mkPair ("AKO".toList ++ rest) v) "HQ".toList SlotGet_lower
    (by simp [strncmp_eq, mkPair])
  have r4 := SlotGet_mismatch (mkPair ("AKO".toList ++ rest) v) "DEG".toList SlotGet_lower
    (by simp [strncmp_eq, mkPair])
  have r5 := SlotGet_mismatch (mkPair ("AKO".toList ++ rest) v) "HAS".toList SlotGet_lower
    (by simp [strncmp_eq, mkPair])
  have s1 := SlotStart_mismatch (mkPair ("AKO".toList ++ rest) v) "ACT-G".toList
    (by simp [strncmp_eq, mkPair])
  have s2 := SlotStart_mismatch (mkPair ("AKO".toList ++ rest) v) "LOC".toList
    (by simp [strncmp_eq, mkPair])
  simp only [jhcGraphizer.build_obj_pair, r1, r2, r3, r4, r5, s1, s2,
    base_noun_placeholder _ rest v h hslot]
  simp

/-- C11: for every pair whose slot begins with AKO and whose value is `thing` or
`something`, `BaseNoun` (whatever exceptions are loaded) and the inlined
`base_noun` return NULL; the loop body of `jhcGraphizer::build_obj` adds no node to
the description for such a pair (it only clears the tags of the object), and the
loop goes on from the entry after the pair with the description as it was, so
the other pairs add their facts: in the fragment `%obj HQ=big AKO=thing
NAME=Jim %` the description gets the `hq` fact and the name and no `ako` fact. -/
theorem placeholder_rejected (rest v : Str) (h : v = "thing".toList ∨ v = "something".toList)
    (hslot : '=' ∉ rest) (m : jhcMorphFcns) (t : Nat) (bo : BuildObj) (u : Uninit) (list : Str)
    (nr : jhcNodePool) (blf : Nat) :
    (BaseNoun m t (mkPair ("AKO".toList ++ rest) v)).1 = none ∧
    (base_noun t (mkPair ("AKO".toList ++ rest) v)).1 = none ∧
    (∀ tail, jhcGraphizer.build_obj_pair bo u list nr (mkPair ("AKO".toList ++ rest) v) tail t blf =
      some (some tail, SetTags nr 0 0, t)) ∧
    (∀ fuel pos next p tl, FragNextPair list pos next 200 = .ptr (p, tl) →
      cstr p = mkPair ("AKO".toList ++ rest) v →
      jhcGraphizer.build_obj_loop bo u list blf (fuel + 1) pos next nr t =
        jhcGraphizer.build_obj_loop bo u list blf fuel (some tl) p (SetTags nr 0 0) t) ∧
    (jhcGraphizer.build_obj ⟨[], 0⟩ "\t%obj\tHQ=big\tAKO=thing\tNAME=Jim\t%".toList true (some 0)
        [] none 10).map (·.2) =
      some [⟨"obj".toList, none, 0, 10, [], 0⟩,
        ⟨"hq".toList, some "big".toList, 0, 10, [("hq".toList, 0)], 0⟩,
        ⟨"Jim".toList, none, 0, 10, [("lex".toList, 0)], 0⟩] := by
  have hs : '=' ∉ "AKO".toList ++ rest := by
    intro hc
    rcases List.mem_append.1 hc with hc | hc
    · exact absurd hc (by decide)
    · exact hslot hc
  refine ⟨?_, ?_, ?_, ?_, ?_⟩
  · rw [BaseNoun_placeholder_any m t _ v h hs]
  · rw [base_noun_placeholder t rest v h hslot]
  · intro tail
    exact build_obj_pair_placeholder bo u list nr rest v tail t blf h hslot
  · intro fuel pos next p tl hp hc
    simp only [jhcGraphizer.build_obj_loop, hp, hc,
      build_obj_pair_placeholder bo u list nr rest v tl t blf h hslot]
  · rfl

theorem placeholder_rejected_witness :
    (BaseNoun noExcept 0 (mkPair ("AKO".toList ++ "-S".toList) "thing".toList)).1 = none ∧
    (base_noun 0 (mkPair ("AKO".toList ++ "-S".toList) "thing".toList)).1 = none :=
  ⟨(placeholder_rejected "-S".toList "thing".toList (Or.inl rfl) (by decide) noExcept 0
      (fun _ _ => none) ⟨[], 0⟩ [] [] 10).1,
    (placeholder_rejected "-S".toList "thing".toList (Or.inl rfl) (by decide) noExcept 0
      (fun _ _ => none) ⟨[], 0⟩ [] [] 10).2.1⟩

/-! ## The node pool -/

theorem MakeNode_eq (p : jhcNodePool) (k : Str) (w : Option Str) (ng : Int) (b : Nat) :
    MakeNode p k w ng b = (p.length, p ++ [⟨k, w, ng, b, [], 0⟩]) := rfl

theorem AddArg_last (p : jhcNodePool) (nd : jhcNetNode) (slot : Str) (val : Nat) :
    AddArg (p ++ [nd]) p.length slot val = p ++ [{ nd with args := nd.args ++ [(slot, val)] }] := by
  simp [AddArg]

theorem AddProp_some (p : jhcNodePool) (h : Nat) (role : Str) (w : Option Str) (ng : Int)
    (b : Nat) (kind : Option Str) :
    AddProp p (some h) role w ng b kind =
      (p.length, p ++ [⟨kind.getD role, w, ng, b, [(role, h)], 0⟩]) := by
  simp [AddProp, MakeNode_eq, AddArg_last]

theorem AddProp_none (p : jhcNodePool) (role : Str) (w : Option Str) (ng : Int)
    (b : Nat) (kind : Option Str) :
    AddProp p none role w ng b kind = (p.length, p ++ [⟨kind.getD role, w, ng, b, [], 0⟩]) := by
  simp [AddProp, MakeNode_eq]

theorem AddArg_length (p : jhcNodePool) (i : Nat) (slot : Str) (val : Nat) :
    (AddArg p i slot val).length = p.length := by
  unfold AddArg
  split <;> simp

theorem SetTags_length (p : jhcNodePool) (i t : Nat) : (SetTags p i t).length = p.length := by
  unfold SetTags
  split <;> simp

theorem AddProp_length (p : jhcNodePool) (h : Option Nat) (role : Str) (w : Option Str)
    (ng : Int) (b : Nat) (kind : Option Str) :
    (AddProp p h role w ng b kind).2.length = p.length + 1 := by
  cases h with
  | none => simp [AddProp_none]
  | some h => simp [AddProp_some]

theorem factsNeg_AddProp (p : jhcNodePool) (n : Nat) (neg : Int) (h : Option Nat) (role : Str)
    (w : Option Str) (ng : Int) (b : Nat) (kind : Option Str) (hp : factsNeg p n neg)
    (hn : h = some n → role ∈ negRoles → ng = neg) :
    factsNeg (AddProp p h role w ng b kind).2 n neg := by
  intro nd hnd r hr ha
  cases h with
  | none =>
    simp only [AddProp_none, List.mem_append, List.mem_singleton] at hnd
    rcases hnd with hnd | rfl
    · exact hp nd hnd r hr ha
    · simp at ha
  | some h =>
    simp only [AddProp_some, List.mem_append, List.mem_singleton] at hnd
    rcases hnd with hnd | rfl
    · exact hp nd hnd r hr ha
    · simp only [List.mem_singleton, Prod.mk.injEq] at ha
      obtain ⟨rfl, rfl⟩ := ha
      exact hn rfl hr

theorem factsNeg_AddArg (p : jhcNodePool) (n : Nat) (neg : Int) (i : Nat) (slot : Str) (val : Nat)
    (hp : factsNeg p n neg) (hs : slot ∉ negRoles) : factsNeg (AddArg p i slot val) n neg := by
  intro nd hnd r hr ha
  unfold AddArg at hnd
  split at hnd
  · exact hp nd hnd r hr ha
  · rename_i nd0 hi
    rcases List.mem_or_eq_of_mem_set hnd with hnd | rfl
    · exact hp nd hnd r hr ha
    · have hmem : nd0 ∈ p := List.getElem?_mem hi
      simp only [List.mem_append, List.mem_singleton, Prod.mk.injEq] at ha
      rcases ha with ha | ⟨rfl, _⟩
      · exact hp nd0 hmem r hr ha
      · exact absurd hr hs

theorem factsNeg_SetTags (p : jhcNodePool) (n : Nat) (neg : Int) (i t : Nat)
    (hp : factsNeg p n neg) : factsNeg (SetTags p i t) n neg := by
  intro nd hnd r hr ha
  unfold SetTags at hnd
  split at hnd
  · exact hp nd hnd r hr ha
  · rename_i nd0 hi
    rcases List.mem_or_eq_of_mem_set hnd with hnd | rfl
    · exact hp nd hnd r hr ha
    · exact hp nd0 (List.getElem?_mem hi) r hr ha

theorem FindMake_none_length (nr p : jhcNodePool) (find : Int) :
    p.length ≤ (FindMake nr p find none).2.length := by
  unfold FindMake
  split
  · rename_i h; cases h
  · split
    · exact Nat.le_refl _
    · split <;> simp

theorem factsNeg_FindMake_none (nr p : jhcNodePool) (find : Int) (n : Nat) (neg : Int)
    (hp : factsNeg p n neg) (hn : n < p.length) :
    factsNeg (FindMake nr p find none).2 n neg := by
  unfold FindMake
  split
  · rename_i h; cases h
  · split
    · exact hp
    · split
      · intro nd hnd r hr ha
        simp only [List.mem_append] at hnd
        rcases hnd with hnd | hnd
        · exact hp nd hnd r hr ha
        · exfalso
          simp only [shift, List.mem_map] at hnd
          obtain ⟨nd0, _, rfl⟩ := hnd
          simp only [List.mem_map, Prod.mk.injEq] at ha
          obtain ⟨a, _, _, h2⟩ := ha
          omega
      · exact hp

/-! ## jhcNetBuild: the negation flag in an object description -/

theorem not_negRole_wrt : "wrt".toList ∉ negRoles := by decide

theorem not_negRole_obj : "obj".toList ∉ negRoles := by decide

theorem not_negRole_deg : "deg".toList ∉ negRoles := by decide

theorem not_negRole_agt : "agt".toList ∉ negRoles := by decide

theorem netbuild_add_place_keeps (bo : BuildObj) (n : Nat) (neg : Int) (hbo : keepsFacts bo n neg)
    (obj : Nat) (pair : Str) (alist : Option Nat) (p : jhcNodePool) (ng : Int) (blf : Nat)
    (r : Option Nat) (p1 : jhcNodePool)
    (h : jhcNetBuild.add_place bo obj pair alist p ng blf = some (r, p1))
    (hng : obj = n → ng = neg) (hp : factsNeg p n neg) (hn : n < p.length) :
    factsNeg p1 n neg ∧ n < p1.length := by
  have h0 : factsNeg (AddProp p (some obj) "loc".toList
      (SlotGet pair (some "LOC".toList) SlotGet_lower) ng blf none).2 n neg :=
    factsNeg_AddProp p n neg _ _ _ _ _ _ hp (fun e _ => hng (by simpa using e))
  have l0 := AddProp_length p (some obj) "loc".toList
      (SlotGet pair (some "LOC".toList) SlotGet_lower) ng blf none
  simp only [jhcNetBuild.add_place] at h
  by_cases c1 : SlotStart pair (some "LOC-0".toList) > 0
  · rw [if_pos c1] at h
    simp only [Option.some.injEq, Prod.mk.injEq] at h
    obtain ⟨_, rfl⟩ := h
    exact ⟨h0, by omega⟩
  · rw [if_neg c1] at h
    split at h
    · cases h
    · rename_i x p2 hb
      simp only [Option.some.injEq, Prod.mk.injEq] at h
      obtain ⟨_, rfl⟩ := h
      exact hbo _ _ _ _ hb h0 (by omega)
    · rename_i ref tail p2 hb
      have h2 := hbo _ _ _ _ hb h0 (by omega)
      have h3 : factsNeg (AddArg p2 (AddProp p (some obj) "loc".toList
          (SlotGet pair (some "LOC".toList) SlotGet_lower) ng blf none).1 "wrt".toList ref) n neg :=
        factsNeg_AddArg _ _ _ _ _ _ h2.1 not_negRole_wrt
      have l3 := AddArg_length p2 (AddProp p (some obj) "loc".toList
          (SlotGet pair (some "LOC".toList) SlotGet_lower) ng blf none).1 "wrt".toList ref
      by_cases c2 : SlotStart pair (some "LOC-2".toList) ≤ 0
      · rw [if_pos c2] at h
        simp only [Option.some.injEq, Prod.mk.injEq] at h
        obtain ⟨_, rfl⟩ := h
        exact ⟨h3, by omega⟩
      · rw [if_neg c2] at h
        split at h
        · cases h
        · rename_i x p4 hb2
          simp only [Option.some.injEq, Prod.mk.injEq] at h
          obtain ⟨_, rfl⟩ := h
          exact hbo _ _ _ _ hb2 h3 (by omega)
        · rename_i ref2 t2 p4 hb2
          simp only [Option.some.injEq, Prod.mk.injEq] at h
          obtain ⟨_, rfl⟩ := h
          have h4 := hbo _ _ _ _ hb2 h3 (by omega)
          exact ⟨factsNeg_AddArg _ _ _ _ _ _ h4.1 not_negRole_wrt, by
            rw [AddArg_length]; exact h4.2⟩

theorem netbuild_obj_has_keeps (bo : BuildObj) (n : Nat) (neg : Int) (hbo : keepsFacts bo n neg)
    (obj : Nat) (prep : Str) (alist : Option Nat) (p : jhcNodePool) (ng : Int) (blf : Nat)
    (r : Option Nat) (p1 : jhcNodePool)
    (h : jhcNetBuild.obj_has bo obj prep alist p ng blf = some (r, p1))
    (hng : obj = n → ng = neg) (hp : factsNeg p n neg) (hn : n < p.length) :
    factsNeg p1 n neg ∧ n < p1.length := by
  simp only [jhcNetBuild.obj_has] at h
  split at h
  · cases h
  · rename_i x p2 hb
    simp only [Option.some.injEq, Prod.mk.injEq] at h
    obtain ⟨_, rfl⟩ := h
    exact hbo _ _ _ _ hb hp hn
  · rename_i part tail p2 hb
    simp only [Option.some.injEq, Prod.mk.injEq] at h
    obtain ⟨_, rfl⟩ := h
    have h2 := hbo _ _ _ _ hb hp hn
    have h3 : factsNeg (AddProp p2 (some obj) "has".toList (some prep) ng blf none).2 n neg :=
      factsNeg_AddProp p2 n neg _ _ _ _ _ _ h2.1 (fun e _ => hng (by simpa using e))
    have l3 := AddProp_length p2 (some obj) "has".toList (some prep) ng blf none
    exact ⟨factsNeg_AddArg _ _ _ _ _ _ h3 not_negRole_obj, by rw [AddArg_length]; omega⟩

theorem netbuild_obj_deg_keeps (bo : BuildObj) (n : Nat) (neg : Int) (hbo : keepsFacts bo n neg)
    (u : Uninit) (list : Str) (obj : Nat) (amt : Str) (alist : Option Nat) (p : jhcNodePool)
    (ng : Int) (blf : Nat) (r : Option Nat) (p1 : jhcNodePool)
    (h : jhcNetBuild.obj_deg bo u list obj amt alist p ng blf = some (r, p1))
    (hng : obj = n → ng = neg) (hp : factsNeg p n neg) (hn : n < p.length) :
    factsNeg p1 n neg ∧ n < p1.length := by
  simp only [jhcNetBuild.obj_deg] at h
  split at h
  · cases h
  · simp only [Option.some.injEq, Prod.mk.injEq] at h
    obtain ⟨_, rfl⟩ := h
    exact ⟨hp, hn⟩
  · rename_i q tail hq
    split at h
    · rename_i val hv
      simp only [Option.some.injEq, Prod.mk.injEq] at h
      obtain ⟨_, rfl⟩ := h
      have h1 : factsNeg (AddProp p (some obj) "hq".toList (some val) ng blf none).2 n neg :=
        factsNeg_AddProp p n neg _ _ _ _ _ _ hp (fun e _ => hng (by simpa using e))
      have l1 := AddProp_length p (some obj) "hq".toList (some val) ng blf none
      exact ⟨factsNeg_AddProp _ n neg _ _ _ _ _ _ h1 (fun _ hr => absurd hr not_negRole_deg), by
        rw [AddProp_length]; omega⟩
    · split at h
      · split at h
        · cases h
        · rename_i tail1 p2 hpl
          simp only [Option.some.injEq, Prod.mk.injEq] at h
          obtain ⟨_, rfl⟩ := h
          have h2 := netbuild_add_place_keeps bo n neg hbo _ _ _ _ _ _ _ _ hpl hng hp hn
          exact ⟨factsNeg_AddProp _ n neg _ _ _ _ _ _ h2.1 (fun _ hr => absurd hr not_negRole_deg),
            by rw [AddProp_length]; omega⟩
      · simp only [Option.some.injEq, Prod.mk.injEq] at h
        obtain ⟨_, rfl⟩ := h
        exact ⟨hp, hn⟩

theorem netbuild_ref_props_keeps (p : jhcNodePool) (n : Nat) (neg : Int) (pron : Str)
    (hneg : 0 ≤ neg) (hp : factsNeg p n neg) :
    factsNeg (jhcNetBuild.ref_props p n pron neg) n neg ∧
      p.length ≤ (jhcNetBuild.ref_props p n pron neg).length := by
  have hlex : ∀ w, factsNeg (AddLex p n w neg 10).2 n neg ∧ p.length ≤ (AddLex p n w neg 10).2.length :=
    fun w => ⟨factsNeg_AddProp p n neg _ _ _ _ _ _ hp (fun _ _ => rfl), by
      unfold AddLex; rw [AddProp_length]; omega⟩
  unfold jhcNetBuild.ref_props
  by_cases hH : (pron = "he".toList ∨ pron = "him".toList) ∨
      (pron = "she".toList ∨ pron = "her".toList)
  · have hA : ¬ pron = "you".toList := by
      rcases hH with (rfl | rfl) | (rfl | rfl) <;> decide
    have hB : ¬ (pron = "me".toList ∨ stricmp_eq pron "I".toList = true) := by
      rcases hH with (rfl | rfl) | (rfl | rfl) <;> decide
    simp only [hA, hB, if_false]
    by_cases hg : neg > 0
    · simp only [hg, if_true]
      exact ⟨hp, Nat.le_refl _⟩
    · have h0 : neg = 0 := by omega
      subst h0
      simp only [hg, if_false]
      have two : ∀ w1 w2, factsNeg (AddProp (AddProp p (some n) "hq".toList w1 0 10 none).2 (some n)
          "ako".toList w2 0 10 none).2 n 0 ∧
          p.length ≤ (AddProp (AddProp p (some n) "hq".toList w1 0 10 none).2 (some n)
          "ako".toList w2 0 10 none).2.length := fun w1 w2 =>
        ⟨factsNeg_AddProp _ n 0 _ _ _ _ _ _
          (factsNeg_AddProp p n 0 _ _ _ _ _ _ hp (fun _ _ => rfl)) (fun _ _ => rfl), by
          rw [AddProp_length, AddProp_length]; omega⟩
      split_ifs
      · exact two _ _
      · exact two _ _
      · exact ⟨hp, Nat.le_refl _⟩
  · have h1 : ¬ (pron = "he".toList ∨ pron = "him".toList) := fun h => hH (Or.inl h)
    have h2 : ¬ (pron = "she".toList ∨ pron = "her".toList) := fun h => hH (Or.inr h)
    split_ifs <;> first
      | exact hlex _
      | exact ⟨hp, Nat.le_refl _⟩

theorem netbuild_build_obj_pair_keeps (bo : BuildObj) (neg : Int) (hbo : keepsFacts bo 0 neg)
    (hneg : 0 ≤ neg) (mf : MorphLex) (u : Uninit) (list : Str) (nr : jhcNodePool) (pair : Str)
    (tail t blf : Nat) (r : Option Nat) (nr1 : jhcNodePool) (t1 : Nat)
    (h : jhcNetBuild.build_obj_pair bo mf u list nr pair tail t neg blf = some (r, nr1, t1))
    (hp : factsNeg nr 0 neg) (hn : 0 < nr.length) :
    factsNeg nr1 0 neg ∧ 0 < nr1.length := by
  have hT : ∀ tg, factsNeg (SetTags nr 0 tg) 0 neg ∧ 0 < (SetTags nr 0 tg).length :=
    fun tg => ⟨factsNeg_SetTags nr 0 neg 0 tg hp, by rw [SetTags_length]; exact hn⟩
  simp only [jhcNetBuild.build_obj_pair] at h
  split at h
  · rename_i val hv
    simp only [Option.some.injEq, Prod.mk.injEq] at h
    obtain ⟨_, rfl, _⟩ := h
    have := netbuild_ref_props_keeps nr 0 neg val hneg hp
    exact ⟨this.1, by omega⟩
  · split at h
    · simp only [Option.some.injEq, Prod.mk.injEq] at h
      obtain ⟨_, rfl, _⟩ := h
      exact ⟨factsNeg_AddProp nr 0 neg _ _ _ _ _ _ hp (fun _ _ => rfl), by
        unfold AddLex; rw [AddProp_length]; omega⟩
    · split at h
      · simp only [Option.some.injEq, Prod.mk.injEq] at h
        obtain ⟨_, rfl, _⟩ := h
        exact ⟨factsNeg_AddProp _ 0 neg _ _ _ _ _ _ (hT _).1 (fun _ _ => rfl), by
          rw [AddProp_length]; omega⟩
      · rename_i tg hnl
        split at h
        · simp only [Option.some.injEq, Prod.mk.injEq] at h
          obtain ⟨_, rfl, _⟩ := h
          exact ⟨factsNeg_AddProp _ 0 neg _ _ _ _ _ _ (hT _).1 (fun _ _ => rfl), by
            rw [AddProp_length]; omega⟩
        · split at h
          · rename_i val hv
            cases hd : jhcNetBuild.obj_deg bo u list 0 val (some tail) (SetTags nr 0 tg) neg blf with
            | none => rw [hd] at h; cases h
            | some x =>
              rw [hd] at h
              simp only [Option.map_some', Option.some.injEq, Prod.mk.injEq] at h
              obtain ⟨_, rfl, _⟩ := h
              exact netbuild_obj_deg_keeps bo 0 neg hbo u list 0 val _ _ neg blf x.1 x.2 hd
                (fun _ => rfl) (hT _).1 (hT _).2
          · by_cases c1 : SlotStart pair (some "ACT-G".toList) > 0
            · rw [if_pos c1] at h
              simp only [Option.some.injEq, Prod.mk.injEq] at h
              obtain ⟨_, rfl, _⟩ := h
              exact ⟨factsNeg_SetTags _ 0 neg _ _ (factsNeg_AddProp _ 0 neg _ _ _ _ _ _ (hT _).1
                (fun _ _ => rfl)), by rw [SetTags_length, AddProp_length]; omega⟩
            · rw [if_neg c1] at h
              by_cases c2 : SlotStart pair (some "LOC".toList) > 0
              · rw [if_pos c2] at h
                cases hd : jhcNetBuild.add_place bo 0 pair (some tail) (SetTags nr 0 tg) neg blf with
                | none => rw [hd] at h; cases h
                | some x =>
                  rw [hd] at h
                  simp only [Option.map_some', Option.some.injEq, Prod.mk.injEq] at h
                  obtain ⟨_, rfl, _⟩ := h
                  exact netbuild_add_place_keeps bo 0 neg hbo 0 pair _ _ neg blf x.1 x.2 hd
                    (fun _ => rfl) (hT _).1 (hT _).2
              · rw [if_neg c2] at h
                split at h
                · rename_i val hv
                  cases hd : jhcNetBuild.obj_has bo 0 val (some tail) (SetTags nr 0 tg) neg blf with
                  | none => rw [hd] at h; cases h
                  | some x =>
                    rw [hd] at h
                    simp only [Option.map_some', Option.some.injEq, Prod.mk.injEq] at h
                    obtain ⟨_, rfl, _⟩ := h
                    exact netbuild_obj_has_keeps bo 0 neg hbo 0 val _ _ neg blf x.1 x.2 hd
                      (fun _ => rfl) (hT _).1 (hT _).2
                · simp only [Option.some.injEq, Prod.mk.injEq] at h
                  obtain ⟨_, rfl, _⟩ := h
                  exact hT _

theorem netbuild_build_obj_loop_keeps (bo : BuildObj) (neg : Int) (hbo : keepsFacts bo 0 neg)
    (hneg : 0 ≤ neg) (mf : MorphLex) (u : Uninit) (list : Str) (blf : Nat) :
    ∀ (fuel : Nat) (tail : Option Nat) (next : Str) (nr : jhcNodePool) (t : Nat)
      (nr1 : jhcNodePool),
      jhcNetBuild.build_obj_loop bo mf u list neg blf fuel tail next nr t = some nr1 →
      factsNeg nr 0 neg → 0 < nr.length → factsNeg nr1 0 neg := by
  intro fuel
  induction fuel with
  | zero =>
    intro tail next nr t nr1 h hp _
    simp only [jhcNetBuild.build_obj_loop, Option.some.injEq] at h
    subst h
    exact hp
  | succ k ih =>
    intro tail next nr t nr1 h hp hn
    simp only [jhcNetBuild.build_obj_loop] at h
    split at h
    · cases h
    · simp only [Option.some.injEq] at h
      subst h
      exact hp
    · rename_i q tl hq
      split at h
      · cases h
      · rename_i tail1 nr2 t2 hpair
        have := netbuild_build_obj_pair_keeps bo neg hbo hneg mf u list nr (cstr q) tl t blf
          tail1 nr2 t2 hpair hp hn
        exact ih _ _ _ _ _ h this.1 this.2

theorem netbuild_nested_keeps (mf : MorphLex) (u : Uninit) (list : Str) (fuel : Nat) (n : Nat)
    (neg : Int) :
    keepsFacts (fun a p => jhcNetBuild.build_obj_fuel mf u list fuel true a p none 0 10) n neg := by
  intro a p r p1 h hp hn
  cases fuel with
  | zero => simp [jhcNetBuild.build_obj_fuel] at h
  | succ k =>
    simp only [jhcNetBuild.build_obj_fuel] at h
    split at h
    · cases h
    · simp only [Option.some.injEq, Prod.mk.injEq] at h
      obtain ⟨_, rfl⟩ := h
      exact ⟨hp, hn⟩
    · rename_i nr find hnr
      split at h
      · cases h
      · simp only [Option.some.injEq, Prod.mk.injEq] at h
        obtain ⟨_, rfl⟩ := h
        exact ⟨factsNeg_FindMake_none nr p find n neg hp hn,
          Nat.lt_of_lt_of_le hn (FindMake_none_length nr p find)⟩

theorem graft_eq (nr p : jhcNodePool) (f0 : Nat) (find : Int) :
    (FindMake nr p find (some f0)).2 = p ++ (nr.drop 1).map (fun nd =>
      { nd with
        args := nd.args.map (fun a : Str × Nat =>
          (a.1, if a.2 = 0 then f0 else p.length + a.2 - 1)) }) := rfl

theorem factsNeg_graft (nr p : jhcNodePool) (f0 : Nat) (neg : Int) (hnr : factsNeg nr 0 neg)
    (hf : f0 < p.length) :
    ∀ nd ∈ (nr.drop 1).map (fun nd : jhcNetNode =>
      { nd with
        args := nd.args.map (fun a : Str × Nat =>
          (a.1, if a.2 = 0 then f0 else p.length + a.2 - 1)) }),
      ∀ role ∈ negRoles, (role, f0) ∈ nd.args → nd.neg = neg := by
  intro nd hnd role hr ha
  simp only [List.mem_map] at hnd
  obtain ⟨nd0, hmem, rfl⟩ := hnd
  simp only [List.mem_map, Prod.mk.injEq] at ha
  obtain ⟨a, ha1, ha2, ha3⟩ := ha
  have hz : a.2 = 0 := by
    by_contra hne
    rw [if_neg hne] at ha3
    omega
  have hmem0 : (role, 0) ∈ nd0.args := by
    have : a = (role, 0) := by
      cases a
      simp only at ha2 hz
      simp [ha2, hz]
    rw [← this]
    exact ha1
  exact hnr nd0 (List.mem_of_mem_drop hmem) role hr hmem0

theorem netbuild_build_obj_nr_keeps (mf : MorphLex) (u : Uninit) (list : Str) (fuel : Nat)
    (alist : Option Nat) (neg : Int) (blf : Nat) (nr : jhcNodePool) (find : Int) (hneg : 0 ≤ neg)
    (h : jhcNetBuild.build_obj_nr
      (fun a p => jhcNetBuild.build_obj_fuel mf u list fuel true a p none 0 10) mf u list
      alist neg blf = some (some (nr, find))) : factsNeg nr 0 neg := by
  simp only [jhcNetBuild.build_obj_nr] at h
  split at h
  · cases h
  · rename_i r hr
    have key : ∀ nr1, jhcNetBuild.build_obj_loop
        (fun a p => jhcNetBuild.build_obj_fuel mf u list fuel true a p none 0 10) mf u list neg
        blf (list.length + 1) (r.map (·.2)) ((r.map (·.1)).getD u.array)
        (MakeNode [] "obj".toList none 0 10).2 u.tags = some nr1 → factsNeg nr1 0 neg := by
      intro nr1 hl
      refine netbuild_build_obj_loop_keeps _ neg (netbuild_nested_keeps mf u list fuel 0 neg) hneg
        mf u list blf _ _ _ _ _ _ hl ?_ (by simp [MakeNode_eq])
      intro nd hnd role _ ha
      simp only [MakeNode_eq, List.nil_append, List.mem_singleton] at hnd
      subst hnd
      simp at ha
    split_ifs at h with c c2
    · cases h
    · simp only [Option.map_eq_some', Option.some.injEq, Prod.mk.injEq] at h
      obtain ⟨nr1, hl, rfl, _⟩ := h
      exact key _ hl
    · simp only [Option.map_eq_some', Option.some.injEq, Prod.mk.injEq] at h
      obtain ⟨nr1, hl, rfl, _⟩ := h
      exact key _ hl

/-- C13: in `jhcNetBuild::build_obj` called with the flag `neg` (0 or 1), every fact of
the object under the relations `lex` (a name), `ako`, `hq`, `loc` and `has` in
the description built in the scratch pool has the negation flag `neg`, and the
facts that a description forced onto a node of the pool gives that node have it
too; with the noun and verb normalizers of the sources, `add_cop` on the
fragment `$add NEG=not %obj HQ=big HQ=red AKO=dog % $` adds three nodes to the
pool and no other: the facts `hq big`, `hq red` and `ako dog` of the subject,
each with negation 1. -/
theorem negation_per_property (mf : MorphLex) (u : Uninit) (list : Str) (neg : Int)
    (hneg : 0 ≤ neg) :
    (∀ fuel alist blf nr find,
      jhcNetBuild.build_obj_nr
        (fun a p => jhcNetBuild.build_obj_fuel mf u list fuel true a p none 0 10) mf u list
        alist neg blf = some (some (nr, find)) → factsNeg nr 0 neg) ∧
    (∀ after alist pool f0 blf r pool1, f0 < pool.length →
      jhcNetBuild.build_obj mf u list after alist pool (some f0) neg blf = some (r, pool1) →
      ∃ added, pool1 = pool ++ added ∧
        ∀ nd ∈ added, ∀ role ∈ negRoles, (role, f0) ∈ nd.args → nd.neg = neg) ∧
    jhcNetBuild.add_cop ⟨BaseNoun noExcept, BaseVerb noExcept⟩ ⟨[], 0⟩
        "\t$add\tNEG=not\t%obj\tHQ=big\tHQ=red\tAKO=dog\t%\t$".toList 0 (some 0)
        [⟨"obj".toList, none, 0, 10, [], 0⟩] =
      some (some 44, [⟨"obj".toList, none, 0, 10, [], 0⟩,
        ⟨"hq".toList, some "big".toList, 1, 10, [("hq".toList, 0)], 0⟩,
        ⟨"hq".toList, some "red".toList, 1, 10, [("hq".toList, 0)], 0⟩,
        ⟨"ako".toList, some "dog".toList, 1, 10, [("ako".toList, 0)], 0⟩]) := by
  refine ⟨?_, ?_, ?_⟩
  · intro fuel alist blf nr find h
    exact netbuild_build_obj_nr_keeps mf u list fuel alist neg blf nr find hneg h
  · intro after alist pool f0 blf r pool1 hf h
    simp only [jhcNetBuild.build_obj, jhcNetBuild.build_obj_fuel] at h
    split at h
    · cases h
    · simp only [Option.some.injEq, Prod.mk.injEq] at h
      obtain ⟨_, rfl⟩ := h
      exact ⟨[], by simp, by simp⟩
    · rename_i nr find hnr
      split at h
      · cases h
      · simp only [Option.some.injEq, Prod.mk.injEq] at h
        obtain ⟨_, rfl⟩ := h
        rw [graft_eq]
        exact ⟨_, rfl, factsNeg_graft nr pool f0 neg
          (netbuild_build_obj_nr_keeps mf u list _ alist neg blf nr find hneg hnr) hf⟩
  · rfl

theorem negation_per_property_witness :
    factsNeg [⟨"obj".toList, none, 0, 10, [], JTAG_NSING⟩,
      ⟨"hq".toList, some "big".toList, 1, 10, [("hq".toList, 0)], 0⟩,
      ⟨"ako".toList, some "dog".toList, 1, 10, [("ako".toList, 0)], 0⟩] 0 1 :=
  (negation_per_property ⟨BaseNoun noExcept, BaseVerb noExcept⟩ ⟨[], 0⟩
    "\t%obj\tHQ=big\tAKO=dog\t%".toList 1 (by decide)).1 22 (some 0) 10 _ 1 rfl

/-! ## jhcGraphizer: the negation flag in an object description -/

theorem allPlain_AddProp (p : jhcNodePool) (h : Option Nat) (role : Str) (w : Option Str)
    (b : Nat) (kind : Option Str) (hp : allPlain p) : allPlain (AddProp p h role w 0 b kind).2 := by
  intro nd hnd
  cases h with
  | none =>
    simp only [AddProp_none, List.mem_append, List.mem_singleton] at hnd
    rcases hnd with hnd | rfl
    · exact hp nd hnd
    · rfl
  | some h =>
    simp only [AddProp_some, List.mem_append, List.mem_singleton] at hnd
    rcases hnd with hnd | rfl
    · exact hp nd hnd
    · rfl

theorem allPlain_AddArg (p : jhcNodePool) (i : Nat) (slot : Str) (val : Nat) (hp : allPlain p) :
    allPlain (AddArg p i slot val) := by
  intro nd hnd
  unfold AddArg at hnd
  split at hnd
  · exact hp nd hnd
  · rename_i nd0 hi
    rcases List.mem_or_eq_of_mem_set hnd with hnd | rfl
    · exact hp nd hnd
    · exact hp nd0 (List.getElem?_mem hi)

theorem allPlain_SetTags (p : jhcNodePool) (i t : Nat) (hp : allPlain p) :
    allPlain (SetTags p i t) := by
  intro nd hnd
  unfold SetTags at hnd
  split at hnd
  · exact hp nd hnd
  · rename_i nd0 hi
    rcases List.mem_or_eq_of_mem_set hnd with hnd | rfl
    · exact hp nd hnd
    · exact hp nd0 (List.getElem?_mem hi)

theorem allPlain_append (p q : jhcNodePool) (hp : allPlain p) (hq : allPlain q) :
    allPlain (p ++ q) := by
  intro nd hnd
  rcases List.mem_append.1 hnd with h | h
  · exact hp nd h
  · exact hq nd h

theorem allPlain_of_append (p q : jhcNodePool) (h : allPlain (p ++ q)) : allPlain q :=
  fun nd hnd => h nd (List.mem_append.2 (Or.inr hnd))

/-- What `FindMake` adds to a pool comes from the description, negation flags
unchanged. -/
theorem FindMake_added (nr p : jhcNodePool) (find : Int) (f0 : Option Nat) (hnr : allPlain nr) :
    ∃ added, (FindMake nr p find f0).2 = p ++ added ∧ allPlain added := by
  unfold FindMake
  split
  · refine ⟨_, rfl, ?_⟩
    intro nd hnd
    simp only [List.mem_map] at hnd
    obtain ⟨nd0, hmem, rfl⟩ := hnd
    exact hnr nd0 (List.mem_of_mem_drop hmem)
  · split
    · exact ⟨[], by simp, by intro nd hnd; simp at hnd⟩
    · split
      · refine ⟨_, rfl, ?_⟩
        intro nd hnd
        simp only [shift, List.mem_map] at hnd
        obtain ⟨nd0, hmem, rfl⟩ := hnd
        exact hnr nd0 hmem
      · exact ⟨[], by simp, by intro nd hnd; simp at hnd⟩

theorem graphizer_ref_props_plain (p : jhcNodePool) (n : Nat) (pron : Str) (hp : allPlain p) :
    allPlain (jhcGraphizer.ref_props p n pron) := by
  unfold jhcGraphizer.ref_props AddLex
  split_ifs <;> first
    | exact allPlain_AddProp _ _ _ _ _ _ hp
    | exact hp

theorem graphizer_obj_loc_plain (bo : BuildObj) (hbo : keepsPlain bo) (obj : Nat) (pair : Str)
    (alist : Option Nat) (p : jhcNodePool) (blf : Nat) (r : Option Nat) (p1 : jhcNodePool)
    (h : jhcGraphizer.obj_loc bo obj pair alist p 0 blf = some (r, p1)) (hp : allPlain p) :
    allPlain p1 := by
  simp only [jhcGraphizer.obj_loc] at h
  split at h
  · cases h
  · rename_i x p2 hb
    simp only [Option.some.injEq, Prod.mk.injEq] at h
    obtain ⟨_, rfl⟩ := h
    exact hbo _ _ _ _ hb hp
  · rename_i ref tail p2 hb
    have h2 := hbo _ _ _ _ hb hp
    have h3 := fun w => allPlain_AddArg _ (AddProp p2 (some obj) "loc".toList
      (SlotGet pair (some "LOC".toList) SlotGet_lower) 0 blf none).1 "wrt".toList w
      (allPlain_AddProp p2 (some obj) "loc".toList
        (SlotGet pair (some "LOC".toList) SlotGet_lower) blf none h2)
    by_cases c2 : SlotStart pair (some "LOC-2".toList) ≤ 0
    · rw [if_pos c2] at h
      simp only [Option.some.injEq, Prod.mk.injEq] at h
      obtain ⟨_, rfl⟩ := h
      exact h3 _
    · rw [if_neg c2] at h
      split at h
      · cases h
      · rename_i x p4 hb2
        simp only [Option.some.injEq, Prod.mk.injEq] at h
        obtain ⟨_, rfl⟩ := h
        exact hbo _ _ _ _ hb2 (h3 _)
      · rename_i ref2 t2 p4 hb2
        simp only [Option.some.injEq, Prod.mk.injEq] at h
        obtain ⟨_, rfl⟩ := h
        exact allPlain_AddArg _ _ _ _ (hbo _ _ _ _ hb2 (h3 _))

theorem graphizer_obj_has_plain (bo : BuildObj) (hbo : keepsPlain bo) (obj : Nat) (prep : Str)
    (alist : Option Nat) (p : jhcNodePool) (blf : Nat) (r : Option Nat) (p1 : jhcNodePool)
    (h : jhcGraphizer.obj_has bo obj prep alist p 0 blf = some (r, p1)) (hp : allPlain p) :
    allPlain p1 := by
  simp only [jhcGraphizer.obj_has] at h
  split at h
  · cases h
  · rename_i x p2 hb
    simp only [Option.some.injEq, Prod.mk.injEq] at h
    obtain ⟨_, rfl⟩ := h
    exact hbo _ _ _ _ hb hp
  · rename_i part tail p2 hb
    simp only [Option.some.injEq, Prod.mk.injEq] at h
    obtain ⟨_, rfl⟩ := h
    exact allPlain_AddArg _ _ _ _ (allPlain_AddProp _ _ _ _ _ _ (hbo _ _ _ _ hb hp))

theorem graphizer_obj_deg_plain (bo : BuildObj) (hbo : keepsPlain bo) (u : Uninit) (list : Str)
    (obj : Nat) (amt : Str) (alist : Option Nat) (p : jhcNodePool) (blf : Nat) (r : Option Nat)
    (p1 : jhcNodePool)
    (h : jhcGraphizer.obj_deg bo u list obj amt alist p 0 blf = some (r, p1)) (hp : allPlain p) :
    allPlain p1 := by
  simp only [jhcGraphizer.obj_deg] at h
  split at h
  · cases h
  · simp only [Option.some.injEq, Prod.mk.injEq] at h
    obtain ⟨_, rfl⟩ := h
    exact hp
  · rename_i q tail hq
    split at h
    · simp only [Option.some.injEq, Prod.mk.injEq] at h
      obtain ⟨_, rfl⟩ := h
      exact allPlain_AddProp _ _ _ _ _ _ (allPlain_AddProp _ _ _ _ _ _ hp)
    · split at h
      · split at h
        · cases h
        · rename_i tail1 p2 hpl
          simp only [Option.some.injEq, Prod.mk.injEq] at h
          obtain ⟨_, rfl⟩ := h
          exact allPlain_AddProp _ _ _ _ _ _
            (graphizer_obj_loc_plain bo hbo _ _ _ _ _ _ _ hpl hp)
      · simp only [Option.some.injEq, Prod.mk.injEq] at h
        obtain ⟨_, rfl⟩ := h
        exact hp

theorem graphizer_build_obj_pair_plain (bo : BuildObj) (hbo : keepsPlain bo) (u : Uninit)
    (list : Str) (nr : jhcNodePool) (pair : Str) (tail t blf : Nat) (r : Option Nat)
    (nr1 : jhcNodePool) (t1 : Nat)
    (h : jhcGraphizer.build_obj_pair bo u list nr pair tail t blf = some (r, nr1, t1))
    (hp : allPlain nr) : allPlain nr1 := by
  have hT : ∀ tg, allPlain (SetTags nr 0 tg) := fun tg => allPlain_SetTags nr 0 tg hp
  simp only [jhcGraphizer.build_obj_pair] at h
  split at h
  · rename_i val hv
    simp only [Option.some.injEq, Prod.mk.injEq] at h
    obtain ⟨_, rfl, _⟩ := h
    exact graphizer_ref_props_plain nr 0 val hp
  · split at h
    · simp only [Option.some.injEq, Prod.mk.injEq] at h
      obtain ⟨_, rfl, _⟩ := h
      exact allPlain_AddProp _ _ _ _ _ _ hp
    · split at h
      · simp only [Option.some.injEq, Prod.mk.injEq] at h
        obtain ⟨_, rfl, _⟩ := h
        exact allPlain_AddProp _ _ _ _ _ _ (hT _)
      · rename_i tg hnl
        split at h
        · simp only [Option.some.injEq, Prod.mk.injEq] at h
          obtain ⟨_, rfl, _⟩ := h
          exact allPlain_AddProp _ _ _ _ _ _ (hT _)
        · split at h
          · rename_i val hv
            simp only [Option.map_eq_some', Prod.mk.injEq] at h
            obtain ⟨x, hd, _, rfl, _⟩ := h
            exact graphizer_obj_deg_plain bo hbo u list 0 val _ _ blf x.1 x.2 hd (hT _)
          · by_cases c1 : SlotStart pair (some "ACT-G".toList) > 0
            · rw [if_pos c1] at h
              simp only [Option.some.injEq, Prod.mk.injEq] at h
              obtain ⟨_, rfl, _⟩ := h
              exact allPlain_SetTags _ _ _ (allPlain_AddProp _ _ _ _ _ _ (hT _))
            · rw [if_neg c1] at h
              by_cases c2 : SlotStart pair (some "LOC".toList) > 0
              · rw [if_pos c2] at h
                simp only [Option.map_eq_some', Prod.mk.injEq] at h
                obtain ⟨x, hd, _, rfl, _⟩ := h
                exact graphizer_obj_loc_plain bo hbo 0 pair _ _ blf x.1 x.2 hd (hT _)
              · rw [if_neg c2] at h
                split at h
                · rename_i val hv
                  simp only [Option.map_eq_some', Prod.mk.injEq] at h
                  obtain ⟨x, hd, _, rfl, _⟩ := h
                  exact graphizer_obj_has_plain bo hbo 0 val _ _ blf x.1 x.2 hd (hT _)
                · simp only [Option.some.injEq, Prod.mk.injEq] at h
                  obtain ⟨_, rfl, _⟩ := h
                  exact hT _

theorem graphizer_build_obj_loop_plain (bo : BuildObj) (hbo : keepsPlain bo) (u : Uninit)
    (list : Str) (blf : Nat) :
    ∀ (fuel : Nat) (tail : Option Nat) (next : Str) (nr : jhcNodePool) (t : Nat)
      (nr1 : jhcNodePool),
      jhcGraphizer.build_obj_loop bo u list blf fuel tail next nr t = some nr1 →
      allPlain nr → allPlain nr1 := by
  intro fuel
  induction fuel with
  | zero =>
    intro tail next nr t nr1 h hp
    simp only [jhcGraphizer.build_obj_loop, Option.some.injEq] at h
    subst h
    exact hp
  | succ k ih =>
    intro tail next nr t nr1 h hp
    simp only [jhcGraphizer.build_obj_loop] at h
    split at h
    · cases h
    · simp only [Option.some.injEq] at h
      subst h
      exact hp
    · rename_i q tl hq
      split at h
      · cases h
      · rename_i tail1 nr2 t2 hpair
        exact ih _ _ _ _ _ h
          (graphizer_build_obj_pair_plain bo hbo u list nr (cstr q) tl t blf tail1 nr2 t2 hpair hp)

theorem graphizer_build_obj_nr_plain (bo : BuildObj) (hbo : keepsPlain bo) (u : Uninit)
    (list : Str) (alist : Option Nat) (blf : Nat) (nr : jhcNodePool) (find : Int)
    (h : jhcGraphizer.build_obj_nr bo u list alist blf = some (some (nr, find))) :
    allPlain nr := by
  simp only [jhcGraphizer.build_obj_nr] at h
  split at h
  · cases h
  · rename_i r hr
    have key : ∀ nr1, jhcGraphizer.build_obj_loop bo u list blf (list.length + 1) (r.map (·.2))
        ((r.map (·.1)).getD u.array) (MakeNode [] "obj".toList none 0 10).2 u.tags = some nr1 →
        allPlain nr1 := by
      intro nr1 hl
      refine graphizer_build_obj_loop_plain bo hbo u list blf _ _ _ _ _ _ hl ?_
      intro nd hnd
      simp only [MakeNode_eq, List.nil_append, List.mem_singleton] at hnd
      subst hnd
      rfl
    split_ifs at h with c c2
    · cases h
    · simp only [Option.map_eq_some', Option.some.injEq, Prod.mk.injEq] at h
      obtain ⟨nr1, hl, rfl, _⟩ := h
      exact key _ hl
    · simp only [Option.map_eq_some', Option.some.injEq, Prod.mk.injEq] at h
      obtain ⟨nr1, hl, rfl, _⟩ := h
      exact key _ hl

theorem graphizer_build_obj_fuel_added (u : Uninit) (list : Str) :
    ∀ (fuel : Nat) (after : Bool) (alist : Option Nat) (pool : jhcNodePool) (f0 : Option Nat)
      (blf : Nat) (r : Option Nat × Option Nat) (pool1 : jhcNodePool),
      jhcGraphizer.build_obj_fuel u list fuel after alist pool f0 blf = some (r, pool1) →
      ∃ added, pool1 = pool ++ added ∧ allPlain added := by
  intro fuel
  induction fuel with
  | zero =>
    intro after alist pool f0 blf r pool1 h
    simp [jhcGraphizer.build_obj_fuel] at h
  | succ k ih =>
    intro after alist pool f0 blf r pool1 h
    have hbo : keepsPlain (fun a p => jhcGraphizer.build_obj_fuel u list k true a p none 10) := by
      intro a p r p1 hb hp
      obtain ⟨added, rfl, hadd⟩ := ih true a p none 10 r p1 hb
      exact allPlain_append p added hp hadd
    simp only [jhcGraphizer.build_obj_fuel] at h
    split at h
    · cases h
    · simp only [Option.some.injEq, Prod.mk.injEq] at h
      obtain ⟨_, rfl⟩ := h
      exact ⟨[], by simp, by intro nd hnd; simp at hnd⟩
    · rename_i nr find hnr
      split at h
      · cases h
      · simp only [Option.some.injEq, Prod.mk.injEq] at h
        obtain ⟨_, rfl⟩ := h
        exact FindMake_added nr pool find f0
          (graphizer_build_obj_nr_plain _ hbo u list alist blf nr find hnr)

/-- What a rule builder reports: success with a rule, or failure with the handle
it leaves. -/
theorem build_macro_cases {σ ν : Type} (B : NodeLevel σ ν) (u : Uninit) (alist : Str)
    (rule : Option jhcAliaRule) (pos : Option Nat) (s : σ) (ok : Int) (r : Option jhcAliaRule)
    (s1 : σ) (h : build_macro B u alist rule pos s = some (ok, r, s1)) :
    (ok = 1 ∧ r = some ⟨⟩) ∨ (ok = 0 ∧ r = rule) := by
  unfold build_macro at h
  repeat' split at h
  all_goals simp_all

theorem build_fwd_cases {σ ν : Type} (B : NodeLevel σ ν) (alist : Str)
    (pos : Option Nat) (s : σ) (ok : Int) (r : Option jhcAliaRule)
    (s1 : σ) (h : build_fwd B alist pos s = some (ok, r, s1)) :
    (ok = 1 ∧ r = some ⟨⟩) ∨ (ok = 0 ∧ r = none) := by
  unfold build_fwd at h
  repeat' split at h
  all_goals simp_all

theorem build_rev_cases {σ ν : Type} (B : NodeLevel σ ν) (alist : Str)
    (pos : Option Nat) (s : σ) (ok : Int) (r : Option jhcAliaRule)
    (s1 : σ) (h : build_rev B alist pos s = some (ok, r, s1)) :
    (ok = 1 ∧ r = some ⟨⟩) ∨ (ok = 0 ∧ r = none) := by
  unfold build_rev at h
  repeat' split at h
  all_goals simp_all

theorem build_ifwd_cases {σ ν : Type} (B : NodeLevel σ ν) (u : Uninit) (alist : Str)
    (pos : Option Nat) (s : σ) (ok : Int) (r : Option jhcAliaRule)
    (s1 : σ) (h : build_ifwd B u alist pos s = some (ok, r, s1)) :
    (ok = 1 ∧ r = some ⟨⟩) ∨ (ok = 0 ∧ r = none) := by
  unfold build_ifwd at h
  repeat' split at h
  all_goals simp_all

theorem build_sfwd_cases {σ ν : Type} (B : NodeLevel σ ν) (u : Uninit) (alist : Str)
    (pos : Option Nat) (s : σ) (ok : Int) (r : Option jhcAliaRule)
    (s1 : σ) (h : build_sfwd B u alist pos s = some (ok, r, s1)) :
    (ok = 1 ∧ r = some ⟨⟩) ∨ (ok = 0 ∧ r = none) := by
  unfold build_sfwd at h
  repeat' split at h
  all_goals simp_all

/-- The dispatch of `cvt_rule`: `ok` is 1 with a rule in the handle, or 0 with the
handle either cleared or as it was. -/
theorem cvt_rule_ok_cases {σ ν : Type} (B : NodeLevel σ ν) (u : Uninit) (alist : Str)
    (rule : Option jhcAliaRule) (pos : Option Nat) (s : σ) (ok : Int) (r : Option jhcAliaRule)
    (s1 : σ) (h : cvt_rule_ok B u alist rule pos s = some (some (ok, r, s1))) :
    (ok = 1 ∧ r = some ⟨⟩) ∨ (ok = 0 ∧ (r = none ∨ r = rule)) := by
  unfold cvt_rule_ok at h
  split at h
  · cases h
  · cases h
  · simp only [Option.map_eq_some', Option.some.injEq] at h
    obtain ⟨a, ha, rfl⟩ := h
    split_ifs at ha
    · rcases build_macro_cases B u alist rule _ s ok r s1 ha with h1 | h1
      · exact Or.inl h1
      · exact Or.inr ⟨h1.1, Or.inr h1.2⟩
    · rcases build_fwd_cases B alist _ s ok r s1 ha with h1 | h1
      · exact Or.inl h1
      · exact Or.inr ⟨h1.1, Or.inl h1.2⟩
    · rcases build_ifwd_cases B u alist _ s ok r s1 ha with h1 | h1
      · exact Or.inl h1
      · exact Or.inr ⟨h1.1, Or.inl h1.2⟩
    · rcases build_sfwd_cases B u alist _ s ok r s1 ha with h1 | h1
      · exact Or.inl h1
      · exact Or.inr ⟨h1.1, Or.inl h1.2⟩
    · rcases build_rev_cases B alist _ s ok r s1 ha with h1 | h1
      · exact Or.inl h1
      · exact Or.inr ⟨h1.1, Or.inl h1.2⟩
    · simp only [Option.some.injEq, Prod.mk.injEq] at ha
      obtain ⟨rfl, rfl, rfl⟩ := ha
      exact Or.inr ⟨rfl, Or.inr rfl⟩

/-! ## The attention queue -/

theorem alloc_foci {σ : Type} (m : Mem σ) (c : jhcAliaChain) : (m.alloc c).2.foci = m.foci := rfl

theorem setCont_foci {σ : Type} (m : Mem σ) (ch : Nat) (x : Option Nat) :
    (m.setCont ch x).foci = m.foci := by
  unfold Mem.setCont; split <;> rfl

theorem addReq_foci {σ : Type} (m : Mem σ) (pod ch : Nat) : (m.addReq pod ch).foci = m.foci := by
  unfold Mem.addReq; split <;> rfl

theorem free_foci {σ : Type} (m : Mem σ) (x : Option Nat) : (m.free x).foci = m.foci := by
  unfold Mem.free; split <;> rfl

theorem keyAdd_foci {σ : Type} (m : Mem σ) (ch : Nat) (nd : TagNode) :
    (m.keyAdd ch nd).foci = m.foci := by
  unfold Mem.keyAdd; split <;> rfl

theorem argAdd_foci {σ : Type} (m : Mem σ) (ch : Nat) (role : Str) (x : NodeRef) :
    (m.argAdd ch role x).foci = m.foci := by
  unfold Mem.argAdd; split <;> rfl

theorem dir_step_foci {σ ν : Type} (B : NodeLevel σ ν) (m : Mem σ) (kind : Str) :
    (dir_step B m kind).2.foci = m.foci := by
  unfold dir_step; split <;> rfl

theorem build_chain_loop_foci {σ ν : Type} (B : NodeLevel σ ν) (bd : BuildDir σ) (u : Uninit)
    (alist : Str) : ∀ (fuel : Nat) (tail : Option Nat) (v : ChainVars) (m : Mem σ)
      (v1 : ChainVars) (m1 : Mem σ),
      build_chain_loop B bd u alist fuel tail v m = some (v1, m1) → m1.foci = m.foci := by
  intro fuel
  induction fuel with
  | zero =>
    intro tail v m v1 m1 h
    simp only [build_chain_loop, Option.some.injEq, Prod.mk.injEq] at h
    rw [← h.2]
  | succ n ih =>
    intro tail v m v1 m1 h
    unfold build_chain_loop at h
    split at h
    · cases h
    · simp only [Option.some.injEq, Prod.mk.injEq] at h
      rw [← h.2]
    · rename_i entry tl _
      by_cases h1 : entry = "%play".toList
      · rw [if_pos h1] at h
        have := ih _ _ _ _ _ h
        rw [this]
        split
        · rfl
        · rw [setCont_foci]; rfl
      · rw [if_neg h1] at h
        by_cases h2 : entry = "%".toList ∧ v.play ≠ none
        · rw [if_pos h2] at h
          exact ih _ _ _ _ _ h
        · rw [if_neg h2] at h
          by_cases h3 : entry.head? = some '!'
          · rw [if_pos h3] at h
            have hd := dir_step_foci B m (List.drop 1 entry)
            split at h
            · rename_i m2 heq
              simp only [Option.some.injEq, Prod.mk.injEq] at h
              rw [← h.2, ← hd, heq]
            · rename_i c m2 heq
              rw [heq] at hd
              simp only at hd
              split at h
              · cases h
              · simp only [Option.some.injEq, Prod.mk.injEq] at h
                rw [← h.2]; exact hd
              · split at h
                · cases h
                · have := ih _ _ _ _ _ h
                  rw [this]
                  split
                  · rw [addReq_foci]; exact hd
                  · exact hd
                  · rw [setCont_foci]; exact hd
          · rw [if_neg h3] at h
            exact ih _ _ _ _ _ h

theorem build_chain_foci {σ ν : Type} (B : NodeLevel σ ν) (bd : BuildDir σ) (u : Uninit)
    (alist : Str) (pos final : Option Nat) (m : Mem σ) (r : Option Nat) (m1 : Mem σ)
    (h : build_chain B bd u alist pos final m = some (r, m1)) : m1.foci = m.foci := by
  unfold build_chain at h
  split at h
  · cases h
  · rename_i v m2 heq
    have := build_chain_loop_foci B bd u alist _ _ _ _ _ _ heq
    split_ifs at h
    · split at h
      · cases h
      · simp only [Option.some.injEq, Prod.mk.injEq] at h
        rw [← h.2, setCont_foci, this]
    · simp only [Option.some.injEq, Prod.mk.injEq] at h
      rw [← h.2, free_foci, this]

theorem create_op_foci {σ ν : Type} (B : NodeLevel σ ν) (u : Uninit) (alist : Str)
    (pos : Option Nat) (m : Mem σ) (r : Option jhcAliaOp × Option Nat × Str) (m1 : Mem σ)
    (h : create_op B u alist pos m = some (r, m1)) : m1.foci = m.foci := by
  unfold create_op at h
  repeat' split at h
  all_goals first
    | exact Option.noConfusion h
    | (simp only [Option.some.injEq, Prod.mk.injEq] at h
       rw [← h.2]
       try exact dir_step_foci B m _)

theorem build_proc_foci {σ ν : Type} (B : NodeLevel σ ν) (bd : BuildDir σ) (u : Uninit)
    (alist : Str) (op : jhcAliaOp) (pos : Option Nat) (m : Mem σ) (r : Int) (op1 : jhcAliaOp)
    (m1 : Mem σ) (h : build_proc B bd u alist op pos m = some (r, op1, m1)) :
    m1.foci = m.foci := by
  unfold build_proc at h
  split at h
  · cases h
  · simp only [Option.some.injEq, Prod.mk.injEq] at h
    rw [← h.2.2]
  · split at h
    · cases h
    · rename_i heq
      simp only [Option.some.injEq, Prod.mk.injEq] at h
      rw [← h.2.2]
      exact build_chain_foci B bd u alist _ _ _ _ _ heq
    · rename_i heq
      simp only [Option.some.injEq, Prod.mk.injEq] at h
      rw [← h.2.2]
      exact build_chain_foci B bd u alist _ _ _ _ _ heq

/-! ## The speech acts -/

theorem huh_tag_oneFocus {σ ν : Type} (B : NodeLevel σ ν) (m : Mem σ) (f : List Nat)
    (hf : m.foci = f) : oneFocus f (jhcGraphizer.huh_tag B m) := by
  refine ⟨m.chains.length, ?_, ?_, ?_⟩
  · simp [jhcGraphizer.huh_tag, Mem.focus, Mem.alloc, hf]
  · simp [jhcGraphizer.huh_tag]
  · intro _
    simp [jhcGraphizer.huh_tag, Mem.focus, Mem.alloc, huhStep]

theorem huh_tag_code {σ ν : Type} (B : NodeLevel σ ν) (m : Mem σ) :
    (jhcGraphizer.huh_tag B m).1 = 0 := rfl

theorem build_tag_foci {σ ν : Type} (B : NodeLevel σ ν) (alist : Str) (pos : Option Nat)
    (m : Mem σ) (ch : Nat) (m1 : Mem σ) (h : jhcGraphizer.build_tag B alist pos m = some (ch, m1)) :
    m1.foci = m.foci := by
  unfold jhcGraphizer.build_tag at h
  split at h
  · cases h
  · simp only [Option.some.injEq, Prod.mk.injEq, Mem.alloc] at h
    rw [← h.2]

theorem attn_cmds_foci {σ : Type} (input : Nat) : ∀ (fuel : Nat) (ch : Option Nat) (m : Mem σ),
    (jhcGraphizer.attn_cmds input fuel ch m).foci = m.foci := by
  intro fuel
  induction fuel with
  | zero => intro ch m; rfl
  | succ n ih =>
    intro ch m
    cases ch with
    | none => rfl
    | some c =>
      unfold jhcGraphizer.attn_cmds
      split
      · rfl
      · rw [ih]
        split
        · rw [argAdd_foci]
        · rfl

theorem attn_args_foci {σ : Type} (tag bulk : Nat) (m : Mem σ) :
    (jhcGraphizer.attn_args tag bulk m).foci = m.foci := by
  unfold jhcGraphizer.attn_args
  split <;> simp only [attn_cmds_foci, argAdd_foci, keyAdd_foci]

theorem focus_foci {σ ν : Type} (B : NodeLevel σ ν) (m : Mem σ) (ch : Nat) :
    (Mem.focus B m ch).foci = m.foci ++ [ch] := rfl

/-- A speech act other than `huh_tag` pushes one focus and returns a positive code. -/
theorem oneFocus_of_pos {σ : Type} (f : List Nat) (r : Int × Mem σ) (c : Nat)
    (h1 : r.2.foci = f ++ [c]) (h2 : 0 < r.1) : oneFocus f r :=
  ⟨c, h1, le_of_lt h2, fun h => absurd h (ne_of_gt h2)⟩

theorem word_tag_foci {σ ν : Type} (B : NodeLevel σ ν) (word : Str) (m m1 : Mem σ)
    (h : jhcGraphizer.word_tag B word m = some m1) : ∃ c, m1.foci = m.foci ++ [c] := by
  unfold jhcGraphizer.word_tag at h
  split at h
  · cases h
  · rename_i ch m2 heq
    simp only [Option.some.injEq] at h
    refine ⟨ch, ?_⟩
    rw [← h, focus_foci, keyAdd_foci, build_tag_foci B _ _ _ _ _ heq]

theorem add_tag_spec {σ ν : Type} (B : NodeLevel σ ν) (rule : Int) (alist : Str)
    (pos : Option Nat) (m : Mem σ) (r : Int × Mem σ)
    (h : jhcGraphizer.add_tag B rule alist pos m = some r) :
    r.1 = (if rule > 0 then 3 else 4) ∧ ∃ c, r.2.foci = m.foci ++ [c] := by
  unfold jhcGraphizer.add_tag at h
  split at h
  · cases h
  · rename_i ch m2 heq
    simp only [Option.some.injEq] at h
    refine ⟨by rw [← h], ch, ?_⟩
    rw [← h]
    simp only [focus_foci, setCont_foci, alloc_foci, keyAdd_foci, argAdd_foci,
      build_tag_foci B _ _ _ _ _ heq]

theorem attn_tag_spec {σ ν : Type} (B : NodeLevel σ ν) (alist : Str) (pos : Option Nat)
    (bulk : Nat) (m : Mem σ) (r : Int × Mem σ)
    (h : jhcGraphizer.attn_tag B alist pos bulk m = some r) :
    (r.1 = 1 ∨ r.1 = 2) ∧ ∃ c, r.2.foci = m.foci ++ [c] := by
  unfold jhcGraphizer.attn_tag at h
  split at h
  · cases h
  · rename_i ch m2 heq
    simp only [Option.some.injEq] at h
    refine ⟨?_, ch, ?_⟩
    · rw [← h]
      simp only
      split_ifs
      · exact Or.inl rfl
      · exact Or.inr rfl
    · rw [← h]
      simp only [focus_foci, attn_args_foci, setCont_foci, build_tag_foci B _ _ _ _ _ heq]

theorem cvt_attn_spec {σ ν : Type} (B : NodeLevel σ ν) (u : Uninit) (alist : Str)
    (pos : Option Nat) (m : Mem σ) (r : Int × Mem σ)
    (h : jhcGraphizer.cvt_attn B u alist pos m = some r) :
    (r.1 = 0 ∨ r.1 = 1 ∨ r.1 = 2) ∧ oneFocus m.foci r := by
  unfold jhcGraphizer.cvt_attn at h
  split at h
  · cases h
  · split_ifs at h
    · split at h
      · cases h
      · rename_i m1 heq
        simp only [Option.some.injEq] at h
        rw [← h]
        exact ⟨Or.inl rfl, huh_tag_oneFocus B m1 _
          (build_chain_foci B _ u alist _ _ _ _ _ heq)⟩
      · rename_i ch m1 heq
        have hf := build_chain_foci B _ u alist _ _ _ _ _ heq
        obtain ⟨h1, c, h2⟩ := attn_tag_spec B alist pos ch m1 r h
        rw [hf] at h2
        refine ⟨Or.inr h1, oneFocus_of_pos _ _ c h2 ?_⟩
        rcases h1 with h1 | h1 <;> omega
    · split at h
      · cases h
      · simp only [Option.some.injEq] at h
        rw [← h]
        exact ⟨Or.inl rfl, huh_tag_oneFocus B _ _ rfl⟩
      · obtain ⟨h1, c, h2⟩ := attn_tag_spec B alist pos _ _ r h
        refine ⟨Or.inr h1, oneFocus_of_pos _ _ c h2 ?_⟩
        rcases h1 with h1 | h1 <;> omega

theorem cvt_rule_spec {σ ν : Type} (B : NodeLevel σ ν) (u : Uninit) (g : jhcGraphizer)
    (alist : Str) (pos : Option Nat) (m : Mem σ) (code : Int) (g1 : jhcGraphizer) (m1 : Mem σ)
    (h : jhcGraphizer.cvt_rule B u g alist pos m = some (code, g1, m1)) :
    ((code = 3 ∧ g1.rule ≠ none) ∨ (code = 0 ∧ (g1.rule = none ∨ g1.rule = g.rule))) ∧
      g1.op = g.op ∧ g1.core = g.core ∧ oneFocus m.foci (code, m1) := by
  unfold jhcGraphizer.cvt_rule at h
  split at h
  · cases h
  · simp only [Option.some.injEq, Prod.mk.injEq] at h
    obtain ⟨rfl, rfl, rfl⟩ := h
    exact ⟨Or.inr ⟨rfl, Or.inr rfl⟩, rfl, rfl, huh_tag_oneFocus B m _ rfl⟩
  · rename_i ok rule s heq
    have hc := cvt_rule_ok_cases B u alist g.rule pos m.pools ok rule s heq
    by_cases hok : ok > 0
    · rw [if_pos hok] at h
      simp only [Option.map_eq_some', Prod.mk.injEq] at h
      obtain ⟨r, hr, rfl, rfl, rfl⟩ := h
      obtain ⟨h1, c, h2⟩ := add_tag_spec B 1 alist pos _ r hr
      simp only [gt_iff_lt, zero_lt_one, if_true] at h1
      rcases hc with hc | hc
      · refine ⟨Or.inl ⟨h1, ?_⟩, rfl, rfl, oneFocus_of_pos _ _ c h2 (by rw [h1]; decide)⟩
        simp [hc.2]
      · omega
    · rw [if_neg hok] at h
      simp only [Option.some.injEq, Prod.mk.injEq] at h
      obtain ⟨rfl, rfl, rfl⟩ := h
      rcases hc with hc | hc
      · omega
      · exact ⟨Or.inr ⟨rfl, hc.2⟩, rfl, rfl, huh_tag_oneFocus B _ _ rfl⟩

theorem graphizer_cvt_op_spec {σ ν : Type} (B : NodeLevel σ ν) (u : Uninit) (g : jhcGraphizer)
    (alist : Str) (pos : Option Nat) (m : Mem σ) (code : Int) (g1 : jhcGraphizer) (m1 : Mem σ)
    (h : jhcGraphizer.cvt_op B u g alist pos m = some (code, g1, m1)) :
    ((code = 4 ∧ g1.op ≠ none) ∨ (code = 0 ∧ g1.op = none)) ∧
      g1.rule = g.rule ∧ g1.core = g.core ∧ oneFocus m.foci (code, m1) := by
  unfold jhcGraphizer.cvt_op at h
  split at h
  · cases h
  · rename_i heq
    have hf := create_op_foci B u alist pos m _ _ heq
    simp only [Option.some.injEq, Prod.mk.injEq] at h
    obtain ⟨rfl, rfl, rfl⟩ := h
    exact ⟨Or.inr ⟨rfl, rfl⟩, rfl, rfl, huh_tag_oneFocus B _ _ hf⟩
  · rename_i op tail entry m2 heq
    have hf := create_op_foci B u alist pos m _ _ heq
    split at h
    · cases h
    · simp only [Option.some.injEq, Prod.mk.injEq] at h
      obtain ⟨rfl, rfl, rfl⟩ := h
      exact ⟨Or.inr ⟨rfl, rfl⟩, rfl, rfl, huh_tag_oneFocus B _ _ hf⟩
    · split at h
      · cases h
      · rename_i r op1 m3 heq2
        have hf2 := build_proc_foci B _ u alist _ _ _ _ _ _ heq2
        simp only at hf2
        by_cases hr : r > 0
        · rw [if_pos hr] at h
          simp only [Option.map_eq_some', Prod.mk.injEq] at h
          obtain ⟨x, hx, rfl, rfl, rfl⟩ := h
          obtain ⟨h1, c, h2⟩ := add_tag_spec B 0 alist pos _ x hx
          simp only [gt_iff_lt, lt_self_iff_false, if_false] at h1
          rw [hf2, hf] at h2
          exact ⟨Or.inl ⟨h1, by simp⟩, rfl, rfl, oneFocus_of_pos _ _ c h2 (by rw [h1]; decide)⟩
        · rw [if_neg hr] at h
          simp only [Option.some.injEq, Prod.mk.injEq] at h
          obtain ⟨rfl, rfl, rfl⟩ := h
          exact ⟨Or.inr ⟨rfl, rfl⟩, rfl, rfl, huh_tag_oneFocus B _ _ (by rw [hf2, hf])⟩

theorem Convert_spec {σ ν : Type} (B : NodeLevel σ ν) (u : Uninit) (g : jhcGraphizer)
    (alist : Str) (pos : Option Nat) (m : Mem σ) (code : Int) (g1 : jhcGraphizer) (m1 : Mem σ)
    (hcore : g.core = true)
    (h : jhcGraphizer.Convert B u g alist pos m = some (code, g1, m1)) :
    (g1.rule ≠ none ↔ code = 3) ∧ (g1.op ≠ none ↔ code = 4) ∧ oneFocus m.foci (code, m1) := by
  have huh : ∀ (c : Int) (g2 : jhcGraphizer) (m2 : Mem σ),
      some ((jhcGraphizer.huh_tag B m).1, ({ g with rule := none, op := none } : jhcGraphizer),
        (jhcGraphizer.huh_tag B m).2) = some (c, g2, m2) →
      (g2.rule ≠ none ↔ c = 3) ∧ (g2.op ≠ none ↔ c = 4) ∧ oneFocus m.foci (c, m2) := by
    intro c g2 m2 hh
    simp only [Option.some.injEq, Prod.mk.injEq] at hh
    obtain ⟨rfl, rfl, rfl⟩ := hh
    refine ⟨?_, ?_, huh_tag_oneFocus B m _ rfl⟩ <;> simp [jhcGraphizer.huh_tag]
  have hword : ∀ (k : Int) (w : Str) (c : Int) (g2 : jhcGraphizer) (m2 : Mem σ),
      0 < k → k ≠ 3 → k ≠ 4 →
      (((jhcGraphizer.word_tag B w m).map (fun m1 => (k, m1))).map
        (fun r => (r.1, ({ g with rule := none, op := none } : jhcGraphizer), r.2))) =
          some (c, g2, m2) →
      (g2.rule ≠ none ↔ c = 3) ∧ (g2.op ≠ none ↔ c = 4) ∧ oneFocus m.foci (c, m2) := by
    intro k w c g2 m2 hk h3 h4 hh
    simp only [Option.map_map, Option.map_eq_some', Function.comp, Prod.mk.injEq] at hh
    obtain ⟨m3, hm, rfl, rfl, rfl⟩ := hh
    obtain ⟨x, hx⟩ := word_tag_foci B w m m3 hm
    exact ⟨by simp [h3], by simp [h4], oneFocus_of_pos _ _ x hx hk⟩
  unfold jhcGraphizer.Convert at h
  rw [if_neg (by simp [hcore])] at h
  split at h
  · exact huh _ _ _ h
  · split at h
    · cases h
    · rename_i entry marks _
      split_ifs at h
      · simp only [Option.map_eq_some', Prod.mk.injEq] at h
        obtain ⟨r, hr, rfl, rfl, rfl⟩ := h
        obtain ⟨h1, h2⟩ := cvt_attn_spec B u alist _ m r hr
        refine ⟨?_, ?_, ?_⟩
        · simp only [ne_eq, not_true_eq_false, false_iff]
          rcases h1 with h1 | h1 | h1 <;> omega
        · simp only [ne_eq, not_true_eq_false, false_iff]
          rcases h1 with h1 | h1 | h1 <;> omega
        · exact h2
      · obtain ⟨h1, h2, _, h4⟩ := cvt_rule_spec B u _ alist _ m code g1 m1 h
        simp only at h1 h2
        refine ⟨?_, ?_, h4⟩
        · rcases h1 with ⟨rfl, hr⟩ | ⟨rfl, hr⟩
          · simp [hr]
          · have : g1.rule = none := by rcases hr with hr | hr <;> exact hr
            simp [this]
        · rw [h2]
          rcases h1 with ⟨rfl, _⟩ | ⟨rfl, _⟩ <;> simp
      · obtain ⟨h1, h2, _, h4⟩ := graphizer_cvt_op_spec B u _ alist _ m code g1 m1 h
        simp only at h1 h2
        refine ⟨?_, ?_, h4⟩
        · rw [h2]
          rcases h1 with ⟨rfl, _⟩ | ⟨rfl, _⟩ <;> simp
        · rcases h1 with ⟨rfl, hr⟩ | ⟨rfl, hr⟩
          · simp [hr]
          · simp [hr]
      · exact huh _ _ _ h
    · split at h
      · cases h
      · exact hword 6 _ _ _ _ (by decide) (by decide) (by decide) h
      · split at h
        · cases h
        · exact hword 6 _ _ _ _ (by decide) (by decide) (by decide) h
        · split at h
          · cases h
          · exact hword 5 _ _ _ _ (by decide) (by decide) (by decide) h
          · exact huh _ _ _ h

/-! ## The builder without speech acts -/

theorem netbuild_cvt_attn_spec {σ ν : Type} (B : NodeLevel σ ν) (u : Uninit) (g : jhcNetBuild)
    (alist : Str) (pos : Option Nat) (m : Mem σ) (code : Int) (g1 : jhcNetBuild) (m1 : Mem σ)
    (h : jhcNetBuild.cvt_attn B u g alist pos m = some (code, g1, m1)) :
    (code = 0 ∨ code = 1 ∨ code = 2) ∧ g1.rule = g.rule ∧ g1.op = g.op := by
  unfold jhcNetBuild.cvt_attn at h
  split at h
  · cases h
  · split_ifs at h
    · split at h
      · cases h
      · simp only [Option.some.injEq, Prod.mk.injEq] at h
        obtain ⟨rfl, rfl, rfl⟩ := h
        exact ⟨Or.inl rfl, rfl, rfl⟩
      · simp only [Option.some.injEq, Prod.mk.injEq] at h
        obtain ⟨rfl, rfl, rfl⟩ := h
        exact ⟨Or.inr (Or.inr rfl), rfl, rfl⟩
    · split at h
      · cases h
      · simp only [Option.some.injEq, Prod.mk.injEq] at h
        obtain ⟨rfl, rfl, rfl⟩ := h
        exact ⟨Or.inl rfl, rfl, rfl⟩
      · simp only [Option.some.injEq, Prod.mk.injEq] at h
        obtain ⟨rfl, rfl, rfl⟩ := h
        exact ⟨Or.inr (Or.inl rfl), rfl, rfl⟩

theorem netbuild_cvt_rule_spec {σ ν : Type} (B : NodeLevel σ ν) (u : Uninit) (g : jhcNetBuild)
    (alist : Str) (pos : Option Nat) (m : Mem σ) (code : Int) (g1 : jhcNetBuild) (m1 : Mem σ)
    (h : jhcNetBuild.cvt_rule B u g alist pos m = some (code, g1, m1)) :
    ((code = 3 ∧ g1.rule ≠ none) ∨ (code = 0 ∧ (g1.rule = none ∨ g1.rule = g.rule))) ∧
      g1.op = g.op := by
  unfold jhcNetBuild.cvt_rule at h
  split at h
  · cases h
  · simp only [Option.some.injEq, Prod.mk.injEq] at h
    obtain ⟨rfl, rfl, rfl⟩ := h
    exact ⟨Or.inr ⟨rfl, Or.inr rfl⟩, rfl⟩
  · rename_i ok rule s heq
    have hc := cvt_rule_ok_cases B u alist g.rule pos m.pools ok rule s heq
    simp only [Option.some.injEq, Prod.mk.injEq] at h
    obtain ⟨rfl, rfl, rfl⟩ := h
    rcases hc with ⟨rfl, rfl⟩ | ⟨rfl, hr⟩
    · exact ⟨Or.inl ⟨by decide, by simp⟩, rfl⟩
    · exact ⟨Or.inr ⟨by decide, hr⟩, rfl⟩

theorem netbuild_cvt_op_spec {σ ν : Type} (B : NodeLevel σ ν) (u : Uninit) (g : jhcNetBuild)
    (alist : Str) (pos : Option Nat) (m : Mem σ) (code : Int) (g1 : jhcNetBuild) (m1 : Mem σ)
    (h : jhcNetBuild.cvt_op B u g alist pos m = some (code, g1, m1)) :
    ((code = 4 ∧ g1.op ≠ none) ∨ (code = 0 ∧ g1.op = none)) ∧ g1.rule = g.rule := by
  unfold jhcNetBuild.cvt_op at h
  split at h
  · cases h
  · simp only [Option.some.injEq, Prod.mk.injEq] at h
    obtain ⟨rfl, rfl, rfl⟩ := h
    exact ⟨Or.inr ⟨rfl, rfl⟩, rfl⟩
  · split at h
    · cases h
    · simp only [Option.some.injEq, Prod.mk.injEq] at h
      obtain ⟨rfl, rfl, rfl⟩ := h
      exact ⟨Or.inr ⟨rfl, rfl⟩, rfl⟩
    · split at h
      · cases h
      · split_ifs at h
        · simp only [Option.some.injEq, Prod.mk.injEq] at h
          obtain ⟨rfl, rfl, rfl⟩ := h
          exact ⟨Or.inl ⟨rfl, by simp⟩, rfl⟩
        · simp only [Option.some.injEq, Prod.mk.injEq] at h
          obtain ⟨rfl, rfl, rfl⟩ := h
          exact ⟨Or.inr ⟨rfl, rfl⟩, rfl⟩

theorem Assemble_spec {σ ν : Type} (B : NodeLevel σ ν) (u : Uninit) (g : jhcNetBuild)
    (alist : Str) (pos : Option Nat) (m : Mem σ) (code : Int) (g1 : jhcNetBuild) (m1 : Mem σ)
    (hcore : g.core = true) (hr : g.rule = none) (ho : g.op = none)
    (h : jhcNetBuild.Assemble B u g alist pos m = some (code, g1, m1)) :
    (g1.rule ≠ none ↔ code = 3) ∧ (g1.op ≠ none ↔ code = 4) := by
  have hsame : ∀ (c : Int) (g2 : jhcNetBuild) (m2 : Mem σ),
      some ((0 : Int), g, m) = some (c, g2, m2) →
      (g2.rule ≠ none ↔ c = 3) ∧ (g2.op ≠ none ↔ c = 4) := by
    intro c g2 m2 hh
    simp only [Option.some.injEq, Prod.mk.injEq] at hh
    obtain ⟨rfl, rfl, rfl⟩ := hh
    simp [hr, ho]
  unfold jhcNetBuild.Assemble at h
  rw [if_neg (by simp [hcore])] at h
  split at h
  · exact hsame _ _ _ h
  · split at h
    · cases h
    · split_ifs at h
      · obtain ⟨h1, h2, h3⟩ := netbuild_cvt_attn_spec B u g alist _ m code g1 m1 h
        rw [h2, h3, hr, ho]
        rcases h1 with rfl | rfl | rfl <;> simp
      · obtain ⟨h1, h2⟩ := netbuild_cvt_rule_spec B u g alist _ m code g1 m1 h
        rw [h2, ho]
        rcases h1 with ⟨rfl, h1⟩ | ⟨rfl, h1⟩
        · simp [h1]
        · have : g1.rule = none := by
            rcases h1 with h1 | h1
            · exact h1
            · rw [h1, hr]
          simp [this]
      · obtain ⟨h1, h2⟩ := netbuild_cvt_op_spec B u g alist _ m code g1 m1 h
        rw [h2, hr]
        rcases h1 with ⟨rfl, h1⟩ | ⟨rfl, h1⟩
        · simp [h1]
        · simp [h1]
      · exact hsame _ _ _ h
    · exact hsame _ _ _ h

/-! ## Reading well-formed lists -/

theorem render_append (a b : List Str) : render (a ++ b) = render a ++ render b := by
  induction a with
  | nil => rfl
  | cons f fs ih => simp [render, ih]

theorem render_cons_length (f : Str) (fs : List Str) :
    (render (f :: fs)).length = f.length + 1 + (render fs).length := by
  simp [render]; omega

theorem entryText_clean (f : Str) (h : Clean f) : entryText f = f := by
  obtain ⟨h1, _, _, h4⟩ := h
  obtain ⟨g, x, rfl⟩ : ∃ g x, f = g ++ [x] := by
    rcases List.eq_nil_or_concat f with h | ⟨g, x, h⟩
    · exact absurd h h1
    · exact ⟨g, x, by simpa using h⟩
  have hx : x ≠ ' ' := by
    intro e
    apply h4
    simp [e]
  have hr := rstrip_append_other g x hx
  unfold entryText
  rw [hr, if_neg (by simp)]

theorem isClose_clean (e : Str) (h : isClose e = true) : Clean e := by
  match e, h with
  | [c], h =>
    simp only [isClose, Bool.or_eq_true, beq_iff_eq] at h
    rcases h with (rfl | rfl) | rfl <;> decide

/-- Reading the first entry of a well-formed list. -/
theorem NextEntry_clean (alist : Str) (pos : Nat) (f : Str) (fs : List Str) (entry : Str)
    (hs : alist.drop pos = render (f :: fs)) (hf : Clean f) :
    NextEntry alist (some pos) entry 200 =
        .ptr (f ++ NUL :: entry.drop (f.length + 1), pos + 1 + f.length) ∧
      alist.drop (pos + 1 + f.length) = render fs := by
  have hs' : alist.drop pos = [] ++ TAB :: (f ++ render fs) := by rw [hs]; rfl
  have h := NextEntry_step alist pos [] f (render fs) entry 200 hs' (by simp) hf.2.2.1
    (render_cases fs)
  have hd := drop_after_entry alist pos [] f (render fs) hs'
  rw [entryText_clean f hf] at h hd
  simp only [List.length_nil, Nat.add_zero, List.drop_length, List.nil_append] at h hd
  rw [if_pos hf.2.1] at h
  exact ⟨h, hd⟩

theorem NUL_not_mem_field (alist : Str) (pos : Nat) (f : Str) (fs : List Str)
    (hs : alist.drop pos = render (f :: fs)) (hnul : NUL ∉ alist) : NUL ∉ f := by
  intro hc
  have h2 : NUL ∈ alist.drop pos := by rw [hs]; simp [render, hc]
  exact hnul (List.mem_of_mem_drop h2)

/-- The next fragment of a well-formed list that begins with a marker entry. -/
theorem NextFrag_mark (alist : Str) (pos : Nat) (f : Str) (fs : List Str)
    (hnul : NUL ∉ alist) (hs : alist.drop pos = render (f :: fs)) (hf : Clean f)
    (hm : isMark (f.getD 0 NUL) = true) :
    NextFrag alist (some pos) 200 = .ptr (f, pos + 1 + f.length) ∧
      alist.drop (pos + 1 + f.length) = render fs := by
  obtain ⟨h1, h2⟩ := NextEntry_clean alist pos f fs [] hs hf
  refine ⟨?_, h2⟩
  have hn := NUL_not_mem_field alist pos f fs hs hnul
  have hg : (f ++ NUL :: ([] : Str).drop (f.length + 1)).getD 0 NUL = f.getD 0 NUL := by
    obtain ⟨h0, _⟩ := hf
    cases f with
    | nil => exact absurd rfl h0
    | cons x xs => rfl
  simp only [NextFrag, NextFragLoop, h1, hg, hm, if_true, cstr_copy _ _ hn, if_pos hf.2.1]

theorem NextFrag_end (alist : Str) (pos : Nat) (h : alist.drop pos = []) :
    NextFrag alist (some pos) 200 = .null := by
  have : NextEntry alist (some pos) [] 200 = .null :=
    NextEntry_done alist pos [] 200 (by rw [h]; simp)
  simp only [NextFrag, NextFragLoop, this]

theorem net_cons (e : Str) (es : List Str) : net (e :: es) = delta e + net es := rfl

/-- The scan of `FragClose` over a balanced body stops at the marker that closes it. -/
theorem closeScan_body (cl : Str) (fs : List Str) (hcl : isClose cl = true) :
    ∀ (body : List Str) (h : Nat) (d : Int), (∀ f ∈ body, Clean f) →
      (∀ j, j ≤ body.length → 0 ≤ d + net (body.take j)) → d + net body = 0 →
      closeScan 200 (locate h (body ++ cl :: fs)) d =
        .ptr (h + (render body).length + cl.length) := by
  intro body
  induction body with
  | nil =>
    intro h d _ _ hd
    have hc := isClose_clean cl hcl
    have hd0 : d = 0 := by simpa [net] using hd
    simp only [List.nil_append, locate, closeScan, entryText_clean cl hc, hc.2.1,
      not_true_eq_false, if_false, not_open_of_close cl hcl, Bool.false_eq_true, hcl, if_true,
      hd0, render, List.length_nil, Nat.add_zero]
  | cons f body ih =>
    intro h d hcb hpre hd
    have hf : Clean f := hcb f (by simp)
    have hcb' : ∀ g ∈ body, Clean g := fun g hg => hcb g (by simp [hg])
    have h1 := hpre 1 (by simp)
    simp only [List.take_succ_cons, List.take_zero, net_cons, net, add_zero] at h1
    rw [net_cons] at hd
    have hpre' : ∀ j, j ≤ body.length → 0 ≤ d + delta f + net (body.take j) := by
      intro j hj
      have := hpre (j + 1) (by simp; omega)
      simp only [List.take_succ_cons, net_cons] at this
      omega
    have key := ih (h + f.length + 1) (d + delta f) hcb' hpre' (by omega)
    have hlen : h + f.length + 1 + (render body).length + cl.length =
        h + (render (f :: body)).length + cl.length := by
      rw [render_cons_length]; omega
    rw [hlen] at key
    simp only [List.cons_append, locate, closeScan, entryText_clean f hf, hf.2.1,
      not_true_eq_false, if_false]
    by_cases ho : isOpen f = true
    · have hdl : delta f = 1 := by simp [delta, ho]
      rw [if_pos ho]
      rw [hdl] at key
      exact key
    · rw [if_neg ho]
      by_cases hc : isClose f = true
      · have hdl : delta f = -1 := by simp [delta, ho, hc]
        rw [if_pos hc]
        rw [hdl] at h1 key
        have : d ≠ 0 := by omega
        rw [if_neg this]
        exact key
      · have hdl : delta f = 0 := by simp [delta, ho, hc]
        rw [if_neg hc]
        rw [hdl] at key
        simpa using key

/-- From the entry after the opening marker, `FragClose` returns the position just
after the marker that closes a balanced body. -/
theorem FragClose_body (alist : Str) (pos : Nat) (body : List Str) (cl : Str) (fs : List Str)
    (junk : Str) (hnul : NUL ∉ alist) (hs : alist.drop pos = render (body ++ cl :: fs))
    (hb : ∀ f ∈ body, Clean f) (hbal : Balanced body) (hcl : isClose cl = true)
    (hfs : ∀ f ∈ fs, Clean f) :
    FragClose alist (some pos) 0 junk = .ptr (pos + (render body).length + 1 + cl.length) ∧
      alist.drop (pos + (render body).length + 1 + cl.length) = render fs := by
  have hall : ∀ f ∈ body ++ cl :: fs, Clean f := by
    intro f hf
    rcases List.mem_append.1 hf with hf | hf
    · exact hb f hf
    · rcases List.mem_cons.1 hf with rfl | hf
      · exact isClose_clean _ hcl
      · exact hfs f hf
  have hlen : (body ++ cl :: fs).length < alist.length + 1 := by
    have h1 := render_length (body ++ cl :: fs)
    have h2 : (alist.drop pos).length ≤ alist.length := by simp
    rw [hs] at h2
    omega
  have href := closeLoop_refines alist hnul (body ++ cl :: fs) pos [] junk 0 (alist.length + 1)
    (by rw [hs]; rfl) (by simp) (fun f hf => (hall f hf).2.2.1)
    (fun f hf => by rw [entryText_clean f (hall f hf)]; exact (hall f hf).1) hlen
  have hscan := closeScan_body cl fs hcl body (pos + 0 + 1) 0 hb
    (fun j hj => by simpa using hbal.2 j hj) (by simpa using hbal.1)
  constructor
  · simp only [FragClose, gt_iff_lt, lt_self_iff_false, if_false]
    rw [href]
    simp only [List.length_nil] at hscan ⊢
    rw [hscan]
    congr 1
    omega
  · have e : pos + (render body).length + 1 + cl.length =
        pos + ((render body).length + (1 + cl.length)) := by omega
    rw [e, ← List.drop_drop, hs, render_append]
    simp only [render]
    rw [← List.drop_drop, List.drop_left, Nat.add_comm 1, List.drop_succ_cons, List.drop_left]

/-! ## The steps of the chain loop -/

theorem dir_step_valid {σ ν : Type} (B : NodeLevel σ ν) (m : Mem σ) (name : Str) (k : JDIR_KIND)
    (h : B.CvtKind name = some k) :
    dir_step B m name =
      (some m.chains.length, ⟨m.pools, m.chains ++ [dirStep k], m.freed, m.foci⟩) := by
  simp only [dir_step, h, Mem.alloc, dirStep]

theorem dir_step_invalid {σ ν : Type} (B : NodeLevel σ ν) (m : Mem σ) (name : Str)
    (h : B.CvtKind name = none) : dir_step B m name = (none, m) := by
  simp only [dir_step, h]

/-- One turn of the loop of `build_chain` on a directive fragment whose body builds:
a step is made for it and linked, and the loop goes on after the fragment. -/
theorem loop_directive {σ ν : Type} (B : NodeLevel σ ν) (bd : BuildDir σ) (u : Uninit)
    (alist : Str) (hnul : NUL ∉ alist) (hbd : ∀ s e t, ∃ s1, bd s e t = some (t, s1))
    (pos : Nat) (d : DirFrag) (fs : List Str) (hd : GoodFrag B d) (hfs : ∀ f ∈ fs, Clean f)
    (hs : alist.drop pos = render (d.text ++ fs)) (v : ChainVars) (m : Mem σ) :
    ∃ pos1 s1, alist.drop pos1 = render fs ∧ ∀ fuel,
      build_chain_loop B bd u alist (fuel + 1) (some pos) v m =
        build_chain_loop B bd u alist fuel (some pos1)
          { v with ch := some m.chains.length, dir := false,
                   start := if v.play = none ∧ v.ch = none then some m.chains.length
                     else v.start }
          (match v.play, v.ch with
            | some pl, _ =>
              (⟨s1, m.chains ++ [dirStep d.kind], m.freed, m.foci⟩ : Mem σ).addReq pl
                m.chains.length
            | none, none => ⟨s1, m.chains ++ [dirStep d.kind], m.freed, m.foci⟩
            | none, some c0 =>
              (⟨s1, m.chains ++ [dirStep d.kind], m.freed, m.foci⟩ : Mem σ).setCont c0
                (some m.chains.length)) := by
  obtain ⟨hk, hc, hb, hbal, hcl⟩ := hd
  have hs' : alist.drop pos = render (('!' :: d.name) :: (d.body ++ d.close :: fs)) := by
    rw [hs]; simp [DirFrag.text]
  obtain ⟨h1, h2⟩ := NextFrag_mark alist pos ('!' :: d.name) _ hnul hs' hc
    (show isMark '!' = true by decide)
  obtain ⟨s1, hs1⟩ := hbd m.pools ('!' :: d.name) (some (pos + 1 + ('!' :: d.name).length))
  obtain ⟨h3, h4⟩ := FragClose_body alist _ d.body d.close fs u.array hnul h2 hb hbal hcl hfs
  refine ⟨_, s1, h4, ?_⟩
  intro fuel
  have e1 : ¬ ('!' :: d.name) = "%play".toList := by
    intro h; exact absurd (List.cons.inj h).1 (by decide)
  have e2 : ¬ (('!' :: d.name) = "%".toList ∧ v.play ≠ none) := by
    intro h; exact absurd (List.cons.inj h.1).1 (by decide)
  rw [build_chain_loop]
  simp only [h1, Ret.run, if_neg e1, if_neg e2, List.head?_cons, if_true, List.drop_succ_cons,
    List.drop_zero, dir_step_valid B m d.name d.kind hk, hs1, h3]
  try rfl

theorem getElem?_mid {α : Type} (Q : List α) (c : α) (R : List α) :
    (Q ++ c :: R)[Q.length]? = some c := by
  rw [List.getElem?_append_right (le_refl _)]
  simp

theorem set_mid {α : Type} (Q : List α) (c c1 : α) (R : List α) :
    (Q ++ c :: R).set Q.length c1 = Q ++ c1 :: R := by simp

theorem setCont_mid {σ : Type} (s : σ) (Q : List jhcAliaChain) (c : jhcAliaChain)
    (R : List jhcAliaChain) (fr fo : List Nat) (x : Option Nat) :
    (⟨s, Q ++ c :: R, fr, fo⟩ : Mem σ).setCont Q.length x =
      ⟨s, Q ++ { c with cont := x } :: R, fr, fo⟩ := by
  simp only [Mem.setCont, getElem?_mid, set_mid]

theorem addReq_mid {σ : Type} (s : σ) (Q : List jhcAliaChain) (c : jhcAliaChain)
    (R : List jhcAliaChain) (fr fo : List Nat) (x : Nat) :
    (⟨s, Q ++ c :: R, fr, fo⟩ : Mem σ).addReq Q.length x =
      ⟨s, Q ++ { c with play := c.play.map (· ++ [x]) } :: R, fr, fo⟩ := by
  simp only [Mem.addReq, getElem?_mid, set_mid]

theorem loop_play_open {σ ν : Type} (B : NodeLevel σ ν) (bd : BuildDir σ) (u : Uninit)
    (alist : Str) (hnul : NUL ∉ alist) (pos : Nat) (fs : List Str)
    (hs : alist.drop pos = render ("%play".toList :: fs)) (v : ChainVars) (m : Mem σ) :
    ∃ pos1, alist.drop pos1 = render fs ∧ ∀ fuel,
      build_chain_loop B bd u alist (fuel + 1) (some pos) v m =
        build_chain_loop B bd u alist fuel (some pos1)
          { play := some m.chains.length, pod := some m.chains.length,
            start := if v.ch = none then some m.chains.length else v.start,
            ch := none, dir := v.dir }
          (match v.ch with
            | none => ⟨m.pools, m.chains ++ [⟨none, some [], none⟩], m.freed, m.foci⟩
            | some c =>
              (⟨m.pools, m.chains ++ [⟨none, some [], none⟩], m.freed, m.foci⟩ : Mem σ).setCont c
                (some m.chains.length)) := by
  obtain ⟨h1, h2⟩ := NextFrag_mark alist pos "%play".toList fs hnul hs (by decide) (by decide)
  refine ⟨_, h2, ?_⟩
  intro fuel
  rw [build_chain_loop]
  simp only [h1, Ret.run, if_true]
  try rfl

theorem loop_play_close {σ ν : Type} (B : NodeLevel σ ν) (bd : BuildDir σ) (u : Uninit)
    (alist : Str) (hnul : NUL ∉ alist) (pos : Nat) (fs : List Str)
    (hs : alist.drop pos = render ("%".toList :: fs)) (v : ChainVars) (m : Mem σ)
    (hv : v.play ≠ none) :
    ∃ pos1, alist.drop pos1 = render fs ∧ ∀ fuel,
      build_chain_loop B bd u alist (fuel + 1) (some pos) v m =
        build_chain_loop B bd u alist fuel (some pos1) { v with ch := v.pod, play := none } m := by
  obtain ⟨h1, h2⟩ := NextFrag_mark alist pos "%".toList fs hnul hs (by decide) (by decide)
  refine ⟨_, h2, ?_⟩
  intro fuel
  rw [build_chain_loop]
  simp only [h1, Ret.run, if_neg (by decide : ¬ "%".toList = "%play".toList)]
  rw [if_pos ⟨trivial, hv⟩]

theorem loop_end {σ ν : Type} (B : NodeLevel σ ν) (bd : BuildDir σ) (u : Uninit)
    (alist : Str) (pos : Nat) (hs : alist.drop pos = []) (v : ChainVars) (m : Mem σ)
    (fuel : Nat) : build_chain_loop B bd u alist fuel (some pos) v m = some (v, m) := by
  cases fuel with
  | zero => rfl
  | succ n =>
    rw [build_chain_loop]
    simp only [NextFrag_end alist pos hs, Ret.run]

/-- One turn of the loop on a directive whose kind is not valid: the loop is left
with `ch` NULL and `dir` as it was. -/
theorem loop_invalid {σ ν : Type} (B : NodeLevel σ ν) (bd : BuildDir σ) (u : Uninit)
    (alist : Str) (hnul : NUL ∉ alist) (pos : Nat) (name : Str) (fs : List Str)
    (hs : alist.drop pos = render (('!' :: name) :: fs)) (hc : Clean ('!' :: name))
    (hk : B.CvtKind name = none) (v : ChainVars) (m : Mem σ) (fuel : Nat) :
    build_chain_loop B bd u alist (fuel + 1) (some pos) v m = some ({ v with ch := none }, m) := by
  obtain ⟨h1, _⟩ := NextFrag_mark alist pos ('!' :: name) fs hnul hs hc
    (show isMark '!' = true by decide)
  have e1 : ¬ ('!' :: name) = "%play".toList := by
    intro h; exact absurd (List.cons.inj h).1 (by decide)
  have e2 : ¬ (('!' :: name) = "%".toList ∧ v.play ≠ none) := by
    intro h; exact absurd (List.cons.inj h.1).1 (by decide)
  rw [build_chain_loop]
  simp only [h1, Ret.run, if_neg e1, if_neg e2, List.head?_cons, if_true, List.drop_succ_cons,
    List.drop_zero, dir_step_invalid B m name hk]

theorem fragsText_cons (d : DirFrag) (ds : List DirFrag) :
    fragsText (d :: ds) = ('!' :: d.name) :: (d.body ++ d.close :: fragsText ds) := by
  simp [fragsText, DirFrag.text]

theorem fragsText_clean {σ ν : Type} (B : NodeLevel σ ν) (ds : List DirFrag)
    (h : ∀ d ∈ ds, GoodFrag B d) : ∀ f ∈ fragsText ds, Clean f := by
  induction ds with
  | nil => intro f hf; simp [fragsText] at hf
  | cons d ds ih =>
    intro f hf
    obtain ⟨_, hc, hb, _, hcl⟩ := h d (by simp)
    simp only [fragsText_cons, List.mem_cons, List.mem_append] at hf
    rcases hf with rfl | hf | rfl | hf
    · exact hc
    · exact hb f hf
    · exact isClose_clean _ hcl
    · exact ih (fun d hd => h d (by simp [hd])) f hf

/-- The directives before a play: each gets a step, linked to the one before,
and the step of the play is linked to the last of them. -/
theorem loop_sequence {σ ν : Type} (B : NodeLevel σ ν) (bd : BuildDir σ) (u : Uninit)
    (alist : Str) (hnul : NUL ∉ alist) (hbd : ∀ s e t, ∃ s1, bd s e t = some (t, s1))
    (fs : List Str) (hfs : ∀ f ∈ fs, Clean f) (fr fo : List Nat) (pd st : Option Nat) :
    ∀ (ds : List DirFrag) (pos fuel : Nat) (P : List jhcAliaChain) (c : jhcAliaChain) (s : σ),
      (∀ d ∈ ds, GoodFrag B d) →
      alist.drop pos = render (fragsText ds ++ "%play".toList :: fs) →
      ∃ pos1 s1, alist.drop pos1 = render fs ∧
        build_chain_loop B bd u alist (fuel + ds.length + 1) (some pos)
            ⟨none, pd, st, some P.length, false⟩ ⟨s, P ++ [c], fr, fo⟩ =
          build_chain_loop B bd u alist fuel (some pos1)
            ⟨some (P.length + ds.length + 1), some (P.length + ds.length + 1), st, none, false⟩
            ⟨s1, P ++ (linked P.length c (ds.map (·.kind)) ++ [⟨none, some [], none⟩]), fr, fo⟩ := by
  intro ds
  induction ds with
  | nil =>
    intro pos fuel P c s _ hs
    obtain ⟨pos1, h1, h2⟩ := loop_play_open B bd u alist hnul pos fs hs
      ⟨none, pd, st, some P.length, false⟩ ⟨s, P ++ [c], fr, fo⟩
    refine ⟨pos1, s, h1, ?_⟩
    have := h2 fuel
    simp only [List.length_append, List.length_singleton] at this
    simp only [List.length_nil, Nat.add_zero, List.map_nil, linked]
    rw [this]
    have e := setCont_mid s P c [⟨none, some [], none⟩] fr fo (some (P.length + 1))
    simp only [List.append_assoc, List.singleton_append] at e ⊢
    simp only [reduceCtorEq, if_false, e]
  | cons d ds ih =>
    intro pos fuel P c s hg hs
    have hg' : ∀ x ∈ ds, GoodFrag B x := fun x hx => hg x (by simp [hx])
    have hrest : ∀ f ∈ fragsText ds ++ "%play".toList :: fs, Clean f := by
      intro f hf
      rcases List.mem_append.1 hf with hf | hf
      · exact fragsText_clean B ds hg' f hf
      · rcases List.mem_cons.1 hf with rfl | hf
        · decide
        · exact hfs f hf
    have hs' : alist.drop pos =
        render (d.text ++ (fragsText ds ++ "%play".toList :: fs)) := by
      rw [hs]; simp [fragsText]
    obtain ⟨pos1, s1, h1, h2⟩ := loop_directive B bd u alist hnul hbd pos d _ (hg d (by simp))
      hrest hs' ⟨none, pd, st, some P.length, false⟩ ⟨s, P ++ [c], fr, fo⟩
    have h2' := h2 (fuel + ds.length + 1)
    simp only [List.length_append, List.length_singleton] at h2'
    have e := setCont_mid s1 P c [dirStep d.kind] fr fo (some (P.length + 1))
    simp only [List.append_assoc, List.singleton_append] at e h2'
    simp only [reduceCtorEq, and_false, if_false, e] at h2'
    obtain ⟨pos2, s2, h3, h4⟩ := ih pos1 fuel (P ++ [{ c with cont := some (P.length + 1) }])
      (dirStep d.kind) s1 hg' h1
    refine ⟨pos2, s2, h3, ?_⟩
    have efuel : fuel + (d :: ds).length + 1 = fuel + ds.length + 1 + 1 := by
      simp only [List.length_cons]; omega
    rw [efuel, h2']
    simp only [List.length_append, List.length_singleton, List.append_assoc,
      List.singleton_append] at h4
    rw [h4]
    simp only [List.length_cons, List.map_cons, linked, List.cons_append]
    have e3 : P.length + 1 + ds.length + 1 = P.length + (ds.length + 1) + 1 := by omega
    rw [e3]

/-- The directives of a play: each gets a step of its own and is added to the
required activities of the play; the marker that closes the play makes the step
of the play the current one. -/
theorem loop_play {σ ν : Type} (B : NodeLevel σ ν) (bd : BuildDir σ) (u : Uninit)
    (alist : Str) (hnul : NUL ∉ alist) (hbd : ∀ s e t, ∃ s1, bd s e t = some (t, s1))
    (fs : List Str) (hfs : ∀ f ∈ fs, Clean f) (fr fo : List Nat) (st : Option Nat)
    (Q : List jhcAliaChain) :
    ∀ (ps : List DirFrag) (pos fuel : Nat) (rs : List Nat) (R : List jhcAliaChain) (s : σ)
      (chv : Option Nat), (∀ d ∈ ps, GoodFrag B d) →
      alist.drop pos = render (fragsText ps ++ "%".toList :: fs) →
      ∃ pos1 s1, alist.drop pos1 = render fs ∧
        build_chain_loop B bd u alist (fuel + ps.length + 1) (some pos)
            ⟨some Q.length, some Q.length, st, chv, false⟩
            ⟨s, Q ++ ⟨none, some rs, none⟩ :: R, fr, fo⟩ =
          build_chain_loop B bd u alist fuel (some pos1)
            ⟨none, some Q.length, st, some Q.length, false⟩
            ⟨s1, Q ++ ⟨none, some (rs ++ List.range' (Q.length + 1 + R.length) ps.length), none⟩ ::
              (R ++ ps.map (fun d => dirStep d.kind)), fr, fo⟩ := by
  intro ps
  induction ps with
  | nil =>
    intro pos fuel rs R s chv _ hs
    obtain ⟨pos1, h1, h2⟩ := loop_play_close B bd u alist hnul pos fs hs
      ⟨some Q.length, some Q.length, st, chv, false⟩ ⟨s, Q ++ ⟨none, some rs, none⟩ :: R, fr, fo⟩
      (by simp)
    refine ⟨pos1, s, h1, ?_⟩
    simp only [List.length_nil, Nat.add_zero, List.range'_zero, List.append_nil, List.map_nil]
    exact h2 fuel
  | cons d ps ih =>
    intro pos fuel rs R s chv hg hs
    have hg' : ∀ x ∈ ps, GoodFrag B x := fun x hx => hg x (by simp [hx])
    have hrest : ∀ f ∈ fragsText ps ++ "%".toList :: fs, Clean f := by
      intro f hf
      rcases List.mem_append.1 hf with hf | hf
      · exact fragsText_clean B ps hg' f hf
      · rcases List.mem_cons.1 hf with rfl | hf
        · decide
        · exact hfs f hf
    have hs' : alist.drop pos = render (d.text ++ (fragsText ps ++ "%".toList :: fs)) := by
      rw [hs]; simp [fragsText]
    obtain ⟨pos1, s1, h1, h2⟩ := loop_directive B bd u alist hnul hbd pos d _ (hg d (by simp))
      hrest hs' ⟨some Q.length, some Q.length, st, chv, false⟩
      ⟨s, Q ++ ⟨none, some rs, none⟩ :: R, fr, fo⟩
    have h2' := h2 (fuel + ps.length + 1)
    have e := addReq_mid s1 Q ⟨none, some rs, none⟩ (R ++ [dirStep d.kind]) fr fo
      (Q.length + (R.length + 1))
    simp only [List.length_append, List.length_cons, List.append_assoc, List.cons_append,
      reduceCtorEq, false_and, if_false, e, Option.map_some'] at h2'
    obtain ⟨pos2, s2, h3, h4⟩ := ih pos1 fuel (rs ++ [Q.length + (R.length + 1)])
      (R ++ [dirStep d.kind]) s1 (some (Q.length + (R.length + 1))) hg' h1
    refine ⟨pos2, s2, h3, ?_⟩
    have efuel : fuel + (d :: ps).length + 1 = fuel + ps.length + 1 + 1 := by
      simp only [List.length_cons]; omega
    rw [efuel, h2', h4]
    have e3 : Q.length + 1 + (R ++ [dirStep d.kind]).length = Q.length + 1 + R.length + 1 := by
      simp; omega
    have e4 : Q.length + (R.length + 1) = Q.length + 1 + R.length := by omega
    simp only [e3, e4, List.length_cons, List.map_cons, List.append_assoc, List.singleton_append,
      List.range'_succ]

theorem chainSteps_cons (last : jhcAliaChain) :
    ∀ (ks : List JDIR_KIND) (n : Nat) (k : JDIR_KIND),
      chainSteps n last (k :: ks) = linked n (dirStep k) ks ++ [last] := by
  intro ks
  induction ks with
  | nil => intro n k; rfl
  | cons k1 ks ih =>
    intro n k
    rw [chainSteps, ih (n + 1) k1]
    rfl

theorem linked_length (ks : List JDIR_KIND) :
    ∀ (n : Nat) (c : jhcAliaChain), (linked n c ks).length = ks.length + 1 := by
  induction ks with
  | nil => intro n c; rfl
  | cons k ks ih => intro n c; simp [linked, ih]

theorem fragsText_length (ds : List DirFrag) : ds.length ≤ (fragsText ds).length := by
  induction ds with
  | nil => simp [fragsText]
  | cons d ds ih => simp [fragsText_cons]; omega

/-- The chain that the loop and the end of `build_chain` make of `m` directives
followed by a play of `k` directives, for any `build_dir` that builds every body
where it stands. -/
theorem build_chain_play {σ ν : Type} (B : NodeLevel σ ν) (bd : BuildDir σ) (u : Uninit)
    (alist : Str) (hnul : NUL ∉ alist) (hbd : ∀ s e t, ∃ s1, bd s e t = some (t, s1))
    (ds ps : List DirFrag) (pos : Nat) (final : Option Nat) (m : Mem σ)
    (hd : ∀ d ∈ ds, GoodFrag B d) (hp : ∀ d ∈ ps, GoodFrag B d)
    (hs : alist.drop pos = render (chainText ds ps)) :
    ∃ s1, build_chain B bd u alist (some pos) final m =
      some (some m.chains.length,
        ⟨s1, m.chains ++ (chainSteps m.chains.length
            ⟨none, some (List.range' (m.chains.length + ds.length + 1) ps.length), final⟩
            (ds.map (·.kind)) ++ ps.map (fun d => dirStep d.kind)), m.freed, m.foci⟩) := by
  have hfuel : ds.length + ps.length + 2 ≤ alist.length + 1 := by
    have h1 := render_length (chainText ds ps)
    have h2 : (alist.drop pos).length ≤ alist.length := by simp
    rw [hs] at h2
    have h3 := fragsText_length ds
    have h4 := fragsText_length ps
    have h0 : (chainText ds ps).length =
        (fragsText ds).length + ((fragsText ps).length + 1 + 1) := by
      simp [chainText]
    omega
  obtain ⟨fuel, hf⟩ : ∃ fuel, alist.length + 1 = fuel + ds.length + ps.length + 2 :=
    ⟨alist.length + 1 - (ds.length + ps.length + 2), by omega⟩
  obtain ⟨s0, H, fr, fo⟩ := m
  have hps : ∀ f ∈ fragsText ps ++ ["%".toList], Clean f := by
    intro f hf
    rcases List.mem_append.1 hf with hf | hf
    · exact fragsText_clean B ps hp f hf
    · simp only [List.mem_singleton] at hf; rw [hf]; decide
  unfold build_chain
  rw [hf]
  cases ds with
  | nil =>
    have hs0 : alist.drop pos = render ("%play".toList :: (fragsText ps ++ ["%".toList])) := by
      rw [hs]; rfl
    obtain ⟨pos1, h1, h2⟩ := loop_play_open B bd u alist hnul pos _ hs0
      ⟨none, none, none, none, false⟩ ⟨s0, H, fr, fo⟩
    obtain ⟨pos2, s2, h3, h4⟩ := loop_play B bd u alist hnul hbd [] (by simp) fr fo
      (some H.length) H ps pos1 fuel [] [] s0 none hp h1
    have h5 := loop_end B bd u alist pos2 h3
    refine ⟨s2, ?_⟩
    have e1 : fuel + ([] : List DirFrag).length + ps.length + 2 = fuel + ps.length + 1 + 1 := by
      have h0 : ([] : List DirFrag).length = 0 := rfl
      omega
    rw [e1, h2]
    simp only [if_true] at h4 ⊢
    rw [h4, h5]
    simp only [if_true]
    have e := setCont_mid s2 H ⟨none, some ([] ++ List.range' (H.length + 1 + 0) ps.length), none⟩
      ([] ++ ps.map (fun d => dirStep d.kind)) fr fo final
    simp only [List.nil_append, List.length_nil, Nat.add_zero] at e ⊢
    rw [e]
    simp [chainSteps]
  | cons d ds =>
    have hd' : ∀ x ∈ ds, GoodFrag B x := fun x hx => hd x (by simp [hx])
    have hrest : ∀ f ∈ fragsText ds ++ "%play".toList :: (fragsText ps ++ ["%".toList]),
        Clean f := by
      intro f hf
      rcases List.mem_append.1 hf with hf | hf
      · exact fragsText_clean B ds hd' f hf
      · rcases List.mem_cons.1 hf with rfl | hf
        · decide
        · exact hps f hf
    have hs0 : alist.drop pos = render (d.text ++
        (fragsText ds ++ "%play".toList :: (fragsText ps ++ ["%".toList]))) := by
      rw [hs]; simp [chainText, fragsText]
    obtain ⟨pos1, s1, h1, h2⟩ := loop_directive B bd u alist hnul hbd pos d _ (hd d (by simp))
      hrest hs0 ⟨none, none, none, none, false⟩ ⟨s0, H, fr, fo⟩
    obtain ⟨pos2, s2, h3, h4⟩ := loop_sequence B bd u alist hnul hbd _ hps fr fo none
      (some H.length) ds pos1 (fuel + ps.length + 1) H (dirStep d.kind) s1 hd' h1
    obtain ⟨pos3, s3, h5, h6⟩ := loop_play B bd u alist hnul hbd [] (by simp) fr fo
      (some H.length) (H ++ linked H.length (dirStep d.kind) (ds.map (·.kind))) ps pos2
      fuel [] [] s2 none hp h3
    have h7 := loop_end B bd u alist pos3 h5
    refine ⟨s3, ?_⟩
    have e1 : fuel + (d :: ds).length + ps.length + 2 =
        fuel + ps.length + 1 + ds.length + 1 + 1 := by
      have h0 : (d :: ds).length = ds.length + 1 := rfl
      omega
    rw [e1, h2]
    simp only [and_self, if_true]
    rw [h4]
    have e2 : (H ++ linked H.length (dirStep d.kind) (ds.map (·.kind))).length =
        H.length + ds.length + 1 := by
      simp [linked_length]; omega
    rw [e2] at h6
    simp only [List.append_assoc] at h6
    rw [h6, h7]
    simp only [if_true]
    have e := setCont_mid s3 (H ++ linked H.length (dirStep d.kind) (ds.map (·.kind)))
      ⟨none, some ([] ++ List.range' (H.length + ds.length + 1 + 1 + 0) ps.length), none⟩
      ([] ++ ps.map (fun d => dirStep d.kind)) fr fo final
    rw [e2] at e
    simp only [List.nil_append, List.length_nil, Nat.add_zero, List.append_assoc] at e ⊢
    rw [e]
    simp only [List.map_cons, chainSteps_cons, List.length_cons,
      List.append_assoc, List.singleton_append]
    have e3 : H.length + (ds.length + 1) + 1 = H.length + ds.length + 1 + 1 := by omega
    rw [e3]

/-! ## Chains whose directives build where they stand -/

theorem DirFrag_size (d : DirFrag) :
    (render d.text).length =
      1 + ('!' :: d.name).length + (render d.body).length + 1 + d.close.length := by
  simp only [DirFrag.text, render_cons_length, render_append, List.length_append, render,
    List.length_nil, List.length_cons, List.append_nil]
  omega

theorem fragsText_size (d : DirFrag) (ds : List DirFrag) :
    (render (fragsText (d :: ds))).length =
      (render d.text).length + (render (fragsText ds)).length := by
  simp only [fragsText, render_append, List.length_append]

/-- One turn of the loop of `build_chain` on a directive fragment whose body builds
where it stands: a step is made for it and linked, and the loop goes on after
the fragment. -/
theorem loop_directive_at {σ ν : Type} (B : NodeLevel σ ν) (bd : BuildDir σ) (u : Uninit)
    (alist : Str) (hnul : NUL ∉ alist) (pos : Nat) (d : DirFrag) (fs : List Str)
    (hd : GoodFrag B d) (hfs : ∀ f ∈ fs, Clean f)
    (hs : alist.drop pos = render (d.text ++ fs)) (v : ChainVars) (m : Mem σ)
    (hbd : ∀ s, ∃ s1, bd s ('!' :: d.name) (some (pos + 1 + ('!' :: d.name).length)) =
      some (some (pos + 1 + ('!' :: d.name).length), s1)) :
    ∃ s1, alist.drop (pos + (render d.text).length) = render fs ∧ ∀ fuel,
      build_chain_loop B bd u alist (fuel + 1) (some pos) v m =
        build_chain_loop B bd u alist fuel (some (pos + (render d.text).length))
          { v with ch := some m.chains.length, dir := false,
                   start := if v.play = none ∧ v.ch = none then some m.chains.length
                     else v.start }
          (match v.play, v.ch with
            | some pl, _ =>
              (⟨s1, m.chains ++ [dirStep d.kind], m.freed, m.foci⟩ : Mem σ).addReq pl
                m.chains.length
            | none, none => ⟨s1, m.chains ++ [dirStep d.kind], m.freed, m.foci⟩
            | none, some c0 =>
              (⟨s1, m.chains ++ [dirStep d.kind], m.freed, m.foci⟩ : Mem σ).setCont c0
                (some m.chains.length)) := by
  obtain ⟨hk, hc, hb, hbal, hcl⟩ := hd
  have hs' : alist.drop pos = render (('!' :: d.name) :: (d.body ++ d.close :: fs)) := by
    rw [hs]; simp [DirFrag.text]
  obtain ⟨h1, h2⟩ := NextFrag_mark alist pos ('!' :: d.name) _ hnul hs' hc
    (show isMark '!' = true by decide)
  obtain ⟨s1, hs1⟩ := hbd m.pools
  obtain ⟨h3, h4⟩ := FragClose_body alist _ d.body d.close fs u.array hnul h2 hb hbal hcl hfs
  have e : pos + 1 + ('!' :: d.name).length + (render d.body).length + 1 + d.close.length =
      pos + (render d.text).length := by
    rw [DirFrag_size]; omega
  rw [e] at h3 h4
  refine ⟨s1, h4, ?_⟩
  intro fuel
  have e1 : ¬ ('!' :: d.name) = "%play".toList := by
    intro h; exact absurd (List.cons.inj h).1 (by decide)
  have e2 : ¬ (('!' :: d.name) = "%".toList ∧ v.play ≠ none) := by
    intro h; exact absurd (List.cons.inj h.1).1 (by decide)
  rw [build_chain_loop]
  simp only [h1, Ret.run, if_neg e1, if_neg e2, List.head?_cons, if_true, List.drop_succ_cons,
    List.drop_zero, dir_step_valid B m d.name d.kind hk, hs1, h3]
  try rfl

/-- The directives before a play, each building where it stands: each gets a
step, linked to the one before, and the step of the play is linked to the last
of them. -/
theorem loop_sequence_at {σ ν : Type} (B : NodeLevel σ ν) (bd : BuildDir σ) (u : Uninit)
    (alist : Str) (hnul : NUL ∉ alist) (fs : List Str) (hfs : ∀ f ∈ fs, Clean f)
    (fr fo : List Nat) (pd st : Option Nat) :
    ∀ (ds : List DirFrag) (pos fuel : Nat) (P : List jhcAliaChain) (c : jhcAliaChain) (s : σ),
      (∀ d ∈ ds, GoodFrag B d) → BuildsAt bd pos ds →
      alist.drop pos = render (fragsText ds ++ "%play".toList :: fs) →
      ∃ s1, alist.drop (pos + (render (fragsText ds)).length + 6) = render fs ∧
        build_chain_loop B bd u alist (fuel + ds.length + 1) (some pos)
            ⟨none, pd, st, some P.length, false⟩ ⟨s, P ++ [c], fr, fo⟩ =
          build_chain_loop B bd u alist fuel (some (pos + (render (fragsText ds)).length + 6))
            ⟨some (P.length + ds.length + 1), some (P.length + ds.length + 1), st, none, false⟩
            ⟨s1, P ++ (linked P.length c (ds.map (·.kind)) ++ [⟨none, some [], none⟩]), fr, fo⟩ := by
  intro ds
  induction ds with
  | nil =>
    intro pos fuel P c s _ _ hs
    obtain ⟨h1, h2⟩ := NextFrag_mark alist pos "%play".toList fs hnul hs (by decide) (by decide)
    have h2' : alist.drop (pos + (render (fragsText [])).length + 6) = render fs := h2
    refine ⟨s, h2', ?_⟩
    have hl : build_chain_loop B bd u alist (fuel + 1) (some pos)
        ⟨none, pd, st, some P.length, false⟩ ⟨s, P ++ [c], fr, fo⟩ =
        build_chain_loop B bd u alist fuel (some (pos + 1 + "%play".toList.length))
          ⟨some (P ++ [c]).length, some (P ++ [c]).length, st, none, false⟩
          ((⟨s, (P ++ [c]) ++ [⟨none, some [], none⟩], fr, fo⟩ : Mem σ).setCont P.length
            (some (P ++ [c]).length)) := by
      rw [build_chain_loop]
      simp only [h1, Ret.run, if_true]
      try rfl
    simp only [List.length_append, List.length_singleton] at hl
    simp only [List.length_nil, Nat.add_zero, List.map_nil, linked]
    rw [hl]
    have e := setCont_mid s P c [⟨none, some [], none⟩] fr fo (some (P.length + 1))
    simp only [List.append_assoc, List.singleton_append] at e ⊢
    simp only [e]
    rfl
  | cons d ds ih =>
    intro pos fuel P c s hg hb hs
    have hg' : ∀ x ∈ ds, GoodFrag B x := fun x hx => hg x (by simp [hx])
    have hrest : ∀ f ∈ fragsText ds ++ "%play".toList :: fs, Clean f := by
      intro f hf
      rcases List.mem_append.1 hf with hf | hf
      · exact fragsText_clean B ds hg' f hf
      · rcases List.mem_cons.1 hf with rfl | hf
        · decide
        · exact hfs f hf
    have hs' : alist.drop pos =
        render (d.text ++ (fragsText ds ++ "%play".toList :: fs)) := by
      rw [hs]; simp [fragsText]
    obtain ⟨s1, h1, h2⟩ := loop_directive_at B bd u alist hnul pos d _ (hg d (by simp))
      hrest hs' ⟨none, pd, st, some P.length, false⟩ ⟨s, P ++ [c], fr, fo⟩ hb.1
    have h2' := h2 (fuel + ds.length + 1)
    simp only [List.length_append, List.length_singleton] at h2'
    have e := setCont_mid s1 P c [dirStep d.kind] fr fo (some (P.length + 1))
    simp only [List.append_assoc, List.singleton_append] at e h2'
    simp only [reduceCtorEq, and_false, if_false, e] at h2'
    obtain ⟨s2, h3, h4⟩ := ih (pos + (render d.text).length) fuel
      (P ++ [{ c with cont := some (P.length + 1) }]) (dirStep d.kind) s1 hg' hb.2 h1
    have ep : pos + (render (fragsText (d :: ds))).length + 6 =
        pos + (render d.text).length + (render (fragsText ds)).length + 6 := by
      rw [fragsText_size]; omega
    rw [ep]
    refine ⟨s2, h3, ?_⟩
    have efuel : fuel + (d :: ds).length + 1 = fuel + ds.length + 1 + 1 := by
      simp only [List.length_cons]; omega
    rw [efuel, h2']
    simp only [List.length_append, List.length_singleton, List.append_assoc,
      List.singleton_append] at h4
    rw [h4]
    simp only [List.length_cons, List.map_cons, linked, List.cons_append]
    have e3 : P.length + 1 + ds.length + 1 = P.length + (ds.length + 1) + 1 := by omega
    rw [e3]

/-- The directives of a play, each building where it stands: each gets a step of
its own and is added to the required activities of the play; the marker that
closes the play makes the step of the play the current one. -/
theorem loop_play_at {σ ν : Type} (B : NodeLevel σ ν) (bd : BuildDir σ) (u : Uninit)
    (alist : Str) (hnul : NUL ∉ alist) (fs : List Str) (hfs : ∀ f ∈ fs, Clean f)
    (fr fo : List Nat) (st : Option Nat) (Q : List jhcAliaChain) :
    ∀ (ps : List DirFrag) (pos fuel : Nat) (rs : List Nat) (R : List jhcAliaChain) (s : σ)
      (chv : Option Nat), (∀ d ∈ ps, GoodFrag B d) → BuildsAt bd pos ps →
      alist.drop pos = render (fragsText ps ++ "%".toList :: fs) →
      ∃ pos1 s1, alist.drop pos1 = render fs ∧
        build_chain_loop B bd u alist (fuel + ps.length + 1) (some pos)
            ⟨some Q.length, some Q.length, st, chv, false⟩
            ⟨s, Q ++ ⟨none, some rs, none⟩ :: R, fr, fo⟩ =
          build_chain_loop B bd u alist fuel (some pos1)
            ⟨none, some Q.length, st, some Q.length, false⟩
            ⟨s1, Q ++ ⟨none, some (rs ++ List.range' (Q.length + 1 + R.length) ps.length), none⟩ ::
              (R ++ ps.map (fun d => dirStep d.kind)), fr, fo⟩ := by
  intro ps
  induction ps with
  | nil =>
    intro pos fuel rs R s chv _ _ hs
    obtain ⟨pos1, h1, h2⟩ := loop_play_close B bd u alist hnul pos fs hs
      ⟨some Q.length, some Q.length, st, chv, false⟩ ⟨s, Q ++ ⟨none, some rs, none⟩ :: R, fr, fo⟩
      (by simp)
    refine ⟨pos1, s, h1, ?_⟩
    simp only [List.length_nil, Nat.add_zero, List.range'_zero, List.append_nil, List.map_nil]
    exact h2 fuel
  | cons d ps ih =>
    intro pos fuel rs R s chv hg hb hs
    have hg' : ∀ x ∈ ps, GoodFrag B x := fun x hx => hg x (by simp [hx])
    have hrest : ∀ f ∈ fragsText ps ++ "%".toList :: fs, Clean f := by
      intro f hf
      rcases List.mem_append.1 hf with hf | hf
      · exact fragsText_clean B ps hg' f hf
      · rcases List.mem_cons.1 hf with rfl | hf
        · decide
        · exact hfs f hf
    have hs' : alist.drop pos = render (d.text ++ (fragsText ps ++ "%".toList :: fs)) := by
      rw [hs]; simp [fragsText]
    obtain ⟨s1, h1, h2⟩ := loop_directive_at B bd u alist hnul pos d _ (hg d (by simp))
      hrest hs' ⟨some Q.length, some Q.length, st, chv, false⟩
      ⟨s, Q ++ ⟨none, some rs, none⟩ :: R, fr, fo⟩ hb.1
    have h2' := h2 (fuel + ps.length + 1)
    have e := addReq_mid s1 Q ⟨none, some rs, none⟩ (R ++ [dirStep d.kind]) fr fo
      (Q.length + (R.length + 1))
    simp only [List.length_append, List.length_cons, List.append_assoc, List.cons_append,
      reduceCtorEq, false_and, if_false, e, Option.map_some'] at h2'
    obtain ⟨pos2, s2, h3, h4⟩ := ih (pos + (render d.text).length) fuel
      (rs ++ [Q.length + (R.length + 1)])
      (R ++ [dirStep d.kind]) s1 (some (Q.length + (R.length + 1))) hg' hb.2 h1
    refine ⟨pos2, s2, h3, ?_⟩
    have efuel : fuel + (d :: ps).length + 1 = fuel + ps.length + 1 + 1 := by
      simp only [List.length_cons]; omega
    rw [efuel, h2', h4]
    have e3 : Q.length + 1 + (R ++ [dirStep d.kind]).length = Q.length + 1 + R.length + 1 := by
      simp; omega
    have e4 : Q.length + (R.length + 1) = Q.length + 1 + R.length := by omega
    simp only [e3, e4, List.length_cons, List.map_cons, List.append_assoc, List.singleton_append,
      List.range'_succ]

theorem loop_play_open_at {σ ν : Type} (B : NodeLevel σ ν) (bd : BuildDir σ) (u : Uninit)
    (alist : Str) (hnul : NUL ∉ alist) (pos : Nat) (fs : List Str)
    (hs : alist.drop pos = render ("%play".toList :: fs)) (v : ChainVars) (m : Mem σ) :
    alist.drop (pos + 6) = render fs ∧ ∀ fuel,
      build_chain_loop B bd u alist (fuel + 1) (some pos) v m =
        build_chain_loop B bd u alist fuel (some (pos + 6))
          { play := some m.chains.length, pod := some m.chains.length,
            start := if v.ch = none then some m.chains.length else v.start,
            ch := none, dir := v.dir }
          (match v.ch with
            | none => ⟨m.pools, m.chains ++ [⟨none, some [], none⟩], m.freed, m.foci⟩
            | some c =>
              (⟨m.pools, m.chains ++ [⟨none, some [], none⟩], m.freed, m.foci⟩ : Mem σ).setCont c
                (some m.chains.length)) := by
  obtain ⟨h1, h2⟩ := NextFrag_mark alist pos "%play".toList fs hnul hs (by decide) (by decide)
  refine ⟨h2, ?_⟩
  intro fuel
  rw [build_chain_loop]
  simp only [h1, Ret.run, if_true]
  try rfl

/-- The chain that the loop and the end of `build_chain` make of `m` directives
followed by a play of `k` directives, for a `build_dir` that builds each body where
it stands. -/
theorem build_chain_play_at {σ ν : Type} (B : NodeLevel σ ν) (bd : BuildDir σ) (u : Uninit)
    (alist : Str) (hnul : NUL ∉ alist) (ds ps : List DirFrag) (pos : Nat)
    (final : Option Nat) (m : Mem σ) (hd : ∀ d ∈ ds, GoodFrag B d) (hp : ∀ d ∈ ps, GoodFrag B d)
    (hbd : BuildsAt bd pos ds) (hbp : BuildsAt bd (pos + (render (fragsText ds)).length + 6) ps)
    (hs : alist.drop pos = render (chainText ds ps)) :
    ∃ s1, build_chain B bd u alist (some pos) final m =
      some (some m.chains.length,
        ⟨s1, m.chains ++ (chainSteps m.chains.length
            ⟨none, some (List.range' (m.chains.length + ds.length + 1) ps.length), final⟩
            (ds.map (·.kind)) ++ ps.map (fun d => dirStep d.kind)), m.freed, m.foci⟩) := by
  have hfuel : ds.length + ps.length + 2 ≤ alist.length + 1 := by
    have h1 := render_length (chainText ds ps)
    have h2 : (alist.drop pos).length ≤ alist.length := by simp
    rw [hs] at h2
    have h3 := fragsText_length ds
    have h4 := fragsText_length ps
    have h0 : (chainText ds ps).length =
        (fragsText ds).length + ((fragsText ps).length + 1 + 1) := by
      simp [chainText]
    omega
  obtain ⟨fuel, hf⟩ : ∃ fuel, alist.length + 1 = fuel + ds.length + ps.length + 2 :=
    ⟨alist.length + 1 - (ds.length + ps.length + 2), by omega⟩
  obtain ⟨s0, H, fr, fo⟩ := m
  have hps : ∀ f ∈ fragsText ps ++ ["%".toList], Clean f := by
    intro f hf
    rcases List.mem_append.1 hf with hf | hf
    · exact fragsText_clean B ps hp f hf
    · simp only [List.mem_singleton] at hf; rw [hf]; decide
  unfold build_chain
  rw [hf]
  cases ds with
  | nil =>
    have hs0 : alist.drop pos = render ("%play".toList :: (fragsText ps ++ ["%".toList])) := by
      rw [hs]; rfl
    obtain ⟨h1, h2⟩ := loop_play_open_at B bd u alist hnul pos _ hs0
      ⟨none, none, none, none, false⟩ ⟨s0, H, fr, fo⟩
    have hbp' : BuildsAt bd (pos + 6) ps := by
      simpa [fragsText, render] using hbp
    obtain ⟨pos2, s2, h3, h4⟩ := loop_play_at B bd u alist hnul [] (by simp) fr fo
      (some H.length) H ps (pos + 6) fuel [] [] s0 none hp hbp' h1
    have h5 := loop_end B bd u alist pos2 h3
    refine ⟨s2, ?_⟩
    have e1 : fuel + ([] : List DirFrag).length + ps.length + 2 = fuel + ps.length + 1 + 1 := by
      have h0 : ([] : List DirFrag).length = 0 := rfl
      omega
    rw [e1, h2]
    simp only [if_true] at h4 ⊢
    rw [h4, h5]
    simp only [if_true]
    have e := setCont_mid s2 H ⟨none, some ([] ++ List.range' (H.length + 1 + 0) ps.length), none⟩
      ([] ++ ps.map (fun d => dirStep d.kind)) fr fo final
    simp only [List.nil_append, List.length_nil, Nat.add_zero] at e ⊢
    rw [e]
    simp [chainSteps]
  | cons d ds =>
    have hd' : ∀ x ∈ ds, GoodFrag B x := fun x hx => hd x (by simp [hx])
    have hrest : ∀ f ∈ fragsText ds ++ "%play".toList :: (fragsText ps ++ ["%".toList]),
        Clean f := by
      intro f hf
      rcases List.mem_append.1 hf with hf | hf
      · exact fragsText_clean B ds hd' f hf
      · rcases List.mem_cons.1 hf with rfl | hf
        · decide
        · exact hps f hf
    have hs0 : alist.drop pos = render (d.text ++
        (fragsText ds ++ "%play".toList :: (fragsText ps ++ ["%".toList]))) := by
      rw [hs]; simp [chainText, fragsText]
    obtain ⟨s1, h1, h2⟩ := loop_directive_at B bd u alist hnul pos d _ (hd d (by simp))
      hrest hs0 ⟨none, none, none, none, false⟩ ⟨s0, H, fr, fo⟩ hbd.1
    obtain ⟨s2, h3, h4⟩ := loop_sequence_at B bd u alist hnul _ hps fr fo none
      (some H.length) ds (pos + (render d.text).length) (fuel + ps.length + 1) H
      (dirStep d.kind) s1 hd' hbd.2 h1
    have ep : pos + (render (fragsText (d :: ds))).length + 6 =
        pos + (render d.text).length + (render (fragsText ds)).length + 6 := by
      rw [fragsText_size]; omega
    rw [ep] at hbp
    obtain ⟨pos3, s3, h5, h6⟩ := loop_play_at B bd u alist hnul [] (by simp) fr fo
      (some H.length) (H ++ linked H.length (dirStep d.kind) (ds.map (·.kind))) ps _
      fuel [] [] s2 none hp hbp h3
    have h7 := loop_end B bd u alist pos3 h5
    refine ⟨s3, ?_⟩
    have e1 : fuel + (d :: ds).length + ps.length + 2 =
        fuel + ps.length + 1 + ds.length + 1 + 1 := by
      have h0 : (d :: ds).length = ds.length + 1 := rfl
      omega
    rw [e1, h2]
    simp only [and_self, if_true]
    rw [h4]
    have e2 : (H ++ linked H.length (dirStep d.kind) (ds.map (·.kind))).length =
        H.length + ds.length + 1 := by
      simp [linked_length]; omega
    rw [e2] at h6
    simp only [List.append_assoc] at h6
    rw [h6, h7]
    simp only [if_true]
    have e := setCont_mid s3 (H ++ linked H.length (dirStep d.kind) (ds.map (·.kind)))
      ⟨none, some ([] ++ List.range' (H.length + ds.length + 1 + 1 + 0) ps.length), none⟩
      ([] ++ ps.map (fun d => dirStep d.kind)) fr fo final
    rw [e2] at e
    simp only [List.nil_append, List.length_nil, Nat.add_zero, List.append_assoc] at e ⊢
    rw [e]
    simp only [List.map_cons, chainSteps_cons, List.length_cons,
      List.append_assoc, List.singleton_append]
    have e3 : H.length + (ds.length + 1) + 1 = H.length + ds.length + 1 + 1 := by omega
    rw [e3]

/-! ## Chains and plays -/

theorem graphizer_build_dir_builds {σ ν : Type} (B : NodeLevel σ ν) (hB : Builds B) (gr : Str)
    (s : σ) (e : Str) (t : Option Nat) : ∃ s1, jhcGraphizer.build_dir B gr s e t = some (t, s1) := by
  obtain ⟨h1, h2, h3⟩ := hB
  unfold jhcGraphizer.build_dir
  split_ifs
  · obtain ⟨n, s1, h⟩ := h2 (B.BuildIn s (some gr)) t
    exact ⟨_, by rw [h]; rfl⟩
  · obtain ⟨n, s1, h⟩ := h3 (B.BuildIn s (some gr)) t
    exact ⟨_, by rw [h]; rfl⟩
  · obtain ⟨n, s1, h⟩ := h1 (B.BuildIn s (some gr)) t
    exact ⟨_, by rw [h]; rfl⟩

theorem netbuild_build_dir_builds {σ ν : Type} (B : NodeLevel σ ν) (hB : Builds B) (gr : Str)
    (s : σ) (e : Str) (t : Option Nat) : ∃ s1, jhcNetBuild.build_dir B gr s e t = some (t, s1) := by
  obtain ⟨h1, h2, h3⟩ := hB
  unfold jhcNetBuild.build_dir
  split_ifs
  · obtain ⟨n, s1, h⟩ := h2 (B.BuildIn s (some gr)) t
    exact ⟨_, by rw [h]; rfl⟩
  · obtain ⟨n, s1, h⟩ := h3 (B.BuildIn s (some gr)) t
    exact ⟨_, by rw [h]; rfl⟩
  · obtain ⟨n, s1, h⟩ := h1 (B.BuildIn s (some gr)) t
    exact ⟨_, by rw [h]; rfl⟩

theorem cmdLevel_builds : Builds cmdLevel :=
  ⟨fun s _ => ⟨s, s + 1, rfl⟩, fun s _ => ⟨s, s + 1, rfl⟩, fun s _ => ⟨s, s + 1, rfl⟩⟩

/-- C15: on a list of `m` directive fragments followed by a play of `k` directive
fragments (valid kinds, well-formed entries, balanced bodies, `build_dir` building
each body where it stands), `build_chain` of `jhcGraphizer` and of `jhcNetBuild` returns the
first new step, and the steps it adds are the `m` directives in input order,
each with the kind of its fragment and continuing with the next step, then the
step of the play, whose required activities are the `k` steps made for its
directives and whose continuation is `final`: a chain of `m + 1` links.  For
`m = 2`, `k = 2`, built with the node-level builders of `jhcGraphizer`, the chain has
three links and the third is a play with two required activities. -/
theorem chain_play_structure {σ ν : Type} (B : NodeLevel σ ν) (u : Uninit) (alist : Str)
    (pos : Nat) (ds ps : List DirFrag) (final : Option Nat) (m : Mem σ)
    (hnul : NUL ∉ alist) (hd : ∀ d ∈ ds, GoodFrag B d) (hp : ∀ d ∈ ps, GoodFrag B d)
    (hs : alist.drop pos = render (chainText ds ps)) :
    (BuildsAt (jhcGraphizer.build_dir B "key".toList) pos ds →
      BuildsAt (jhcGraphizer.build_dir B "key".toList)
        (pos + (render (fragsText ds)).length + 6) ps →
      ∃ s1, jhcGraphizer.build_chain B u alist (some pos) final m =
        some (some m.chains.length,
          ⟨s1, m.chains ++ (chainSteps m.chains.length
              ⟨none, some (List.range' (m.chains.length + ds.length + 1) ps.length), final⟩
              (ds.map (·.kind)) ++ ps.map (fun d => dirStep d.kind)), m.freed, m.foci⟩)) ∧
    (BuildsAt (jhcNetBuild.build_dir B "key".toList) pos ds →
      BuildsAt (jhcNetBuild.build_dir B "key".toList)
        (pos + (render (fragsText ds)).length + 6) ps →
      ∃ s1, jhcNetBuild.build_chain B u alist (some pos) final m =
        some (some m.chains.length,
          ⟨s1, m.chains ++ (chainSteps m.chains.length
              ⟨none, some (List.range' (m.chains.length + ds.length + 1) ps.length), final⟩
              (ds.map (·.kind)) ++ ps.map (fun d => dirStep d.kind)), m.freed, m.foci⟩)) ∧
    (jhcGraphizer.build_chain
        (jhcGraphizer.level ⟨[], 0⟩
          "\t!do\tACT=go\t%\t!do\tACT=stop\t%\t%play\t!do\tACT=sing\t%\t!do\tACT=dance\t%\t%".toList)
        ⟨[], 0⟩
        "\t!do\tACT=go\t%\t!do\tACT=stop\t%\t%play\t!do\tACT=sing\t%\t!do\tACT=dance\t%\t%".toList
        (some 0) none ⟨[], [], [], []⟩).map (fun r => (r.1, r.2.chains)) =
      some (some 0,
        [⟨some ⟨JDIR_KIND.DO, []⟩, none, some 1⟩, ⟨some ⟨JDIR_KIND.DO, []⟩, none, some 2⟩,
         ⟨none, some [3, 4], none⟩, ⟨some ⟨JDIR_KIND.DO, []⟩, none, none⟩,
         ⟨some ⟨JDIR_KIND.DO, []⟩, none, none⟩]) :=
  ⟨fun h1 h2 => build_chain_play_at B _ u alist hnul ds ps pos final m hd hp h1 h2 hs,
    fun h1 h2 => build_chain_play_at B _ u alist hnul ds ps pos final m hd hp h1 h2 hs,
    rfl⟩

theorem chain_play_structure_witness :
    ∃ s1, jhcGraphizer.build_chain
        (jhcGraphizer.level ⟨[], 0⟩
          "\t!do\tACT=go\t%\t!chk\tACT-S=runs\t%\t%play\t!do\tACT=sing\t%\t!do\tACT=dance\t%\t%".toList)
        ⟨[], 0⟩
        "\t!do\tACT=go\t%\t!chk\tACT-S=runs\t%\t%play\t!do\tACT=sing\t%\t!do\tACT=dance\t%\t%".toList
        (some 0) (some 7) ⟨[], [], [], []⟩ =
      some (some 0, ⟨s1,
        [⟨some ⟨JDIR_KIND.DO, []⟩, none, some 1⟩, ⟨some ⟨JDIR_KIND.CHK, []⟩, none, some 2⟩,
         ⟨none, some [3, 4], some 7⟩, ⟨some ⟨JDIR_KIND.DO, []⟩, none, none⟩,
         ⟨some ⟨JDIR_KIND.DO, []⟩, none, none⟩], [], []⟩) :=
  (chain_play_structure
    (jhcGraphizer.level ⟨[], 0⟩
      "\t!do\tACT=go\t%\t!chk\tACT-S=runs\t%\t%play\t!do\tACT=sing\t%\t!do\tACT=dance\t%\t%".toList)
    ⟨[], 0⟩
    "\t!do\tACT=go\t%\t!chk\tACT-S=runs\t%\t%play\t!do\tACT=sing\t%\t!do\tACT=dance\t%\t%".toList 0
    [doFrag "go".toList, ⟨"chk".toList, JDIR_KIND.CHK, ["ACT-S=runs".toList], "%".toList⟩]
    [doFrag "sing".toList, doFrag "dance".toList] (some 7) ⟨[], [], [], []⟩
    (by decide) (by decide) (by decide) rfl).1
    ⟨fun _ => ⟨_, rfl⟩, fun _ => ⟨_, rfl⟩, trivial⟩
    ⟨fun _ => ⟨_, rfl⟩, fun _ => ⟨_, rfl⟩, trivial⟩

/-! ## A directive kind that is not valid -/

/-- Valid directives in sequence: the loop goes through them with `dir` NULL again
after each. -/
theorem loop_directives {σ ν : Type} (B : NodeLevel σ ν) (bd : BuildDir σ) (u : Uninit)
    (alist : Str) (hnul : NUL ∉ alist) (hbd : ∀ s e t, ∃ s1, bd s e t = some (t, s1))
    (fs : List Str) (hfs : ∀ f ∈ fs, Clean f) :
    ∀ (ds : List DirFrag) (pos fuel : Nat) (v : ChainVars) (m : Mem σ),
      (∀ d ∈ ds, GoodFrag B d) → v.dir = false →
      alist.drop pos = render (fragsText ds ++ fs) →
      ∃ pos1 v1 m1, alist.drop pos1 = render fs ∧ v1.dir = false ∧
        build_chain_loop B bd u alist (fuel + ds.length) (some pos) v m =
          build_chain_loop B bd u alist fuel (some pos1) v1 m1 := by
  intro ds
  induction ds with
  | nil =>
    intro pos fuel v m _ hv hs
    exact ⟨pos, v, m, hs, hv, rfl⟩
  | cons d ds ih =>
    intro pos fuel v m hg hv hs
    have hg' : ∀ x ∈ ds, GoodFrag B x := fun x hx => hg x (by simp [hx])
    have hrest : ∀ f ∈ fragsText ds ++ fs, Clean f := by
      intro f hf
      rcases List.mem_append.1 hf with hf | hf
      · exact fragsText_clean B ds hg' f hf
      · exact hfs f hf
    have hs' : alist.drop pos = render (d.text ++ (fragsText ds ++ fs)) := by
      rw [hs]; simp [fragsText]
    obtain ⟨pos1, s1, h1, h2⟩ := loop_directive B bd u alist hnul hbd pos d _ (hg d (by simp))
      hrest hs' v m
    obtain ⟨pos2, v2, m2, h3, h4, h5⟩ := ih pos1 fuel
      { v with ch := some m.chains.length, dir := false,
               start := if v.play = none ∧ v.ch = none then some m.chains.length else v.start }
      _ hg' rfl h1
    refine ⟨pos2, v2, m2, h3, h4, ?_⟩
    have e : fuel + (d :: ds).length = fuel + ds.length + 1 := rfl
    rw [e, h2, h5]

/-- After any number of valid directives, a directive whose kind is not valid
makes `build_chain` store through the NULL pointer `ch`. -/
theorem build_chain_invalid {σ ν : Type} (B : NodeLevel σ ν) (bd : BuildDir σ) (u : Uninit)
    (alist : Str) (hnul : NUL ∉ alist) (hbd : ∀ s e t, ∃ s1, bd s e t = some (t, s1))
    (ds : List DirFrag) (name : Str) (fs : List Str) (pos : Nat) (final : Option Nat)
    (m : Mem σ) (hd : ∀ d ∈ ds, GoodFrag B d) (hc : Clean ('!' :: name))
    (hk : B.CvtKind name = none) (hfs : ∀ f ∈ fs, Clean f)
    (hs : alist.drop pos = render (fragsText ds ++ ('!' :: name) :: fs)) :
    build_chain B bd u alist (some pos) final m = none := by
  have hfuel : ds.length + 1 ≤ alist.length + 1 := by
    have h1 := render_length (fragsText ds ++ ('!' :: name) :: fs)
    have h2 : (alist.drop pos).length ≤ alist.length := by simp
    rw [hs] at h2
    have h3 := fragsText_length ds
    have h0 : (fragsText ds ++ ('!' :: name) :: fs).length =
        (fragsText ds).length + (fs.length + 1) := by simp
    omega
  obtain ⟨fuel, hf⟩ : ∃ fuel, alist.length + 1 = fuel + 1 + ds.length :=
    ⟨alist.length + 1 - (ds.length + 1), by omega⟩
  have hrest : ∀ f ∈ ('!' :: name) :: fs, Clean f := by
    intro f hf
    rcases List.mem_cons.1 hf with rfl | hf
    · exact hc
    · exact hfs f hf
  obtain ⟨pos1, v1, m1, h1, h2, h3⟩ := loop_directives B bd u alist hnul hbd _ hrest ds pos
    (fuel + 1) ⟨none, none, none, none, false⟩ m hd rfl hs
  have h4 := loop_invalid B bd u alist hnul pos1 name fs h1 hc hk v1 m1 fuel
  unfold build_chain
  rw [hf, h3, h4]
  simp only [h2, if_true]

/-- C16 (the code does not do this): after any number of valid directive
fragments, a directive fragment whose kind name `CvtKind` rejects makes `build_chain`
(of `jhcGraphizer` and of `jhcNetBuild`) leave its loop with `ch` NULL and `dir` still NULL, so
that the statement `ch->cont = final` stores through a NULL pointer: the call does
not return NULL, it does not return.  The same happens inside a play. -/
theorem invalid_kind_fault {σ ν : Type} (B : NodeLevel σ ν) (u : Uninit) (alist : Str)
    (pos : Nat) (ds : List DirFrag) (name : Str) (fs : List Str) (final : Option Nat)
    (m : Mem σ) (hB : Builds B) (hnul : NUL ∉ alist) (hd : ∀ d ∈ ds, GoodFrag B d)
    (hc : Clean ('!' :: name)) (hk : B.CvtKind name = none) (hfs : ∀ f ∈ fs, Clean f)
    (hs : alist.drop pos = render (fragsText ds ++ ('!' :: name) :: fs)) :
    jhcGraphizer.build_chain B u alist (some pos) final m = none ∧
    jhcNetBuild.build_chain B u alist (some pos) final m = none ∧
    jhcGraphizer.build_chain cmdLevel ⟨[], 0⟩
        "\t!do\tACT=go\t%\t%play\t!do\tACT=sing\t%\t!bogus\tACT=dance\t%\t%".toList
        (some 0) none Mem.empty = none :=
  ⟨build_chain_invalid B _ u alist hnul (graphizer_build_dir_builds B hB _) ds name fs pos final
      m hd hc hk hfs hs,
    build_chain_invalid B _ u alist hnul (netbuild_build_dir_builds B hB _) ds name fs pos final
      m hd hc hk hfs hs,
    rfl⟩

theorem invalid_kind_fault_witness :
    jhcGraphizer.build_chain cmdLevel ⟨[], 0⟩ "\t!do\tACT=go\t%\t!bogus\tACT=x\t%".toList
        (some 0) none Mem.empty = none ∧
    jhcNetBuild.build_chain cmdLevel ⟨[], 0⟩ "\t!do\tACT=go\t%\t!bogus\tACT=x\t%".toList
        (some 0) none Mem.empty = none :=
  ⟨(invalid_kind_fault cmdLevel ⟨[], 0⟩ "\t!do\tACT=go\t%\t!bogus\tACT=x\t%".toList 0
      [doFrag "go".toList] "bogus".toList ["ACT=x".toList, "%".toList] none Mem.empty
      cmdLevel_builds (by decide) (by decide) (by decide) rfl (by decide) rfl).1,
    (invalid_kind_fault cmdLevel ⟨[], 0⟩ "\t!do\tACT=go\t%\t!bogus\tACT=x\t%".toList 0
      [doFrag "go".toList] "bogus".toList ["ACT=x".toList, "%".toList] none Mem.empty
      cmdLevel_builds (by decide) (by decide) (by decide) rfl (by decide) rfl).2.1⟩

/-! ## The conversion entry points -/

theorem NextFrag_Attn (alist : Str) (fs : List Str) (hnul : NUL ∉ alist)
    (hs : alist = render ("%Attn".toList :: fs)) :
    NextFrag alist (some 0) 200 = .ptr ("%Attn".toList, 6) ∧ alist.drop 6 = render fs := by
  have h := NextFrag_mark alist 0 "%Attn".toList fs hnul (by rw [hs]; rfl) (by decide) (by decide)
  exact h

/-- C18 (the code does not do this): `Convert` does not return on every list.  On the
list `%Attn %play` (a play that is never closed) and on every `%Attn` list in which
a directive with a kind that is not valid follows valid directives, `build_chain`
stores through the NULL pointer `ch` before `cvt_attn` can fall back on `huh_tag`.
Whenever `Convert` does return on a builder with a core, exactly one focus was
pushed, the code is not negative, and the focus of code 0 is the negated
`understand` NOTE. -/
theorem Convert_degrades {σ ν : Type} (B : NodeLevel σ ν) (u : Uninit) (g : jhcGraphizer)
    (m : Mem σ) (hcore : g.core = true) :
    jhcGraphizer.Convert B u g "\t%Attn\t%play".toList (some 0) m = none ∧
    (∀ alist ds name fs, Builds B → NUL ∉ alist → (∀ d ∈ ds, GoodFrag B d) →
      Clean ('!' :: name) → B.CvtKind name = none → (∀ f ∈ fs, Clean f) →
      alist = render ("%Attn".toList :: (fragsText ds ++ ('!' :: name) :: fs)) →
      jhcGraphizer.Convert B u g alist (some 0) m = none) ∧
    (∀ alist pos r, jhcGraphizer.Convert B u g alist pos m = some r →
      oneFocus m.foci (r.1, r.2.2)) := by
  refine ⟨?_, ?_, ?_⟩
  · unfold jhcGraphizer.Convert
    rw [if_neg (by simp [hcore])]
    rfl
  · intro alist ds name fs hB hnul hd hc hk hfs hs
    obtain ⟨h1, h2⟩ := NextFrag_Attn alist _ hnul hs
    have hbc := build_chain_invalid B _ u alist hnul
      (graphizer_build_dir_builds B hB "key".toList) ds name fs 6 none m hd hc hk hfs h2
    have hcmd : ∃ r, (NextFrag alist (some 6) 200).run = some r ∧ isCommand r = true := by
      cases ds with
      | nil =>
        obtain ⟨h3, _⟩ := NextFrag_mark alist 6 ('!' :: name) fs hnul h2 hc
          (show isMark '!' = true by decide)
        exact ⟨_, by rw [h3]; rfl, by simp [isCommand]⟩
      | cons d ds =>
        have h2' : alist.drop 6 = render (('!' :: d.name) ::
            (d.body ++ d.close :: (fragsText ds ++ ('!' :: name) :: fs))) := by
          rw [h2, fragsText_cons]; simp
        obtain ⟨h3, _⟩ := NextFrag_mark alist 6 ('!' :: d.name) _ hnul h2' (hd d (by simp)).2.1
          (show isMark '!' = true by decide)
        exact ⟨_, by rw [h3]; rfl, by simp [isCommand]⟩
    obtain ⟨r, hr1, hr2⟩ := hcmd
    unfold jhcGraphizer.Convert
    rw [if_neg (by simp [hcore])]
    simp only [h1, Ret.run, if_true]
    unfold jhcGraphizer.cvt_attn
    rw [hr1]
    simp only [hr2, if_true, jhcGraphizer.build_chain, hbc, Option.map_none']
  · intro alist pos r h
    exact (Convert_spec B u g alist pos m r.1 r.2.1 r.2.2 hcore h).2.2

theorem Convert_degrades_witness :
    jhcGraphizer.Convert cmdLevel ⟨[], 0⟩ ⟨true, none, none⟩
        "\t%Attn\t!do\tACT=go\t%\t!bogus\tACT=x\t%".toList (some 0) Mem.empty = none ∧
    ∃ r, jhcGraphizer.Convert cmdLevel ⟨[], 0⟩ ⟨true, none, none⟩ "\tATTN=robot".toList (some 0)
        Mem.empty = some r ∧ oneFocus Mem.empty.foci (r.1, r.2.2) :=
  ⟨(Convert_degrades cmdLevel ⟨[], 0⟩ ⟨true, none, none⟩ Mem.empty rfl).2.1
      "\t%Attn\t!do\tACT=go\t%\t!bogus\tACT=x\t%".toList [doFrag "go".toList] "bogus".toList
      ["ACT=x".toList, "%".toList] cmdLevel_builds (by decide) (by decide) (by decide) rfl
      (by decide) rfl,
    _, rfl, (Convert_degrades cmdLevel ⟨[], 0⟩ ⟨true, none, none⟩ Mem.empty rfl).2.2
      "\tATTN=robot".toList (some 0) _ rfl⟩

/-- C19: after every call of `Convert` that returns, on a builder with a core and
whatever the handles held before, `rule` is not NULL exactly when the result is 3
and `op` is not NULL exactly when the result is 4, so they are never both set.  A
builder that holds a rule and an operator is left with only the rule by a macro
rule (result 3) and with only the operator by an operator (result 4). -/
theorem conversion_commits_one {σ ν : Type} (B : NodeLevel σ ν) (u : Uninit) (g : jhcGraphizer)
    (alist : Str) (pos : Option Nat) (m : Mem σ) (r : Int × jhcGraphizer × Mem σ)
    (hcore : g.core = true) (h : jhcGraphizer.Convert B u g alist pos m = some r) :
    (r.2.1.rule ≠ none ↔ r.1 = 3) ∧ (r.2.1.op ≠ none ↔ r.1 = 4) ∧
    ¬ (r.2.1.rule ≠ none ∧ r.2.1.op ≠ none) ∧
    (jhcGraphizer.Convert cmdLevel ⟨[], 0⟩ ⟨true, some ⟨⟩, some ⟨JDIR_KIND.NOTE, 10, none⟩⟩
        "\t%Rule\t$macro\tWRD=big\tWRD=large".toList (some 0) Mem.empty).map
      (fun x => (x.1, x.2.1)) = some (3, ⟨true, some ⟨⟩, none⟩) ∧
    (jhcGraphizer.Convert cmdLevel ⟨[], 0⟩ ⟨true, some ⟨⟩, some ⟨JDIR_KIND.NOTE, 10, none⟩⟩
        "\t%Operator\t$trig\t!do\tACT=go\t%\t$proc\t!do\tACT=run\t%".toList (some 0)
        Mem.empty).map (fun x => (x.1, x.2.1)) =
      some (4, ⟨true, none, some ⟨JDIR_KIND.DO, 10, some 0⟩⟩) := by
  obtain ⟨h1, h2, _⟩ := Convert_spec B u g alist pos m r.1 r.2.1 r.2.2 hcore h
  refine ⟨h1, h2, ?_, rfl, rfl⟩
  rintro ⟨a, b⟩
  have := h1.1 a
  have := h2.1 b
  omega

theorem conversion_commits_one_witness :
    ∃ r, jhcGraphizer.Convert cmdLevel ⟨[], 0⟩ ⟨true, none, some ⟨JDIR_KIND.NOTE, 10, none⟩⟩
        "\t%Rule\t$macro\tWRD=hot\tWRD=warm".toList (some 0) Mem.empty = some r ∧
      (r.2.1.rule ≠ none ↔ r.1 = 3) ∧ r.1 = 3 :=
  ⟨_, rfl, (conversion_commits_one cmdLevel ⟨[], 0⟩
    ⟨true, none, some ⟨JDIR_KIND.NOTE, 10, none⟩⟩ "\t%Rule\t$macro\tWRD=hot\tWRD=warm".toList
    (some 0) Mem.empty _ rfl rfl).1, rfl⟩

/-- C20 (as stated, refuted): `Assemble` does not clear the handles.  A builder that
holds a rule still holds it after a call that returns 0, and a builder that
holds an operator holds a rule and an operator after a call that returns 3. -/
theorem Assemble_keeps_suggestion :
    (jhcNetBuild.Assemble cmdLevel ⟨[], 0⟩ ⟨true, none, some ⟨⟩, none⟩ "\tHELLO=hi".toList (some 0)
        Mem.empty).map (fun r => (r.1, r.2.1)) = some (0, ⟨true, none, some ⟨⟩, none⟩) ∧
    (jhcNetBuild.Assemble cmdLevel ⟨[], 0⟩ ⟨true, none, none, some ⟨JDIR_KIND.NOTE, 10, none⟩⟩
        "\t%Rule\t$macro\tWRD=big\tWRD=large".toList (some 0) Mem.empty).map
      (fun r => (r.1, r.2.1)) =
        some (3, ⟨true, none, some ⟨⟩, some ⟨JDIR_KIND.NOTE, 10, none⟩⟩) :=
  ⟨rfl, rfl⟩

/-- C20 (amended): on a builder with a core whose handles were cleared by `ClearLast`,
after every call of `Assemble` that returns, `rule` is not NULL exactly when the
result is 3 and `op` is not NULL exactly when the result is 4, so they are never
both set. -/
theorem Assemble_after_ClearLast {σ ν : Type} (B : NodeLevel σ ν) (u : Uninit) (g : jhcNetBuild)
    (alist : Str) (pos : Option Nat) (m : Mem σ) (r : Int × jhcNetBuild × Mem σ)
    (hcore : g.core = true)
    (h : jhcNetBuild.Assemble B u (jhcNetBuild.ClearLast g) alist pos m = some r) :
    (r.2.1.rule ≠ none ↔ r.1 = 3) ∧ (r.2.1.op ≠ none ↔ r.1 = 4) ∧
    ¬ (r.2.1.rule ≠ none ∧ r.2.1.op ≠ none) := by
  obtain ⟨h1, h2⟩ := Assemble_spec B u (jhcNetBuild.ClearLast g) alist pos m r.1 r.2.1 r.2.2
    hcore rfl rfl h
  refine ⟨h1, h2, ?_⟩
  rintro ⟨a, b⟩
  have := h1.1 a
  have := h2.1 b
  omega

theorem Assemble_after_ClearLast_witness :
    ∃ r, jhcNetBuild.Assemble cmdLevel ⟨[], 0⟩
        (jhcNetBuild.ClearLast ⟨true, none, some ⟨⟩, some ⟨JDIR_KIND.NOTE, 10, none⟩⟩)
        "\t%Rule\t$macro\tWRD=big\tWRD=large".toList (some 0) Mem.empty = some r ∧
      (r.2.1.op ≠ none ↔ r.1 = 4) ∧ r.1 = 3 :=
  ⟨_, rfl, (Assemble_after_ClearLast cmdLevel ⟨[], 0⟩
    ⟨true, none, some ⟨⟩, some ⟨JDIR_KIND.NOTE, 10, none⟩⟩
    "\t%Rule\t$macro\tWRD=big\tWRD=large".toList (some 0) Mem.empty _ rfl rfl).2.1, rfl⟩

/-! ## The status code of a farewell -/

/-- The speech acts without a fragment always build: `word_tag` pushes one NOTE. -/
theorem word_tag_some {σ ν : Type} (B : NodeLevel σ ν) (word : Str) (m : Mem σ) :
    ∃ m1, jhcGraphizer.word_tag B word m = some m1 := by
  simp [jhcGraphizer.word_tag, jhcGraphizer.build_tag]

/-- The codes that `Convert` returns: never above 6. -/
theorem Convert_code_le {σ ν : Type} (B : NodeLevel σ ν) (u : Uninit) (g : jhcGraphizer)
    (alist : Str) (pos : Option Nat) (m : Mem σ) (r : Int × jhcGraphizer × Mem σ)
    (h : jhcGraphizer.Convert B u g alist pos m = some r) : r.1 ≤ 6 := by
  obtain ⟨code, g1, m1⟩ := r
  have hw : ∀ (k : Int) (w : Str), k ≤ 6 →
      (((jhcGraphizer.word_tag B w m).map (fun m1 => (k, m1))).map
        (fun r => (r.1, ({ g with rule := none, op := none } : jhcGraphizer), r.2))) =
          some (code, g1, m1) → code ≤ 6 := by
    intro k w hk hh
    simp only [Option.map_map, Option.map_eq_some', Function.comp, Prod.mk.injEq] at hh
    obtain ⟨m3, _, rfl, _, _⟩ := hh
    exact hk
  have huh : some ((jhcGraphizer.huh_tag B m).1,
      ({ g with rule := none, op := none } : jhcGraphizer), (jhcGraphizer.huh_tag B m).2) =
        some (code, g1, m1) → code ≤ 6 := by
    intro hh
    simp only [Option.some.injEq, Prod.mk.injEq] at hh
    rw [← hh.1]
    simp [jhcGraphizer.huh_tag]
  unfold jhcGraphizer.Convert at h
  split_ifs at h with hc
  · simp only [Option.some.injEq, Prod.mk.injEq] at h
    show code ≤ 6
    omega
  · split at h
    · exact huh h
    · split at h
      · cases h
      · split_ifs at h
        · simp only [Option.map_eq_some', Prod.mk.injEq] at h
          obtain ⟨r, hr, rfl, _, _⟩ := h
          obtain ⟨h1, _⟩ := cvt_attn_spec B u alist _ m r hr
          show r.1 ≤ 6
          omega
        · obtain ⟨h1, _⟩ := cvt_rule_spec B u _ alist _ m code g1 m1 h
          show code ≤ 6
          omega
        · obtain ⟨h1, _⟩ := graphizer_cvt_op_spec B u _ alist _ m code g1 m1 h
          show code ≤ 6
          omega
        · exact huh h
      · split at h
        · cases h
        · exact hw 6 _ (by decide) h
        · split at h
          · cases h
          · exact hw 6 _ (by decide) h
          · split at h
            · cases h
            · exact hw 5 _ (by decide) h
            · exact huh h

/-- C21 (code as it is): on a list with no fragment entry `Convert` returns 6 both
when the list has a HELLO slot and when it has a BYE slot and no HELLO slot, and
5 when it only has an ATTN slot: the farewell has the code of the greeting, not
the 7 that the comment of `Convert` announces.  Only the NOTE pushed on the
attention queue tells them apart (`greet` against `dismiss`); no list at all makes
`Convert` return 7. -/
theorem Convert_farewell_code {σ ν : Type} (B : NodeLevel σ ν) (u : Uninit) (g : jhcGraphizer)
    (alist : Str) (pos : Nat) (m : Mem σ) (hcore : g.core = true)
    (hfrag : NextFrag alist (some pos) 200 = .null) :
    (HasSlot alist (some pos) "HELLO".toList FindSlot_local = some true →
      ∃ m1, jhcGraphizer.word_tag B "greet".toList m = some m1 ∧
        jhcGraphizer.Convert B u g alist (some pos) m = some (6, ⟨g.core, none, none⟩, m1)) ∧
    (HasSlot alist (some pos) "HELLO".toList FindSlot_local = some false →
      HasSlot alist (some pos) "BYE".toList FindSlot_local = some true →
      ∃ m1, jhcGraphizer.word_tag B "dismiss".toList m = some m1 ∧
        jhcGraphizer.Convert B u g alist (some pos) m = some (6, ⟨g.core, none, none⟩, m1)) ∧
    (HasSlot alist (some pos) "HELLO".toList FindSlot_local = some false →
      HasSlot alist (some pos) "BYE".toList FindSlot_local = some false →
      HasSlot alist (some pos) "ATTN".toList FindSlot_local = some true →
      ∃ m1, jhcGraphizer.word_tag B "hail".toList m = some m1 ∧
        jhcGraphizer.Convert B u g alist (some pos) m = some (5, ⟨g.core, none, none⟩, m1)) ∧
    (∀ (l : Str) (p : Option Nat) (r : Int × jhcGraphizer × Mem σ),
      jhcGraphizer.Convert B u g l p m = some r → r.1 ≠ 7) := by
  have hrun : (NextFrag alist (some pos) 200).run = some none := by rw [hfrag]; rfl
  refine ⟨fun h1 => ?_, fun h1 h2 => ?_, fun h1 h2 h3 => ?_, fun l p r hr => ?_⟩
  · obtain ⟨m1, hm⟩ := word_tag_some B "greet".toList m
    refine ⟨m1, hm, ?_⟩
    unfold jhcGraphizer.Convert
    rw [if_neg (by simp [hcore])]
    simp only [hrun, h1, jhcGraphizer.greet_tag, hm, Option.map_some']
  · obtain ⟨m1, hm⟩ := word_tag_some B "dismiss".toList m
    refine ⟨m1, hm, ?_⟩
    unfold jhcGraphizer.Convert
    rw [if_neg (by simp [hcore])]
    simp only [hrun, h1, h2, jhcGraphizer.farewell_tag, hm, Option.map_some']
  · obtain ⟨m1, hm⟩ := word_tag_some B "hail".toList m
    refine ⟨m1, hm, ?_⟩
    unfold jhcGraphizer.Convert
    rw [if_neg (by simp [hcore])]
    simp only [hrun, h1, h2, h3, jhcGraphizer.hail_tag, hm, Option.map_some']
  · have := Convert_code_le B u g l p m r hr
    omega

theorem Convert_farewell_code_witness :
    (∃ m1, jhcGraphizer.Convert cmdLevel ⟨[], 0⟩ ⟨true, none, none⟩ "\tHELLO=hi".toList (some 0)
        Mem.empty = some (6, ⟨true, none, none⟩, m1)) ∧
    (∃ m1, jhcGraphizer.Convert cmdLevel ⟨[], 0⟩ ⟨true, none, none⟩ "\tBYE=bye".toList (some 0)
        Mem.empty = some (6, ⟨true, none, none⟩, m1)) ∧
    (∃ m1, jhcGraphizer.Convert cmdLevel ⟨[], 0⟩ ⟨true, none, none⟩ "\tATTN=robot".toList (some 0)
        Mem.empty = some (5, ⟨true, none, none⟩, m1)) :=
  ⟨((Convert_farewell_code cmdLevel ⟨[], 0⟩ ⟨true, none, none⟩ "\tHELLO=hi".toList 0 Mem.empty
      rfl (by decide)).1 (by decide)).imp (fun _ h => h.2),
   ((Convert_farewell_code cmdLevel ⟨[], 0⟩ ⟨true, none, none⟩ "\tBYE=bye".toList 0 Mem.empty
      rfl (by decide)).2.1 (by decide) (by decide)).imp (fun _ h => h.2),
   ((Convert_farewell_code cmdLevel ⟨[], 0⟩ ⟨true, none, none⟩ "\tATTN=robot".toList 0 Mem.empty
      rfl (by decide)).2.2.1 (by decide) (by decide) (by decide)).imp (fun _ h => h.2)⟩

/-! ## Slots of a well-formed list -/

/-- The loop of `NextSlot` on a well-formed list ends without a fault, at a pair or
at the end of its search. -/
theorem NextSlotLoop_clean (alist : Str) (lcl : Int) (hnul : NUL ∉ alist) :
    ∀ (fs : List Str) (pos : Nat) (entry : Str) (fuel : Nat), (∀ f ∈ fs, Clean f) →
      alist.drop pos = render fs →
      NextSlotLoop alist lcl fuel pos entry = .null ∨
        ∃ pre f post, fs = pre ++ f :: post ∧ (strchr f '=').isSome = true ∧
          ∃ t, NextSlotLoop alist lcl fuel pos entry = .ptr (f, t) ∧ alist.drop t = render post := by
  intro fs
  induction fs with
  | nil =>
    intro pos entry fuel _ hs
    left
    cases fuel with
    | zero => rfl
    | succ k =>
      have : NextEntry alist (some pos) entry 200 = .null :=
        NextEntry_done alist pos entry 200 (by rw [hs]; simp [render])
      simp only [NextSlotLoop, this]
  | cons g fs ih =>
    intro pos entry fuel hfs hs
    cases fuel with
    | zero => left; rfl
    | succ k =>
      have hgc := hfs g (by simp)
      obtain ⟨h1, h2⟩ := NextEntry_clean alist pos g _ entry hs hgc
      have hn := NUL_not_mem_field alist pos g _ hs hnul
      rw [NextSlotLoop]
      simp only [h1, cstr_copy _ _ hn]
      by_cases c1 : lcl > 0 ∧ isMark ((g ++ NUL :: entry.drop (g.length + 1)).getD 0 NUL) = true
      · left; rw [if_pos c1]
      · rw [if_neg c1]
        by_cases c2 : (strchr g '=').isSome = true
        · right
          rw [if_pos c2]
          exact ⟨[], g, fs, rfl, c2, _, rfl, h2⟩
        · rw [if_neg c2]
          rcases ih (pos + 1 + g.length) (g ++ NUL :: entry.drop (g.length + 1)) k
            (fun f hf => hfs f (by simp [hf])) h2 with h | ⟨pre, f, post, rfl, h3, t, h4, h5⟩
          · left; exact h
          · right; exact ⟨g :: pre, f, post, rfl, h3, t, h4, h5⟩

/-- A call of `NextSlot` on a well-formed list whose slot names fit: NULL, or a pair of
the list with the rest of the list after it. -/
theorem NextSlot_clean (alist : Str) (lcl : Int) (hnul : NUL ∉ alist) (fs : List Str)
    (pos : Nat) (hfs : ∀ f ∈ fs, Clean f ∧ slotFits f = true)
    (hs : alist.drop pos = render fs) :
    NextSlot alist (some pos) lcl 80 200 = .null ∨
      ∃ pre f post k, fs = pre ++ f :: post ∧ strchr f '=' = some k ∧
        ∃ t, NextSlot alist (some pos) lcl 80 200 = .ptr (f.take k, f.drop (k + 1), t) ∧
          alist.drop t = render post := by
  unfold NextSlot
  simp only
  by_cases c0 : alist.getD pos NUL = NUL
  · left; rw [if_pos c0]
  · rw [if_neg c0]
    rcases NextSlotLoop_clean alist lcl hnul fs pos [] (alist.length + 1)
      (fun f hf => (hfs f hf).1) hs with h | ⟨pre, f, post, rfl, h3, t, h4, h5⟩
    · left; rw [h]
    · right
      rw [h4]
      obtain ⟨hc, hfit⟩ := hfs f (by simp)
      cases hk : strchr f '=' with
      | none => rw [hk] at h3; cases h3
      | some k =>
        have hk80 : k < 80 := by
          simp only [slotFits, hk, decide_eq_true_eq] at hfit; exact hfit
        have hv : (f.drop (k + 1)).length < 200 := by
          have := hc.2.1
          simp only [List.length_drop]; omega
        refine ⟨pre, f, post, k, rfl, hk, t, ?_, h5⟩
        simp only [hk, hk80, hv, and_self, if_true]

/-- The loop of `FindSlot` on a well-formed list whose slot names fit ends without a
fault. -/
theorem FindSlotLoop_clean (alist slot : Str) (lcl : Int) (hnul : NUL ∉ alist) :
    ∀ (fuel : Nat) (fs : List Str) (pos : Nat), (∀ f ∈ fs, Clean f ∧ slotFits f = true) →
      alist.drop pos = render fs → FindSlotLoop alist slot lcl fuel (some pos) ≠ .fault := by
  intro fuel
  induction fuel with
  | zero => intro fs pos _ _ h; simp [FindSlotLoop] at h
  | succ n ih =>
    intro fs pos hfs hs
    rw [FindSlotLoop]
    rcases NextSlot_clean alist lcl hnul fs pos hfs hs with h | ⟨pre, f, post, k, rfl, _, t, h1, h2⟩
    · rw [h]; simp
    · rw [h1]
      simp only
      by_cases c : stricmp_eq (f.take k) slot = true
      · rw [if_pos c]; simp
      · rw [if_neg c]
        exact ih post t (fun g hg => hfs g (by simp [hg])) h2

/-- A search of `FindSlot` on a well-formed list whose slot names fit returns: a value
or NULL. -/
theorem FindSlot_returns (alist slot : Str) (lcl : Int) (pos : Nat) (fs : List Str)
    (hnul : NUL ∉ alist) (hfs : ∀ f ∈ fs, Clean f ∧ slotFits f = true)
    (hs : alist.drop pos = render fs) :
    ∃ pv, (FindSlot alist (some pos) slot lcl).run = some pv := by
  have h : FindSlot alist (some pos) slot lcl ≠ .fault := by
    unfold FindSlot
    by_cases c : slot = []
    · rw [if_pos c]; simp
    · rw [if_neg c]
      exact FindSlotLoop_clean alist slot lcl hnul _ fs pos hfs hs
  cases hq : FindSlot alist (some pos) slot lcl with
  | fault => exact absurd hq h
  | null => exact ⟨none, rfl⟩
  | ptr a => exact ⟨some a, rfl⟩

/-! ## Prohibitions -/

/-- The kind that the loop of `create_op` finds for a prohibition is never DO. -/
theorem create_op_loop_veto {σ ν : Type} (B : NodeLevel σ ν) (u : Uninit) (alist : Str) :
    ∀ (fuel : Nat) (tail : Option Nat) (entry : Str) (k : JDIR_KIND) (e : Str),
      create_op_loop B u alist true fuel tail entry = some (some k, e) → k ≠ JDIR_KIND.DO := by
  intro fuel
  induction fuel with
  | zero =>
    intro tail entry k e h
    simp only [create_op_loop, Option.some.injEq, Prod.mk.injEq] at h
    rw [← h.1]; decide
  | succ n ih =>
    intro tail entry k e h
    unfold create_op_loop at h
    split at h
    · cases h
    · simp only [Option.some.injEq, Prod.mk.injEq] at h
      rw [← h.1]; decide
    · by_cases c : (‹Str›.head? = some '!')
      · rw [if_pos c] at h
        split at h
        · cases h
        · rename_i k0 _
          simp only [Option.some.injEq, Prod.mk.injEq, and_true] at h
          rw [← h.1]
          by_cases hk : k0 = JDIR_KIND.DO
          · rw [if_pos hk]; decide
          · rw [if_neg hk]; exact hk
      · rw [if_neg c] at h
        exact ih _ _ _ _ h

/-- The next fragment inside a fragment, when it is an open marker with a
balanced body: its tag and the position after the marker that closes it. -/
theorem FragNextFrag_open (alist : Str) (pos : Nat) (f : Str) (body : List Str) (cl : Str)
    (fs : List Str) (frag junk : Str) (hnul : NUL ∉ alist)
    (hs : alist.drop pos = render (f :: (body ++ cl :: fs))) (hf : Clean f)
    (hm : isMark (f.getD 0 NUL) = true) (hl : 2 ≤ f.length) (hb : ∀ g ∈ body, Clean g)
    (hbal : Balanced body) (hcl : isClose cl = true) (hfs : ∀ g ∈ fs, Clean g) :
    ∃ p, alist.drop p = render fs ∧ FragNextFrag alist (some pos) frag 200 junk = some (f, some p) := by
  obtain ⟨h1, h2⟩ := NextEntry_clean alist pos f _ junk hs hf
  obtain ⟨h3, h4⟩ := FragClose_body alist _ body cl fs junk hnul h2 hb hbal hcl hfs
  have hn := NUL_not_mem_field alist pos f _ hs hnul
  refine ⟨_, h4, ?_⟩
  obtain ⟨a, b, r, rfl⟩ : ∃ a b r, f = a :: b :: r := by
    match f, hl with
    | a :: b :: r, _ => exact ⟨a, b, r, rfl⟩
  have hb0 : b ≠ NUL := fun e => hn (by simp [e])
  have hm' : isMark a = true := hm
  simp only [FragNextFrag, FragNextFragLoop, h1, List.cons_append, List.getD_cons_zero,
    List.getD_cons_succ, hm', if_true, hb0, if_false]
  have hc : cstr (a :: b :: (r ++ NUL :: junk.drop ((a :: b :: r).length + 1))) = a :: b :: r :=
    cstr_copy (a :: b :: r) _ hn
  rw [hc, if_pos hf.2.1, h3]
  rfl

theorem FindFrag_first (alist : Str) (pos : Nat) (f : Str) (fs : List Str) (hnul : NUL ∉ alist)
    (hs : alist.drop pos = render (f :: fs)) (hf : Clean f)
    (hm : isMark (f.getD 0 NUL) = true) :
    FindFrag alist (some pos) f = .ptr (pos + 1 + f.length) := by
  obtain ⟨h1, _⟩ := NextFrag_mark alist pos f fs hnul hs hf hm
  simp only [FindFrag, FindFragLoop, h1, stricmp_eq, beq_self_eq_true, if_true]

/-- What `create_op` returns for a prohibition: the kind is not DO, the procedure is
what `dir_step("punt")` returns, and nothing else is added to the memory. -/
theorem create_op_veto {σ ν : Type} (B : NodeLevel σ ν) (u : Uninit) (alist : Str)
    (m : Mem σ) (pos : Option Nat) (t : Nat) (op : jhcAliaOp) (after : Option Nat)
    (entry : Str) (m1 : Mem σ) (ht : FindFrag alist pos "$trig-n".toList = .ptr t)
    (h : create_op B u alist pos m = some ((some op, after, entry), m1)) :
    op.kind ≠ JDIR_KIND.DO ∧ op.meth = (dir_step B m "punt".toList).1 ∧
      m1 = (dir_step B m "punt".toList).2 := by
  unfold create_op at h
  simp only [ht, Ret.run, reduceCtorEq, if_false, ne_eq, not_false_eq_true, decide_True,
    if_true] at h
  split at h
  · cases h
  · simp only [Option.some.injEq, Prod.mk.injEq, reduceCtorEq, false_and] at h
  · rename_i k e hl
    split at h
    · cases h
    · simp only [Option.some.injEq, Prod.mk.injEq] at h
      obtain ⟨⟨rfl, _, _⟩, rfl⟩ := h
      exact ⟨create_op_loop_veto B u alist _ _ _ _ _ hl, rfl, rfl⟩

/-- C22 (the code does not do this): `create_op` (the same in `jhcGraphizer` and `jhcNetBuild`) turns
the kind of a prohibition into ANTE only when its first directive is a DO.
Whenever it returns an operator for a list with a `$trig-n` fragment, the kind is not
DO and the procedure is the new PUNT step.  When the `$trig-n` marker is followed at
once by a closed directive of kind `k`, the operator has kind ANTE if `k` is DO
and kind `k` otherwise, the preference of the PREF slot found in the list (1.0
without one) and the PUNT step as procedure: for `!find` the kind is FIND, and
without a directive it is NOTE. -/
theorem prohibition_operator {σ ν : Type} (B : NodeLevel σ ν) (u : Uninit) (alist : Str)
    (m : Mem σ) (hpunt : B.CvtKind "punt".toList = some JDIR_KIND.PUNT) :
    (∀ pos t op after entry m1, FindFrag alist pos "$trig-n".toList = .ptr t →
      create_op B u alist pos m = some ((some op, after, entry), m1) →
      op.kind ≠ JDIR_KIND.DO ∧ op.meth = some m.chains.length ∧
        m1 = ⟨m.pools, m.chains ++ [dirStep JDIR_KIND.PUNT], m.freed, m.foci⟩) ∧
    (∀ pos (d : DirFrag) fs, NUL ∉ alist → GoodFrag B d → d.name ≠ [] → (∀ f ∈ fs, Clean f) →
      (∀ f ∈ d.text ++ fs, slotFits f = true) →
      alist.drop pos = render ("$trig-n".toList :: (d.text ++ fs)) →
      ∃ pv, (FindSlot alist (some pos) "PREF".toList FindSlot_local).run = some pv ∧
        create_op B u alist (some pos) m =
          some ((some ⟨if d.kind = JDIR_KIND.DO then JDIR_KIND.ANTE else d.kind, prefOf pv,
              some m.chains.length⟩, some (pos + 8), '!' :: d.name),
            ⟨m.pools, m.chains ++ [dirStep JDIR_KIND.PUNT], m.freed, m.foci⟩)) ∧
    (create_op cmdLevel ⟨[], 0⟩ "\t$trig-n\t!find\tAKO=dog\t%\tPREF=must".toList (some 0)
        Mem.empty).map (fun r => (r.1.1, r.2.chains)) =
      some (some ⟨JDIR_KIND.FIND, 15, some 0⟩, [dirStep JDIR_KIND.PUNT]) ∧
    (create_op cmdLevel ⟨[], 0⟩ "\t$trig-n\tAKO=dog".toList (some 0) Mem.empty).map
        (fun r => (r.1.1, r.2.chains)) =
      some (some ⟨JDIR_KIND.NOTE, 10, some 0⟩, [dirStep JDIR_KIND.PUNT]) := by
  have hstep := dir_step_valid B m "punt".toList JDIR_KIND.PUNT hpunt
  refine ⟨?_, ?_, rfl, rfl⟩
  · intro pos t op after entry m1 ht h
    have := create_op_veto B u alist m pos t op after entry m1 ht h
    rw [hstep] at this
    exact this
  · intro pos d fs hnul hd hname hfs hfit hs
    obtain ⟨hk, hc, hb, hbal, hcl⟩ := hd
    have h1 := FindFrag_first alist pos "$trig-n".toList _ hnul hs (by decide) (by decide)
    have hs2 : alist.drop (pos + 1 + "$trig-n".toList.length) =
        render (('!' :: d.name) :: (d.body ++ d.close :: fs)) := by
      have := (NextEntry_clean alist pos "$trig-n".toList _ [] hs (by decide)).2
      rw [this]; simp [DirFrag.text]
    have hlen : 2 ≤ ('!' :: d.name).length := by
      cases hn : d.name with
      | nil => exact absurd hn hname
      | cons a r => simp
    obtain ⟨p, _, h2⟩ := FragNextFrag_open alist _ ('!' :: d.name) d.body d.close fs
      (cstr u.array) u.array hnul hs2 hc (show isMark '!' = true by decide) hlen hb hbal hcl hfs
    have hall : ∀ f ∈ "$trig-n".toList :: (d.text ++ fs), Clean f ∧ slotFits f = true := by
      intro f hf
      rcases List.mem_cons.1 hf with rfl | hf
      · exact ⟨by decide, by decide⟩
      · refine ⟨?_, hfit f hf⟩
        simp only [DirFrag.text, List.cons_append, List.append_assoc, List.singleton_append,
          List.mem_cons, List.mem_append] at hf
        rcases hf with rfl | hf | rfl | hf
        · exact hc
        · exact hb f hf
        · exact isClose_clean _ hcl
        · rcases hf with hf | hf
          · cases hf
          · exact hfs f hf
    obtain ⟨pv, h3⟩ := FindSlot_returns alist "PREF".toList FindSlot_local pos _ hnul hall hs
    refine ⟨pv, h3, ?_⟩
    unfold create_op
    have e8 : pos + 1 + "$trig-n".toList.length = pos + 8 := rfl
    rw [e8] at h1 h2
    simp only [h1, Ret.run, reduceCtorEq, if_false, ne_eq, not_false_eq_true, decide_True,
      if_true, create_op_loop, h2, List.head?_cons, List.drop_succ_cons, List.drop_zero, hk,
      hstep, and_true]
    simp only [Ret.run] at h3
    rw [h3]
    rfl

theorem prohibition_operator_witness :
    ∃ r, create_op cmdLevel ⟨[], 0⟩ "\t$trig-n\t!do\tACT=go\t%\tPREF=should".toList (some 0)
        Mem.empty = some r ∧ r.1.1 = some ⟨JDIR_KIND.ANTE, 12, some 0⟩ := by
  obtain ⟨pv, h1, h2⟩ := (prohibition_operator cmdLevel ⟨[], 0⟩
    "\t$trig-n\t!do\tACT=go\t%\tPREF=should".toList Mem.empty rfl).2.1 0 (doFrag "go".toList)
    ["PREF=should".toList] (by decide) (by decide) (by decide) (by decide) (by decide) rfl
  have e : (FindSlot "\t$trig-n\t!do\tACT=go\t%\tPREF=should".toList (some 0) "PREF".toList
      FindSlot_local).run = some (some ("should".toList, 33)) := rfl
  rw [e] at h1
  obtain rfl := Option.some.inj h1
  exact ⟨_, h2, rfl⟩

/-! ## The qualifier tables -/

theorem table_miss (s w : Str) (h : ¬ w = s) : (s == w) = false := by
  simpa [beq_eq_false_iff_ne] using Ne.symm h

/-- C23: in tenths, `belief_val("probably")` is 0.8 and `pref_val("must")` is 1.5 (in
`jhcGraphizer` and in `jhcNetBuild`), and each function returns 1.0 for every word that is
not an entry of its own table; the comparison is `strcmp`, so a word that differs
from an entry only by case gets 1.0. -/
theorem qualifier_tables (w : Str) :
    jhcGraphizer.belief_val "probably".toList = 8 ∧ jhcNetBuild.belief_val "probably".toList = 8 ∧
    pref_val "must".toList = 15 ∧
    (w ∉ ["definitely", "certainly", "probably", "likely", "may", "might", "possibly"].map
        String.toList → jhcGraphizer.belief_val w = 10 ∧ jhcNetBuild.belief_val w = 10) ∧
    (w ∉ ["might", "could", "should", "must", "always"].map String.toList → pref_val w = 10) ∧
    jhcGraphizer.belief_val "Probably".toList = 10 ∧ pref_val "MUST".toList = 10 ∧
    jhcGraphizer.belief_val "must".toList = 10 ∧ pref_val "probably".toList = 10 := by
  refine ⟨by decide, by decide, by decide, ?_, ?_, by decide, by decide, by decide, by decide⟩
  · intro h
    simp only [List.map_cons, List.map_nil, List.mem_cons, List.mem_singleton, not_or,
      List.not_mem_nil, or_false] at h
    obtain ⟨h1, h2, h3, h4, h5, h6, h7⟩ := h
    constructor <;>
    simp only [jhcGraphizer.belief_val, jhcNetBuild.belief_val, List.zip, List.zipWith, List.find?,
      table_miss _ _ h1, table_miss _ _ h2, table_miss _ _ h3, table_miss _ _ h4,
      table_miss _ _ h5, table_miss _ _ h6, table_miss _ _ h7]
  · intro h
    simp only [List.map_cons, List.map_nil, List.mem_cons, List.mem_singleton, not_or,
      List.not_mem_nil, or_false] at h
    obtain ⟨h1, h2, h3, h4, h5⟩ := h
    simp only [pref_val, List.zip, List.zipWith, List.find?,
      table_miss _ _ h1, table_miss _ _ h2, table_miss _ _ h3, table_miss _ _ h4,
      table_miss _ _ h5]

theorem qualifier_tables_witness :
    jhcGraphizer.belief_val "usually".toList = 10 ∧ jhcNetBuild.belief_val "usually".toList = 10 :=
  (qualifier_tables "usually".toList).2.2.2.1 (by decide)

/-! ## Rule templates -/

/-- C24: when the fragment that `Convert` finds is `%Rule` and the entry after it (as
`NextEntry` reads it) is missing or is none of `$macro`, `$cond`, `$cond-i`, `$cond-s`, `$res`,
the call returns 0 with the rule handle NULL and what it pushes is the negated
`understand` NOTE, the rest of the memory being untouched.  Whenever `Convert` goes
through `cvt_rule` and returns, the result is 3 or 0, and with 0 the rule handle is
NULL and the focus pushed is that NOTE.  A failing `build_fwd`, `build_rev`, `build_ifwd`
or `build_sfwd` leaves the handle NULL; a failing `build_macro` leaves it as it was,
which is NULL inside `Convert`. -/
theorem unknown_rule_template {σ ν : Type} (B : NodeLevel σ ν) (u : Uninit) (g : jhcGraphizer)
    (alist : Str) (pos : Option Nat) (m : Mem σ) (marks : Nat) (hcore : g.core = true)
    (hfrag : NextFrag alist pos 200 = .ptr ("%Rule".toList, marks)) :
    ((NextEntry alist (some marks) u.array 200 = .null ∨
        ∃ next tail, NextEntry alist (some marks) u.array 200 = .ptr (next, tail) ∧
          cstr next ∉ ["$macro", "$cond", "$cond-i", "$cond-s", "$res"].map String.toList) →
      jhcGraphizer.Convert B u g alist pos m =
        some (0, ⟨g.core, none, none⟩,
          ⟨B.BuildIn (B.BuildIn m.pools (some "key".toList)) none, m.chains ++ [huhStep], m.freed,
            m.foci ++ [m.chains.length]⟩)) ∧
    (∀ r, jhcGraphizer.Convert B u g alist pos m = some r →
      (r.1 = 3 ∧ r.2.1.rule ≠ none) ∨
      (r.1 = 0 ∧ r.2.1.rule = none ∧
        ∃ c, r.2.2.foci = m.foci ++ [c] ∧ r.2.2.chains[c]? = some huhStep)) ∧
    (∀ p s r, (build_fwd B alist p s = some r ∨ build_rev B alist p s = some r ∨
        build_ifwd B u alist p s = some r ∨ build_sfwd B u alist p s = some r) →
      r.1 ≠ 1 → r.1 = 0 ∧ r.2.1 = none) ∧
    (∀ rule p s r, build_macro B u alist rule p s = some r → r.1 ≠ 1 → r.1 = 0 ∧ r.2.1 = rule) := by
  have hpos : ∃ p, pos = some p := by
    cases pos with
    | none => simp [NextFrag] at hfrag
    | some p => exact ⟨p, rfl⟩
  obtain ⟨p0, rfl⟩ := hpos
  have hconv : jhcGraphizer.Convert B u g alist (some p0) m =
      jhcGraphizer.cvt_rule B u { g with rule := none, op := none } alist (some marks) m := by
    unfold jhcGraphizer.Convert
    rw [if_neg (by simp [hcore])]
    simp only [hfrag, Ret.run]
    rw [if_neg (by decide), if_pos trivial]
  refine ⟨?_, ?_, ?_, ?_⟩
  · intro h
    rw [hconv]
    unfold jhcGraphizer.cvt_rule cvt_rule_ok
    rcases h with h | ⟨next, tail, h, hn⟩
    · simp only [h, Ret.run]
      rfl
    · simp only [List.map_cons, List.map_nil, List.mem_cons, List.mem_singleton, not_or,
        List.not_mem_nil, or_false] at hn
      obtain ⟨h1, h2, h3, h4, h5⟩ := hn
      simp only [h, Ret.run, if_neg h1, if_neg h2, if_neg h3, if_neg h4, if_neg h5,
        Option.map_some', lt_self_iff_false, gt_iff_lt, if_false]
      rfl
  · intro r h
    rw [hconv] at h
    obtain ⟨h1, _, _, c, h3, _, h5⟩ := cvt_rule_spec B u _ alist _ m r.1 r.2.1 r.2.2 h
    rcases h1 with h1 | ⟨h1, h2⟩
    · exact Or.inl h1
    · refine Or.inr ⟨h1, ?_, c, h3, h5 h1⟩
      rcases h2 with h2 | h2
      · exact h2
      · rw [h2]
  · intro p s r h hr
    obtain ⟨ok, rl, s1⟩ := r
    rcases h with h | h | h | h
    · rcases build_fwd_cases B alist p s ok rl s1 h with h1 | h1
      · exact absurd h1.1 hr
      · exact h1
    · rcases build_rev_cases B alist p s ok rl s1 h with h1 | h1
      · exact absurd h1.1 hr
      · exact h1
    · rcases build_ifwd_cases B u alist p s ok rl s1 h with h1 | h1
      · exact absurd h1.1 hr
      · exact h1
    · rcases build_sfwd_cases B u alist p s ok rl s1 h with h1 | h1
      · exact absurd h1.1 hr
      · exact h1
  · intro rule p s r h hr
    obtain ⟨ok, rl, s1⟩ := r
    rcases build_macro_cases B u alist rule p s ok rl s1 h with h1 | h1
    · exact absurd h1.1 hr
    · exact h1

theorem unknown_rule_template_witness :
    jhcGraphizer.Convert cmdLevel ⟨[], 0⟩ ⟨true, some ⟨⟩, none⟩ "\t%Rule\t$when\tHQ=big".toList
        (some 0) Mem.empty =
      some (0, ⟨true, none, none⟩, ⟨0, [huhStep], [], [0]⟩) :=
  (unknown_rule_template cmdLevel ⟨[], 0⟩ ⟨true, some ⟨⟩, none⟩ "\t%Rule\t$when\tHQ=big".toList
    (some 0) Mem.empty 6 rfl rfl).1 (Or.inr ⟨_, _, rfl, by decide⟩)

/-! ## The referent of an object description -/

/-- A pool that holds a node fitting the description: the resolver returns the
first such node and leaves the pool as it is. -/
theorem FindMake_reuse (nr pool : jhcNodePool) (find : Int) (m : Nat) (hm : m < pool.length)
    (hd : describes nr pool m = true) :
    ∃ n, n ≤ m ∧ describes nr pool n = true ∧ FindMake nr pool find none = (some n, pool) := by
  unfold FindMake
  cases hf : (List.range pool.length).find? (describes nr pool) with
  | none =>
    rw [List.find?_eq_none] at hf
    exact absurd hd (hf m (List.mem_range.2 hm))
  | some n =>
    refine ⟨n, ?_, List.find?_some hf, rfl⟩
    by_contra hlt
    obtain ⟨as, bs, hsplit, hall⟩ := List.find?_eq_some.1 hf |>.2
    have hmem : m ∈ List.range pool.length := List.mem_range.2 hm
    rw [hsplit] at hmem
    have hsorted : (as ++ n :: bs).Pairwise (· < ·) := by
      rw [← hsplit]; exact List.pairwise_lt_range _
    rw [List.pairwise_append] at hsorted
    rcases List.mem_append.1 hmem with h1 | h1
    · have := hall m h1
      simp [hd] at this
    · rcases List.mem_cons.1 h1 with h2 | h2
      · omega
      · have := (List.pairwise_cons.1 hsorted.2.1).1 m h2
        omega

/-- With creation not allowed and no node given, the resolver finds nothing in
an empty pool. -/
theorem FindMake_refer_empty (nr : jhcNodePool) : FindMake nr [] 0 none = (none, []) := rfl

/-- C25: in both builders `build_obj`, once the description `nr` is built and the
fragment closed, returns what the resolver `FindMake (nr, pool, find, f0)` returns,
where `find` is 0 when the tag read begins with `%obj-i` and 1 otherwise.  Hence,
with no forced node: against a pool that holds a node fitting the description
the call returns such a node (the first one) and leaves the pool as it was, so
that building the description again is the same call on the same pool and
returns the same node; and a description whose tag begins with `%obj-i` built
against the empty pool returns no node and leaves the pool empty. -/
theorem referent_reuse (mf : MorphLex) (u : Uninit) (list : Str) (after : Bool)
    (alist : Option Nat) (neg : Int) (blf : Nat) (tail : Option Nat)
    (hclose : (if after then (FragClose list alist FragClose_skip u.array).run else some none) =
      some tail) :
    (∀ nr find,
      jhcNetBuild.build_obj_nr
        (fun a p => jhcNetBuild.build_obj_fuel mf u list list.length true a p none 0 10) mf u list
        alist neg blf = some (some (nr, find)) →
      (∀ pool f0, jhcNetBuild.build_obj mf u list after alist pool f0 neg blf =
        some (((FindMake nr pool find f0).1, tail), (FindMake nr pool find f0).2)) ∧
      (∃ r, (NextEntry list alist u.array 200).run = some r ∧
        find = if strncmp_eq (cstr ((r.map (fun x => x.1)).getD u.array)) "%obj-i".toList 6
          then 0 else 1) ∧
      (∀ pool m, m < pool.length → describes nr pool m = true →
        ∃ n, n ≤ m ∧ describes nr pool n = true ∧
          jhcNetBuild.build_obj mf u list after alist pool none neg blf =
            some ((some n, tail), pool)) ∧
      (find = 0 →
        jhcNetBuild.build_obj mf u list after alist [] none neg blf = some ((none, tail), []))) ∧
    (∀ nr find,
      jhcGraphizer.build_obj_nr
        (fun a p => jhcGraphizer.build_obj_fuel u list list.length true a p none 10) u list
        alist blf = some (some (nr, find)) →
      (∀ pool f0, jhcGraphizer.build_obj u list after alist pool f0 blf =
        some (((FindMake nr pool find f0).1, tail), (FindMake nr pool find f0).2)) ∧
      (∃ r, (NextEntry list alist u.array 200).run = some r ∧
        find = if strncmp_eq (cstr ((r.map (fun x => x.1)).getD u.array)) "%obj-i".toList 6
          then 0 else 1) ∧
      (∀ pool m, m < pool.length → describes nr pool m = true →
        ∃ n, n ≤ m ∧ describes nr pool n = true ∧
          jhcGraphizer.build_obj u list after alist pool none blf =
            some ((some n, tail), pool)) ∧
      (find = 0 →
        jhcGraphizer.build_obj u list after alist [] none blf = some ((none, tail), []))) := by
  constructor
  · intro nr find hnr
    have hb : ∀ pool f0, jhcNetBuild.build_obj mf u list after alist pool f0 neg blf =
        some (((FindMake nr pool find f0).1, tail), (FindMake nr pool find f0).2) := by
      intro pool f0
      simp only [jhcNetBuild.build_obj, jhcNetBuild.build_obj_fuel, hnr, hclose]
    refine ⟨hb, ?_, ?_, ?_⟩
    · unfold jhcNetBuild.build_obj_nr at hnr
      split at hnr
      · cases hnr
      · rename_i r hr
        refine ⟨r, hr, ?_⟩
        simp only at hnr
        by_cases h4 : (!strncmp_eq (cstr ((r.map (fun x => x.1)).getD u.array)) "%obj".toList 4) = true
        · rw [if_pos h4] at hnr
          cases hnr
        · rw [if_neg h4] at hnr
          simp only [Option.map_eq_some', Option.some.injEq, Prod.mk.injEq] at hnr
          obtain ⟨_, _, _, h⟩ := hnr
          exact h.symm
    · intro pool m hm hd
      obtain ⟨n, h1, h2, h3⟩ := FindMake_reuse nr pool find m hm hd
      exact ⟨n, h1, h2, by rw [hb, h3]⟩
    · intro h0
      rw [hb, h0, FindMake_refer_empty]
  · intro nr find hnr
    have hb : ∀ pool f0, jhcGraphizer.build_obj u list after alist pool f0 blf =
        some (((FindMake nr pool find f0).1, tail), (FindMake nr pool find f0).2) := by
      intro pool f0
      simp only [jhcGraphizer.build_obj, jhcGraphizer.build_obj_fuel, hnr, hclose]
    refine ⟨hb, ?_, ?_, ?_⟩
    · unfold jhcGraphizer.build_obj_nr at hnr
      split at hnr
      · cases hnr
      · rename_i r hr
        refine ⟨r, hr, ?_⟩
        simp only at hnr
        by_cases h4 : (!strncmp_eq (cstr ((r.map (fun x => x.1)).getD u.array)) "%obj".toList 4) = true
        · rw [if_pos h4] at hnr
          cases hnr
        · rw [if_neg h4] at hnr
          simp only [Option.map_eq_some', Option.some.injEq, Prod.mk.injEq] at hnr
          obtain ⟨_, _, _, h⟩ := hnr
          exact h.symm
    · intro pool m hm hd
      obtain ⟨n, h1, h2, h3⟩ := FindMake_reuse nr pool find m hm hd
      exact ⟨n, h1, h2, by rw [hb, h3]⟩
    · intro h0
      rw [hb, h0, FindMake_refer_empty]

theorem referent_reuse_witness :
    (∃ n, n ≤ 0 ∧
      describes [⟨"obj".toList, none, 0, 10, [], JTAG_NSING⟩,
      ⟨"hq".toList, some "big".toList, 0, 10, [("hq".toList, 0)], 0⟩,
      ⟨"ako".toList, some "dog".toList, 0, 10, [("ako".toList, 0)], 0⟩]
        [⟨"obj".toList, none, 0, 10, [], JTAG_NSING⟩,
      ⟨"hq".toList, some "big".toList, 0, 10, [("hq".toList, 0)], 0⟩,
      ⟨"ako".toList, some "dog".toList, 0, 10, [("ako".toList, 0)], 0⟩] n = true ∧
      jhcNetBuild.build_obj ⟨BaseNoun noExcept, BaseVerb noExcept⟩ ⟨[], 0⟩
        "\t%obj\tHQ=big\tAKO=dog\t%".toList true (some 0)
        [⟨"obj".toList, none, 0, 10, [], JTAG_NSING⟩,
      ⟨"hq".toList, some "big".toList, 0, 10, [("hq".toList, 0)], 0⟩,
      ⟨"ako".toList, some "dog".toList, 0, 10, [("ako".toList, 0)], 0⟩] none 0 10 =
      some ((some n, some 22), [⟨"obj".toList, none, 0, 10, [], JTAG_NSING⟩,
      ⟨"hq".toList, some "big".toList, 0, 10, [("hq".toList, 0)], 0⟩,
      ⟨"ako".toList, some "dog".toList, 0, 10, [("ako".toList, 0)], 0⟩])) ∧
    jhcGraphizer.build_obj ⟨[], 0⟩ "\t%obj-i\tAKO=dog\t%".toList true (some 0) [] none 10 =
      some ((none, some 17), []) :=
  ⟨((referent_reuse ⟨BaseNoun noExcept, BaseVerb noExcept⟩ ⟨[], 0⟩
      "\t%obj\tHQ=big\tAKO=dog\t%".toList true (some 0) 0 10 (some 22) (by decide)).1
      [⟨"obj".toList, none, 0, 10, [], JTAG_NSING⟩,
      ⟨"hq".toList, some "big".toList, 0, 10, [("hq".toList, 0)], 0⟩,
      ⟨"ako".toList, some "dog".toList, 0, 10, [("ako".toList, 0)], 0⟩] 1 (by decide)).2.2.1 _ 0 (by decide) (by decide),
   ((referent_reuse ⟨BaseNoun noExcept, BaseVerb noExcept⟩ ⟨[], 0⟩
      "\t%obj-i\tAKO=dog\t%".toList true (some 0) 0 10 (some 17) (by decide)).2
      [⟨"obj".toList, none, 0, 10, [], 0⟩,
        ⟨"ako".toList, some "dog".toList, 0, 10, [("ako".toList, 0)], 0⟩] 0 (by decide)).2.2.2 rfl⟩

/-! ## The cursor: the next fragment -/

theorem isMark_copy (e stale : Str) (h : NUL ∉ e) :
    isMark ((e ++ NUL :: stale).getD 0 NUL) = isFragTag e := by
  cases e with
  | nil => exact (by decide : isMark NUL = true)
  | cons c tl =>
    have hc : c ≠ NUL := fun e => h (by simp [e])
    simp only [List.cons_append, List.getD_cons_zero, isMark_eq c hc, isFragTag]

/-- The loop of `NextFrag` reads the entries of the list one by one: it computes
`fragScan`. -/
theorem fragLoop_refines (alist : Str) (ssz : Nat) (hnul : NUL ∉ alist) :
    ∀ (fs : List Str) (pos : Nat) (junk entry : Str) (fuel : Nat),
      alist.drop pos = junk ++ render fs → TAB ∉ junk → (∀ f ∈ fs, TAB ∉ f) →
      fs.length < fuel →
      NextFragLoop alist ssz fuel pos entry =
        fragScan ssz (locate (pos + junk.length + 1) fs) := by
  intro fs
  induction fs with
  | nil =>
    intro pos junk entry fuel hs hj _ hfuel
    obtain ⟨k, rfl⟩ : ∃ k, fuel = k + 1 := ⟨fuel - 1, by omega⟩
    have : TAB ∉ alist.drop pos := by rw [hs]; simpa [render] using hj
    simp [NextFragLoop, NextEntry_done alist pos entry 200 this, locate, fragScan]
  | cons f fs ih =>
    intro pos junk entry fuel hs hj hf hfuel
    obtain ⟨k, rfl⟩ : ∃ k, fuel = k + 1 := ⟨fuel - 1, by omega⟩
    have hk : fs.length < k := by simp at hfuel; omega
    have hs' : alist.drop pos = junk ++ TAB :: (f ++ render fs) := by rw [hs]; rfl
    have hft : TAB ∉ f := hf f (by simp)
    have hstep := NextEntry_step alist pos junk f (render fs) entry 200 hs' hj hft (render_cases fs)
    have hnulE : NUL ∉ entryText f := not_mem_of_drop alist pos junk f _ NUL hs' hnul
    have hdrop := drop_after_entry alist pos junk f (render fs) hs'
    have hjunk : TAB ∉ f.drop (entryText f).length := fun h => hft (List.mem_of_mem_drop h)
    have hloc := locate_next (entryText f) f (pos + junk.length + 1) fs (entryText_isPre f)
    simp only [NextFragLoop, hstep, locate, fragScan]
    by_cases hfit : (entryText f).length < 200
    · simp only [hfit, if_true, not_true_eq_false, if_false, isMark_copy _ _ hnulE,
        cstr_copy _ _ hnulE]
      have IH := fun entry => ih (pos + junk.length + 1 + (entryText f).length)
        (f.drop (entryText f).length) entry k hdrop hjunk
        (fun g hg => hf g (by simp [hg])) hk
      rw [hloc] at IH
      by_cases hm : isFragTag (entryText f) = true
      · simp only [hm, if_true]
      · simp only [hm, Bool.false_eq_true, if_false]
        exact IH _
    · simp only [hfit, if_false, not_false_eq_true, if_true]

/-- Function `NextFrag` computes `fragScan` over the entries after `pos`. -/
theorem NextFrag_scan (alist : Str) (pos : Nat) (ssz : Nat) (hnul : NUL ∉ alist) :
    NextFrag alist (some pos) ssz = fragScan ssz (entriesFrom alist pos) := by
  obtain ⟨junk, fs, e1, e2, e3, e4, e5⟩ := entriesFrom_render alist pos
  rw [e1]
  exact fragLoop_refines alist ssz hnul fs pos junk [] _ e2 e3 e4 e5

theorem fragScan_ptr (ssz : Nat) : ∀ (es : List (Str × Nat)) (e : Str) (t : Nat),
    fragScan ssz es = .ptr (e, t) →
    ∃ k, k < es.length ∧ es.getD k ([], 0) = (e, t) ∧ isFragTag e = true ∧
      ∀ j, j < k → isFragTag (es.getD j ([], 0)).1 = false := by
  intro es
  induction es with
  | nil => intro e t h; simp [fragScan] at h
  | cons x rest ih =>
    obtain ⟨e0, t0⟩ := x
    intro e t h
    simp only [fragScan] at h
    by_cases hfit : e0.length < 200
    · simp only [hfit, not_true_eq_false, if_false] at h
      by_cases hm : isFragTag e0 = true
      · simp only [hm, if_true] at h
        by_cases hs : e0.length < ssz
        · simp only [hs, if_true, Ret.ptr.injEq, Prod.mk.injEq] at h
          obtain ⟨rfl, rfl⟩ := h
          exact ⟨0, by simp, rfl, hm, fun j hj => absurd hj (by omega)⟩
        · simp only [hs, if_false, reduceCtorEq] at h
      · simp only [hm, Bool.false_eq_true, if_false] at h
        obtain ⟨k, h1, h2, h3, h4⟩ := ih e t h
        refine ⟨k + 1, by simp; omega, by simpa using h2, h3, ?_⟩
        intro j hj
        cases j with
        | zero => simpa using hm
        | succ j => simpa using h4 j (by omega)
    · simp only [hfit, not_false_eq_true, if_true, reduceCtorEq] at h

theorem fragScan_first (ssz : Nat) : ∀ (k : Nat) (es : List (Str × Nat)),
    k < es.length → isFragTag (es.getD k ([], 0)).1 = true →
    (∀ j, j < k → isFragTag (es.getD j ([], 0)).1 = false) →
    (∀ j, j ≤ k → (es.getD j ([], 0)).1.length < 200) →
    (es.getD k ([], 0)).1.length < ssz →
    fragScan ssz es = .ptr (es.getD k ([], 0)) := by
  intro k
  induction k with
  | zero =>
    intro es hk hm _ hfit hs
    cases es with
    | nil => simp at hk
    | cons x rest =>
      obtain ⟨e0, t0⟩ := x
      have h0 := hfit 0 (le_refl _)
      simp only [List.getD_cons_zero] at hm h0 hs ⊢
      simp only [fragScan, h0, not_true_eq_false, if_false, hm, if_true, hs]
  | succ k ih =>
    intro es hk hm hpre hfit hs
    cases es with
    | nil => simp at hk
    | cons x rest =>
      obtain ⟨e0, t0⟩ := x
      have h0 := hfit 0 (by omega)
      have hm0 := hpre 0 (by omega)
      simp only [List.getD_cons_zero] at h0 hm0
      simp only [List.getD_cons_succ] at hm hs ⊢
      simp only [fragScan, h0, not_true_eq_false, if_false, hm0, Bool.false_eq_true]
      exact ih rest (by simpa using hk) hm
        (fun j hj => by simpa using hpre (j + 1) (by omega))
        (fun j hj => by simpa using hfit (j + 1) (by omega)) hs

theorem fragScan_null (ssz : Nat) : ∀ (es : List (Str × Nat)),
    (∀ e ∈ es, e.1.length < 200) →
    (fragScan ssz es = .null ↔ ∀ e ∈ es, isFragTag e.1 = false) := by
  intro es
  induction es with
  | nil => intro _; simp [fragScan]
  | cons x rest ih =>
    obtain ⟨e0, t0⟩ := x
    intro hfit
    have h0 : e0.length < 200 := hfit (e0, t0) (by simp)
    have IH := ih (fun e he => hfit e (by simp [he]))
    simp only [fragScan, h0, not_true_eq_false, if_false, List.mem_cons, forall_eq_or_imp]
    by_cases hm : isFragTag e0 = true
    · simp only [hm, if_true, Bool.true_eq_false, false_and, iff_false]
      split_ifs <;> simp
    · simp only [hm, Bool.false_eq_true, if_false, IH]
      simp [hm]

/-- C26 (the code does not do this): `NextFrag` does not skip an empty entry.  The first byte of
an empty entry is the terminator, which `strchr("!$%", *entry)` finds, so the entry is returned
with an empty tag: on the list `<tab><tab>!x` the call from the start returns the
empty tag and the position 1, not `!x`.  On a list without NUL whose entries after
`pos` are shorter than 200 characters, `NextFrag` returns the first entry after `pos` that
is empty or begins with one of `!`, `$`, `%`, and NULL exactly when there is none; when
no entry is empty, the tag returned begins with a marker character and
every entry before it begins with another character. -/
theorem NextFrag_first_marker (alist : Str) (pos : Nat) (hnul : NUL ∉ alist)
    (hfit : ∀ e ∈ entriesFrom alist pos, e.1.length < 200) :
    (∀ e t, NextFrag alist (some pos) 200 = .ptr (e, t) ↔
      ∃ k, k < (entriesFrom alist pos).length ∧ (entriesFrom alist pos).getD k ([], 0) = (e, t) ∧
        isFragTag e = true ∧
        ∀ j, j < k → isFragTag ((entriesFrom alist pos).getD j ([], 0)).1 = false) ∧
    (NextFrag alist (some pos) 200 = .null ↔
      ∀ e ∈ entriesFrom alist pos, isFragTag e.1 = false) ∧
    ((∀ e ∈ entriesFrom alist pos, e.1 ≠ []) → ∀ e t, NextFrag alist (some pos) 200 = .ptr (e, t) →
      ∃ c tl, e = c :: tl ∧ (c = '!' ∨ c = '$' ∨ c = '%')) ∧
    NextFrag "\t\t!x".toList (some 0) 200 = .ptr ([], 1) := by
  have hs := NextFrag_scan alist pos 200 hnul
  have hget : ∀ j, j < (entriesFrom alist pos).length →
      ((entriesFrom alist pos).getD j ([], 0)).1.length < 200 := by
    intro j hj
    apply hfit
    rw [List.getD_eq_getElem _ _ hj]
    exact List.getElem_mem hj
  have hfwd : ∀ e t, NextFrag alist (some pos) 200 = .ptr (e, t) →
      ∃ k, k < (entriesFrom alist pos).length ∧ (entriesFrom alist pos).getD k ([], 0) = (e, t) ∧
        isFragTag e = true ∧
        ∀ j, j < k → isFragTag ((entriesFrom alist pos).getD j ([], 0)).1 = false := by
    intro e t h
    rw [hs] at h
    exact fragScan_ptr 200 _ e t h
  refine ⟨?_, ?_, ?_, by decide⟩
  · intro e t
    constructor
    · exact hfwd e t
    · rintro ⟨k, h1, h2, h3, h4⟩
      rw [hs, ← h2]
      apply fragScan_first 200 k _ h1 (by rw [h2]; exact h3) h4
        (fun j hj => hget j (by omega)) (hget k h1)
  · rw [hs]
    exact fragScan_null 200 _ hfit
  · intro hne e t h
    obtain ⟨k, h1, h2, h3, _⟩ := hfwd e t h
    have hmem : (e, t) ∈ entriesFrom alist pos := by
      rw [← h2, List.getD_eq_getElem _ _ h1]
      exact List.getElem_mem h1
    have hne' := hne _ hmem
    cases e with
    | nil => exact absurd rfl hne'
    | cons c tl =>
      refine ⟨c, tl, rfl, ?_⟩
      have h3' : (c = '!' ∨ c = '$') ∨ c = '%' := by simpa [isFragTag] using h3
      rcases h3' with (h | h) | h
      · exact Or.inl h
      · exact Or.inr (Or.inl h)
      · exact Or.inr (Or.inr h)

theorem NextFrag_first_marker_witness :
    NextFrag "\tHQ=big\t a \t%obj\t!do".toList (some 0) 200 = .ptr ("%obj".toList, 16) :=
  ((NextFrag_first_marker "\tHQ=big\t a \t%obj\t!do".toList 0 (by decide) (by decide)).1
    "%obj".toList 16).2 ⟨2, by decide, by decide, by decide, by decide⟩

/-! ## The cursor: closing a fragment after its header -/

/-- Entries that are no markers do not change the scan of `FragClose`. -/
theorem closeScan_plain (ssz : Nat) (rest : List (Str × Nat)) :
    ∀ (pre : List (Str × Nat)) (d : Int),
      (∀ e ∈ pre, isOpen e.1 = false ∧ isClose e.1 = false) → (∀ e ∈ pre, e.1.length < ssz) →
      closeScan ssz (pre ++ rest) d = closeScan ssz rest d := by
  intro pre
  induction pre with
  | nil => intro d _ _; rfl
  | cons x pre ih =>
    obtain ⟨e0, t0⟩ := x
    intro d hp hfit
    have h0 := hp (e0, t0) (by simp)
    have hf0 : e0.length < ssz := hfit (e0, t0) (by simp)
    simp only [List.cons_append, closeScan, hf0, not_true_eq_false, if_false, h0.1, h0.2,
      Bool.false_eq_true]
    exact ih d (fun e he => hp e (by simp [he])) (fun e he => hfit e (by simp [he]))

/-- C27 (as stated, refuted): with `skip > 0` the scan starts at depth -1 and never
tests for a depth below it.  On the list `% !a !b %` the first marker entry is a
bare close marker, the two open markers bring the depth back to 0, and the call
returns the position after the last entry, which closes `!b` while `!a` stays
open. -/
theorem FragClose_skip_leading_close :
    (entriesFrom "\t%\t!a\t!b\t%".toList 0).map Prod.fst =
      ["%".toList, "!a".toList, "!b".toList, "%".toList] ∧
    FragClose "\t%\t!a\t!b\t%".toList (some 0) 1 [] = .ptr 10 := by
  decide

/-- C27 (amended): on a list without NUL whose entries after `pos` are not empty and
shorter than 200 characters, and whose first marker entry after `pos` is an open
marker, `FragClose (pos, skip > 0)` returns the position `p` exactly when `p` is the
position just after the bare close marker that matches that open marker: the
first close marker after it at which the entries in between are balanced, no
prefix of them closing more than it opens. -/
theorem FragClose_skip_matching (alist : Str) (pos : Nat) (skip : Int) (entry : Str)
    (pre rest : List (Str × Nat)) (o : Str) (t0 : Nat) (hskip : 0 < skip) (hnul : NUL ∉ alist)
    (hne : ∀ e ∈ entriesFrom alist pos, e.1 ≠ [])
    (hfit : ∀ e ∈ entriesFrom alist pos, e.1.length < 200)
    (hes : entriesFrom alist pos = pre ++ (o, t0) :: rest)
    (hpre : ∀ e ∈ pre, isOpen e.1 = false ∧ isClose e.1 = false) (ho : isOpen o = true) (p : Nat) :
    FragClose alist (some pos) skip entry = .ptr p ↔
      ∃ k, k < rest.length ∧ (rest.getD k ([], 0)).2 = p ∧
        isClose (rest.getD k ([], 0)).1 = true ∧ depthAt rest k = 0 ∧
        ∀ j ≤ k, 0 ≤ depthAt rest j := by
  have hs := FragClose_scan alist pos skip entry hnul hne
  rw [if_pos hskip, hes] at hs
  have hfo : o.length < 200 := hfit (o, t0) (by rw [hes]; simp)
  have hfr : ∀ e ∈ rest, e.1.length < 200 := fun e he => hfit e (by rw [hes]; simp [he])
  have hstep : closeScan 200 (pre ++ (o, t0) :: rest) (-1) = closeScan 200 rest 0 := by
    rw [closeScan_plain 200 _ pre (-1) hpre (fun e he => hfit e (by rw [hes]; simp [he]))]
    simp only [closeScan, hfo, not_true_eq_false, if_false, ho, if_true]
    rfl
  rw [hs, hstep]
  constructor
  · intro h
    obtain ⟨k, h1, h2, h3, h4, h5⟩ := closeScan_ptr 200 rest 0 p (le_refl _) h
    exact ⟨k, h1, h2, h3, by omega, fun j hj => by have := h5 j hj; omega⟩
  · rintro ⟨k, h1, h2, h3, h4, h5⟩
    rw [← h2]
    apply closeScan_first_close 200 k rest 0 h1 h3 (by omega)
      (fun j hj => by have := h5 j hj; omega)
    intro j hj
    apply hfr
    rw [List.getD_eq_getElem _ _ (by omega : j < rest.length)]
    exact List.getElem_mem _

theorem FragClose_skip_matching_witness :
    FragClose "\tHQ=big\t%obj\tAKO=dog\t$rel\tLOC=on\t$\t%\t!do".toList (some 0) 1 [] = .ptr 36 :=
  (FragClose_skip_matching "\tHQ=big\t%obj\tAKO=dog\t$rel\tLOC=on\t$\t%\t!do".toList 0 1 []
    [("HQ=big".toList, 7)] [("AKO=dog".toList, 20), ("$rel".toList, 25), ("LOC=on".toList, 32),
      ("$".toList, 34), ("%".toList, 36), ("!do".toList, 40)] "%obj".toList 12 (by decide)
    (by decide) (by decide) (by decide) (by decide) (by decide) (by decide) 36).2
    ⟨4, by decide, by decide, by decide, by decide, by decide⟩

/-! ## The comparative of an adjective -/

/-- A comparative with a doubled last letter other than `l` loses the ending and
one of the two letters. -/
theorem adj_stem_doubled (u : Str) (c : Char) (hu : 1 ≤ u.length) (hc : c ≠ 'l') :
    adj_stem (u ++ [c, c, 'e', 'r']) JTAG_COMP = u ++ [c] := by
  have e1 : (u ++ [c, c, 'e', 'r']).length = u.length + 4 := by simp
  have hd : (u ++ [c, c, 'e', 'r']).drop (u.length + 2) = ['e', 'r'] := by
    rw [List.drop_append_eq_append_drop]
    have : u.length + 2 - u.length = 2 := by omega
    simp [this]
  have hn : (((u ++ [c, c, 'e', 'r']).length : Int) - 2).toNat = u.length + 2 := by omega
  have h0 : ((u ++ [c, c, 'e', 'r']).length : Int) > 2 := by omega
  have hs : setc (u ++ [c, c, 'e', 'r']) ((u.length : Int) + 2) NUL = u ++ [c, c] := by
    have : ((u.length : Int) + 2).toNat = u.length + 2 := by omega
    simp only [setc, if_true, this]
    rw [List.take_append_eq_append_take]
    have : u.length + 2 - u.length = 2 := by omega
    simp [this]
  have hn2 : ((u ++ [c, c, 'e', 'r']).length : Int) - 2 = (u.length : Int) + 2 := by omega
  simp only [adj_stem]
  rw [if_pos (by decide : JTAG_COMP &&& JTAG_COMP ≠ 0), if_pos ⟨h0, by rw [hn]; exact hd⟩, hn2, hs]
  have c1 : chr (u ++ [c, c]) ((u.length : Int) + 2 - 2) = c := by
    rw [chr_append_right _ _ _ (by omega), chr_cons_zero _ _ _ (by omega)]
  have c2 : chr (u ++ [c, c]) ((u.length : Int) + 2 - 1) = c := by
    rw [chr_append_right _ _ _ (by omega), chr_cons_pos _ _ _ (by omega),
      chr_cons_zero _ _ _ (by omega)]
  have h2 : (u.length : Int) + 2 > 2 := by omega
  unfold adj_repair
  rw [if_pos ⟨h2, by rw [c1, c2], by rw [c2]; exact hc⟩]
  have : ((u.length : Int) + 2 - 1).toNat = u.length + 1 := by omega
  simp only [setc, if_true, this]
  rw [List.take_append_eq_append_take]
  have : u.length + 1 - u.length = 1 := by omega
  simp [this]

/-- C28: with no exceptions loaded, `BaseAdj` gives `big`, `full`, `noisy` and `nice` for
the comparatives `bigger`, `fuller`, `noisier` and `nicer` in an `HQ-ER` pair, and for every
word `w` of at least two characters whose last character `c` is not `l` it gives
`w` for the pair `HQ-ER=` followed by `w`, `c` and `er`; the tags are set to the
comparative bit. -/
theorem comparative_stripping (t : Nat) :
    BaseAdj noExcept t "HQ-ER=bigger".toList = (some "big".toList, JTAG_COMP) ∧
    BaseAdj noExcept t "HQ-ER=fuller".toList = (some "full".toList, JTAG_COMP) ∧
    BaseAdj noExcept t "HQ-ER=noisier".toList = (some "noisy".toList, JTAG_COMP) ∧
    BaseAdj noExcept t "HQ-ER=nicer".toList = (some "nice".toList, JTAG_COMP) ∧
    ∀ (w : Str) (c : Char), 2 ≤ w.length → w.getLast? = some c → c ≠ 'l' →
      BaseAdj noExcept t ("HQ-ER=".toList ++ w ++ [c] ++ "er".toList) = (some w, JTAG_COMP) := by
  refine ⟨(BaseAdj_HQ_ER t "bigger".toList).trans (by decide),
    (BaseAdj_HQ_ER t "fuller".toList).trans (by decide),
    (BaseAdj_HQ_ER t "noisier".toList).trans (by decide),
    (BaseAdj_HQ_ER t "nicer".toList).trans (by decide), ?_⟩
  intro w c hw hl hc
  obtain ⟨u, a, rfl⟩ := split_last1 w (by omega)
  have ha : a = c := by simpa using hl
  subst ha
  have e : "HQ-ER=".toList ++ (u ++ [a]) ++ [a] ++ "er".toList =
      mkPair "HQ-ER".toList (u ++ [a, a, 'e', 'r']) := by
    simp [mkPair]
  rw [e, BaseAdj_HQ_ER, adj_stem_doubled u a (by simpa using hw) hc]

theorem comparative_stripping_witness :
    BaseAdj noExcept 0 "HQ-ER=redder".toList = (some "red".toList, JTAG_COMP) :=
  (comparative_stripping 0).2.2.2.2 "red".toList 'd' (by decide) (by decide) (by decide)

/-! ## The arguments of a verb -/

/-- C29 (as stated, refuted): in `ask Al to stop` exactly one object phrase follows the
verb (the second call of `build_obj`, at the `!do` entry, returns no node), yet
`add_args` attaches the object as `dest`, not as `obj`, attaches the embedded action
as `cmd`, and returns that action (node 3), not the verb it was given (node 0). -/
theorem add_args_object_before_infinitive :
    jhcGraphizer.build_obj_dflt ⟨[], 0⟩ "\tACT=ask\t%obj\tNAME=Al\t%\t!do\tACT=stop\t%".toList
        (some 8) [⟨"act".toList, some "ask".toList, 0, 10, [], JTAG_VIMP⟩] =
      some ((some 1, some 23), [⟨"act".toList, some "ask".toList, 0, 10, [], JTAG_VIMP⟩,
        ⟨"obj".toList, none, 0, 10, [], 0⟩,
        ⟨"Al".toList, none, 0, 10, [("lex".toList, 1)], 0⟩]) ∧
    jhcGraphizer.build_obj_dflt ⟨[], 0⟩ "\tACT=ask\t%obj\tNAME=Al\t%\t!do\tACT=stop\t%".toList
        (some 23) [⟨"act".toList, some "ask".toList, 0, 10, [], JTAG_VIMP⟩,
        ⟨"obj".toList, none, 0, 10, [], 0⟩,
        ⟨"Al".toList, none, 0, 10, [("lex".toList, 1)], 0⟩] =
      some ((none, none), [⟨"act".toList, some "ask".toList, 0, 10, [], JTAG_VIMP⟩,
        ⟨"obj".toList, none, 0, 10, [], 0⟩,
        ⟨"Al".toList, none, 0, 10, [("lex".toList, 1)], 0⟩]) ∧
    jhcGraphizer.add_args ⟨[], 0⟩ "\tACT=ask\t%obj\tNAME=Al\t%\t!do\tACT=stop\t%".toList 0
        (some 8) [⟨"act".toList, some "ask".toList, 0, 10, [], JTAG_VIMP⟩] =
      some (some 3,
        [⟨"act".toList, some "ask".toList, 0, 10, [("dest".toList, 1), ("cmd".toList, 3)],
          JTAG_VIMP⟩,
        ⟨"obj".toList, none, 0, 10, [], 0⟩,
        ⟨"Al".toList, none, 0, 10, [("lex".toList, 1)], 0⟩,
        ⟨"act".toList, some "stop".toList, 0, 10, [], JTAG_VIMP⟩]) := by
  refine ⟨?_, ?_, ?_⟩ <;> rfl

/-- C29 (amended): `add_args` of both builders (`bo` and `bc` are their `build_obj` and
`build_cmd`), called on a list position.  When `build_obj` returns a node for the phrase
right after the verb, returns no node at the position that call left, and no
embedded command is built there (no fragment follows, or the next fragment is
not `!do`, or `build_cmd` returns no node for it), the one object is attached to the
verb as `obj`.  When `build_obj` returns a node at both positions, the first is
attached as `dest` and the second as `obj`.  In these cases the verb gets these
arguments and no other, and `add_args` returns the verb it was given. -/
theorem dative_shift (bo : BuildObj) (bc : BuildCmd) (list : Str) (v pos : Nat)
    (pool p1 : jhcNodePool) (d : Nat) (t2 : Option Nat)
    (h1 : bo (some pos) pool = some ((some d, t2), p1)) :
    (∀ x p2, bo t2 p1 = some ((none, x), p2) →
      ((NextFrag list t2 200 = .null ∨
          ∃ e t3, NextFrag list t2 200 = .ptr (e, t3) ∧ e ≠ "!do".toList) →
        add_args bo bc list v (some pos) pool = some (some v, AddArg p2 v "obj".toList d)) ∧
      (∀ t3 p3, NextFrag list t2 200 = .ptr ("!do".toList, t3) → bc (some t3) p2 = some (none, p3) →
        add_args bo bc list v (some pos) pool = some (some v, AddArg p3 v "obj".toList d))) ∧
    (∀ o2 x p2, bo t2 p1 = some ((some o2, x), p2) →
      add_args bo bc list v (some pos) pool =
        some (some v, AddArg (AddArg p2 v "dest".toList d) v "obj".toList o2)) ∧
    (∀ (p : jhcNodePool) (nd : jhcNetNode) (s : Str) (a : Nat), p[v]? = some nd →
      (AddArg p v s a)[v]? = some { nd with args := nd.args ++ [(s, a)] }) := by
  refine ⟨fun x p2 h2 => ⟨?_, ?_⟩, ?_, ?_⟩
  · rintro (h3 | ⟨e, t3, h3, he⟩)
    · simp only [add_args, h1, h2, h3, Ret.run]
    · simp only [add_args, h1, h2, h3, Ret.run, if_neg he]
  · intro t3 p3 h3 h4
    simp only [add_args, h1, h2, h3, Ret.run, if_true, h4]
  · intro o2 x p2 h2
    simp only [add_args, h1, h2]
  · intro p nd s a hp
    have hv : v < p.length := by
      rcases Nat.lt_or_ge v p.length with h | h
      · exact h
      · rw [List.getElem?_eq_none h] at hp; cases hp
    simp only [AddArg, hp]
    rw [List.getElem?_set_self hv]

theorem dative_shift_witness :
    jhcGraphizer.add_args ⟨[], 0⟩ "\tACT=give\t%obj\tNAME=Bob\t%\t%obj\tAKO=ball\t%".toList 0
        (some 9) [⟨"act".toList, some "give".toList, 0, 10, [], JTAG_VIMP⟩] =
      some (some 0,
        [⟨"act".toList, some "give".toList, 0, 10, [("dest".toList, 1), ("obj".toList, 3)],
          JTAG_VIMP⟩,
        ⟨"obj".toList, none, 0, 10, [], 0⟩,
        ⟨"Bob".toList, none, 0, 10, [("lex".toList, 1)], 0⟩,
        ⟨"obj".toList, none, 0, 10, [], 0⟩,
        ⟨"ako".toList, some "ball".toList, 0, 10, [("ako".toList, 3)], 0⟩]) ∧
    jhcGraphizer.add_args ⟨[], 0⟩ "\tACT=grab\t%obj\tAKO=ball\t%".toList 0
        (some 9) [⟨"act".toList, some "grab".toList, 0, 10, [], JTAG_VIMP⟩] =
      some (some 0,
        [⟨"act".toList, some "grab".toList, 0, 10, [("obj".toList, 1)], JTAG_VIMP⟩,
        ⟨"obj".toList, none, 0, 10, [], 0⟩,
        ⟨"ako".toList, some "ball".toList, 0, 10, [("ako".toList, 1)], 0⟩]) :=
  ⟨(dative_shift (jhcGraphizer.build_obj_dflt ⟨[], 0⟩
        "\tACT=give\t%obj\tNAME=Bob\t%\t%obj\tAKO=ball\t%".toList)
      (jhcGraphizer.build_cmd ⟨[], 0⟩ "\tACT=give\t%obj\tNAME=Bob\t%\t%obj\tAKO=ball\t%".toList)
      "\tACT=give\t%obj\tNAME=Bob\t%\t%obj\tAKO=ball\t%".toList 0 9
      [⟨"act".toList, some "give".toList, 0, 10, [], JTAG_VIMP⟩]
      [⟨"act".toList, some "give".toList, 0, 10, [], JTAG_VIMP⟩,
        ⟨"obj".toList, none, 0, 10, [], 0⟩,
        ⟨"Bob".toList, none, 0, 10, [("lex".toList, 1)], 0⟩] 1 (some 25) rfl).2.1 3 (some 41)
      [⟨"act".toList, some "give".toList, 0, 10, [], JTAG_VIMP⟩,
        ⟨"obj".toList, none, 0, 10, [], 0⟩,
        ⟨"Bob".toList, none, 0, 10, [("lex".toList, 1)], 0⟩,
        ⟨"obj".toList, none, 0, 10, [], 0⟩,
        ⟨"ako".toList, some "ball".toList, 0, 10, [("ako".toList, 3)], 0⟩] rfl,
   ((dative_shift (jhcGraphizer.build_obj_dflt ⟨[], 0⟩ "\tACT=grab\t%obj\tAKO=ball\t%".toList)
      (jhcGraphizer.build_cmd ⟨[], 0⟩ "\tACT=grab\t%obj\tAKO=ball\t%".toList)
      "\tACT=grab\t%obj\tAKO=ball\t%".toList 0 9
      [⟨"act".toList, some "grab".toList, 0, 10, [], JTAG_VIMP⟩]
      [⟨"act".toList, some "grab".toList, 0, 10, [], JTAG_VIMP⟩,
        ⟨"obj".toList, none, 0, 10, [], 0⟩,
        ⟨"ako".toList, some "ball".toList, 0, 10, [("ako".toList, 1)], 0⟩] 1 (some 25) rfl).1
      none _ rfl).1 (Or.inl rfl)⟩

/-! ## Embedded commands -/

theorem graphizer_build_obj_grows (u : Uninit) (list : Str) :
    growsObj (jhcGraphizer.build_obj_dflt u list) := by
  intro a p r p1 h
  obtain ⟨added, rfl, _⟩ := graphizer_build_obj_fuel_added u list _ true a p none 10 r p1 h
  simp

theorem act_deg_length (u : Uninit) (list : Str) (act : Nat) (amt : Str) (alist : Option Nat)
    (pool : jhcNodePool) (r : Option Nat × jhcNodePool)
    (h : act_deg u list act amt alist pool = some r) : pool.length ≤ r.2.length := by
  unfold act_deg at h
  split at h
  · cases h
  · simp only [Option.some.injEq] at h
    rw [← h]
  · split at h
    · simp only [Option.some.injEq] at h
      rw [← h]
    · simp only [Option.some.injEq] at h
      rw [← h]
      simp only [AddProp_length]
      omega

theorem build_cmd_mods_length (u : Uninit) (list : Str) (act : Nat) :
    ∀ (fuel : Nat) (tail : Option Nat) (next : Str) (pool p1 : jhcNodePool),
      jhcGraphizer.build_cmd_mods u list act fuel tail next pool = some p1 →
      pool.length ≤ p1.length := by
  intro fuel
  induction fuel with
  | zero =>
    intro tail next pool p1 h
    simp only [jhcGraphizer.build_cmd_mods, Option.some.injEq] at h
    rw [h]
  | succ k ih =>
    intro tail next pool p1 h
    unfold jhcGraphizer.build_cmd_mods at h
    split at h
    · cases h
    · simp only [Option.some.injEq] at h
      rw [h]
    · split at h
      · split at h
        · cases h
        · rename_i tail1 p2 hd
          have h1 := act_deg_length u list act _ _ pool _ hd
          have h2 := ih _ _ _ _ h
          simp only at h1
          omega
      · split at h
        · have h2 := ih _ _ _ _ h
          simp only [AddProp_length] at h2
          omega
        · split at h
          · have h2 := ih _ _ _ _ h
            simp only [AddProp_length] at h2
            omega
          · split at h
            · have h2 := ih _ _ _ _ h
              simp only [AddProp_length] at h2
              omega
            · exact ih _ _ _ _ h

theorem add_quote_loop_length (list : Str) (v : Nat) :
    ∀ (fuel : Nat) (tail : Option Nat) (next : Str) (pool : jhcNodePool) (r : Int × jhcNodePool),
      add_quote_loop list v fuel tail next pool = some r → pool.length ≤ r.2.length := by
  intro fuel
  induction fuel with
  | zero =>
    intro tail next pool r h
    simp only [add_quote_loop, Option.some.injEq] at h
    rw [← h]
  | succ k ih =>
    intro tail next pool r h
    unfold add_quote_loop at h
    split at h
    · cases h
    · simp only [Option.some.injEq] at h
      rw [← h]
    · split at h
      · simp only [Option.some.injEq] at h
        rw [← h]
        simp [AddArg_length, MakeNode_eq]
      · exact ih _ _ _ _ h

/-- What `add_args` returns: the verb it was given, or the node that a call of `build_cmd`
returned, made on a pool that holds the pool of the call. -/
theorem add_args_head (bo : BuildObj) (bc : BuildCmd) (hbo : growsObj bo) (list : Str)
    (v : Nat) (alist : Option Nat) (pool p1 : jhcNodePool) (a : Nat)
    (h : add_args bo bc list v alist pool = some (some a, p1)) :
    a = v ∨ ∃ t p p2, pool.length ≤ p.length ∧ bc (some t) p = some (some a, p2) := by
  unfold add_args at h
  split at h
  · cases h
  · split at h
    · cases h
    · simp only [Option.some.injEq, Prod.mk.injEq] at h
      exact Or.inl h.1.symm
    · rename_i dobj t2 q1 hb1
      have g1 := hbo _ _ _ _ hb1
      split at h
      · cases h
      · simp only [Option.some.injEq, Prod.mk.injEq] at h
        exact Or.inl h.1.symm
      · rename_i x q2 hb2
        have g2 := hbo _ _ _ _ hb2
        split at h
        · cases h
        · simp only [Option.some.injEq, Prod.mk.injEq] at h
          exact Or.inl h.1.symm
        · rename_i entry t3 _
          split_ifs at h
          · split at h
            · cases h
            · simp only [Option.some.injEq, Prod.mk.injEq] at h
              exact Or.inl h.1.symm
            · rename_i act q3 hc
              simp only [Option.some.injEq, Prod.mk.injEq] at h
              rw [← h.1]
              exact Or.inr ⟨t3, q2, q3, by omega, hc⟩
          · simp only [Option.some.injEq, Prod.mk.injEq] at h
            exact Or.inl h.1.symm

theorem add_args_length (bo : BuildObj) (bc : BuildCmd) (hbo : growsObj bo) (hbc : growsCmd bc)
    (list : Str) (v : Nat) (alist : Option Nat) (pool p1 : jhcNodePool) (r : Option Nat)
    (h : add_args bo bc list v alist pool = some (r, p1)) : pool.length ≤ p1.length := by
  unfold add_args at h
  split at h
  · simp only [Option.some.injEq, Prod.mk.injEq] at h
    rw [← h.2]
  · split at h
    · cases h
    · rename_i hb1
      have g1 := hbo _ _ _ _ hb1
      simp only [Option.some.injEq, Prod.mk.injEq] at h
      rw [← h.2]
      exact g1
    · rename_i dobj t2 q1 hb1
      have g1 := hbo _ _ _ _ hb1
      split at h
      · cases h
      · rename_i hb2
        have g2 := hbo _ _ _ _ hb2
        simp only [Option.some.injEq, Prod.mk.injEq] at h
        rw [← h.2]
        simp only [AddArg_length]
        omega
      · rename_i x q2 hb2
        have g2 := hbo _ _ _ _ hb2
        split at h
        · cases h
        · simp only [Option.some.injEq, Prod.mk.injEq] at h
          rw [← h.2]
          simp only [AddArg_length]
          omega
        · split_ifs at h
          · split at h
            · cases h
            · rename_i hc
              have g3 := (hbc _ _ _ _ hc).1
              simp only [Option.some.injEq, Prod.mk.injEq] at h
              rw [← h.2]
              simp only [AddArg_length]
              omega
            · rename_i hc
              have g3 := (hbc _ _ _ _ hc).1
              simp only [Option.some.injEq, Prod.mk.injEq] at h
              rw [← h.2]
              simp only [AddArg_length]
              omega
          · simp only [Option.some.injEq, Prod.mk.injEq] at h
            rw [← h.2]
            simp only [AddArg_length]
            omega

/-- The unfolding of `jhcGraphizer::build_cmd` up to its last statement: the call returns
no node, or it made the node `pool.length` for its verb and then returns that node
with a larger pool (a quotation) or what `add_args` returns for that node on a larger
pool. -/
theorem build_cmd_fuel_cases (u : Uninit) (list : Str) (fuel : Nat) (alist : Option Nat)
    (pool p1 : jhcNodePool) (r : Option Nat)
    (h : jhcGraphizer.build_cmd_fuel u list (fuel + 1) alist pool = some (r, p1)) :
    (r = none ∧ p1 = pool) ∨
    (r = some pool.length ∧ pool.length < p1.length) ∨
    ∃ tl p4, pool.length < p4.length ∧
      add_args (jhcGraphizer.build_obj_dflt u list) (jhcGraphizer.build_cmd_fuel u list fuel) list
        pool.length (some tl) p4 = some (r, p1) := by
  unfold jhcGraphizer.build_cmd_fuel at h
  split at h
  · cases h
  · simp only at h
    split at h
    · cases h
    · split at h
      · cases h
      · simp only [Option.some.injEq, Prod.mk.injEq] at h
        exact Or.inl ⟨h.1.symm, h.2.symm⟩
      · rename_i val t next tl _
        split at h
        · cases h
        · rename_i agt x p2 hb
          have g1 := graphizer_build_obj_grows u list _ _ _ _ hb
          simp only [SetTags_length, MakeNode_eq, List.length_append, List.length_singleton] at g1
          split at h
          · cases h
          · rename_i p4 hm
            have g2 := build_cmd_mods_length u list _ _ _ _ _ _ hm
            have g3 : p2.length ≤ p4.length := by
              cases agt with
              | none => exact g2
              | some a => simpa only [AddArg_length] using g2
            by_cases hs : strncmp_eq (cstr next) "SAY".toList 3 = true
            · rw [if_pos hs] at h
              simp only [Option.map_eq_some', Prod.mk.injEq] at h
              obtain ⟨q, hq, rfl, rfl⟩ := h
              have g4 := add_quote_loop_length list _ _ _ _ _ _ hq
              refine Or.inr (Or.inl ⟨rfl, ?_⟩)
              omega
            · rw [if_neg hs] at h
              exact Or.inr (Or.inr ⟨tl, p4, by omega, h⟩)

theorem graphizer_build_cmd_grows (u : Uninit) (list : Str) :
    ∀ fuel, growsCmd (jhcGraphizer.build_cmd_fuel u list fuel) := by
  intro fuel
  induction fuel with
  | zero =>
    intro a p r p1 h
    simp [jhcGraphizer.build_cmd_fuel] at h
  | succ k ih =>
    intro a p r p1 h
    rcases build_cmd_fuel_cases u list k a p p1 r h with ⟨rfl, rfl⟩ | ⟨rfl, hl⟩ | ⟨tl, p4, hl, ha⟩
    · exact ⟨le_refl _, fun n hn => by cases hn⟩
    · exact ⟨le_of_lt hl, fun n hn => by simp only [Option.some.injEq] at hn; omega⟩
    · have g := add_args_length _ _ (graphizer_build_obj_grows u list) ih list _ _ _ _ _ ha
      refine ⟨by omega, fun n hn => ?_⟩
      subst hn
      rcases add_args_head _ _ (graphizer_build_obj_grows u list) list _ _ _ _ _ ha with
        rfl | ⟨t, q, q2, hq, hc⟩
      · exact le_refl _
      · have := (ih _ _ _ _ hc).2 n rfl
        omega

/-- C30 (as stated, refuted): in `tell Bob to ask Al to go` the embedded command of `tell` is
`ask Al to go`, whose own verb is node 3 (`ask`).  `add_args` for `tell` (node 0) attaches as `cmd`,
and returns, node 6, the action of the innermost verb `go`; the node of `ask` is not
attached to `tell`. -/
theorem add_args_nested_infinitive :
    jhcGraphizer.add_args ⟨[], 0⟩
        "\tACT=tell\t%obj\tNAME=Bob\t%\t!do\tACT=ask\t%obj\tNAME=Al\t%\t!do\tACT=go\t%\t%".toList 0 (some 9)
        [⟨"act".toList, some "tell".toList, 0, 10, [], JTAG_VIMP⟩] =
      some (some 6,
        [⟨"act".toList, some "tell".toList, 0, 10, [("dest".toList, 1), ("cmd".toList, 6)],
          JTAG_VIMP⟩,
        ⟨"obj".toList, none, 0, 10, [], 0⟩,
        ⟨"Bob".toList, none, 0, 10, [("lex".toList, 1)], 0⟩,
        ⟨"act".toList, some "ask".toList, 0, 10, [("dest".toList, 4), ("cmd".toList, 6)],
          JTAG_VIMP⟩,
        ⟨"obj".toList, none, 0, 10, [], 0⟩,
        ⟨"Al".toList, none, 0, 10, [("lex".toList, 4)], 0⟩,
        ⟨"act".toList, some "go".toList, 0, 10, [], JTAG_VIMP⟩]) := by
  rfl

/-- C30 (amended): when `build_obj` returns a node for the phrase right after the verb and
no node at the position that call left, the next fragment there is `!do` and
`build_cmd` returns a node for it, `add_args` of both builders attaches the object to the
verb as `dest` and the node that `build_cmd` returned as `cmd`, attaches no `obj`, and returns
that node.  The node that `jhcGraphizer::build_cmd` returns is the node it made for its own
verb (the first node it adds to the pool) or, when its own `add_args` built an embedded
command in turn, the node that this nested call of `build_cmd` returned, a later node:
with one embedded infinitive the head is the action of its verb, with more the
action of the innermost one. -/
theorem embedded_infinitive (u : Uninit) (list : Str) :
    (∀ (bo : BuildObj) (bc : BuildCmd) (v pos : Nat) (pool p1 p2 p3 : jhcNodePool) (d a t3 : Nat)
        (t2 x : Option Nat),
      bo (some pos) pool = some ((some d, t2), p1) → bo t2 p1 = some ((none, x), p2) →
      NextFrag list t2 200 = .ptr ("!do".toList, t3) → bc (some t3) p2 = some (some a, p3) →
      add_args bo bc list v (some pos) pool =
        some (some a, AddArg (AddArg p3 v "dest".toList d) v "cmd".toList a)) ∧
    (∀ (fuel : Nat) (alist : Option Nat) (pool p1 : jhcNodePool) (a : Nat),
      jhcGraphizer.build_cmd_fuel u list (fuel + 1) alist pool = some (some a, p1) →
      a = pool.length ∨
        (pool.length < a ∧ ∃ t p p2, pool.length < p.length ∧
          jhcGraphizer.build_cmd_fuel u list fuel (some t) p = some (some a, p2))) := by
  constructor
  · intro bo bc v pos pool p1 p2 p3 d a t3 t2 x h1 h2 h3 h4
    simp only [add_args, h1, h2, h3, Ret.run, if_true, h4]
  · intro fuel alist pool p1 a h
    rcases build_cmd_fuel_cases u list fuel alist pool p1 (some a) h with
      ⟨h0, _⟩ | ⟨h0, _⟩ | ⟨tl, p4, hl, ha⟩
    · cases h0
    · simp only [Option.some.injEq] at h0
      exact Or.inl h0
    · rcases add_args_head _ _ (graphizer_build_obj_grows u list) list _ _ _ _ _ ha with
        h0 | ⟨t, q, q2, hq, hc⟩
      · exact Or.inl h0
      · have := (graphizer_build_cmd_grows u list fuel _ _ _ _ hc).2 a rfl
        exact Or.inr ⟨by omega, t, q, q2, by omega, hc⟩

theorem embedded_infinitive_witness :
    jhcGraphizer.add_args ⟨[], 0⟩ "\tACT=tell\t%obj\tNAME=Bob\t%\t!do\tACT=go\t%".toList 0 (some 9)
        [⟨"act".toList, some "tell".toList, 0, 10, [], JTAG_VIMP⟩] =
      some (some 3,
        [⟨"act".toList, some "tell".toList, 0, 10, [("dest".toList, 1), ("cmd".toList, 3)],
          JTAG_VIMP⟩,
        ⟨"obj".toList, none, 0, 10, [], 0⟩,
        ⟨"Bob".toList, none, 0, 10, [("lex".toList, 1)], 0⟩,
        ⟨"act".toList, some "go".toList, 0, 10, [], JTAG_VIMP⟩]) :=
  (embedded_infinitive ⟨[], 0⟩ "\tACT=tell\t%obj\tNAME=Bob\t%\t!do\tACT=go\t%".toList).1
    (jhcGraphizer.build_obj_dflt ⟨[], 0⟩ "\tACT=tell\t%obj\tNAME=Bob\t%\t!do\tACT=go\t%".toList)
    (jhcGraphizer.build_cmd ⟨[], 0⟩ "\tACT=tell\t%obj\tNAME=Bob\t%\t!do\tACT=go\t%".toList) 0 9
    [⟨"act".toList, some "tell".toList, 0, 10, [], JTAG_VIMP⟩]
    [⟨"act".toList, some "tell".toList, 0, 10, [], JTAG_VIMP⟩,
      ⟨"obj".toList, none, 0, 10, [], 0⟩,
      ⟨"Bob".toList, none, 0, 10, [("lex".toList, 1)], 0⟩]
    [⟨"act".toList, some "tell".toList, 0, 10, [], JTAG_VIMP⟩,
      ⟨"obj".toList, none, 0, 10, [], 0⟩,
      ⟨"Bob".toList, none, 0, 10, [("lex".toList, 1)], 0⟩]
    [⟨"act".toList, some "tell".toList, 0, 10, [], JTAG_VIMP⟩,
      ⟨"obj".toList, none, 0, 10, [], 0⟩,
      ⟨"Bob".toList, none, 0, 10, [("lex".toList, 1)], 0⟩,
      ⟨"act".toList, some "go".toList, 0, 10, [], JTAG_VIMP⟩]
    1 3 29 (some 25) none rfl rfl rfl rfl

/-! ## Reading past plain entries -/

theorem isMark_clean (f : Str) (hf : Clean f) (hn : NUL ∉ f) :
    isMark (f.getD 0 NUL) = isFragTag f := by
  obtain ⟨h0, _⟩ := hf
  cases f with
  | nil => exact absurd rfl h0
  | cons c r =>
    have hc : c ≠ NUL := fun e => hn (by simp [e])
    simp only [List.getD_cons_zero, isFragTag, isMark_eq c hc]

theorem first_tag_split (fs : List Str) :
    (∀ f ∈ fs, isFragTag f = false) ∨
      ∃ pre f post, fs = pre ++ f :: post ∧ (∀ g ∈ pre, isFragTag g = false) ∧
        isFragTag f = true := by
  induction fs with
  | nil => left; simp
  | cons a fs ih =>
    by_cases ha : isFragTag a = true
    · right; exact ⟨[], a, fs, rfl, by simp, ha⟩
    · have ha' : isFragTag a = false := by simpa using ha
      rcases ih with h | ⟨pre, f, post, rfl, h1, h2⟩
      · left
        intro f hf
        rcases List.mem_cons.1 hf with rfl | hf
        · exact ha'
        · exact h f hf
      · right
        refine ⟨a :: pre, f, post, rfl, ?_, h2⟩
        intro g hg
        rcases List.mem_cons.1 hg with rfl | hg
        · exact ha'
        · exact h1 g hg

/-- The loop of `NextFrag` goes past the entries that begin with no marker and stops
at the first one that does. -/
theorem NextFragLoop_first (alist : Str) (hnul : NUL ∉ alist) (f : Str) (post : List Str)
    (hf : Clean f) (hm : isFragTag f = true) :
    ∀ (pre : List Str) (pos : Nat) (entry : Str) (fuel : Nat),
      (∀ g ∈ pre, Clean g ∧ isFragTag g = false) → pre.length < fuel →
      alist.drop pos = render (pre ++ f :: post) →
      NextFragLoop alist 200 fuel pos entry =
          .ptr (f, pos + (render pre).length + 1 + f.length) ∧
        alist.drop (pos + (render pre).length + 1 + f.length) = render post := by
  intro pre
  induction pre with
  | nil =>
    intro pos entry fuel _ hfuel hs
    obtain ⟨k, rfl⟩ : ∃ k, fuel = k + 1 := ⟨fuel - 1, by omega⟩
    obtain ⟨h1, h2⟩ := NextEntry_clean alist pos f post entry hs hf
    have hn := NUL_not_mem_field alist pos f post hs hnul
    have hg : (f ++ NUL :: entry.drop (f.length + 1)).getD 0 NUL = f.getD 0 NUL := by
      obtain ⟨h0, _⟩ := hf
      cases f with
      | nil => exact absurd rfl h0
      | cons x xs => rfl
    have hmk : isMark (f.getD 0 NUL) = true := by rw [isMark_clean f hf hn]; exact hm
    refine ⟨?_, by simpa [render] using h2⟩
    simp only [NextFragLoop, h1, hg, hmk, if_true, cstr_copy _ _ hn, if_pos hf.2.1, render,
      List.length_nil, Nat.add_zero]
  | cons g pre ih =>
    intro pos entry fuel hpre hfuel hs
    obtain ⟨k, rfl⟩ : ∃ k, fuel = k + 1 := ⟨fuel - 1, by simp at hfuel; omega⟩
    have hgc := (hpre g (by simp)).1
    have hgm := (hpre g (by simp)).2
    have hs' : alist.drop pos = render (g :: (pre ++ f :: post)) := by rw [hs]; rfl
    obtain ⟨h1, h2⟩ := NextEntry_clean alist pos g _ entry hs' hgc
    have hn := NUL_not_mem_field alist pos g _ hs' hnul
    have hg : (g ++ NUL :: entry.drop (g.length + 1)).getD 0 NUL = g.getD 0 NUL := by
      obtain ⟨h0, _⟩ := hgc
      cases g with
      | nil => exact absurd rfl h0
      | cons x xs => rfl
    have hmk : isMark (g.getD 0 NUL) = false := by rw [isMark_clean g hgc hn]; exact hgm
    obtain ⟨h3, h4⟩ := ih (pos + 1 + g.length) (g ++ NUL :: entry.drop (g.length + 1)) k
      (fun x hx => hpre x (by simp [hx])) (by simp at hfuel; omega) h2
    have e : pos + (render (g :: pre)).length + 1 + f.length =
        pos + 1 + g.length + (render pre).length + 1 + f.length := by
      rw [render_cons_length]; omega
    rw [e]
    refine ⟨?_, h4⟩
    rw [NextFragLoop]
    simp only [h1, hg, hmk, Bool.false_eq_true, if_false, h3]

/-- The loop of `NextFrag` on entries none of which begins with a marker. -/
theorem NextFragLoop_none (alist : Str) (hnul : NUL ∉ alist) :
    ∀ (fs : List Str) (pos : Nat) (entry : Str) (fuel : Nat),
      (∀ g ∈ fs, Clean g ∧ isFragTag g = false) → alist.drop pos = render fs →
      NextFragLoop alist 200 fuel pos entry = .null := by
  intro fs
  induction fs with
  | nil =>
    intro pos entry fuel _ hs
    cases fuel with
    | zero => rfl
    | succ k =>
      have : NextEntry alist (some pos) entry 200 = .null :=
        NextEntry_done alist pos entry 200 (by rw [hs]; simp [render])
      simp only [NextFragLoop, this]
  | cons g fs ih =>
    intro pos entry fuel hfs hs
    cases fuel with
    | zero => rfl
    | succ k =>
      have hgc := (hfs g (by simp)).1
      have hgm := (hfs g (by simp)).2
      obtain ⟨h1, h2⟩ := NextEntry_clean alist pos g _ entry hs hgc
      have hn := NUL_not_mem_field alist pos g _ hs hnul
      have hg : (g ++ NUL :: entry.drop (g.length + 1)).getD 0 NUL = g.getD 0 NUL := by
        obtain ⟨h0, _⟩ := hgc
        cases g with
        | nil => exact absurd rfl h0
        | cons x xs => rfl
      have hmk : isMark (g.getD 0 NUL) = false := by rw [isMark_clean g hgc hn]; exact hgm
      rw [NextFragLoop]
      simp only [h1, hg, hmk, Bool.false_eq_true, if_false]
      exact ih _ _ k (fun x hx => hfs x (by simp [hx])) h2

/-- The next fragment of a well-formed list: the first entry that begins with a
marker, and the list after it; NULL when there is none. -/
theorem NextFrag_clean (alist : Str) (pos : Nat) (fs : List Str) (hnul : NUL ∉ alist)
    (hfs : ∀ f ∈ fs, Clean f) (hs : alist.drop pos = render fs) :
    (NextFrag alist (some pos) 200 = .null ∧ ∀ f ∈ fs, isFragTag f = false) ∨
    ∃ pre f post, fs = pre ++ f :: post ∧ (∀ g ∈ pre, isFragTag g = false) ∧
      isFragTag f = true ∧
      NextFrag alist (some pos) 200 = .ptr (f, pos + (render pre).length + 1 + f.length) ∧
      alist.drop (pos + (render pre).length + 1 + f.length) = render post := by
  rcases first_tag_split fs with h | ⟨pre, f, post, rfl, h1, h2⟩
  · left
    exact ⟨NextFragLoop_none alist hnul fs pos [] _ (fun g hg => ⟨hfs g hg, h g hg⟩) hs, h⟩
  · right
    have hfuel : pre.length < alist.length + 1 := by
      have a1 := render_length (pre ++ f :: post)
      have a2 : (alist.drop pos).length ≤ alist.length := by simp
      rw [hs] at a2
      have a3 : (pre ++ f :: post).length = pre.length + (post.length + 1) := by simp
      omega
    obtain ⟨h3, h4⟩ := NextFragLoop_first alist hnul f post (hfs f (by simp)) h2 pre pos [] _
      (fun g hg => ⟨hfs g (by simp [hg]), h1 g hg⟩) hfuel hs
    exact ⟨pre, f, post, rfl, h1, h2, h3, h4⟩

/-! ## A chain without a step -/

/-- The loop of `build_chain` goes past the fragments that are neither a directive
nor the start or the end of a play: the local variables and the memory stay
as they are. -/
theorem loop_rest {σ ν : Type} (B : NodeLevel σ ν) (bd : BuildDir σ) (u : Uninit)
    (alist : Str) (hnul : NUL ∉ alist) (v : ChainVars) (m : Mem σ) :
    ∀ (n : Nat) (fs : List Str) (pos fuel : Nat), fs.length ≤ n →
      (∀ f ∈ fs, Clean f ∧ f.head? ≠ some '!' ∧ f ≠ "%play".toList ∧
        (f = "%".toList → v.play = none)) →
      alist.drop pos = render fs →
      build_chain_loop B bd u alist fuel (some pos) v m = some (v, m) := by
  intro n
  induction n with
  | zero =>
    intro fs pos fuel hn _ hs
    have : fs = [] := List.length_eq_zero.1 (by omega)
    subst this
    exact loop_end B bd u alist pos hs v m fuel
  | succ n ih =>
    intro fs pos fuel hn hfs hs
    cases fuel with
    | zero => rfl
    | succ k =>
      rcases NextFrag_clean alist pos fs hnul (fun f hf => (hfs f hf).1) hs with
        ⟨h1, _⟩ | ⟨pre, f, post, rfl, _, _, h1, h2⟩
      · rw [build_chain_loop]
        simp only [h1, Ret.run]
      · obtain ⟨_, c1, c2, c3⟩ := hfs f (by simp)
        have e2 : ¬ (f = "%".toList ∧ v.play ≠ none) := fun h => h.2 (c3 h.1)
        have e3 : ¬ f.head? = some '!' := c1
        rw [build_chain_loop]
        simp only [h1, Ret.run, if_neg c2, if_neg e2, if_neg e3]
        exact ih post _ k (by simp at hn; omega) (fun g hg => hfs g (by simp [hg])) h2

/-- C39 (the code does not do this): `build_chain` (of `jhcGraphizer` and of `jhcNetBuild`) reaches
`ch->cont = final` with `ch` NULL, and so does not return, on every well-formed list
that holds no directive fragment and no play, on every list whose first
fragment is `%play` and which holds no directive, no other play and no bare `%`
after it, and on every list in which a directive of a kind that is not valid
follows valid directives. -/
theorem build_chain_null_step {σ ν : Type} (B : NodeLevel σ ν) (u : Uninit) (alist : Str)
    (pos : Nat) (final : Option Nat) (m : Mem σ) (hnul : NUL ∉ alist) :
    (∀ fs, (∀ f ∈ fs, Clean f ∧ f.head? ≠ some '!' ∧ f ≠ "%play".toList) →
      alist.drop pos = render fs →
      jhcGraphizer.build_chain B u alist (some pos) final m = none ∧
      jhcNetBuild.build_chain B u alist (some pos) final m = none) ∧
    (∀ pre post,
      (∀ f ∈ pre, Clean f ∧ isFragTag f = false) →
      (∀ f ∈ post, Clean f ∧ f.head? ≠ some '!' ∧ f ≠ "%play".toList ∧ f ≠ "%".toList) →
      alist.drop pos = render (pre ++ "%play".toList :: post) →
      jhcGraphizer.build_chain B u alist (some pos) final m = none ∧
      jhcNetBuild.build_chain B u alist (some pos) final m = none) ∧
    (∀ ds name fs, Builds B → (∀ d ∈ ds, GoodFrag B d) → Clean ('!' :: name) →
      B.CvtKind name = none → (∀ f ∈ fs, Clean f) →
      alist.drop pos = render (fragsText ds ++ ('!' :: name) :: fs) →
      jhcGraphizer.build_chain B u alist (some pos) final m = none ∧
      jhcNetBuild.build_chain B u alist (some pos) final m = none) := by
  refine ⟨?_, ?_, ?_⟩
  · intro fs hfs hs
    have key : ∀ bd : BuildDir σ, build_chain B bd u alist (some pos) final m = none := by
      intro bd
      have h := loop_rest B bd u alist hnul ⟨none, none, none, none, false⟩ m fs.length fs pos
        (alist.length + 1) (le_refl _)
        (fun f hf => ⟨(hfs f hf).1, (hfs f hf).2.1, (hfs f hf).2.2, fun _ => rfl⟩) hs
      simp only [build_chain, h, if_true]
    exact ⟨key _, key _⟩
  · intro pre post hpre hpost hs
    have key : ∀ bd : BuildDir σ, build_chain B bd u alist (some pos) final m = none := by
      intro bd
      have hfuel : pre.length < alist.length + 1 := by
        have a1 := render_length (pre ++ "%play".toList :: post)
        have a2 : (alist.drop pos).length ≤ alist.length := by simp
        rw [hs] at a2
        have a3 : (pre ++ "%play".toList :: post).length = pre.length + (post.length + 1) := by
          simp
        omega
      obtain ⟨h1, h2⟩ := NextFragLoop_first alist hnul "%play".toList post (by decide) (by decide)
        pre pos [] _ hpre hfuel hs
      have h3 := loop_rest B bd u alist hnul
        ⟨some m.chains.length, some m.chains.length, some m.chains.length, none, false⟩
        (m.alloc ⟨none, some [], none⟩).2 post.length post _ alist.length (le_refl _)
        (fun f hf => ⟨(hpost f hf).1, (hpost f hf).2.1, (hpost f hf).2.2.1,
          fun e => absurd e (hpost f hf).2.2.2⟩) h2
      have h1' : NextFrag alist (some pos) 200 =
          .ptr ("%play".toList, pos + (render pre).length + 1 + "%play".toList.length) := h1
      unfold build_chain
      rw [build_chain_loop]
      simp only [h1', Ret.run, if_true]
      rw [h3]
      simp only [if_true]
    exact ⟨key _, key _⟩
  · intro ds name fs hB hd hc hk hfs hs
    exact ⟨build_chain_invalid B _ u alist hnul (graphizer_build_dir_builds B hB _) ds name fs pos
        final m hd hc hk hfs hs,
      build_chain_invalid B _ u alist hnul (netbuild_build_dir_builds B hB _) ds name fs pos
        final m hd hc hk hfs hs⟩

theorem build_chain_null_step_witness :
    jhcGraphizer.build_chain cmdLevel ⟨[], 0⟩ "\tHQ=big\t$rel\tLOC=on\t$".toList (some 0) none
        Mem.empty = none ∧
    jhcNetBuild.build_chain cmdLevel ⟨[], 0⟩ "\tHQ=big\t%play\tHQ=red".toList (some 0) none
        Mem.empty = none :=
  ⟨((build_chain_null_step cmdLevel ⟨[], 0⟩ "\tHQ=big\t$rel\tLOC=on\t$".toList 0 none Mem.empty
      (by decide)).1 ["HQ=big".toList, "$rel".toList, "LOC=on".toList, "$".toList] (by decide)
      (by decide)).1,
   ((build_chain_null_step cmdLevel ⟨[], 0⟩ "\tHQ=big\t%play\tHQ=red".toList 0 none Mem.empty
      (by decide)).2.1 ["HQ=big".toList] ["HQ=red".toList] (by decide) (by decide)
      (by decide)).2⟩

/-! ## The subject of an indefinite rule -/

/-- C35 (the code does not do this): in `build_ifwd` (of `jhcGraphizer` and of `jhcNetBuild`) the
variable `prop` handed to `add_cop` is assigned only in the branch where `build_obj` finds no
object.  When `build_obj` returns an object for the condition and the `$res-i` fragment
follows, `add_cop` is called with `prop` as it was on entry (never assigned, `none`
in the embedding) and not with the object; the outcome is that of this call,
whatever node `build_obj` returned.  In the other branch `add_cop` is handed the `hq` node
of the unknown subject. -/
theorem build_ifwd_unset_prop {σ ν : Type} (B : NodeLevel σ ν) (u : Uninit) (alist : Str)
    (pos : Option Nat) (s : σ) :
    (∀ o tail s1 t1 t2, B.build_obj (B.BuildIn s (some "cond".toList)) pos =
        some (some (o, tail), s1) →
      (FragClose alist tail 0 u.array).run = some t1 →
      (NextMatches alist t1 "$res-i".toList 0).run = some (some t2) →
      build_ifwd B u alist pos s =
        (B.add_cop (B.BuildIn (B.MainProp s1).2 (some "result".toList)) none (some t2)).map
          (fun r => (if r.1 = none then 0 else 1, if r.1 = none then none else some ⟨⟩, r.2))) ∧
    (∀ s1 p tl val t1 t2, B.build_obj (B.BuildIn s (some "cond".toList)) pos = some (none, s1) →
      FragNextPair alist pos u.array 200 = .ptr (p, tl) →
      SlotGet (cstr p) (some "HQ".toList) SlotGet_lower = some val →
      (FragClose alist (some tl) 0 u.array).run = some t1 →
      (NextMatches alist t1 "$res-i".toList 0).run = some (some t2) →
      build_ifwd B u alist pos s =
        (B.add_cop
          (B.BuildIn (B.MainProp (B.AddProp (B.MakeNode s1 "obj".toList none).2
            (B.MakeNode s1 "obj".toList none).1 "hq".toList val).2).2 (some "result".toList))
          (some (B.AddProp (B.MakeNode s1 "obj".toList none).2
            (B.MakeNode s1 "obj".toList none).1 "hq".toList val).1) (some t2)).map
          (fun r => (if r.1 = none then 0 else 1, if r.1 = none then none else some ⟨⟩, r.2))) := by
  constructor
  · intro o tail s1 t1 t2 h1 h2 h3
    simp only [build_ifwd, h1, h2, h3]
    rcases B.add_cop (B.BuildIn (B.MainProp s1).2 (some "result".toList)) none (some t2) with
      _ | ⟨_ | t, s3⟩ <;> simp
  · intro s1 p tl val t1 t2 h1 h2 h3 h4 h5
    simp only [build_ifwd, h1, h2, h3, h4, h5]
    rcases B.add_cop
      (B.BuildIn (B.MainProp (B.AddProp (B.MakeNode s1 "obj".toList none).2
        (B.MakeNode s1 "obj".toList none).1 "hq".toList val).2).2 (some "result".toList))
      (some (B.AddProp (B.MakeNode s1 "obj".toList none).2
        (B.MakeNode s1 "obj".toList none).1 "hq".toList val).1) (some t2) with
      _ | ⟨_ | t, s3⟩ <;> simp

theorem build_ifwd_unset_prop_witness :
    build_ifwd objLevel ⟨[], 0⟩ "\t%obj\tAKO=dog\t%\t$\t$res-i\t$add\tAKO=pet\t$\t$".toList
      (some 0) 0 = some (0, none, 2) :=
  (build_ifwd_unset_prop objLevel ⟨[], 0⟩
    "\t%obj\tAKO=dog\t%\t$\t$res-i\t$add\tAKO=pet\t$\t$".toList (some 0) 0).1 0 (some 0) 1
    (some 17) 24 rfl (by decide) (by decide)

/-! ## The two normalizers compared -/

theorem base_verb_ACT (t : Nat) (v : Str) :
    base_verb t (mkPair "ACT".toList v) = (some v, JTAG_VIMP) := by
  simp [base_verb, strncmp_eq, strchr, mkPair]

theorem base_verb_SAY (t : Nat) (v : Str) :
    base_verb t (mkPair "SAY".toList v) = (some v, JTAG_VIMP) := by
  simp [base_verb, strncmp_eq, strchr, mkPair]

theorem BaseVerb_SAY (t : Nat) (v : Str) :
    BaseVerb noExcept t (mkPair "SAY".toList v) = (some v, JTAG_VIMP) := by
  simp [BaseVerb, SlotRef, SlotMatch, SlotStart, strncmp_eq, strchr, chr, mkPair]

theorem base_verb_ACT_D (t : Nat) (v : Str) :
    base_verb t (mkPair "ACT-D".toList v) = (some (verb_stem v JTAG_VPAST), JTAG_VPAST) := by
  have e1 : (v.length : Int) - 1 - 1 = (v.length : Int) - 2 := by omega
  have e2 : (v.length : Int) - 1 - 3 = (v.length : Int) - 4 := by omega
  have e3 : (v.length : Int) - 1 - 2 = (v.length : Int) - 3 := by omega
  rw [verb_stem_past_eq, e1, e2, e3]
  simp [base_verb, strncmp_eq, strchr, mkPair]
  split_ifs <;> first | rfl | (exfalso; simp_all; done) | (exfalso; simp_all; omega)

theorem base_verb_ACT_G (t : Nat) (v : Str) :
    base_verb t (mkPair "ACT-G".toList v) = (some (verb_stem v JTAG_VPROG), JTAG_VPROG) := by
  have e1 : (v.length : Int) - 1 - 1 = (v.length : Int) - 2 := by omega
  have e2 : (v.length : Int) - 1 - 3 = (v.length : Int) - 4 := by omega
  have e3 : (v.length : Int) - 1 - 2 = (v.length : Int) - 3 := by omega
  have e4 : (v.length : Int) - 1 - 4 = (v.length : Int) - 5 := by omega
  rw [verb_stem_prog_eq, e1, e2, e3, e4]
  simp [base_verb, strncmp_eq, strchr, mkPair]
  split_ifs <;> first | rfl | (exfalso; simp_all; done) | (exfalso; simp_all; omega)

theorem base_verb_ACT_S (t : Nat) (v : Str) (hv : v ≠ "s".toList) :
    base_verb t (mkPair "ACT-S".toList v) = (some (verb_stem v JTAG_VPRES), JTAG_VPRES) := by
  rw [verb_stem_pres_eq]
  simp [base_verb, strncmp_eq, strchr, mkPair]
  by_cases h1 : 1 < v.length
  · have h0 : 0 < v.length := by omega
    simp only [h1, h0, true_and]
    split_ifs <;> rfl
  · have hns : ¬ ((0 < v.length) ∧ chr v ((v.length : Int) - 1) = 's') := by
      rintro ⟨h0, hc⟩
      apply hv
      match v, h1, h0, hc with
      | [], _, h0, _ => simp at h0
      | [c], _, _, hc =>
        have : c = 's' := hc
        rw [this]; rfl
      | _ :: _ :: _, h1, _, _ => simp at h1
    simp only [h1, false_and, if_false]
    rw [if_neg hns]

/-- C38 (the code does not do this): the two normalizers agree on the canonical string
for every value under the slots AKO, AKO-S, ACT, ACT-D, ACT-G and SAY, and under
ACT-S for every value but the lone `s`: there `jhcGraphizer::base_verb` tests `end > 0` with
`end` the length of the value and strips the `s`, leaving the empty string, while
`jhcMorphFcns::verb_stem` tests `end > 0` with `end` the index of the last character and keeps
`s`. -/
theorem inlined_morphology_agrees (t t1 : Nat) (v : Str) :
    (base_noun t (mkPair "AKO".toList v)).1 = (BaseNoun noExcept t1 (mkPair "AKO".toList v)).1 ∧
    (base_noun t (mkPair "AKO-S".toList v)).1 =
      (BaseNoun noExcept t1 (mkPair "AKO-S".toList v)).1 ∧
    (base_verb t (mkPair "ACT".toList v)).1 = (BaseVerb noExcept t1 (mkPair "ACT".toList v)).1 ∧
    (base_verb t (mkPair "ACT-D".toList v)).1 =
      (BaseVerb noExcept t1 (mkPair "ACT-D".toList v)).1 ∧
    (base_verb t (mkPair "ACT-G".toList v)).1 =
      (BaseVerb noExcept t1 (mkPair "ACT-G".toList v)).1 ∧
    (base_verb t (mkPair "SAY".toList v)).1 = (BaseVerb noExcept t1 (mkPair "SAY".toList v)).1 ∧
    (v ≠ "s".toList →
      (base_verb t (mkPair "ACT-S".toList v)).1 =
        (BaseVerb noExcept t1 (mkPair "ACT-S".toList v)).1) ∧
    base_verb t "ACT-S=s".toList = (some [], JTAG_VPRES) ∧
    BaseVerb noExcept t1 "ACT-S=s".toList = (some "s".toList, JTAG_VPRES) := by
  have hnoun : ∀ rest : Str, '=' ∉ rest →
      (v = "thing".toList ∨ v = "something".toList) →
      (base_noun t (mkPair ("AKO".toList ++ rest) v)).1 =
        (BaseNoun noExcept t1 (mkPair ("AKO".toList ++ rest) v)).1 := by
    intro rest hr hv
    rw [base_noun_placeholder t rest v hv hr, BaseNoun_placeholder_any noExcept t1 _ v hv]
    intro hc
    rcases List.mem_append.1 hc with hc | hc
    · exact absurd hc (by decide)
    · exact hr hc
  refine ⟨?_, ?_, ?_, ?_, ?_, ?_, ?_, ?_, ?_⟩
  · by_cases hv : v = "thing".toList ∨ v = "something".toList
    · exact hnoun [] (by simp) hv
    · rw [base_noun_AKO t v (fun h => hv (Or.inl h)) (fun h => hv (Or.inr h)),
        BaseNoun_AKO t1 v (fun h => hv (Or.inl h)) (fun h => hv (Or.inr h))]
  · by_cases hv : v = "thing".toList ∨ v = "something".toList
    · exact hnoun "-S".toList (by decide) hv
    · rw [base_noun_AKO_S t v (fun h => hv (Or.inl h)) (fun h => hv (Or.inr h)),
        BaseNoun_AKO_S t1 v (fun h => hv (Or.inl h)) (fun h => hv (Or.inr h))]
  · rw [base_verb_ACT, BaseVerb_ACT, verb_stem_imp]
  · rw [base_verb_ACT_D, BaseVerb_ACT_D]
  · rw [base_verb_ACT_G, BaseVerb_ACT_G]
  · rw [base_verb_SAY, BaseVerb_SAY]
  · intro hv
    rw [base_verb_ACT_S t v hv, BaseVerb_ACT_S]
  · simp [base_verb, strncmp_eq, strchr, chr, setc]
  · exact (BaseVerb_ACT_S t1 "s".toList).trans (by decide)

theorem inlined_morphology_agrees_witness :
    (base_verb 0 (mkPair "ACT-S".toList "runs".toList)).1 =
      (BaseVerb noExcept 0 (mkPair "ACT-S".toList "runs".toList)).1 :=
  (inlined_morphology_agrees 0 0 "runs".toList).2.2.2.2.2.2.1 (by decide)

/-! ## Slots found by the cursor -/

/-- The loop of `NextSlot` returns an entry of the list that holds '=', and the list
goes on after it. -/
theorem NextSlotLoop_sound (alist : Str) (lcl : Int) (hnul : NUL ∉ alist) (e : Str) (t : Nat) :
    ∀ (fs : List Str) (pos : Nat) (junk entry : Str) (fuel : Nat),
      alist.drop pos = junk ++ render fs → TAB ∉ junk → (∀ f ∈ fs, TAB ∉ f) →
      NextSlotLoop alist lcl fuel pos entry = .ptr (e, t) →
      ∃ pre f post junk1, fs = pre ++ f :: post ∧ e = entryText f ∧
        (strchr e '=').isSome = true ∧ alist.drop t = junk1 ++ render post ∧ TAB ∉ junk1 := by
  intro fs
  induction fs with
  | nil =>
    intro pos junk entry fuel hs hj _ h
    cases fuel with
    | zero => simp [NextSlotLoop] at h
    | succ k =>
      have : TAB ∉ alist.drop pos := by rw [hs]; simpa [render] using hj
      simp [NextSlotLoop, NextEntry_done alist pos entry 200 this] at h
  | cons f fs ih =>
    intro pos junk entry fuel hs hj hf h
    cases fuel with
    | zero => simp [NextSlotLoop] at h
    | succ k =>
      have hs' : alist.drop pos = junk ++ TAB :: (f ++ render fs) := by rw [hs]; rfl
      have hft : TAB ∉ f := hf f (by simp)
      have hstep := NextEntry_step alist pos junk f (render fs) entry 200 hs' hj hft
        (render_cases fs)
      have hnulE : NUL ∉ entryText f := not_mem_of_drop alist pos junk f _ NUL hs' hnul
      have hdrop := drop_after_entry alist pos junk f (render fs) hs'
      have hjunk : TAB ∉ f.drop (entryText f).length := fun h => hft (List.mem_of_mem_drop h)
      rw [NextSlotLoop, hstep] at h
      by_cases hfit : (entryText f).length < 200
      · rw [if_pos hfit] at h
        simp only [cstr_copy _ _ hnulE] at h
        split_ifs at h with c1 c2
        · simp only [Ret.ptr.injEq, Prod.mk.injEq] at h
          obtain ⟨rfl, rfl⟩ := h
          exact ⟨[], f, fs, _, rfl, rfl, c2, hdrop, hjunk⟩
        · obtain ⟨pre, g, post, junk1, h1, h2, h3, h4, h5⟩ := ih _ _ _ k hdrop hjunk
            (fun g hg => hf g (by simp [hg])) h
          exact ⟨f :: pre, g, post, junk1, by rw [h1]; rfl, h2, h3, h4, h5⟩
      · rw [if_neg hfit] at h
        cases h

/-- The slot that `FindSlot` finds is the name of a pair of the list. -/
theorem FindSlotLoop_sound (alist slot : Str) (lcl : Int) (hnul : NUL ∉ alist) (v : Str)
    (t : Nat) :
    ∀ (fuel : Nat) (fs : List Str) (pos : Nat) (junk : Str),
      alist.drop pos = junk ++ render fs → TAB ∉ junk → (∀ f ∈ fs, TAB ∉ f) →
      FindSlotLoop alist slot lcl fuel (some pos) = .ptr (v, t) →
      ∃ f ∈ fs, ∃ k, strchr (entryText f) '=' = some k ∧
        stricmp_eq ((entryText f).take k) slot = true := by
  intro fuel
  induction fuel with
  | zero => intro fs pos junk _ _ _ h; simp [FindSlotLoop] at h
  | succ n ih =>
    intro fs pos junk hs hj hf h
    rw [FindSlotLoop] at h
    split at h
    · cases h
    · cases h
    · rename_i s v1 t1 hns
      unfold NextSlot at hns
      simp only at hns
      split_ifs at hns
      split at hns
      · cases hns
      · cases hns
      · rename_i e t2 hl
        obtain ⟨pre, f, post, junk1, h1, h2, h3, h4, h5⟩ :=
          NextSlotLoop_sound alist lcl hnul e t2 fs pos junk [] _ hs hj hf hl
        split at hns
        · cases hns
        · rename_i k hk
          split_ifs at hns
          simp only [Ret.ptr.injEq, Prod.mk.injEq] at hns
          obtain ⟨rfl, rfl, rfl⟩ := hns
          by_cases hm : stricmp_eq (e.take k) slot = true
          · exact ⟨f, by rw [h1]; simp, k, by rw [← h2]; exact hk, by rw [← h2]; exact hm⟩
          · rw [if_neg hm] at h
            obtain ⟨g, hg, r⟩ := ih post t2 junk1 h4 h5
              (fun g hg => hf g (by rw [h1]; simp [hg])) h
            exact ⟨g, by rw [h1]; simp [hg], r⟩

/-- A slot that `HasSlot` reports is the name of a pair among the entries after the
position. -/
theorem HasSlot_sound (alist slot : Str) (pos : Nat) (lcl : Int) (hnul : NUL ∉ alist)
    (h : HasSlot alist (some pos) slot lcl = some true) :
    ∃ e ∈ entriesFrom alist pos, ∃ k, strchr e.1 '=' = some k ∧
      stricmp_eq (e.1.take k) slot = true := by
  obtain ⟨junk, fs, e1, e2, e3, e4, _⟩ := entriesFrom_render alist pos
  unfold HasSlot FindSlot at h
  split_ifs at h
  · simp [Ret.run] at h
  · cases hf : FindSlotLoop alist slot lcl (alist.length + 1) (some pos) with
    | fault => rw [hf] at h; simp [Ret.run] at h
    | null => rw [hf] at h; simp [Ret.run] at h
    | ptr x =>
      obtain ⟨v, t⟩ := x
      obtain ⟨f, hfm, k, hk, hm⟩ := FindSlotLoop_sound alist slot lcl hnul v t _ fs pos junk e2 e3
        e4 hf
      obtain ⟨t1, ht1⟩ := mem_locate fs (pos + junk.length + 1) f hfm
      exact ⟨(entryText f, t1), by rw [e1]; exact ht1, k, hk, hm⟩

/-! ## The modes of attention -/

/-- C40: `NameSaid` gives 1 for every mode `m <= 0`; a list accepted under a mode is
accepted under every lower mode (so mode 3 implies mode 2, which implies mode
1); and when it gives 1 for a mode of 1 or more on a list without NUL, one of
the entries of the list is a pair whose slot name is ATTN (compared without
regard to case). -/
theorem NameSaid_monotone (alist : Str) (pos : Nat) (hnul : NUL ∉ alist) :
    (∀ m : Int, m ≤ 0 → jhcGraphizer.NameSaid alist (some pos) m = some 1) ∧
    (∀ m n : Int, n ≤ m → jhcGraphizer.NameSaid alist (some pos) m = some 1 →
      jhcGraphizer.NameSaid alist (some pos) n = some 1) ∧
    (∀ m : Int, 1 ≤ m → jhcGraphizer.NameSaid alist (some pos) m = some 1 →
      ∃ e ∈ entriesFrom alist pos, ∃ k, strchr e.1 '=' = some k ∧
        stricmp_eq (e.1.take k) "ATTN".toList = true) := by
  refine ⟨?_, ?_, ?_⟩
  · intro m hm
    simp only [jhcGraphizer.NameSaid, if_pos hm]
  · intro m n hnm h
    by_cases hn : n ≤ 0
    · simp only [jhcGraphizer.NameSaid, if_pos hn]
    · have hm : ¬ m ≤ 0 := by omega
      unfold jhcGraphizer.NameSaid at h ⊢
      rw [if_neg hm] at h
      rw [if_neg hn]
      cases hs : HasSlot alist (some pos) "ATTN".toList FindSlot_local with
      | none => rw [hs] at h; cases h
      | some b =>
        cases b with
        | false => rw [hs] at h; simp at h
        | true =>
          rw [hs] at h
          simp only at h ⊢
          by_cases h1 : n = 1
          · rw [if_pos h1]
          · have hm1 : ¬ m = 1 := by omega
            rw [if_neg h1]
            rw [if_neg hm1] at h
            cases hx : (NextMatches alist (some pos) "ATTN".toList 4).run with
            | none => rw [hx] at h; cases h
            | some r =>
              cases r with
              | none => rw [hx] at h; simp at h
              | some tail =>
                rw [hx] at h
                simp only at h ⊢
                by_cases h2 : n = 2
                · rw [if_pos h2]
                · have hm2 : ¬ m = 2 := by omega
                  rw [if_neg h2]
                  rw [if_neg hm2] at h
                  exact h
  · intro m hm h
    have hm0 : ¬ m ≤ 0 := by omega
    unfold jhcGraphizer.NameSaid at h
    rw [if_neg hm0] at h
    cases hs : HasSlot alist (some pos) "ATTN".toList FindSlot_local with
    | none => rw [hs] at h; cases h
    | some b =>
      cases b with
      | false => rw [hs] at h; simp at h
      | true => exact HasSlot_sound alist _ pos _ hnul hs

theorem NameSaid_monotone_witness :
    jhcGraphizer.NameSaid "\tATTN=robot".toList (some 0) 2 = some 1 :=
  (NameSaid_monotone "\tATTN=robot".toList 0 (by decide)).2.1 3 2 (by decide) (by decide)

/-! ## Reading pairs and whole fragments -/

theorem getD_zero_copy (f stale : Str) (h0 : f ≠ []) :
    (f ++ NUL :: stale).getD 0 NUL = f.getD 0 NUL := by
  cases f with
  | nil => exact absurd rfl h0
  | cons x xs => rfl

/-- The next pair of a fragment whose first entry is a pair. -/
theorem FragNextPair_pair (alist : Str) (pos : Nat) (p : Str) (fs : List Str) (junk : Str)
    (hnul : NUL ∉ alist) (hs : alist.drop pos = render (p :: fs)) (hp : Clean p)
    (hm : isFragTag p = false) (he : (strchr p '=').isSome = true) :
    FragNextPair alist (some pos) junk 200 =
        .ptr (p ++ NUL :: junk.drop (p.length + 1), pos + 1 + p.length) ∧
      cstr (p ++ NUL :: junk.drop (p.length + 1)) = p ∧
      alist.drop (pos + 1 + p.length) = render fs := by
  obtain ⟨h1, h2⟩ := NextEntry_clean alist pos p fs junk hs hp
  have hn := NUL_not_mem_field alist pos p fs hs hnul
  have hmk : isMark (p.getD 0 NUL) = false := by rw [isMark_clean p hp hn]; exact hm
  refine ⟨?_, cstr_copy _ _ hn, h2⟩
  simp only [FragNextPair, FragNextPairLoop, h1, getD_zero_copy p _ hp.1, hmk, Bool.false_eq_true,
    if_false, cstr_copy _ _ hn, he, and_self, if_true]

/-- No pair is left in a fragment when the next entry is the marker that closes
it. -/
theorem FragNextPair_close (alist : Str) (pos : Nat) (cl : Str) (fs : List Str) (junk : Str)
    (hnul : NUL ∉ alist) (hs : alist.drop pos = render (cl :: fs)) (hcl : isClose cl = true) :
    FragNextPair alist (some pos) junk 200 = .null := by
  have hc := isClose_clean cl hcl
  obtain ⟨h1, _⟩ := NextEntry_clean alist pos cl fs junk hs hc
  match cl, hcl, h1 with
  | [c], hcl, h1 =>
    have hn := NUL_not_mem_field alist pos [c] fs hs hnul
    have hcn : c ≠ NUL := fun e => hn (by simp [e])
    have hmk : isMark c = true := by
      rw [isMark_eq c hcn]
      simpa [isClose] using hcl
    simp only [FragNextPair, FragNextPairLoop, h1, List.cons_append, List.nil_append,
      List.getD_cons_zero, List.getD_cons_succ, hmk, if_true]
    simp

/-- Closing a fragment from its head: the position after the marker that closes
it. -/
theorem FragClose_head (alist : Str) (pos : Nat) (head : Str) (body : List Str) (cl : Str)
    (fs : List Str) (junk : Str) (hnul : NUL ∉ alist)
    (hs : alist.drop pos = render (head :: (body ++ cl :: fs))) (hh : Clean head)
    (ho : isOpen head = true) (hb : ∀ f ∈ body, Clean f) (hbal : Balanced body)
    (hcl : isClose cl = true) (hfs : ∀ f ∈ fs, Clean f) :
    FragClose alist (some pos) FragClose_skip junk =
        .ptr (pos + 1 + head.length + (render body).length + 1 + cl.length) ∧
      alist.drop (pos + 1 + head.length + (render body).length + 1 + cl.length) = render fs := by
  have hall : ∀ f ∈ head :: (body ++ cl :: fs), Clean f := by
    intro f hf
    rcases List.mem_cons.1 hf with rfl | hf
    · exact hh
    rcases List.mem_append.1 hf with hf | hf
    · exact hb f hf
    · rcases List.mem_cons.1 hf with rfl | hf
      · exact isClose_clean _ hcl
      · exact hfs f hf
  have hlen : (head :: (body ++ cl :: fs)).length < alist.length + 1 := by
    have h1 := render_length (head :: (body ++ cl :: fs))
    have h2 : (alist.drop pos).length ≤ alist.length := by simp
    rw [hs] at h2
    omega
  have href := closeLoop_refines alist hnul (head :: (body ++ cl :: fs)) pos [] junk (-1)
    (alist.length + 1) (by rw [hs]; rfl) (by simp) (fun f hf => (hall f hf).2.2.1)
    (fun f hf => by rw [entryText_clean f (hall f hf)]; exact (hall f hf).1) hlen
  have hscan := closeScan_body cl fs hcl body (pos + 0 + 1 + head.length + 1) 0 hb
    (fun j hj => by simpa using hbal.2 j hj) (by simpa using hbal.1)
  obtain ⟨_, h2⟩ := NextEntry_clean alist pos head _ junk hs hh
  obtain ⟨_, h4⟩ := FragClose_body alist _ body cl fs junk hnul h2 hb hbal hcl hfs
  constructor
  · simp only [FragClose, FragClose_skip, gt_iff_lt, zero_lt_one, if_true]
    rw [href]
    simp only [List.length_nil, locate, closeScan, entryText_clean head hh, hh.2.1,
      not_true_eq_false, if_false, ho, if_true]
    have e : (-1 : Int) + 1 = 0 := by norm_num
    rw [e, hscan]
    congr 1
    omega
  · exact h4

/-! ## The negation of a copula -/

theorem CopPair_text_plain (p : CopPair) :
    isFragTag p.text = false ∧ (strchr p.text '=').isSome = true ∧ isOpen p.text = false ∧
      isClose p.text = false := by
  cases p <;> simp [CopPair.text, isFragTag, strchr, isOpen, isClose]

theorem net_plain (l : List Str) (h : ∀ f ∈ l, isOpen f = false ∧ isClose f = false) :
    net l = 0 := by
  induction l with
  | nil => rfl
  | cons f l ih =>
    have h1 := h f (by simp)
    rw [net_cons, ih (fun g hg => h g (by simp [hg]))]
    simp [delta, h1.1, h1.2]

theorem balanced_plain (l : List Str) (h : ∀ f ∈ l, isOpen f = false ∧ isClose f = false) :
    Balanced l := by
  refine ⟨net_plain l h, fun j _ => ?_⟩
  rw [net_plain _ (fun f hf => h f (List.mem_of_mem_take hf))]

/-- The entry read is the tag asked for. -/
theorem NextMatches_clean (alist : Str) (pos : Nat) (f tag : Str) (n : Int) (fs : List Str)
    (hnul : NUL ∉ alist) (hs : alist.drop pos = render (f :: fs)) (hf : Clean f) (hn : n > 0) :
    NextMatches alist (some pos) tag n =
      if strncmp_eq f tag n.toNat then .ptr (pos + 1 + f.length) else .null := by
  obtain ⟨h1, _⟩ := NextEntry_clean alist pos f fs [] hs hf
  have hnf := NUL_not_mem_field alist pos f fs hs hnul
  simp only [NextMatches, h1, cstr_copy _ _ hnf, hn, if_true]

theorem netbuild_add_cop_pair_plain (mf : MorphLex) (u : Uninit) (list : Str) (obj : Nat)
    (p : CopPair) (tail : Nat) (pool : jhcNodePool) (neg : Int) :
    jhcNetBuild.add_cop_pair mf u list obj p.text tail pool neg 10 =
      some (some tail, pool ++ copFacts obj neg [p], copNeg neg [p], 10) := by
  cases p <;>
    simp [jhcNetBuild.add_cop_pair, SlotGet, SlotStart, strncmp_eq, strchr, CopPair.text,
      AddProp_some, copFacts, copNeg, SlotGet_lower]

theorem graphizer_add_cop_pair_plain (u : Uninit) (list : Str) (obj : Nat)
    (p : CopPair) (tail : Nat) (pool : jhcNodePool) (neg : Int) :
    jhcGraphizer.add_cop_pair u list obj p.text tail pool neg 10 =
      some (some tail, pool ++ copFacts obj neg [p], copNeg neg [p], 10) := by
  cases p <;>
    simp [jhcGraphizer.add_cop_pair, SlotGet, SlotStart, strncmp_eq, strchr, CopPair.text,
      AddProp_some, copFacts, copNeg, SlotGet_lower]

theorem copFacts_cons (obj : Nat) (n : Int) (p : CopPair) (ps : List CopPair) :
    copFacts obj n (p :: ps) = copFacts obj n [p] ++ copFacts obj (copNeg n [p]) ps := by
  cases p <;> simp [copFacts, copNeg]

theorem copNeg_cons (n : Int) (p : CopPair) (ps : List CopPair) :
    copNeg n (p :: ps) = copNeg (copNeg n [p]) ps := by
  cases p <;> simp [copNeg]

theorem netbuild_add_cop_loop_plain (mf : MorphLex) (u : Uninit) (list : Str) (obj : Nat) (cl : Str)
    (fs : List Str) (hnul : NUL ∉ list) (hcl : isClose cl = true) :
    ∀ (ps : List CopPair) (pos : Nat) (next : Str) (pool : jhcNodePool) (neg : Int) (fuel : Nat),
      ps.length < fuel → list.drop pos = render (ps.map CopPair.text ++ cl :: fs) →
      (∀ p ∈ ps, Clean p.text) →
      jhcNetBuild.add_cop_loop mf u list obj fuel (some pos) next pool neg 10 (some pos) =
        some (pool ++ copFacts obj neg ps, copNeg neg ps, 10,
          some (pos + (render (ps.map CopPair.text)).length)) := by
  intro ps
  induction ps with
  | nil =>
    intro pos next pool neg fuel hfuel hs _
    obtain ⟨k, rfl⟩ : ∃ k, fuel = k + 1 := ⟨fuel - 1, by simp at hfuel; omega⟩
    have h1 := FragNextPair_close list pos cl fs next hnul hs hcl
    simp only [jhcNetBuild.add_cop_loop, h1, copFacts, copNeg, List.append_nil, List.map_nil, render,
      List.length_nil, Nat.add_zero]
  | cons p ps ih =>
    intro pos next pool neg fuel hfuel hs hc
    obtain ⟨k, rfl⟩ : ∃ k, fuel = k + 1 := ⟨fuel - 1, by simp at hfuel; omega⟩
    have hpl := CopPair_text_plain p
    have hs' : list.drop pos = render (p.text :: (ps.map CopPair.text ++ cl :: fs)) := by
      rw [hs]; rfl
    obtain ⟨h1, h2, h3⟩ := FragNextPair_pair list pos p.text _ next hnul hs' (hc p (by simp))
      hpl.1 hpl.2.1
    have IH := ih (pos + 1 + p.text.length) (p.text ++ NUL :: next.drop (p.text.length + 1))
      (pool ++ copFacts obj neg [p]) (copNeg neg [p]) k (by simp only [List.length_cons] at hfuel; omega) h3
      (fun q hq => hc q (by simp [hq]))
    rw [jhcNetBuild.add_cop_loop]
    simp only [h1, h2, netbuild_add_cop_pair_plain, IH]
    rw [copFacts_cons obj neg p ps, copNeg_cons neg p ps, List.append_assoc, List.map_cons,
      render_cons_length]
    simp only [Nat.add_assoc, Nat.add_comm, Nat.add_left_comm]

theorem graphizer_add_cop_loop_plain (u : Uninit) (list : Str) (obj : Nat) (cl : Str)
    (fs : List Str) (hnul : NUL ∉ list) (hcl : isClose cl = true) :
    ∀ (ps : List CopPair) (pos : Nat) (next : Str) (pool : jhcNodePool) (neg : Int) (fuel : Nat),
      ps.length < fuel → list.drop pos = render (ps.map CopPair.text ++ cl :: fs) →
      (∀ p ∈ ps, Clean p.text) →
      jhcGraphizer.add_cop_loop u list obj fuel (some pos) next pool neg 10 (some pos) =
        some (pool ++ copFacts obj neg ps, copNeg neg ps, 10,
          some (pos + (render (ps.map CopPair.text)).length)) := by
  intro ps
  induction ps with
  | nil =>
    intro pos next pool neg fuel hfuel hs _
    obtain ⟨k, rfl⟩ : ∃ k, fuel = k + 1 := ⟨fuel - 1, by simp at hfuel; omega⟩
    have h1 := FragNextPair_close list pos cl fs next hnul hs hcl
    simp only [jhcGraphizer.add_cop_loop, h1, copFacts, copNeg, List.append_nil, List.map_nil, render,
      List.length_nil, Nat.add_zero]
  | cons p ps ih =>
    intro pos next pool neg fuel hfuel hs hc
    obtain ⟨k, rfl⟩ : ∃ k, fuel = k + 1 := ⟨fuel - 1, by simp at hfuel; omega⟩
    have hpl := CopPair_text_plain p
    have hs' : list.drop pos = render (p.text :: (ps.map CopPair.text ++ cl :: fs)) := by
      rw [hs]; rfl
    obtain ⟨h1, h2, h3⟩ := FragNextPair_pair list pos p.text _ next hnul hs' (hc p (by simp))
      hpl.1 hpl.2.1
    have IH := ih (pos + 1 + p.text.length) (p.text ++ NUL :: next.drop (p.text.length + 1))
      (pool ++ copFacts obj neg [p]) (copNeg neg [p]) k (by simp only [List.length_cons] at hfuel; omega) h3
      (fun q hq => hc q (by simp [hq]))
    rw [jhcGraphizer.add_cop_loop]
    simp only [h1, h2, graphizer_add_cop_pair_plain, IH]
    rw [copFacts_cons obj neg p ps, copNeg_cons neg p ps, List.append_assoc, List.map_cons,
      render_cons_length]
    simp only [Nat.add_assoc, Nat.add_comm, Nat.add_left_comm]

/-- At a bare close marker no object description starts. -/
theorem netbuild_build_obj_close (mf : MorphLex) (u : Uninit) (list : Str) (pos : Nat) (cl : Str) (fs : List Str)
    (hnul : NUL ∉ list) (hs : list.drop pos = render (cl :: fs)) (hcl : isClose cl = true)
    (pool : jhcNodePool) (f0 : Option Nat) (neg : Int) (blf : Nat) :
    jhcNetBuild.build_obj mf u list false (some pos) pool f0 neg blf = some ((none, none), pool) := by
  obtain ⟨h1, _⟩ := NextEntry_clean list pos cl fs u.array hs (isClose_clean cl hcl)
  have hnf := NUL_not_mem_field list pos cl fs hs hnul
  have hcmp : strncmp_eq cl "%obj".toList 4 = false := by
    match cl, hcl with
    | [c], hcl =>
      simp only [isClose, Bool.or_eq_true, beq_iff_eq] at hcl
      rcases hcl with (rfl | rfl) | rfl <;> decide
  simp only [jhcNetBuild.build_obj, jhcNetBuild.build_obj_fuel, jhcNetBuild.build_obj_nr, h1, Ret.run,
    Option.map_some', Option.getD_some, cstr_copy _ _ hnf, hcmp, Bool.not_false, if_true]

/-- At a bare close marker no event description starts. -/
theorem netbuild_add_evt_close (mf : MorphLex) (u : Uninit) (list : Str) (obj pos : Nat) (cl : Str) (fs : List Str)
    (hnul : NUL ∉ list) (hs : list.drop pos = render (cl :: fs)) (hcl : isClose cl = true)
    (pool : jhcNodePool) (neg : Int) (blf : Nat) :
    jhcNetBuild.add_evt mf u list obj (some pos) pool neg blf = some (some pos, pool) := by
  have hcmp : strncmp_eq cl "%evt".toList 4 = false := by
    match cl, hcl with
    | [c], hcl =>
      simp only [isClose, Bool.or_eq_true, beq_iff_eq] at hcl
      rcases hcl with (rfl | rfl) | rfl <;> decide
  simp only [jhcNetBuild.add_evt, NextMatches_clean list pos cl "%evt".toList 4 fs hnul hs
    (isClose_clean cl hcl) (by decide), show (4 : Int).toNat = 4 from rfl, hcmp, Ret.run,
    Bool.false_eq_true, if_false]

/-- A copula of negation, name and quality pairs, read to its close marker. -/
theorem netbuild_add_cop_plain (mf : MorphLex) (u : Uninit) (list : Str) (obj pos : Nat) (ps : List CopPair)
    (cl : Str) (fs : List Str) (pool : jhcNodePool) (hnul : NUL ∉ list)
    (hs : list.drop pos = render ("$add".toList :: (ps.map CopPair.text ++ cl :: fs)))
    (hps : ∀ p ∈ ps, Clean p.text) (hcl : isClose cl = true) (hfs : ∀ f ∈ fs, Clean f) :
    jhcNetBuild.add_cop mf u list obj (some pos) pool =
      some (some (pos + 1 + 4 + (render (ps.map CopPair.text)).length + 1 + cl.length),
        pool ++ copFacts obj 0 ps) := by
  have hm := NextMatches_clean list pos "$add".toList "$add".toList 4 _ hnul hs (by decide)
    (by decide)
  obtain ⟨_, hd⟩ := NextEntry_clean list pos "$add".toList _ [] hs (by decide)
  have hlen : ps.length < list.length + 1 := by
    have h1 := congrArg List.length hd
    have h2 := render_length (ps.map CopPair.text ++ cl :: fs)
    simp only [List.length_drop, List.length_append, List.length_map, List.length_cons] at h1 h2
    omega
  have hl := netbuild_add_cop_loop_plain mf u list obj cl fs hnul hcl ps (pos + 1 + 4) u.array pool 0
    (list.length + 1) hlen hd hps
  have hd2 : list.drop (pos + 1 + 4 + (render (ps.map CopPair.text)).length) =
      render (cl :: fs) := by
    rw [← List.drop_drop]
    have hd' : list.drop (pos + 1 + 4) = render (ps.map CopPair.text ++ cl :: fs) := hd
    rw [hd', render_append, List.drop_left]
  have hplain : ∀ f ∈ ps.map CopPair.text, isOpen f = false ∧ isClose f = false := by
    intro f hf
    obtain ⟨p, _, rfl⟩ := List.mem_map.1 hf
    exact ⟨(CopPair_text_plain p).2.2.1, (CopPair_text_plain p).2.2.2⟩
  have hfc := (FragClose_head list pos "$add".toList (ps.map CopPair.text) cl fs u.array hnul hs
    (by decide) (by decide)
    (fun f hf => by obtain ⟨p, hp, rfl⟩ := List.mem_map.1 hf; exact hps p hp)
    (balanced_plain _ hplain) hcl hfs).1
  have hm' : NextMatches list (some pos) "$add".toList 4 = .ptr (pos + 1 + 4) := by
    rw [hm]; rfl
  simp only [jhcNetBuild.add_cop, hm', Ret.run, hl,
    netbuild_build_obj_close mf u list _ cl fs hnul hd2 hcl,
    netbuild_add_evt_close mf u list obj _ cl fs hnul hd2 hcl, hfc, Option.map_some']
  rfl

/-- At a bare close marker no object description starts. -/
theorem graphizer_build_obj_close (u : Uninit) (list : Str) (pos : Nat) (cl : Str) (fs : List Str)
    (hnul : NUL ∉ list) (hs : list.drop pos = render (cl :: fs)) (hcl : isClose cl = true)
    (pool : jhcNodePool) (f0 : Option Nat)  (blf : Nat) :
    jhcGraphizer.build_obj u list false (some pos) pool f0 blf = some ((none, none), pool) := by
  obtain ⟨h1, _⟩ := NextEntry_clean list pos cl fs u.array hs (isClose_clean cl hcl)
  have hnf := NUL_not_mem_field list pos cl fs hs hnul
  have hcmp : strncmp_eq cl "%obj".toList 4 = false := by
    match cl, hcl with
    | [c], hcl =>
      simp only [isClose, Bool.or_eq_true, beq_iff_eq] at hcl
      rcases hcl with (rfl | rfl) | rfl <;> decide
  simp only [jhcGraphizer.build_obj, jhcGraphizer.build_obj_fuel, jhcGraphizer.build_obj_nr, h1, Ret.run,
    Option.map_some', Option.getD_some, cstr_copy _ _ hnf, hcmp, Bool.not_false, if_true]

/-- At a bare close marker no event description starts. -/
theorem graphizer_add_evt_close (u : Uninit) (list : Str) (obj pos : Nat) (cl : Str) (fs : List Str)
    (hnul : NUL ∉ list) (hs : list.drop pos = render (cl :: fs)) (hcl : isClose cl = true)
    (pool : jhcNodePool) (neg : Int) (blf : Nat) :
    jhcGraphizer.add_evt u list obj (some pos) pool neg blf = some (some pos, pool) := by
  have hcmp : strncmp_eq cl "%evt".toList 4 = false := by
    match cl, hcl with
    | [c], hcl =>
      simp only [isClose, Bool.or_eq_true, beq_iff_eq] at hcl
      rcases hcl with (rfl | rfl) | rfl <;> decide
  simp only [jhcGraphizer.add_evt, NextMatches_clean list pos cl "%evt".toList 4 fs hnul hs
    (isClose_clean cl hcl) (by decide), show (4 : Int).toNat = 4 from rfl, hcmp, Ret.run,
    Bool.false_eq_true, if_false]

/-- A copula of negation, name and quality pairs, read to its close marker. -/
theorem graphizer_add_cop_plain (u : Uninit) (list : Str) (obj pos : Nat) (ps : List CopPair)
    (cl : Str) (fs : List Str) (pool : jhcNodePool) (hnul : NUL ∉ list)
    (hs : list.drop pos = render ("$add".toList :: (ps.map CopPair.text ++ cl :: fs)))
    (hps : ∀ p ∈ ps, Clean p.text) (hcl : isClose cl = true) (hfs : ∀ f ∈ fs, Clean f) :
    jhcGraphizer.add_cop u list obj (some pos) pool =
      some (some (pos + 1 + 4 + (render (ps.map CopPair.text)).length + 1 + cl.length),
        pool ++ copFacts obj 0 ps) := by
  have hm := NextMatches_clean list pos "$add".toList "$add".toList 4 _ hnul hs (by decide)
    (by decide)
  obtain ⟨_, hd⟩ := NextEntry_clean list pos "$add".toList _ [] hs (by decide)
  have hlen : ps.length < list.length + 1 := by
    have h1 := congrArg List.length hd
    have h2 := render_length (ps.map CopPair.text ++ cl :: fs)
    simp only [List.length_drop, List.length_append, List.length_map, List.length_cons] at h1 h2
    omega
  have hl := graphizer_add_cop_loop_plain u list obj cl fs hnul hcl ps (pos + 1 + 4) u.array pool 0
    (list.length + 1) hlen hd hps
  have hd2 : list.drop (pos + 1 + 4 + (render (ps.map CopPair.text)).length) =
      render (cl :: fs) := by
    rw [← List.drop_drop]
    have hd' : list.drop (pos + 1 + 4) = render (ps.map CopPair.text ++ cl :: fs) := hd
    rw [hd', render_append, List.drop_left]
  have hplain : ∀ f ∈ ps.map CopPair.text, isOpen f = false ∧ isClose f = false := by
    intro f hf
    obtain ⟨p, _, rfl⟩ := List.mem_map.1 hf
    exact ⟨(CopPair_text_plain p).2.2.1, (CopPair_text_plain p).2.2.2⟩
  have hfc := (FragClose_head list pos "$add".toList (ps.map CopPair.text) cl fs u.array hnul hs
    (by decide) (by decide)
    (fun f hf => by obtain ⟨p, hp, rfl⟩ := List.mem_map.1 hf; exact hps p hp)
    (balanced_plain _ hplain) hcl hfs).1
  have hm' : NextMatches list (some pos) "$add".toList 4 = .ptr (pos + 1 + 4) := by
    rw [hm]; rfl
  simp only [jhcGraphizer.add_cop, hm', Ret.run, hl,
    graphizer_build_obj_close u list _ cl fs hnul hd2 hcl,
    graphizer_add_evt_close u list obj _ cl fs hnul hd2 hcl, hfc, Option.map_some']
  rfl

theorem copFacts_neg_one (obj : Nat) (ps : List CopPair) :
    ∀ x ∈ copFacts obj 1 ps, x.neg = 1 := by
  induction ps with
  | nil => intro x hx; simp [copFacts] at hx
  | cons p ps ih =>
    intro x hx
    cases p with
    | neg w => exact ih x (by simpa [copFacts] using hx)
    | name v =>
      simp only [copFacts, List.mem_cons] at hx
      rcases hx with rfl | hx
      · rfl
      · exact ih x hx
    | hq v =>
      simp only [copFacts, List.mem_cons] at hx
      rcases hx with rfl | hx
      · rfl
      · exact ih x hx

theorem copFacts_before (obj : Nat) (w : Str) (post : List CopPair) :
    ∀ pre : List CopPair, (∀ p ∈ pre, ∀ v, p ≠ .neg v) →
      copFacts obj 0 (pre ++ .neg w :: post) = copFacts obj 0 pre ++ copFacts obj 1 post ∧
        (copFacts obj 0 pre).length = pre.length ∧ ∀ x ∈ copFacts obj 0 pre, x.neg = 0 := by
  intro pre
  induction pre with
  | nil => intro _; simp [copFacts]
  | cons p pre ih =>
    intro h
    obtain ⟨h1, h2, h3⟩ := ih (fun q hq => h q (by simp [hq]))
    cases p with
    | neg v => exact absurd rfl (h (.neg v) (by simp) v)
    | name v =>
      refine ⟨by simp [copFacts, h1], by simp [copFacts, h2], ?_⟩
      intro x hx
      simp only [copFacts, List.mem_cons] at hx
      rcases hx with rfl | hx
      · rfl
      · exact h3 x hx
    | hq v =>
      refine ⟨by simp [copFacts, h1], by simp [copFacts, h2], ?_⟩
      intro x hx
      simp only [copFacts, List.mem_cons] at hx
      rcases hx with rfl | hx
      · rfl
      · exact h3 x hx

/-- C33 (the code does not do this): `add_cop` (of `jhcNetBuild` and of `jhcGraphizer`) sets its
negation when it reads the NEG pair, in the one pass that adds the facts.  On a
list that holds a copula fragment of negation, name and quality pairs it
returns past the fragment and gives the subject one fact per name and quality,
each with the negation in force when its pair is read: the facts of the pairs
before the first word of negation are not negated, those of the pairs after
it are. -/
theorem copula_negation_order (mf : MorphLex) (u : Uninit) (list : Str) (obj pos : Nat)
    (ps : List CopPair) (cl : Str) (fs : List Str) (pool : jhcNodePool) (hnul : NUL ∉ list)
    (hs : list.drop pos = render ("$add".toList :: (ps.map CopPair.text ++ cl :: fs)))
    (hps : ∀ p ∈ ps, Clean p.text) (hcl : isClose cl = true) (hfs : ∀ f ∈ fs, Clean f) :
    jhcNetBuild.add_cop mf u list obj (some pos) pool =
        some (some (pos + 1 + 4 + (render (ps.map CopPair.text)).length + 1 + cl.length),
          pool ++ copFacts obj 0 ps) ∧
      jhcGraphizer.add_cop u list obj (some pos) pool =
        some (some (pos + 1 + 4 + (render (ps.map CopPair.text)).length + 1 + cl.length),
          pool ++ copFacts obj 0 ps) ∧
      ∀ pre w post, ps = pre ++ .neg w :: post → (∀ p ∈ pre, ∀ v, p ≠ .neg v) →
        copFacts obj 0 ps = copFacts obj 0 pre ++ copFacts obj 1 post ∧
          (copFacts obj 0 pre).length = pre.length ∧
          (∀ x ∈ copFacts obj 0 pre, x.neg = 0) ∧ ∀ x ∈ copFacts obj 1 post, x.neg = 1 := by
  refine ⟨netbuild_add_cop_plain mf u list obj pos ps cl fs pool hnul hs hps hcl hfs,
    graphizer_add_cop_plain u list obj pos ps cl fs pool hnul hs hps hcl hfs, ?_⟩
  rintro pre w post rfl hpre
  obtain ⟨h1, h2, h3⟩ := copFacts_before obj w post pre hpre
  exact ⟨h1, h2, h3, copFacts_neg_one obj post⟩

theorem copula_negation_order_witness :
    jhcGraphizer.add_cop ⟨[], 0⟩ "\t$add\tHQ=big\tNEG=not\tHQ=red\tNAME=Rex\t$".toList 0 (some 0)
        [⟨"obj".toList, none, 0, 10, [], 0⟩] =
      some (some 38, [⟨"obj".toList, none, 0, 10, [], 0⟩,
        ⟨"hq".toList, some "big".toList, 0, 10, [("hq".toList, 0)], 0⟩,
        ⟨"hq".toList, some "red".toList, 1, 10, [("hq".toList, 0)], 0⟩,
        ⟨"Rex".toList, none, 1, 10, [("lex".toList, 0)], 0⟩]) :=
  (copula_negation_order ⟨fun _ _ => (none, 0), fun _ _ => (none, 0)⟩ ⟨[], 0⟩
    "\t$add\tHQ=big\tNEG=not\tHQ=red\tNAME=Rex\t$".toList 0 0
    [.hq "big".toList, .neg "not".toList, .hq "red".toList, .name "Rex".toList] "$".toList []
    [⟨"obj".toList, none, 0, 10, [], 0⟩] (by decide) (by decide) (by decide) (by decide)
    (by simp)).2.1

/-! ## The degree of a location -/

/-- The newest node of a pool is the last fact of the node it is linked to. -/
theorem Facts_last (p : jhcNodePool) (nd : jhcNetNode) (obj : Nat) (role : Str)
    (h : (role, obj) ∈ nd.args) : (Facts (p ++ [nd]) obj role).getLast? = some p.length := by
  have key : ∀ f : Nat → Bool, f p.length = true →
      ((List.range (p.length + 1)).filter f).getLast? = some p.length := by
    intro f hf
    simp [List.range_succ, List.filter_append, hf]
  have hlen : (p ++ [nd]).length = p.length + 1 := by simp
  unfold Facts
  rw [hlen]
  apply key
  have hg : (p ++ [nd])[p.length]? = some nd := by simp
  simp only [hg]
  exact List.elem_eq_true_of_mem h

/-- C36 (the code does not do this): the pair after a DEG slot is a LOC pair.  When
`jhcGraphizer::build_obj` finds no anchor after it, `jhcGraphizer::obj_loc` adds no `loc` fact and
`jhcGraphizer::obj_deg` hangs the degree on the last `loc` fact that the object had before the
call, or on no fact at all; when one anchor is found the degree is on the new
`loc` fact.  `jhcNetBuild::obj_deg` adds the `loc` fact first (`add_place`) and the degree is on it
also without an anchor. -/
theorem obj_deg_loc_anchor (bo : BuildObj) (u : Uninit) (list : Str) (obj : Nat) (amt : Str)
    (alist : Option Nat) (pool : jhcNodePool) (neg : Int) (blf : Nat) (p : Str) (tail : Nat)
    (rel : Str) (h1 : FragNextPair list alist u.array 200 = .ptr (p, tail))
    (h2 : SlotGet (cstr p) (some "HQ".toList) SlotGet_lower = none)
    (h3 : SlotGet (cstr p) (some "LOC".toList) SlotGet_lower = some rel) :
    (∀ x p1, bo (some tail) pool = some ((none, x), p1) →
      jhcGraphizer.obj_deg bo u list obj amt alist pool neg blf =
        some (some tail, p1 ++ [⟨"deg".toList, some amt, 0, 10,
          match (Facts p1 obj "loc".toList).getLast? with
          | none => []
          | some f => [("deg".toList, f)], 0⟩])) ∧
    (∀ ref t1 p1, bo (some tail) pool = some ((some ref, t1), p1) →
      SlotStart (cstr p) (some "LOC-2".toList) ≤ 0 →
      jhcGraphizer.obj_deg bo u list obj amt alist pool neg blf =
        some (t1, p1 ++ [⟨"loc".toList, some rel, neg, blf,
            [("loc".toList, obj), ("wrt".toList, ref)], 0⟩,
          ⟨"deg".toList, some amt, 0, 10, [("deg".toList, p1.length)], 0⟩])) ∧
    (∀ x, bo (some tail) (pool ++ [⟨"loc".toList, some rel, neg, blf, [("loc".toList, obj)], 0⟩]) =
        some ((none, x), pool ++ [⟨"loc".toList, some rel, neg, blf, [("loc".toList, obj)], 0⟩]) →
      jhcNetBuild.obj_deg bo u list obj amt alist pool neg blf =
        some (some tail, pool ++ [⟨"loc".toList, some rel, neg, blf, [("loc".toList, obj)], 0⟩,
          ⟨"deg".toList, some amt, 0, 10, [("deg".toList, pool.length)], 0⟩])) := by
  refine ⟨?_, ?_, ?_⟩
  · intro x p1 hb
    simp only [jhcGraphizer.obj_deg, h1, h2, h3, jhcGraphizer.obj_loc, hb]
    cases hf : (Facts p1 obj "loc".toList).getLast? with
    | none => simp [AddProp_none]
    | some f => simp [AddProp_some]
  · intro ref t1 p1 hb h2'
    simp only [jhcGraphizer.obj_deg, h1, h2, h3, jhcGraphizer.obj_loc, hb, h2', if_true,
      AddProp_some, Option.getD_none, AddArg_last]
    rw [Facts_last p1 _ obj "loc".toList (by simp)]
    simp [AddProp_some]
  · intro x hb
    by_cases h0 : SlotStart (cstr p) (some "LOC-0".toList) > 0
    · simp only [jhcNetBuild.obj_deg, h1, h2, h3, jhcNetBuild.add_place, AddProp_some,
        Option.getD_none, h0, if_true]
      rw [Facts_last pool _ obj "loc".toList (by simp)]
      simp [AddProp_some]
    · simp only [jhcNetBuild.obj_deg, h1, h2, h3, jhcNetBuild.add_place, AddProp_some,
        Option.getD_none, h0, if_false, hb]
      rw [Facts_last pool _ obj "loc".toList (by simp)]
      simp [AddProp_some]

theorem obj_deg_loc_anchor_witness :
    jhcGraphizer.obj_deg (jhcGraphizer.build_obj_dflt ⟨[], 0⟩ "\tLOC=here\t$".toList) ⟨[], 0⟩
        "\tLOC=here\t$".toList 0 "very".toList (some 0)
        [⟨"obj".toList, none, 0, 10, [], 0⟩,
          ⟨"loc".toList, some "on".toList, 0, 10, [("loc".toList, 0)], 0⟩] 0 10 =
      some (some 9, [⟨"obj".toList, none, 0, 10, [], 0⟩,
        ⟨"loc".toList, some "on".toList, 0, 10, [("loc".toList, 0)], 0⟩,
        ⟨"deg".toList, some "very".toList, 0, 10, [("deg".toList, 1)], 0⟩]) :=
  (obj_deg_loc_anchor (jhcGraphizer.build_obj_dflt ⟨[], 0⟩ "\tLOC=here\t$".toList) ⟨[], 0⟩
    "\tLOC=here\t$".toList 0 "very".toList (some 0)
    [⟨"obj".toList, none, 0, 10, [], 0⟩,
      ⟨"loc".toList, some "on".toList, 0, 10, [("loc".toList, 0)], 0⟩] 0 10
    "LOC=here\x00".toList 9 "here".toList rfl rfl rfl).1 none _ rfl

/-! ## Finding a fragment by its tag -/

theorem entries_le_length (alist : Str) (pos : Nat) (fs : List Str)
    (hs : alist.drop pos = render fs) : fs.length < alist.length + 1 := by
  have a1 := render_length fs
  have a2 : (alist.drop pos).length ≤ alist.length := by simp
  rw [hs] at a2
  omega

/-- The loop of `FindFrag` on a list none of whose fragment tags is the one looked for. -/
theorem FindFragLoop_none (alist tag : Str) (hnul : NUL ∉ alist) :
    ∀ (fuel : Nat) (fs : List Str) (pos : Nat), (∀ f ∈ fs, Clean f) →
      alist.drop pos = render fs →
      (∀ f ∈ fs, isFragTag f = true → stricmp_eq f tag = false) →
      FindFragLoop alist tag fuel (some pos) = .null := by
  intro fuel
  induction fuel with
  | zero => intro fs pos _ _ _; rfl
  | succ k ih =>
    intro fs pos hfs hs hno
    rw [FindFragLoop]
    rcases NextFrag_clean alist pos fs hnul hfs hs with ⟨h1, _⟩ | ⟨pre, f, post, rfl, _, h2, h3, h4⟩
    · simp only [h1]
    · have hm := hno f (by simp) h2
      simp only [h3, hm, Bool.false_eq_true, if_false]
      exact ih post _ (fun g hg => hfs g (by simp [hg])) h4 (fun g hg => hno g (by simp [hg]))

/-- The loop of `FindFrag` stops after the first fragment tag that is the one looked
for. -/
theorem FindFragLoop_found (alist tag : Str) (hnul : NUL ∉ alist) (f : Str) (post : List Str)
    (hf : Clean f) (hm : isFragTag f = true) (heq : stricmp_eq f tag = true) :
    ∀ (n : Nat) (pre : List Str), pre.length ≤ n → ∀ (pos fuel : Nat), pre.length < fuel →
      (∀ g ∈ pre, Clean g) → alist.drop pos = render (pre ++ f :: post) →
      (∀ g ∈ pre, isFragTag g = true → stricmp_eq g tag = false) →
      FindFragLoop alist tag fuel (some pos) = .ptr (pos + (render pre).length + 1 + f.length) ∧
        alist.drop (pos + (render pre).length + 1 + f.length) = render post := by
  intro n
  induction n with
  | zero =>
    intro pre hn pos fuel hfuel hpre hs hno
    obtain rfl : pre = [] := List.length_eq_zero.1 (by omega)
    obtain ⟨k, rfl⟩ : ∃ k, fuel = k + 1 := ⟨fuel - 1, by omega⟩
    obtain ⟨h3, h4⟩ := NextFragLoop_first alist hnul f post hf hm [] pos [] (alist.length + 1)
      (by simp) (by simp) hs
    refine ⟨?_, h4⟩
    rw [FindFragLoop]
    simp only [NextFrag, h3, heq, if_true]
  | succ n ih =>
    intro pre hn pos fuel hfuel hpre hs hno
    obtain ⟨k, rfl⟩ : ∃ k, fuel = k + 1 := ⟨fuel - 1, by omega⟩
    rcases first_tag_split pre with h | ⟨a, t, b, rfl, h1, h2⟩
    · have hlen := entries_le_length alist pos _ hs
      obtain ⟨h3, h4⟩ := NextFragLoop_first alist hnul f post hf hm pre pos [] (alist.length + 1)
        (fun g hg => ⟨hpre g hg, h g hg⟩)
        (by simp only [List.length_append, List.length_cons] at hlen; omega) hs
      refine ⟨?_, h4⟩
      rw [FindFragLoop]
      simp only [NextFrag, h3, heq, if_true]
    · have hs' : alist.drop pos = render (a ++ t :: (b ++ f :: post)) := by
        rw [hs]; simp
      have hlen := entries_le_length alist pos _ hs'
      obtain ⟨h3, h4⟩ := NextFragLoop_first alist hnul t (b ++ f :: post) (hpre t (by simp)) h2 a
        pos [] (alist.length + 1) (fun g hg => ⟨hpre g (by simp [hg]), h1 g hg⟩)
        (by simp only [List.length_append, List.length_cons] at hlen; omega) hs'
      have hb : b.length ≤ n := by
        simp only [List.length_append, List.length_cons] at hn; omega
      obtain ⟨h5, h6⟩ := ih b hb (pos + (render a).length + 1 + t.length) k
        (by simp only [List.length_append, List.length_cons] at hfuel; omega)
        (fun g hg => hpre g (by simp [hg])) h4 (fun g hg => hno g (by simp [hg]))
      have e : pos + (render (a ++ t :: b)).length + 1 + f.length =
          pos + (render a).length + 1 + t.length + (render b).length + 1 + f.length := by
        rw [render_append, List.length_append, render_cons_length]; omega
      rw [e]
      refine ⟨?_, h6⟩
      rw [FindFragLoop]
      simp only [NextFrag, h3, hno t (by simp) h2, Bool.false_eq_true, if_false, h5]

/-- Finding a fragment in a well-formed list: the position after the first entry that
is a fragment tag equal to the one looked for. -/
theorem FindFrag_found (alist tag : Str) (pos : Nat) (pre : List Str) (f : Str)
    (post : List Str) (hnul : NUL ∉ alist) (hpre : ∀ g ∈ pre, Clean g) (hf : Clean f)
    (hs : alist.drop pos = render (pre ++ f :: post))
    (hno : ∀ g ∈ pre, isFragTag g = true → stricmp_eq g tag = false)
    (hm : isFragTag f = true) (heq : stricmp_eq f tag = true) :
    FindFrag alist (some pos) tag = .ptr (pos + (render pre).length + 1 + f.length) ∧
      alist.drop (pos + (render pre).length + 1 + f.length) = render post := by
  have hlen := entries_le_length alist pos _ hs
  exact FindFragLoop_found alist tag hnul f post hf hm heq pre.length pre (Nat.le_refl _) pos _
    (by simp only [List.length_append, List.length_cons] at hlen; omega) hpre hs hno

/-- Finding a fragment in a well-formed list that does not hold it. -/
theorem FindFrag_none (alist tag : Str) (pos : Nat) (fs : List Str) (hnul : NUL ∉ alist)
    (hfs : ∀ f ∈ fs, Clean f) (hs : alist.drop pos = render fs)
    (hno : ∀ f ∈ fs, isFragTag f = true → stricmp_eq f tag = false) :
    FindFrag alist (some pos) tag = .null :=
  FindFragLoop_none alist tag hnul _ fs pos hfs hs hno

/-! ## The kind of an operator -/

theorem SubFrag_text_clean (s : SubFrag) (h : s.Good) : ∀ f ∈ s.text, Clean f := by
  obtain ⟨h1, h2, _, _, h5, _, h7⟩ := h
  intro f hf
  simp only [SubFrag.text, List.mem_append, List.mem_cons, List.mem_singleton,
    List.not_mem_nil, or_false] at hf
  rcases hf with hf | rfl | hf | rfl
  · exact (h1 f hf).1
  · exact h2
  · exact h5 f hf
  · exact isClose_clean _ h7

theorem subsText_clean (ss : List SubFrag) (h : ∀ s ∈ ss, s.Good) :
    ∀ f ∈ subsText ss, Clean f := by
  induction ss with
  | nil => intro f hf; simp [subsText] at hf
  | cons s ss ih =>
    intro f hf
    simp only [subsText, List.mem_append] at hf
    rcases hf with hf | hf
    · exact SubFrag_text_clean s (h s (by simp)) f hf
    · exact ih (fun t ht => h t (by simp [ht])) f hf

/-- The loop of `FragNextFrag` goes past plain pairs to the next fragment and returns
its tag and the position after the marker that closes it. -/
theorem FragNextFragLoop_open (alist : Str) (hnul : NUL ∉ alist) (f : Str) (body : List Str)
    (cl : Str) (fs : List Str) (frag junk : Str) (hf : Clean f) (hm : isFragTag f = true)
    (hl : 2 ≤ f.length) (hb : ∀ g ∈ body, Clean g) (hbal : Balanced body)
    (hcl : isClose cl = true) (hfs : ∀ g ∈ fs, Clean g) :
    ∀ (plain : List Str) (pos : Nat) (entry : Str) (fuel : Nat), plain.length < fuel →
      (∀ g ∈ plain, Clean g ∧ isFragTag g = false) →
      alist.drop pos = render (plain ++ f :: (body ++ cl :: fs)) →
      ∃ p, alist.drop p = render fs ∧
        FragNextFragLoop alist 200 junk fuel pos entry frag = some (f, some p) := by
  intro plain
  induction plain with
  | nil =>
    intro pos entry fuel hfuel _ hs
    obtain ⟨k, rfl⟩ : ∃ k, fuel = k + 1 := ⟨fuel - 1, by simp at hfuel; omega⟩
    obtain ⟨h1, h2⟩ := NextEntry_clean alist pos f _ entry hs hf
    obtain ⟨h3, h4⟩ := FragClose_body alist _ body cl fs junk hnul h2 hb hbal hcl hfs
    have hn := NUL_not_mem_field alist pos f _ hs hnul
    refine ⟨_, h4, ?_⟩
    obtain ⟨a, b, r, rfl⟩ : ∃ a b r, f = a :: b :: r := by
      match f, hl with
      | a :: b :: r, _ => exact ⟨a, b, r, rfl⟩
    have hb0 : b ≠ NUL := fun e => hn (by simp [e])
    have hm' : isMark a = true := by
      have := isMark_clean (a :: b :: r) hf hn
      simp only [List.getD_cons_zero] at this
      rw [this]; exact hm
    simp only [FragNextFragLoop, h1, List.cons_append, List.getD_cons_zero,
      List.getD_cons_succ, hm', if_true, hb0, if_false]
    have hc : cstr (a :: b :: (r ++ NUL :: entry.drop ((a :: b :: r).length + 1))) =
        a :: b :: r := cstr_copy (a :: b :: r) _ hn
    rw [hc, if_pos hf.2.1, h3]
    rfl
  | cons g plain ih =>
    intro pos entry fuel hfuel hpl hs
    obtain ⟨k, rfl⟩ : ∃ k, fuel = k + 1 := ⟨fuel - 1, by simp at hfuel; omega⟩
    have hgc := (hpl g (by simp)).1
    have hgm := (hpl g (by simp)).2
    have hs' : alist.drop pos = render (g :: (plain ++ f :: (body ++ cl :: fs))) := by
      rw [hs]; rfl
    obtain ⟨h1, h2⟩ := NextEntry_clean alist pos g _ entry hs' hgc
    have hn := NUL_not_mem_field alist pos g _ hs' hnul
    have hg : (g ++ NUL :: entry.drop (g.length + 1)).getD 0 NUL = g.getD 0 NUL := by
      obtain ⟨h0, _⟩ := hgc
      cases g with
      | nil => exact absurd rfl h0
      | cons x xs => rfl
    have hmk : isMark (g.getD 0 NUL) = false := by rw [isMark_clean g hgc hn]; exact hgm
    obtain ⟨p, h3, h4⟩ := ih (pos + 1 + g.length) (g ++ NUL :: entry.drop (g.length + 1)) k
      (by simp only [List.length_cons] at hfuel; omega) (fun x hx => hpl x (by simp [hx])) h2
    refine ⟨p, h3, ?_⟩
    rw [FragNextFragLoop]
    simp only [h1, hg, hmk, Bool.false_eq_true, if_false, h4]

/-- The loop of `FragNextFrag` finds no fragment when plain pairs are followed by a bare
marker or by the end of the list. -/
theorem FragNextFragLoop_end (alist : Str) (hnul : NUL ∉ alist) (rest : List Str)
    (frag junk : Str) (hr : rest = [] ∨ ∃ cl fs, rest = cl :: fs ∧ isClose cl = true) :
    ∀ (plain : List Str) (pos : Nat) (entry : Str) (fuel : Nat),
      (∀ g ∈ plain, Clean g ∧ isFragTag g = false) →
      alist.drop pos = render (plain ++ rest) →
      FragNextFragLoop alist 200 junk fuel pos entry frag = some (frag, none) := by
  intro plain
  induction plain with
  | nil =>
    intro pos entry fuel _ hs
    cases fuel with
    | zero => rfl
    | succ k =>
      rcases hr with rfl | ⟨cl, fs, rfl, hcl⟩
      · have : NextEntry alist (some pos) entry 200 = .null :=
          NextEntry_done alist pos entry 200 (by rw [hs]; simp [render])
        simp only [FragNextFragLoop, this]
      · obtain ⟨h1, _⟩ := NextEntry_clean alist pos cl fs entry hs (isClose_clean cl hcl)
        match cl, hcl, h1 with
        | [c], hcl, h1 =>
          have hc : isMark c = true := by
            simp only [isClose, Bool.or_eq_true, beq_iff_eq] at hcl
            rcases hcl with (rfl | rfl) | rfl <;> decide
          simp only [FragNextFragLoop, h1, List.cons_append, List.nil_append,
            List.getD_cons_zero, List.getD_cons_succ, hc, if_true]
  | cons g plain ih =>
    intro pos entry fuel hpl hs
    cases fuel with
    | zero => rfl
    | succ k =>
      have hgc := (hpl g (by simp)).1
      have hgm := (hpl g (by simp)).2
      have hs' : alist.drop pos = render (g :: (plain ++ rest)) := by rw [hs]; rfl
      obtain ⟨h1, h2⟩ := NextEntry_clean alist pos g _ entry hs' hgc
      have hn := NUL_not_mem_field alist pos g _ hs' hnul
      have hg : (g ++ NUL :: entry.drop (g.length + 1)).getD 0 NUL = g.getD 0 NUL := by
        obtain ⟨h0, _⟩ := hgc
        cases g with
        | nil => exact absurd rfl h0
        | cons x xs => rfl
      have hmk : isMark (g.getD 0 NUL) = false := by rw [isMark_clean g hgc hn]; exact hgm
      rw [FragNextFragLoop]
      simp only [h1, hg, hmk, Bool.false_eq_true, if_false]
      exact ih _ _ k (fun x hx => hpl x (by simp [hx])) h2

/-- The loop of `create_op` goes past the closed fragments that are no directives. -/
theorem create_op_loop_skip {σ ν : Type} (B : NodeLevel σ ν) (u : Uninit) (alist : Str)
    (veto : Bool) (hnul : NUL ∉ alist) (rest : List Str) (hrest : ∀ f ∈ rest, Clean f) :
    ∀ (subs : List SubFrag) (pos : Nat) (entry : Str) (fuel : Nat), subs.length < fuel →
      (∀ s ∈ subs, s.Good ∧ s.tag.head? ≠ some '!') →
      alist.drop pos = render (subsText subs ++ rest) →
      ∃ pos' entry', alist.drop pos' = render rest ∧
        create_op_loop B u alist veto fuel (some pos) entry =
          create_op_loop B u alist veto (fuel - subs.length) (some pos') entry' := by
  intro subs
  induction subs with
  | nil =>
    intro pos entry fuel _ _ hs
    exact ⟨pos, entry, by simpa [subsText] using hs, rfl⟩
  | cons s ss ih =>
    intro pos entry fuel hfuel hg hs
    obtain ⟨k, rfl⟩ : ∃ k, fuel = k + 1 := ⟨fuel - 1, by simp at hfuel; omega⟩
    obtain ⟨⟨h1, h2, h3, h4, h5, h6, h7⟩, h8⟩ := hg s (by simp)
    have hs' : alist.drop pos =
        render (s.pairs ++ s.tag :: (s.body ++ s.close :: (subsText ss ++ rest))) := by
      rw [hs]; simp [subsText, SubFrag.text]
    have hcl : ∀ g ∈ subsText ss ++ rest, Clean g := by
      intro g hg'
      rcases List.mem_append.1 hg' with hg' | hg'
      · exact subsText_clean ss (fun t ht => (hg t (by simp [ht])).1) g hg'
      · exact hrest g hg'
    have hlen := entries_le_length alist pos _ hs'
    obtain ⟨p, hp, hf⟩ := FragNextFragLoop_open alist hnul s.tag s.body s.close
      (subsText ss ++ rest) entry u.array h2 h3 h4 h5 h6 h7 hcl s.pairs pos u.array
      (alist.length + 1) (by simp only [List.length_append, List.length_cons] at hlen; omega)
      h1 hs'
    obtain ⟨pos', entry', hd, hc⟩ := ih p s.tag k
      (by simp only [List.length_cons] at hfuel; omega) (fun t ht => hg t (by simp [ht])) hp
    refine ⟨pos', entry', hd, ?_⟩
    rw [create_op_loop]
    simp only [FragNextFrag, hf, h8, if_false, hc, List.length_cons, Nat.add_sub_add_right]

/-- The loop of `create_op` at a directive: its kind, ANTE for a DO under a prohibition. -/
theorem create_op_loop_directive {σ ν : Type} (B : NodeLevel σ ν) (u : Uninit) (alist : Str)
    (veto : Bool) (hnul : NUL ∉ alist) (plain : List Str) (name : Str) (body : List Str)
    (cl : Str) (fs : List Str) (pos : Nat) (entry : Str) (fuel : Nat) (hfuel : 0 < fuel)
    (hpl : ∀ g ∈ plain, Clean g ∧ isFragTag g = false) (hname : name ≠ [])
    (hc : Clean ('!' :: name)) (hb : ∀ g ∈ body, Clean g) (hbal : Balanced body)
    (hcl : isClose cl = true) (hfs : ∀ g ∈ fs, Clean g)
    (hs : alist.drop pos = render (plain ++ ('!' :: name) :: (body ++ cl :: fs))) :
    create_op_loop B u alist veto fuel (some pos) entry =
      some ((B.CvtKind name).map
        (fun k => if k = JDIR_KIND.DO ∧ veto = true then JDIR_KIND.ANTE else k), '!' :: name) := by
  obtain ⟨k, rfl⟩ : ∃ k, fuel = k + 1 := ⟨fuel - 1, by omega⟩
  have hlen := entries_le_length alist pos _ hs
  have hl : 2 ≤ ('!' :: name).length := by
    cases name with
    | nil => exact absurd rfl hname
    | cons a r => simp
  obtain ⟨p, _, hf⟩ := FragNextFragLoop_open alist hnul ('!' :: name) body cl fs entry u.array
    hc (by rfl) hl hb hbal hcl hfs plain pos u.array (alist.length + 1)
    (by simp only [List.length_append, List.length_cons] at hlen; omega) hpl hs
  rw [create_op_loop]
  simp only [FragNextFrag, hf, List.head?_cons, if_true, List.drop_succ_cons, List.drop_zero]
  cases B.CvtKind name <;> rfl

/-- The loop of `create_op` when no fragment is left in the trigger. -/
theorem create_op_loop_end {σ ν : Type} (B : NodeLevel σ ν) (u : Uninit) (alist : Str)
    (veto : Bool) (hnul : NUL ∉ alist) (plain rest : List Str) (pos : Nat) (entry : Str)
    (fuel : Nat) (hpl : ∀ g ∈ plain, Clean g ∧ isFragTag g = false)
    (hr : rest = [] ∨ ∃ cl fs, rest = cl :: fs ∧ isClose cl = true)
    (hs : alist.drop pos = render (plain ++ rest)) :
    create_op_loop B u alist veto fuel (some pos) entry = some (some JDIR_KIND.NOTE, entry) := by
  cases fuel with
  | zero => rfl
  | succ k =>
    have hf := FragNextFragLoop_end alist hnul rest entry u.array hr plain pos u.array
      (alist.length + 1) hpl hs
    rw [create_op_loop]
    simp only [FragNextFrag, hf]

theorem subsText_length (ss : List SubFrag) : ss.length ≤ (subsText ss).length := by
  induction ss with
  | nil => simp
  | cons s ss ih => simp [subsText, SubFrag.text]; omega

/-- The kind that the loop of `create_op` finds in a trigger whose first directive
comes after closed fragments that are no directives. -/
theorem create_op_loop_first {σ ν : Type} (B : NodeLevel σ ν) (u : Uninit) (alist : Str)
    (veto : Bool) (hnul : NUL ∉ alist) (subs : List SubFrag) (plain : List Str) (name : Str)
    (body : List Str) (cl : Str) (fs : List Str) (pos : Nat) (entry : Str)
    (hsubs : ∀ s ∈ subs, s.Good ∧ s.tag.head? ≠ some '!')
    (hpl : ∀ g ∈ plain, Clean g ∧ isFragTag g = false) (hname : name ≠ [])
    (hc : Clean ('!' :: name)) (hb : ∀ g ∈ body, Clean g) (hbal : Balanced body)
    (hcl : isClose cl = true) (hfs : ∀ g ∈ fs, Clean g)
    (hs : alist.drop pos =
      render (subsText subs ++ (plain ++ ('!' :: name) :: (body ++ cl :: fs)))) :
    create_op_loop B u alist veto (alist.length + 1) (some pos) entry =
      some ((B.CvtKind name).map
        (fun k => if k = JDIR_KIND.DO ∧ veto = true then JDIR_KIND.ANTE else k), '!' :: name) := by
  have hrest : ∀ f ∈ plain ++ ('!' :: name) :: (body ++ cl :: fs), Clean f := by
    intro f hf
    simp only [List.mem_append, List.mem_cons] at hf
    rcases hf with hf | rfl | hf | rfl | hf
    · exact (hpl f hf).1
    · exact hc
    · exact hb f hf
    · exact isClose_clean _ hcl
    · exact hfs f hf
  have hlen := entries_le_length alist pos _ hs
  have hsl := subsText_length subs
  have hfuel : subs.length < alist.length + 1 := by
    simp only [List.length_append, List.length_cons] at hlen; omega
  obtain ⟨pos', entry', hd, he⟩ := create_op_loop_skip B u alist veto hnul _ hrest subs pos
    entry (alist.length + 1) hfuel hsubs hs
  rw [he]
  exact create_op_loop_directive B u alist veto hnul plain name body cl fs pos' entry' _
    (by omega) hpl hname hc hb hbal hcl hfs hd

/-- The loop of `create_op` finds the kind NOTE in a trigger without a directive among
its closed fragments. -/
theorem create_op_loop_note {σ ν : Type} (B : NodeLevel σ ν) (u : Uninit) (alist : Str)
    (veto : Bool) (hnul : NUL ∉ alist) (subs : List SubFrag) (plain rest : List Str)
    (pos : Nat) (entry : Str) (hsubs : ∀ s ∈ subs, s.Good ∧ s.tag.head? ≠ some '!')
    (hpl : ∀ g ∈ plain, Clean g ∧ isFragTag g = false)
    (hr : rest = [] ∨ ∃ cl fs, rest = cl :: fs ∧ isClose cl = true ∧ ∀ g ∈ fs, Clean g)
    (hs : alist.drop pos = render (subsText subs ++ (plain ++ rest))) :
    ∃ e, create_op_loop B u alist veto (alist.length + 1) (some pos) entry =
      some (some JDIR_KIND.NOTE, e) := by
  have hrest : ∀ f ∈ plain ++ rest, Clean f := by
    intro f hf
    rcases List.mem_append.1 hf with hf | hf
    · exact (hpl f hf).1
    · rcases hr with rfl | ⟨cl, fs, rfl, hcl, hfs⟩
      · simp at hf
      · rcases List.mem_cons.1 hf with rfl | hf
        · exact isClose_clean _ hcl
        · exact hfs f hf
  have hlen := entries_le_length alist pos _ hs
  have hsl := subsText_length subs
  have hfuel : subs.length < alist.length + 1 := by
    simp only [List.length_append] at hlen; omega
  obtain ⟨pos', entry', hd, he⟩ := create_op_loop_skip B u alist veto hnul _ hrest subs pos
    entry (alist.length + 1) hfuel hsubs hs
  refine ⟨entry', ?_⟩
  rw [he]
  refine create_op_loop_end B u alist veto hnul plain rest pos' entry' _ hpl ?_ hd
  rcases hr with rfl | ⟨cl, fs, rfl, hcl, _⟩
  · left; rfl
  · right; exact ⟨cl, fs, rfl, hcl⟩

/-- The two searches of `create_op` on a list that begins with the marker of a trigger. -/
theorem FindFrag_trigger (alist : Str) (pos : Nat) (veto : Bool) (fs : List Str)
    (hnul : NUL ∉ alist) (hfs : ∀ f ∈ fs, Clean f)
    (hs : alist.drop pos = render (trigTag veto :: fs))
    (hno : veto = false → ∀ f ∈ fs, stricmp_eq f "$trig-n".toList = false) :
    FindFrag alist (some pos) "$trig-n".toList =
        (if veto then .ptr (pos + 1 + (trigTag veto).length) else .null) ∧
      (veto = false →
        FindFrag alist (some pos) "$trig".toList = .ptr (pos + 1 + (trigTag veto).length)) ∧
      alist.drop (pos + 1 + (trigTag veto).length) = render fs := by
  cases veto with
  | true =>
    refine ⟨FindFrag_first alist pos _ fs hnul hs (by decide) (by decide), fun h => Bool.noConfusion h, ?_⟩
    exact (NextEntry_clean alist pos _ fs [] hs (by decide)).2
  | false =>
    refine ⟨?_, fun _ => FindFrag_first alist pos _ fs hnul hs (by decide) (by decide), ?_⟩
    · refine FindFrag_none alist _ pos _ hnul ?_ hs ?_
      · intro f hf
        rcases List.mem_cons.1 hf with rfl | hf
        · decide
        · exact hfs f hf
      · intro f hf _
        rcases List.mem_cons.1 hf with rfl | hf
        · decide
        · exact hno rfl f hf
    · exact (NextEntry_clean alist pos _ fs [] hs (by decide)).2

/-- C31 (as stated, refuted): the first directive of the trigger of this prohibition,
which comes after a closed object description, names the kind DO, and the
operator has the kind ANTE. -/
theorem create_op_veto_DO :
    (create_op cmdLevel ⟨[], 0⟩ "\t$trig-n\t%obj\tAKO=dog\t%\t!do\tACT=bark\t%".toList (some 0)
        Mem.empty).map (fun r => r.1.1.map (fun op => op.kind)) =
      some (some JDIR_KIND.ANTE) ∧
    cmdLevel.CvtKind "do".toList = some JDIR_KIND.DO :=
  ⟨rfl, rfl⟩

/-- C31 (amended): the list begins with the marker of a trigger, followed by closed
fragments that are no directives (with plain pairs between them, and whatever
is nested in their bodies).  When a closed directive follows, `create_op` returns no
operator if `CvtKind` rejects its name, and otherwise the operator of the kind
named, ANTE in place of DO under `$trig-n`; when a bare marker or the end of the
list follows, the operator has the kind NOTE.  The operator has the preference
of the PREF slot that `FindSlot` finds in the list (1.0 without one), which it does
when the slot names of the list fit its array.  On a list without a fragment
`$trig-n` or `$trig` no operator is returned. -/
theorem create_op_kind {σ ν : Type} (B : NodeLevel σ ν) (u : Uninit) (alist : Str) (pos : Nat)
    (m : Mem σ) (veto : Bool) (subs : List SubFrag) (plain : List Str) (hnul : NUL ∉ alist)
    (hsubs : ∀ s ∈ subs, s.Good ∧ s.tag.head? ≠ some '!')
    (hpl : ∀ g ∈ plain, Clean g ∧ isFragTag g = false) :
    (∀ name body cl fs, name ≠ [] → Clean ('!' :: name) → (∀ g ∈ body, Clean g) →
      Balanced body → isClose cl = true → (∀ g ∈ fs, Clean g) →
      alist.drop pos = render (trigTag veto ::
        (subsText subs ++ (plain ++ ('!' :: name) :: (body ++ cl :: fs)))) →
      (veto = false → ∀ f ∈ subsText subs ++ (plain ++ ('!' :: name) :: (body ++ cl :: fs)),
        stricmp_eq f "$trig-n".toList = false) →
      (B.CvtKind name = none →
        (create_op B u alist (some pos) m).map (fun r => (r.1.1, r.2)) = some (none, m)) ∧
      (∀ k, B.CvtKind name = some k →
        (∀ f ∈ subsText subs ++ (plain ++ ('!' :: name) :: (body ++ cl :: fs)),
          slotFits f = true) →
        ∃ pv, (FindSlot alist (some pos) "PREF".toList FindSlot_local).run = some pv ∧
          (create_op B u alist (some pos) m).map (fun r => (r.1.1, r.2)) =
            some (some ⟨if k = JDIR_KIND.DO ∧ veto = true then JDIR_KIND.ANTE else k, prefOf pv,
                if veto then (dir_step B m "punt".toList).1 else none⟩,
              if veto then (dir_step B m "punt".toList).2 else m))) ∧
    (∀ rest, (rest = [] ∨ ∃ cl fs, rest = cl :: fs ∧ isClose cl = true ∧ ∀ g ∈ fs, Clean g) →
      alist.drop pos = render (trigTag veto :: (subsText subs ++ (plain ++ rest))) →
      (veto = false → ∀ f ∈ subsText subs ++ (plain ++ rest),
        stricmp_eq f "$trig-n".toList = false) →
      (∀ f ∈ subsText subs ++ (plain ++ rest), slotFits f = true) →
      ∃ pv, (FindSlot alist (some pos) "PREF".toList FindSlot_local).run = some pv ∧
        (create_op B u alist (some pos) m).map (fun r => (r.1.1, r.2)) =
          some (some ⟨JDIR_KIND.NOTE, prefOf pv,
              if veto then (dir_step B m "punt".toList).1 else none⟩,
            if veto then (dir_step B m "punt".toList).2 else m)) ∧
    (∀ fs, (∀ f ∈ fs, Clean f) → alist.drop pos = render fs →
      (∀ f ∈ fs, isFragTag f = true →
        stricmp_eq f "$trig-n".toList = false ∧ stricmp_eq f "$trig".toList = false) →
      create_op B u alist (some pos) m = some ((none, some pos, cstr u.array), m)) := by
  have hsc := subsText_clean subs (fun s hs => (hsubs s hs).1)
  have htag : Clean (trigTag veto) ∧ slotFits (trigTag veto) = true := by
    cases veto <;> exact ⟨by decide, by decide⟩
  refine ⟨?_, ?_, ?_⟩
  · intro name body cl fs hname hc hb hbal hcl hfs hs hno
    have hall : ∀ f ∈ subsText subs ++ (plain ++ ('!' :: name) :: (body ++ cl :: fs)),
        Clean f := by
      intro f hf
      simp only [List.mem_append, List.mem_cons] at hf
      rcases hf with hf | hf | rfl | hf | rfl | hf
      · exact hsc f hf
      · exact (hpl f hf).1
      · exact hc
      · exact hb f hf
      · exact isClose_clean _ hcl
      · exact hfs f hf
    obtain ⟨h1, h2, h3⟩ := FindFrag_trigger alist pos veto _ hnul hall hs hno
    have hl := fun v => create_op_loop_first B u alist v hnul subs plain name body cl fs _
      (cstr u.array) hsubs hpl hname hc hb hbal hcl hfs h3
    constructor
    · intro hk
      cases veto with
      | true =>
        simp only [create_op, h1, Ret.run, if_true, reduceCtorEq, if_false, ne_eq,
          not_false_eq_true, decide_True, hl true, hk, Option.map_none', Option.map_some']
      | false =>
        simp only [create_op, h1, h2 rfl, Ret.run, if_true, reduceCtorEq, if_false, ne_eq,
          not_true_eq_false, decide_False, hl false, hk, Option.map_none', Option.map_some',
          Bool.false_eq_true]
    · intro k hk hfit
      obtain ⟨pv, hp⟩ := FindSlot_returns alist "PREF".toList FindSlot_local pos _ hnul
        (fun f hf => by
          rcases List.mem_cons.1 hf with rfl | hf
          · exact htag
          · exact ⟨hall f hf, hfit f hf⟩) hs
      refine ⟨pv, hp, ?_⟩
      simp only [Ret.run] at hp
      cases veto with
      | true =>
        simp only [create_op, h1, Ret.run, if_true, reduceCtorEq, if_false, ne_eq,
          not_false_eq_true, decide_True, hl true, hk, Option.map_none', Option.map_some', hp,
          prefOf, and_true]
      | false =>
        simp only [create_op, h1, h2 rfl, Ret.run, if_true, reduceCtorEq, if_false, ne_eq,
          not_true_eq_false, decide_False, hl false, hk, Option.map_none', Option.map_some', hp,
          prefOf, Bool.false_eq_true, and_false]
  · intro rest hr hs hno hfit
    have hall : ∀ f ∈ subsText subs ++ (plain ++ rest), Clean f := by
      intro f hf
      simp only [List.mem_append] at hf
      rcases hf with hf | hf | hf
      · exact hsc f hf
      · exact (hpl f hf).1
      · rcases hr with rfl | ⟨cl, fs, rfl, hcl, hfs⟩
        · simp at hf
        · rcases List.mem_cons.1 hf with rfl | hf
          · exact isClose_clean _ hcl
          · exact hfs f hf
    obtain ⟨h1, h2, h3⟩ := FindFrag_trigger alist pos veto _ hnul hall hs hno
    obtain ⟨pv, hp⟩ := FindSlot_returns alist "PREF".toList FindSlot_local pos _ hnul
      (fun f hf => by
        rcases List.mem_cons.1 hf with rfl | hf
        · exact htag
        · exact ⟨hall f hf, hfit f hf⟩) hs
    refine ⟨pv, hp, ?_⟩
    simp only [Ret.run] at hp
    have hl := fun v => create_op_loop_note B u alist v hnul subs plain rest _
      (cstr u.array) hsubs hpl hr h3
    cases veto with
    | true =>
      obtain ⟨e, he⟩ := hl true
      simp only [create_op, h1, Ret.run, if_true, reduceCtorEq, if_false, ne_eq,
        not_false_eq_true, decide_True, he, Option.map_none', Option.map_some', hp,
        prefOf]
    | false =>
      obtain ⟨e, he⟩ := hl false
      simp only [create_op, h1, h2 rfl, Ret.run, if_true, reduceCtorEq, if_false, ne_eq,
        not_true_eq_false, decide_False, he, Option.map_none', Option.map_some', hp,
        prefOf, Bool.false_eq_true]
  · intro fs hfs hs hno
    have h1 := FindFrag_none alist "$trig-n".toList pos fs hnul hfs hs
      (fun f hf hm => (hno f hf hm).1)
    have h2 := FindFrag_none alist "$trig".toList pos fs hnul hfs hs
      (fun f hf hm => (hno f hf hm).2)
    simp only [create_op, h1, h2, Ret.run, if_true]

theorem create_op_kind_witness :
    ∃ r, create_op cmdLevel ⟨[], 0⟩
        "\t$trig\tHQ=big\t%obj\tAKO=dog\t!find\tAKO=cat\t%\t%\t!do\tACT=bark\t%\tPREF=must".toList
        (some 0) Mem.empty = some r ∧ r.1.1 = some ⟨JDIR_KIND.DO, 15, none⟩ := by
  obtain ⟨pv, h1, h2⟩ := ((create_op_kind cmdLevel ⟨[], 0⟩
    "\t$trig\tHQ=big\t%obj\tAKO=dog\t!find\tAKO=cat\t%\t%\t!do\tACT=bark\t%\tPREF=must".toList 0
    Mem.empty false [⟨["HQ=big".toList], "%obj".toList,
      ["AKO=dog".toList, "!find".toList, "AKO=cat".toList, "%".toList], "%".toList⟩] []
    (by decide) (by decide) (by simp)).1 "do".toList ["ACT=bark".toList] "%".toList
    ["PREF=must".toList] (by decide) (by decide) (by decide) (by decide) rfl (by decide) rfl
    (by decide)).2 JDIR_KIND.DO rfl (by decide)
  have e : (FindSlot
      "\t$trig\tHQ=big\t%obj\tAKO=dog\t!find\tAKO=cat\t%\t%\t!do\tACT=bark\t%\tPREF=must".toList
      (some 0) "PREF".toList FindSlot_local).run = some (some ("must".toList, 69)) := rfl
  rw [e] at h1
  obtain rfl := Option.some.inj h1
  cases hc : create_op cmdLevel ⟨[], 0⟩
    "\t$trig\tHQ=big\t%obj\tAKO=dog\t!find\tAKO=cat\t%\t%\t!do\tACT=bark\t%\tPREF=must".toList
    (some 0) Mem.empty with
  | none => rw [hc] at h2; cases h2
  | some r =>
    rw [hc] at h2
    simp only [Option.map_some', Option.some.injEq, Prod.mk.injEq] at h2
    exact ⟨r, rfl, h2.1⟩

/-! ## The procedure of a prohibition -/

/-- C34 (the code does not do this): `jhcGraphizer::build_fact` looks for a `$add` fragment in the whole
rest of the list.  When one stands anywhere after the first entry of the
sentence, a call with a subject goes the way of the copula: it finds no `$add`
at the start, adds nothing to the pool and returns what `FragClose` returns, whatever
verb pairs the sentence holds.  The condition `%obj AKO=dog % ACT-S=barks $` gets its action
node when a verb sentence follows as result and none when a copula follows. -/
theorem build_fact_later_copula (u : Uninit) (list : Str) (a pos : Nat) (f : Str)
    (pre post : List Str) (pool : jhcNodePool) (hnul : NUL ∉ list)
    (hs : list.drop pos = render (f :: (pre ++ "$add".toList :: post))) (hf : Clean f)
    (hpre : ∀ g ∈ pre, Clean g) (hft : strncmp_eq f "$add".toList 4 = false)
    (hno : ∀ g ∈ f :: pre, isFragTag g = true → stricmp_eq g "$add".toList = false) :
    HasFrag list (some pos) "$add".toList = some true ∧
    jhcGraphizer.build_fact u list (some a) (some pos) pool =
      (FragClose list (some pos) 0 u.array).run.map (fun r => (r, pool)) ∧
    jhcGraphizer.build_fact ⟨[], 0⟩
        "\t%obj\tAKO=dog\t%\tACT-S=barks\t$\t$res\t%obj\tAKO=cat\t%\tACT-S=runs\t$".toList none
        (some 0) [] =
      some (some 29, [⟨"act".toList, some "bark".toList, 0, 10, [("agt".toList, 1)], 8⟩,
        ⟨"obj".toList, none, 0, 10, [], 0⟩,
        ⟨"ako".toList, some "dog".toList, 0, 10, [("ako".toList, 1)], 0⟩]) ∧
    jhcGraphizer.build_fact ⟨[], 0⟩
        "\t%obj\tAKO=dog\t%\tACT-S=barks\t$\t$res\t%obj\tAKO=cat\t%\t$add\tHQ=loud\t$\t$".toList none
        (some 0) [] =
      some (some 29, [⟨"obj".toList, none, 0, 10, [], 0⟩,
        ⟨"ako".toList, some "dog".toList, 0, 10, [("ako".toList, 0)], 0⟩]) := by
  have hs' : list.drop pos = render ((f :: pre) ++ "$add".toList :: post) := by rw [hs]; rfl
  have hall : ∀ g ∈ f :: pre, Clean g := by
    intro g hg
    rcases List.mem_cons.1 hg with rfl | hg
    · exact hf
    · exact hpre g hg
  obtain ⟨h1, _⟩ := FindFrag_found list "$add".toList pos (f :: pre) "$add".toList post hnul hall
    (by decide) hs' hno (by decide) (by decide)
  have h2 : HasFrag list (some pos) "$add".toList = some true := by
    simp only [HasFrag, h1, Ret.run, Option.map_some', Option.isSome_some]
  have h3 := NextMatches_clean list pos f "$add".toList 4 _ hnul hs hf (by decide)
  have h4 : NextMatches list (some pos) "$add".toList 4 = .null := by
    rw [h3]
    simp only [show (4 : Int).toNat = 4 from rfl, hft, Bool.false_eq_true, if_false]
  refine ⟨h2, ?_, rfl, rfl⟩
  simp only [jhcGraphizer.build_fact, h2, jhcGraphizer.add_cop, h4, Ret.run]

theorem build_fact_later_copula_witness :
    jhcGraphizer.build_fact ⟨[], 0⟩
        "\t%obj\tAKO=dog\t%\tACT-S=barks\t$\t$res\t%obj\tAKO=cat\t%\t$add\tHQ=loud\t$\t$".toList
        (some 0) (some 15) [⟨"obj".toList, none, 0, 10, [], 0⟩] =
      some (some 29, [⟨"obj".toList, none, 0, 10, [], 0⟩]) :=
  (build_fact_later_copula ⟨[], 0⟩
    "\t%obj\tAKO=dog\t%\tACT-S=barks\t$\t$res\t%obj\tAKO=cat\t%\t$add\tHQ=loud\t$\t$".toList 0 15
    "ACT-S=barks".toList ["$".toList, "$res".toList, "%obj".toList, "AKO=cat".toList, "%".toList]
    ["HQ=loud".toList, "$".toList, "$".toList] [⟨"obj".toList, none, 0, 10, [], 0⟩]
    (by decide) rfl (by decide) (by decide) (by decide) (by decide)).2.1

/-! ## Progress of the cursor -/

theorem strchr_lt (c : Char) (hc : c ≠ NUL) :
    ∀ (s : Str) (k : Nat), strchr s c = some k → k < s.length := by
  intro s
  induction s with
  | nil => intro k h; simp [strchr, hc] at h
  | cons x xs ih =>
    intro k h
    unfold strchr at h
    by_cases hx : x = c
    · rw [if_pos hx] at h
      cases h; simp
    · rw [if_neg hx] at h
      cases hq : strchr xs c with
      | none => rw [hq] at h; cases h
      | some j =>
        rw [hq] at h
        simp only [Option.map_some', Option.some.injEq] at h
        have := ih j hq
        simp only [List.length_cons]
        omega

theorem backUp_le (txt : Str) : ∀ n, backUp txt n ≤ n := by
  intro n
  induction n with
  | zero => simp [backUp]
  | succ t ih =>
    unfold backUp
    split_ifs <;> omega

/-- The pointers of `NextEntry`: `head` is past the position given, `tail` is not before
`head` and not past the end of the list. -/
theorem entrySpan_progress (alist : Str) (p h t : Nat)
    (hs : entrySpan alist (some p) = some (h, t)) : p < h ∧ h ≤ t ∧ t ≤ alist.length := by
  unfold entrySpan at hs
  simp only at hs
  cases hk : strchr (alist.drop p) TAB with
  | none => rw [hk] at hs; cases hs
  | some k =>
    rw [hk] at hs
    simp only [Option.some.injEq, Prod.mk.injEq] at hs
    obtain ⟨rfl, rfl⟩ := hs
    have h1 := strchr_lt TAB (by decide) _ _ hk
    simp only [List.length_drop] at h1
    refine ⟨by omega, by omega, ?_⟩
    have h2 : ∀ n0, n0 ≤ (alist.drop (p + k + 1)).length →
        p + k + 1 + backUp (alist.drop (p + k + 1)) n0 ≤ alist.length := by
      intro n0 hn
      have := backUp_le (alist.drop (p + k + 1)) n0
      simp only [List.length_drop] at hn
      omega
    cases hj : strchr (alist.drop (p + k + 1)) TAB with
    | none => exact h2 _ (Nat.le_refl _)
    | some j => exact h2 _ (Nat.le_of_lt (strchr_lt TAB (by decide) _ _ hj))

theorem NextEntry_progress (alist : Str) (p : Nat) (entry : Str) (ssz : Nat) (e : Str) (t : Nat)
    (h : NextEntry alist (some p) entry ssz = .ptr (e, t)) : p < t ∧ t ≤ alist.length := by
  unfold NextEntry at h
  cases hs : entrySpan alist (some p) with
  | none => rw [hs] at h; cases h
  | some ht =>
    obtain ⟨hd, tl⟩ := ht
    rw [hs] at h
    simp only at h
    cases hc : strncpy_s entry ssz (alist.drop hd) (tl - hd) with
    | none => rw [hc] at h; cases h
    | some x =>
      rw [hc] at h
      simp only [Ret.ptr.injEq, Prod.mk.injEq] at h
      obtain ⟨h1, h2, h3⟩ := entrySpan_progress alist p hd tl hs
      rw [← h.2]
      omega

theorem NextEntry_past (alist : Str) (p : Nat) (entry : Str) (ssz : Nat)
    (h : alist.length ≤ p) : NextEntry alist (some p) entry ssz = .null :=
  NextEntry_done alist p entry ssz (by rw [List.drop_eq_nil_of_le h]; simp)

theorem NextFragLoop_fuel (alist : Str) (ssz : Nat) :
    ∀ (f1 f2 tail : Nat) (entry : Str), alist.length < tail + f1 → alist.length < tail + f2 →
      NextFragLoop alist ssz f1 tail entry = NextFragLoop alist ssz f2 tail entry := by
  intro f1
  induction f1 with
  | zero =>
    intro f2 tail entry h1 _
    cases f2 with
    | zero => rfl
    | succ j => simp only [NextFragLoop, NextEntry_past alist tail entry 200 (by omega)]
  | succ k ih =>
    intro f2 tail entry h1 h2
    cases f2 with
    | zero => simp only [NextFragLoop, NextEntry_past alist tail entry 200 (by omega)]
    | succ j =>
      rw [NextFragLoop, NextFragLoop]
      cases hn : NextEntry alist (some tail) entry 200 with
      | fault => rfl
      | null => rfl
      | ptr r =>
        obtain ⟨e, t⟩ := r
        have hp := NextEntry_progress alist tail entry 200 e t hn
        simp only
        rw [ih j t e (by omega) (by omega)]

theorem NextFragLoop_progress (alist : Str) (ssz : Nat) :
    ∀ (fuel tail : Nat) (entry k : Str) (t : Nat),
      NextFragLoop alist ssz fuel tail entry = .ptr (k, t) → tail < t ∧ t ≤ alist.length := by
  intro fuel
  induction fuel with
  | zero => intro tail entry k t h; simp [NextFragLoop] at h
  | succ n ih =>
    intro tail entry k t h
    rw [NextFragLoop] at h
    cases hn : NextEntry alist (some tail) entry 200 with
    | fault => rw [hn] at h; cases h
    | null => rw [hn] at h; cases h
    | ptr r =>
      obtain ⟨e, t1⟩ := r
      have hp := NextEntry_progress alist tail entry 200 e t1 hn
      rw [hn] at h
      simp only at h
      by_cases hm : isMark (e.getD 0 NUL) = true
      · rw [if_pos hm] at h
        by_cases hl : (cstr e).length < ssz
        · rw [if_pos hl] at h
          simp only [Ret.ptr.injEq, Prod.mk.injEq] at h
          rw [← h.2]; exact hp
        · rw [if_neg hl] at h; cases h
      · rw [if_neg hm] at h
        have := ih t1 e k t h
        omega

theorem NextFrag_progress (alist : Str) (p ssz : Nat) (k : Str) (t : Nat)
    (h : NextFrag alist (some p) ssz = .ptr (k, t)) : p < t ∧ t ≤ alist.length :=
  NextFragLoop_progress alist ssz _ p [] k t h

theorem NextFrag_past (alist : Str) (p ssz : Nat) (h : alist.length ≤ p) :
    NextFrag alist (some p) ssz = .null := by
  simp only [NextFrag, NextFragLoop, NextEntry_past alist p [] 200 h]

theorem FindFragLoop_fuel (alist frag : Str) :
    ∀ (f1 f2 tail : Nat), alist.length < tail + f1 → alist.length < tail + f2 →
      FindFragLoop alist frag f1 (some tail) = FindFragLoop alist frag f2 (some tail) := by
  intro f1
  induction f1 with
  | zero =>
    intro f2 tail h1 _
    cases f2 with
    | zero => rfl
    | succ j => simp only [FindFragLoop, NextFrag_past alist tail 200 (by omega)]
  | succ k ih =>
    intro f2 tail h1 h2
    cases f2 with
    | zero => simp only [FindFragLoop, NextFrag_past alist tail 200 (by omega)]
    | succ j =>
      rw [FindFragLoop, FindFragLoop]
      cases hn : NextFrag alist (some tail) 200 with
      | fault => rfl
      | null => rfl
      | ptr r =>
        obtain ⟨e, t⟩ := r
        have hp := NextFrag_progress alist tail 200 e t hn
        simp only
        rw [ih j t (by omega) (by omega)]

theorem FragCloseLoop_fuel (alist : Str) :
    ∀ (f1 f2 tail : Nat) (entry : Str) (depth : Int), alist.length < tail + f1 →
      alist.length < tail + f2 →
      FragCloseLoop alist f1 tail entry depth = FragCloseLoop alist f2 tail entry depth := by
  intro f1
  induction f1 with
  | zero =>
    intro f2 tail entry depth h1 _
    cases f2 with
    | zero => rfl
    | succ j => simp only [FragCloseLoop, NextEntry_past alist tail entry 200 (by omega)]
  | succ k ih =>
    intro f2 tail entry depth h1 h2
    cases f2 with
    | zero => simp only [FragCloseLoop, NextEntry_past alist tail entry 200 (by omega)]
    | succ j =>
      rw [FragCloseLoop, FragCloseLoop]
      cases hn : NextEntry alist (some tail) entry 200 with
      | fault => rfl
      | null => rfl
      | ptr r =>
        obtain ⟨e, t⟩ := r
        have hp := NextEntry_progress alist tail entry 200 e t hn
        simp only
        rw [ih j t e depth (by omega) (by omega), ih j t e (depth + 1) (by omega) (by omega),
          ih j t e (depth - 1) (by omega) (by omega)]

theorem FragClose_progress_loop (alist : Str) :
    ∀ (fuel tail : Nat) (entry : Str) (depth : Int) (t : Nat),
      FragCloseLoop alist fuel tail entry depth = .ptr t → tail < t ∧ t ≤ alist.length := by
  intro fuel
  induction fuel with
  | zero => intro tail entry depth t h; simp [FragCloseLoop] at h
  | succ n ih =>
    intro tail entry depth t h
    rw [FragCloseLoop] at h
    cases hn : NextEntry alist (some tail) entry 200 with
    | fault => rw [hn] at h; cases h
    | null => rw [hn] at h; cases h
    | ptr r =>
      obtain ⟨e, t1⟩ := r
      have hp := NextEntry_progress alist tail entry 200 e t1 hn
      rw [hn] at h
      simp only at h
      split_ifs at h
      · have := ih _ _ _ _ h; omega
      · have := ih _ _ _ _ h; omega
      · simp only [Ret.ptr.injEq] at h; omega
      · have := ih _ _ _ _ h; omega

theorem FragNextFragLoop_fuel (alist : Str) (ssz : Nat) (junk : Str) :
    ∀ (f1 f2 tail : Nat) (entry frag : Str), alist.length < tail + f1 →
      alist.length < tail + f2 →
      FragNextFragLoop alist ssz junk f1 tail entry frag =
        FragNextFragLoop alist ssz junk f2 tail entry frag := by
  intro f1
  induction f1 with
  | zero =>
    intro f2 tail entry frag h1 _
    cases f2 with
    | zero => rfl
    | succ j => simp only [FragNextFragLoop, NextEntry_past alist tail entry 200 (by omega)]
  | succ k ih =>
    intro f2 tail entry frag h1 h2
    cases f2 with
    | zero => simp only [FragNextFragLoop, NextEntry_past alist tail entry 200 (by omega)]
    | succ j =>
      rw [FragNextFragLoop, FragNextFragLoop]
      cases hn : NextEntry alist (some tail) entry 200 with
      | fault => rfl
      | null => rfl
      | ptr r =>
        obtain ⟨e, t⟩ := r
        have hp := NextEntry_progress alist tail entry 200 e t hn
        simp only
        rw [ih j t e frag (by omega) (by omega)]

theorem FragNextPairLoop_fuel (alist : Str) (ssz : Nat) :
    ∀ (f1 f2 tail : Nat) (pair : Str) (depth : Int), alist.length < tail + f1 →
      alist.length < tail + f2 →
      FragNextPairLoop alist ssz f1 tail pair depth =
        FragNextPairLoop alist ssz f2 tail pair depth := by
  intro f1
  induction f1 with
  | zero =>
    intro f2 tail pair depth h1 _
    cases f2 with
    | zero => rfl
    | succ j => simp only [FragNextPairLoop, NextEntry_past alist tail pair ssz (by omega)]
  | succ k ih =>
    intro f2 tail pair depth h1 h2
    cases f2 with
    | zero => simp only [FragNextPairLoop, NextEntry_past alist tail pair ssz (by omega)]
    | succ j =>
      rw [FragNextPairLoop, FragNextPairLoop]
      cases hn : NextEntry alist (some tail) pair ssz with
      | fault => rfl
      | null => rfl
      | ptr r =>
        obtain ⟨e, t⟩ := r
        have hp := NextEntry_progress alist tail pair ssz e t hn
        simp only
        rw [ih j t e depth (by omega) (by omega),
          ih j t e (depth + if e.getD 1 NUL = NUL then -1 else 1) (by omega) (by omega)]

theorem NextSlotLoop_fuel (alist : Str) (lcl : Int) :
    ∀ (f1 f2 tail : Nat) (entry : Str), alist.length < tail + f1 → alist.length < tail + f2 →
      NextSlotLoop alist lcl f1 tail entry = NextSlotLoop alist lcl f2 tail entry := by
  intro f1
  induction f1 with
  | zero =>
    intro f2 tail entry h1 _
    cases f2 with
    | zero => rfl
    | succ j => simp only [NextSlotLoop, NextEntry_past alist tail entry 200 (by omega)]
  | succ k ih =>
    intro f2 tail entry h1 h2
    cases f2 with
    | zero => simp only [NextSlotLoop, NextEntry_past alist tail entry 200 (by omega)]
    | succ j =>
      rw [NextSlotLoop, NextSlotLoop]
      cases hn : NextEntry alist (some tail) entry 200 with
      | fault => rfl
      | null => rfl
      | ptr r =>
        obtain ⟨e, t⟩ := r
        have hp := NextEntry_progress alist tail entry 200 e t hn
        simp only
        rw [ih j t e (by omega) (by omega)]

theorem NextSlotLoop_progress (alist : Str) (lcl : Int) :
    ∀ (fuel tail : Nat) (entry k : Str) (t : Nat),
      NextSlotLoop alist lcl fuel tail entry = .ptr (k, t) → tail < t ∧ t ≤ alist.length := by
  intro fuel
  induction fuel with
  | zero => intro tail entry k t h; simp [NextSlotLoop] at h
  | succ n ih =>
    intro tail entry k t h
    rw [NextSlotLoop] at h
    cases hn : NextEntry alist (some tail) entry 200 with
    | fault => rw [hn] at h; cases h
    | null => rw [hn] at h; cases h
    | ptr r =>
      obtain ⟨e, t1⟩ := r
      have hp := NextEntry_progress alist tail entry 200 e t1 hn
      rw [hn] at h
      simp only at h
      split_ifs at h
      · simp only [Ret.ptr.injEq, Prod.mk.injEq] at h; omega
      · have := ih _ _ _ _ h; omega

theorem NextSlot_progress (alist : Str) (p : Nat) (lcl : Int) (ssz vsz : Nat) (sl v : Str)
    (t : Nat) (h : NextSlot alist (some p) lcl ssz vsz = .ptr (sl, v, t)) :
    p < t ∧ t ≤ alist.length := by
  unfold NextSlot at h
  simp only at h
  split_ifs at h
  cases hl : NextSlotLoop alist lcl (alist.length + 1) p [] with
  | fault => rw [hl] at h; cases h
  | null => rw [hl] at h; cases h
  | ptr r =>
    obtain ⟨e, t1⟩ := r
    have hp := NextSlotLoop_progress alist lcl _ p [] e t1 hl
    rw [hl] at h
    simp only at h
    cases hk : strchr e '=' with
    | none => rw [hk] at h; cases h
    | some k =>
      rw [hk] at h
      simp only at h
      split_ifs at h
      simp only [Ret.ptr.injEq, Prod.mk.injEq] at h
      omega

theorem NextSlot_past (alist : Str) (p : Nat) (lcl : Int) (ssz vsz : Nat)
    (h : alist.length ≤ p) : NextSlot alist (some p) lcl ssz vsz = .null := by
  have : alist.getD p NUL = NUL := by
    simp [List.getD_eq_getElem?_getD, List.getElem?_eq_none h]
  simp only [NextSlot, this, if_true]

theorem FindSlotLoop_fuel (alist slot : Str) (lcl : Int) :
    ∀ (f1 f2 tail : Nat), alist.length < tail + f1 → alist.length < tail + f2 →
      FindSlotLoop alist slot lcl f1 (some tail) = FindSlotLoop alist slot lcl f2 (some tail) := by
  intro f1
  induction f1 with
  | zero =>
    intro f2 tail h1 _
    cases f2 with
    | zero => rfl
    | succ j => simp only [FindSlotLoop, NextSlot_past alist tail lcl 80 200 (by omega)]
  | succ k ih =>
    intro f2 tail h1 h2
    cases f2 with
    | zero => simp only [FindSlotLoop, NextSlot_past alist tail lcl 80 200 (by omega)]
    | succ j =>
      rw [FindSlotLoop, FindSlotLoop]
      cases hn : NextSlot alist (some tail) lcl 80 200 with
      | fault => rfl
      | null => rfl
      | ptr r =>
        obtain ⟨sl, v, t⟩ := r
        have hp := NextSlot_progress alist tail lcl 80 200 sl v t hn
        simp only
        rw [ih j t (by omega) (by omega)]

/-- C37: a position returned by `NextEntry` is past the position given and not past
the end of the list.  Hence each scan that iterates `NextEntry` (the loops of `NextFrag`,
`FindFrag`, `FragNextFrag`, `FragNextPair`, `FragClose`, `NextSlot` and `FindSlot`) ends before a bound
on its turns that exceeds the number of characters left is used up: the
result is the same for every such bound, so the loop of the source ends. -/
theorem cursor_progress (alist : Str) :
    (∀ p entry ssz e t, NextEntry alist (some p) entry ssz = .ptr (e, t) →
      p < t ∧ t ≤ alist.length) ∧
    (∀ p t, NextEntryNull alist (some p) = some t → p < t ∧ t ≤ alist.length) ∧
    (∀ f1 f2 tail, alist.length < tail + f1 → alist.length < tail + f2 →
      (∀ ssz entry, NextFragLoop alist ssz f1 tail entry = NextFragLoop alist ssz f2 tail entry) ∧
      (∀ frag, FindFragLoop alist frag f1 (some tail) = FindFragLoop alist frag f2 (some tail)) ∧
      (∀ ssz junk entry frag, FragNextFragLoop alist ssz junk f1 tail entry frag =
        FragNextFragLoop alist ssz junk f2 tail entry frag) ∧
      (∀ ssz pair depth, FragNextPairLoop alist ssz f1 tail pair depth =
        FragNextPairLoop alist ssz f2 tail pair depth) ∧
      (∀ entry depth, FragCloseLoop alist f1 tail entry depth =
        FragCloseLoop alist f2 tail entry depth) ∧
      (∀ lcl entry, NextSlotLoop alist lcl f1 tail entry = NextSlotLoop alist lcl f2 tail entry) ∧
      (∀ slot lcl, FindSlotLoop alist slot lcl f1 (some tail) =
        FindSlotLoop alist slot lcl f2 (some tail))) := by
  refine ⟨fun p entry ssz e t h => NextEntry_progress alist p entry ssz e t h, ?_, ?_⟩
  · intro p t h
    unfold NextEntryNull at h
    cases hs : entrySpan alist (some p) with
    | none => rw [hs] at h; cases h
    | some ht =>
      obtain ⟨hd, tl⟩ := ht
      rw [hs] at h
      simp only [Option.map_some', Option.some.injEq] at h
      obtain ⟨h1, h2, h3⟩ := entrySpan_progress alist p hd tl hs
      omega
  · intro f1 f2 tail h1 h2
    exact ⟨fun ssz entry => NextFragLoop_fuel alist ssz f1 f2 tail entry h1 h2,
      fun frag => FindFragLoop_fuel alist frag f1 f2 tail h1 h2,
      fun ssz junk entry frag => FragNextFragLoop_fuel alist ssz junk f1 f2 tail entry frag h1 h2,
      fun ssz pair depth => FragNextPairLoop_fuel alist ssz f1 f2 tail pair depth h1 h2,
      fun entry depth => FragCloseLoop_fuel alist f1 f2 tail entry depth h1 h2,
      fun lcl entry => NextSlotLoop_fuel alist lcl f1 f2 tail entry h1 h2,
      fun slot lcl => FindSlotLoop_fuel alist slot lcl f1 f2 tail h1 h2⟩

theorem cursor_progress_witness :
    NextEntry "ab\t x  y   \t!".toList (some 0) [] 200 = .ptr (" x  y\x00".toList, 8) ∧
      0 < 8 ∧ 8 ≤ "ab\t x  y   \t!".toList.length :=
  ⟨rfl, (cursor_progress "ab\t x  y   \t!".toList).1 0 [] 200 " x  y\x00".toList 8 rfl⟩

/-! ## Operators -/

/-- A `$proc` fragment whose first fragment is a directive of a kind that is not
valid: `build_chain` stores through the NULL pointer `ch`, and `build_proc` does not return. -/
theorem build_proc_invalid {σ ν : Type} (B : NodeLevel σ ν) (bd : BuildDir σ) (u : Uninit)
    (alist : Str) (hnul : NUL ∉ alist) (pos : Nat) (op : jhcAliaOp) (m : Mem σ)
    (pre : List Str) (name : Str) (fs : List Str) (hpre : ∀ g ∈ pre, Clean g)
    (hno : ∀ g ∈ pre, isFragTag g = true → stricmp_eq g "$proc".toList = false)
    (hc : Clean ('!' :: name)) (hk : B.CvtKind name = none)
    (hs : alist.drop pos = render (pre ++ "$proc".toList :: ('!' :: name) :: fs)) :
    build_proc B bd u alist op (some pos) m = none := by
  obtain ⟨h1, h2⟩ := FindFrag_found alist "$proc".toList pos pre "$proc".toList _ hnul hpre
    (by decide) hs hno (by decide) (by decide)
  have h3 := loop_invalid B bd u alist hnul _ name fs h2 hc hk ⟨none, none, none, none, false⟩ m
    alist.length
  simp only [build_proc, h1, Ret.run, build_chain, h3, if_true]

/-- A `$proc` fragment with no directive and no play after it: `build_chain` stores through
the NULL pointer `ch`, and `build_proc` does not return. -/
theorem build_proc_no_step {σ ν : Type} (B : NodeLevel σ ν) (bd : BuildDir σ) (u : Uninit)
    (alist : Str) (hnul : NUL ∉ alist) (pos : Nat) (op : jhcAliaOp) (m : Mem σ)
    (pre rest : List Str) (hpre : ∀ g ∈ pre, Clean g)
    (hno : ∀ g ∈ pre, isFragTag g = true → stricmp_eq g "$proc".toList = false)
    (hrest : ∀ f ∈ rest, Clean f ∧ f.head? ≠ some '!' ∧ f ≠ "%play".toList)
    (hs : alist.drop pos = render (pre ++ "$proc".toList :: rest)) :
    build_proc B bd u alist op (some pos) m = none := by
  obtain ⟨h1, h2⟩ := FindFrag_found alist "$proc".toList pos pre "$proc".toList _ hnul hpre
    (by decide) hs hno (by decide) (by decide)
  have h3 := loop_rest B bd u alist hnul ⟨none, none, none, none, false⟩ m rest.length rest _
    (alist.length + 1) (le_refl _)
    (fun f hf => ⟨(hrest f hf).1, (hrest f hf).2.1, (hrest f hf).2.2, fun _ => rfl⟩) h2
  simp only [build_proc, h1, Ret.run, build_chain, h3, if_true]

/-- C17 (the code does not do this): whenever `cvt_op` (of `jhcGraphizer` or of `jhcNetBuild`) returns
a result other than 4, the handle `op` is NULL after the call, whatever it held
before.  But when the trigger has built and the `$proc` fragment begins with a
directive of a kind that is not valid, or holds no directive and no play at
all, `cvt_op` does not return: `build_chain` stores through a NULL pointer before the
operator is deleted.  With the node-level builders of `jhcGraphizer`: `$proc !bogus ACT=x %`
and `$proc HQ=big` after the trigger `!do ACT=go %` give no result, and `$proc !do HQ=big %`, whose
directive does not build, gives the result 0 with `op` NULL. -/
theorem operator_cleanup {σ ν : Type} (B : NodeLevel σ ν) (u : Uninit) (alist : Str)
    (pos : Option Nat) (m : Mem σ) :
    (∀ g code g1 m1, code ≠ 4 →
      jhcGraphizer.cvt_op B u g alist pos m = some (code, g1, m1) → g1.op = none) ∧
    (∀ g code g1 m1, code ≠ 4 →
      jhcNetBuild.cvt_op B u g alist pos m = some (code, g1, m1) → g1.op = none) ∧
    (∀ op tail entry m1 pre name fs, NUL ∉ alist →
      create_op B u alist pos m = some ((some op, tail, entry), m1) →
      (∀ g ∈ pre, Clean g) →
      (∀ g ∈ pre, isFragTag g = true → stricmp_eq g "$proc".toList = false) →
      Clean ('!' :: name) → B.CvtKind name = none →
      (∀ t s, jhcGraphizer.build_trig B alist entry tail m1.pools = some (some t, s) →
        alist.drop t = render (pre ++ "$proc".toList :: ('!' :: name) :: fs) →
        ∀ g, jhcGraphizer.cvt_op B u g alist pos m = none) ∧
      (∀ t s, jhcNetBuild.build_trig B entry tail m1.pools = some (some t, s) →
        alist.drop t = render (pre ++ "$proc".toList :: ('!' :: name) :: fs) →
        ∀ g, jhcNetBuild.cvt_op B u g alist pos m = none)) ∧
    (∀ op tail entry m1 pre rest, NUL ∉ alist →
      create_op B u alist pos m = some ((some op, tail, entry), m1) →
      (∀ g ∈ pre, Clean g) →
      (∀ g ∈ pre, isFragTag g = true → stricmp_eq g "$proc".toList = false) →
      (∀ f ∈ rest, Clean f ∧ f.head? ≠ some '!' ∧ f ≠ "%play".toList) →
      (∀ t s, jhcGraphizer.build_trig B alist entry tail m1.pools = some (some t, s) →
        alist.drop t = render (pre ++ "$proc".toList :: rest) →
        ∀ g, jhcGraphizer.cvt_op B u g alist pos m = none) ∧
      (∀ t s, jhcNetBuild.build_trig B entry tail m1.pools = some (some t, s) →
        alist.drop t = render (pre ++ "$proc".toList :: rest) →
        ∀ g, jhcNetBuild.cvt_op B u g alist pos m = none)) ∧
    jhcGraphizer.cvt_op
        (jhcGraphizer.level ⟨[], 0⟩
          "\t%Operator\t$trig\t!do\tACT=go\t%\t$proc\t!bogus\tACT=x\t%".toList)
        ⟨[], 0⟩ ⟨true, none, some ⟨JDIR_KIND.NOTE, 10, none⟩⟩
        "\t%Operator\t$trig\t!do\tACT=go\t%\t$proc\t!bogus\tACT=x\t%".toList (some 10)
        ⟨[], [], [], []⟩ = none ∧
    jhcGraphizer.cvt_op
        (jhcGraphizer.level ⟨[], 0⟩ "\t%Operator\t$trig\t!do\tACT=go\t%\t$proc\tHQ=big".toList)
        ⟨[], 0⟩ ⟨true, none, some ⟨JDIR_KIND.NOTE, 10, none⟩⟩
        "\t%Operator\t$trig\t!do\tACT=go\t%\t$proc\tHQ=big".toList (some 10)
        ⟨[], [], [], []⟩ = none ∧
    (jhcGraphizer.cvt_op
        (jhcGraphizer.level ⟨[], 0⟩
          "\t%Operator\t$trig\t!do\tACT=go\t%\t$proc\t!do\tHQ=big\t%".toList)
        ⟨[], 0⟩ ⟨true, none, some ⟨JDIR_KIND.NOTE, 10, none⟩⟩
        "\t%Operator\t$trig\t!do\tACT=go\t%\t$proc\t!do\tHQ=big\t%".toList (some 10)
        ⟨[], [], [], []⟩).map (fun r => (r.1, r.2.1)) = some (0, ⟨true, none, none⟩) := by
  refine ⟨?_, ?_, ?_, ?_, rfl, rfl, rfl⟩
  · intro g code g1 m1 hcode h
    rcases (graphizer_cvt_op_spec B u g alist pos m code g1 m1 h).1 with h1 | h1
    · exact absurd h1.1 hcode
    · exact h1.2
  · intro g code g1 m1 hcode h
    rcases (netbuild_cvt_op_spec B u g alist pos m code g1 m1 h).1 with h1 | h1
    · exact absurd h1.1 hcode
    · exact h1.2
  · intro op tail entry m1 pre name fs hnul hop hpre hno hc hk
    constructor
    · intro t s htr hs g
      have hp := build_proc_invalid B (jhcGraphizer.build_dir B "key".toList) u alist hnul t op
        { m1 with pools := s } pre name fs hpre hno hc hk hs
      simp only [jhcGraphizer.cvt_op, hop, htr, hp]
    · intro t s htr hs g
      have hp := build_proc_invalid B (jhcNetBuild.build_dir B "key".toList) u alist hnul t op
        { m1 with pools := s } pre name fs hpre hno hc hk hs
      simp only [jhcNetBuild.cvt_op, hop, htr, hp]
  · intro op tail entry m1 pre rest hnul hop hpre hno hrest
    constructor
    · intro t s htr hs g
      have hp := build_proc_no_step B (jhcGraphizer.build_dir B "key".toList) u alist hnul t op
        { m1 with pools := s } pre rest hpre hno hrest hs
      simp only [jhcGraphizer.cvt_op, hop, htr, hp]
    · intro t s htr hs g
      have hp := build_proc_no_step B (jhcNetBuild.build_dir B "key".toList) u alist hnul t op
        { m1 with pools := s } pre rest hpre hno hrest hs
      simp only [jhcNetBuild.cvt_op, hop, htr, hp]

theorem operator_cleanup_witness :
    jhcGraphizer.cvt_op
        (jhcGraphizer.level ⟨[], 0⟩
          "\t%Operator\t$trig\t!do\tACT=go\t%\t$proc\t!jump\tACT=x\t%".toList)
        ⟨[], 0⟩ ⟨true, none, none⟩
        "\t%Operator\t$trig\t!do\tACT=go\t%\t$proc\t!jump\tACT=x\t%".toList (some 10)
        ⟨[], [], [], []⟩ = none :=
  ((operator_cleanup
    (jhcGraphizer.level ⟨[], 0⟩
      "\t%Operator\t$trig\t!do\tACT=go\t%\t$proc\t!jump\tACT=x\t%".toList)
    ⟨[], 0⟩ "\t%Operator\t$trig\t!do\tACT=go\t%\t$proc\t!jump\tACT=x\t%".toList
    (some 10) ⟨[], [], [], []⟩).2.2.1 ⟨JDIR_KIND.DO, 10, none⟩ (some 16) "!do".toList
    ⟨[], [], [], []⟩ ["ACT=go".toList, "%".toList] "jump".toList
    ["ACT=x".toList, "%".toList] (by decide) rfl (by decide) (by decide)
    (by decide) rfl).1 20 _ rfl rfl ⟨true, none, none⟩

end ALIA
